import Mathlib

/-!
Least-squares Hawkes model with sum-of-exponentials kernels.

A shallow embedding of `ModelHawkesSumExpKernLeastSqSingle`
(`lib/cpp/hawkes/model/model_hawkes_sumexpkern_leastsq_single.cpp`).

Conventions of the embedding.

* `double` is an arbitrary linearly ordered field `R` with a floor function; the
  exponential (`exp`, `cexp`) is a parameter `ex : R → R`, instantiated with
  `Real.exp` in the statements that need its algebra.  Division is the division of the
  field, so `x / 0 = 0` where the program would produce an infinity or a NaN.
* `ulong` is `Nat`; `static_cast<ulong>(std::floor x)` is `⌊x⌋₊`, which is `0` for a
  negative `x`, where the conversion is undefined in the program.
* The field does not round and `Nat` does not wrap around.  Where a discrete outcome of
  the program depends on either (the index `get_baseline_interval` returns, the exit of
  the loop `while (lower < end_time)`, the value of `get_n_coeffs`), the statements are
  embedded a second time in the arithmetic of the machine: `get_baseline_interval_binary64`,
  `event_counts_binary64`, `repetition_start_binary64`, `dg_while_binary64` and
  `get_n_coeffs_ulong`.
* An `ArrayDouble` is its index-to-value map `Nat → R`; writes are `Function.update`.
  An `ArrayDouble2d` with `n_cols` columns is the flat row-major map, entry `(r, c)`
  stored at `r * n_cols + c`.
* A method is a function from the state it can mutate to a status and the state it
  leaves; a `TICK_ERROR` is the status `Except.error (Failure.tick_error _)`, and the
  state returned with it is the state at the throw.
* The only unbounded loop, `while (lower < end_time)`, takes a fuel argument and
  reports `Failure.out_of_fuel` when it is exhausted.
* `parallel_run` and `parallel_map` over `0 .. n_nodes` are run in index order.
-/

set_option linter.unusedSectionVars false

namespace Tick

/-- Ways in which a call does not complete normally. -/
inductive Failure where
  | tick_error (msg : String)
  | out_of_fuel
  deriving DecidableEq, Repr

/-- Loop `for (k = 0; k < n; ++k) s = body k s`. -/
def forLoop {σ : Type} (n : Nat) (body : Nat → σ → σ) (s : σ) : σ :=
  match n with
  | 0 => s
  | n + 1 => body n (forLoop n body s)

/-- Loop `for (k = 0; k < n; ++k) body k` where the body may throw: the loop stops at the
first failure and keeps the state reached there. -/
def forLoopE {σ : Type} (n : Nat) (body : Nat → σ → Except Failure Unit × σ) (s : σ) :
    Except Failure Unit × σ :=
  match n with
  | 0 => (.ok (), s)
  | n + 1 =>
    match forLoopE n body s with
    | (.ok _, s') => body n s'
    | (.error e, s') => (.error e, s')

/-- Modelled from the spec: the numeric container's 2-D table (its header is not among the
sources) is contiguous row-major storage; `A(r, c)` is the flat entry `r * n_cols + c`,
as the source's own flat accesses `Dg_j[u * n_baselines + p]` next to `Dg_j(u, 0)` show. -/
def idx2 (n_cols r c : Nat) : Nat := r * n_cols + c

/-- Modelled from the spec: `view(a, start, end)` is the sub-range of `a` from `start`,
sharing storage with `a`; reading entry `x` of the view reads `a[start + x]`. -/
def view {R : Type} (a : Nat → R) (start : Nat) : Nat → R := fun x => a (start + x)

/-- Modelled from the spec: `init_to_zero()` on an array (or view) of `size` entries
starting at `start` of the storage `a`. -/
def init_to_zero {R : Type} [Zero R] (a : Nat → R) (start size : Nat) : Nat → R :=
  forLoop size (fun x b => Function.update b (start + x) 0) a

/-- Modelled from the spec: the container's reduction `sum()` over the first `n` entries. -/
def arraySum {R : Type} [Zero R] [Add R] (n : Nat) (a : Nat → R) : R :=
  forLoop n (fun x acc => acc + a x) 0

/-- The configuration and data of the model: the members of the model and of its base
classes that the weight computation reads and never writes. -/
structure Config (R : Type) where
  n_nodes : Nat
  n_baselines : Nat
  period_length : R
  decays : List R
  timestamps : Nat → List R
  end_time : R
  n_total_jumps : Nat

/-- The model object: its configuration, the flag `weights_computed` and the weight tensor
store.  `timestamps i`, `C i`, `Dg i`, `Dgg i`, `E i`, `K i` are the arrays of dimension
`i`. -/
structure Model (R : Type) extends Config R where
  weights_computed : Bool
  L : Nat → R
  C : Nat → Nat → R
  Dg : Nat → Nat → R
  Dgg : Nat → Nat → R
  E : Nat → Nat → R
  K : Nat → Nat → R

section Defs

variable {R : Type} [LinearOrderedField R] [FloorRing R]

/-- Member `n_decays`, initialised to `decays.size()` and never changed. -/
def Config.n_decays (m : Config R) : Nat := m.decays.length

/-- Entry `decays[u]`. -/
def Config.decay (m : Config R) (u : Nat) : R := m.decays.getD u 0

/-- Method `get_n_coeffs`, as the number it returns when no product wraps around;
`get_n_coeffs_ulong` is the method in the arithmetic of `ulong`. -/
def get_n_coeffs (m : Config R) : Nat :=
  m.n_nodes * m.n_baselines + m.n_nodes * m.n_nodes * m.n_decays

/-- Method `get_baseline_interval` in exact arithmetic; `get_baseline_interval_binary64` is
the method in the arithmetic of `double`. -/
def get_baseline_interval (m : Config R) (t : R) : Nat :=
  let first_period_t := t - (⌊t / m.period_length⌋ : R) * m.period_length
  if first_period_t = m.period_length then m.n_baselines - 1
  else ⌊first_period_t / m.period_length * (m.n_baselines : R)⌋₊

/-- Method `get_baseline_interval_length`. -/
def get_baseline_interval_length (m : Config R) (interval_p : Nat) : R :=
  let n_full_periods : Nat := ⌊m.end_time / m.period_length⌋₊
  let full_interval_length := m.period_length / (m.n_baselines : R)
  let remaining_time := m.end_time - (n_full_periods : R) * m.period_length
  let period_start := (interval_p : R) * full_interval_length
  let extra_period := min (max (remaining_time - period_start) 0) full_interval_length
  (n_full_periods : R) * full_interval_length + extra_period

/-- Method `set_n_baselines`. -/
def set_n_baselines (m : Model R) (n_baselines : Nat) : Model R :=
  { m with n_baselines := n_baselines, weights_computed := false }

/-- Method `set_period_length`. -/
def set_period_length (m : Model R) (period_length : R) : Model R :=
  { m with period_length := period_length, weights_computed := false }

/-- Statement `b[idx] += v`. -/
def addAt (b : Nat → R) (idx : Nat) (v : R) : Nat → R :=
  Function.update b idx (b idx + v)

/-- Statement `b[idx] -= v`. -/
def subAt (b : Nat → R) (idx : Nat) (v : R) : Nat → R :=
  Function.update b idx (b idx - v)

/-- Local state of one run of `compute_weights_i`: the running sums `H`
(`n_nodes × n_decays`), the cursors `l`, and the arrays of dimension `i` it accumulates
into. -/
structure WState (R : Type) where
  H : Nat → R
  l : Nat → Nat
  C_i : Nat → R
  Dg_i : Nat → R
  Dgg_i : Nat → R
  E_i : Nat → R
  K_i : Nat → R

/-- The cursor loop of `compute_weights_i`:
`while (l[j] < N_j && timestamps_j[l[j]] < t_k_i) { ...; l[j] += 1; }`. -/
def cursor_loop (ex : R → R) (m : Config R) (j : Nat) (t_k_i : R)
    (H : Nat → R) (l : Nat → Nat) : (Nat → R) × (Nat → Nat) :=
  if h : l j < (m.timestamps j).length ∧ (m.timestamps j).getD (l j) 0 < t_k_i then
    let t_l_j := (m.timestamps j).getD (l j) 0
    let H1 := forLoop m.n_decays (fun u H =>
      let decay_u := m.decay u
      addAt H (idx2 m.n_decays j u) (decay_u * ex (-decay_u * (t_k_i - t_l_j)))) H
    cursor_loop ex m j t_k_i H1 (Function.update l j (l j + 1))
  else (H, l)
termination_by (m.timestamps j).length - l j
decreasing_by
  simp only [Function.update_same]
  omega

/-- Body of the loop `for (ulong j = 0; j < n_nodes; ++j)` of `compute_weights_i`, at the
event `t_k_i` of index `k`; `exponentials` and `exponential_diff` are the arrays filled
just before that loop. -/
def source_step (ex : R → R) (m : Config R) (k : Nat) (t_k_i : R)
    (exponentials : Nat → Nat → R) (exponential_diff : Nat → R) (j : Nat)
    (s : WState R) : WState R :=
  let n_decays := m.n_decays
  let H1 :=
    if k > 0 then
      forLoop n_decays (fun u H =>
        Function.update H (idx2 n_decays j u) (H (idx2 n_decays j u) * exponential_diff u)) s.H
    else s.H
  let Hl := cursor_loop ex m j t_k_i H1 s.l
  let H2 := Hl.1
  let CE := forLoop n_decays (fun u (CE : (Nat → R) × (Nat → R)) =>
    let decay_u := m.decay u
    let C1 := addAt CE.1 (idx2 n_decays j u) (H2 (idx2 n_decays j u))
    let E1 := forLoop n_decays (fun u1 E =>
      let decay_u1 := m.decay u1
      let ratio := decay_u1 / (decay_u1 + decay_u)
      let tmp := 1 - exponentials u u1
      addAt E (idx2 (n_decays * n_decays) j (u1 * n_decays + u))
        (ratio * tmp * H2 (idx2 n_decays j u))) CE.2
    (C1, E1)) (s.C_i, s.E_i)
  { s with H := H2, l := Hl.2, C_i := CE.1, E_i := CE.2 }

/-- The loop `while (lower < end_time) { ...; lower += period_length; }` of
`compute_weights_i`, accumulating into `Dg_i_u[p]`, stored at `pos` of `Dg_i`, in exact
arithmetic; `dg_while_binary64` is the loop in the arithmetic of `double`. -/
def dg_while (ex : R → R) (m : Config R) (t_k_i decay_u : R) (pos : Nat) :
    Nat → R → (Nat → R) → Except Failure Unit × (Nat → R)
  | 0, _, Dg_i => (.error .out_of_fuel, Dg_i)
  | fuel + 1, lower, Dg_i =>
    if lower < m.end_time then
      let shift_lower := max t_k_i lower
      let upper := min (lower + m.period_length / (m.n_baselines : R)) m.end_time
      let Dg_i1 :=
        if shift_lower < upper then
          addAt Dg_i pos (ex (-decay_u * (shift_lower - t_k_i)) - ex (-decay_u * (upper - t_k_i)))
        else Dg_i
      dg_while ex m t_k_i decay_u pos fuel (lower + m.period_length) Dg_i1
    else (.ok (), Dg_i)

/-- Body of the second loop `for (ulong u = 0; u < n_decays; ++u)` of `compute_weights_i`
(the one filling `Dg_i` and `Dgg_i`). -/
def decay_step (ex : R → R) (fuel : Nat) (m : Config R) (t_k_i : R)
    (exponentials : Nat → Nat → R) (u : Nat) (s : WState R) :
    Except Failure Unit × WState R :=
  let decay_u := m.decay u
  let r := forLoopE m.n_baselines (fun p Dg_i =>
    let n_passed_periods : Nat := ⌊t_k_i / m.period_length⌋₊
    let lower := (n_passed_periods : R) * m.period_length +
      ((p : R) * m.period_length) / (m.n_baselines : R)
    dg_while ex m t_k_i decay_u (idx2 m.n_baselines u p) fuel lower Dg_i) s.Dg_i
  match r with
  | (.error e, Dg_i1) => (.error e, { s with Dg_i := Dg_i1 })
  | (.ok _, Dg_i1) =>
    let Dgg_i1 := forLoop m.n_decays (fun u1 Dgg_i =>
      let decay_u1 := m.decay u1
      let ratio := decay_u * decay_u1 / (decay_u + decay_u1)
      addAt Dgg_i (idx2 m.n_decays u u1) (ratio * (1 - exponentials u u1))) s.Dgg_i
    (.ok (), { s with Dg_i := Dg_i1, Dgg_i := Dgg_i1 })

/-- Body of the loop `for (ulong k = 0; k < N_i; ++k)` of `compute_weights_i`. -/
def weights_step (ex : R → R) (fuel : Nat) (m : Config R) (i : Nat) (k : Nat)
    (s : WState R) : Except Failure Unit × WState R :=
  let t_k_i := (m.timestamps i).getD k 0
  let p_interval := get_baseline_interval m t_k_i
  let s1 := { s with K_i := addAt s.K_i p_interval 1 }
  let exponentials := fun u u1 => ex (-(m.decay u1 + m.decay u) * (m.end_time - t_k_i))
  let exponential_diff := fun u =>
    let t_k_minus_one_i := (m.timestamps i).getD (k - 1) 0
    ex (-m.decay u * (t_k_i - t_k_minus_one_i))
  let s2 := forLoop m.n_nodes (source_step ex m k t_k_i exponentials exponential_diff) s1
  forLoopE m.n_decays (decay_step ex fuel m t_k_i exponentials) s2

/-- Method `compute_weights_i`. -/
def compute_weights_i (ex : R → R) (fuel : Nat) (i : Nat) (m : Model R) :
    Except Failure Unit × Model R :=
  let L1 := forLoop m.n_baselines (fun p L =>
    if p % m.n_nodes = i then
      Function.update L p (get_baseline_interval_length m.toConfig p)
    else L) m.L
  let s0 : WState R :=
    { H := fun _ => 0
      l := fun _ => 0
      C_i := m.C i
      Dg_i := init_to_zero (m.Dg i) 0 (m.n_decays * m.n_baselines)
      Dgg_i := m.Dgg i
      E_i := m.E i
      K_i := m.K i }
  let r := forLoopE (m.timestamps i).length (weights_step ex fuel m.toConfig i) s0
  (r.1, { m with
    L := L1
    C := Function.update m.C i r.2.C_i
    Dg := Function.update m.Dg i r.2.Dg_i
    Dgg := Function.update m.Dgg i r.2.Dgg_i
    E := Function.update m.E i r.2.E_i
    K := Function.update m.K i r.2.K_i })

/-- Method `allocate_weights`. -/
def allocate_weights (m : Model R) : Except Failure Unit × Model R :=
  if m.n_nodes = 0 then
    (.error (.tick_error "Please provide valid timestamps before allocating weights"), m)
  else
    let m0 : Model R :=
      { m with
        L := init_to_zero (fun _ => 0) 0 m.n_baselines
        C := fun _ _ => 0
        Dgg := fun _ _ => 0
        E := fun _ _ => 0
        Dg := fun _ _ => 0
        K := fun _ _ => 0 }
    (.ok (), forLoop m.n_nodes (fun i (m1 : Model R) =>
      { m1 with
        C := Function.update m1.C i (init_to_zero (fun _ => 0) 0 (m.n_nodes * m.n_decays))
        Dg := Function.update m1.Dg i (init_to_zero (fun _ => 0) 0 (m.n_decays * m.n_baselines))
        Dgg := Function.update m1.Dgg i (init_to_zero (fun _ => 0) 0 (m.n_decays * m.n_decays))
        E := Function.update m1.E i
          (init_to_zero (fun _ => 0) 0 (m.n_nodes * (m.n_decays * m.n_decays)))
        K := Function.update m1.K i (init_to_zero (fun _ => 0) 0 m.n_baselines) }) m0)

/-- Method `compute_weights`. -/
def compute_weights (ex : R → R) (fuel : Nat) (m : Model R) : Except Failure Unit × Model R :=
  match allocate_weights m with
  | (.error e, m1) => (.error e, m1)
  | (.ok _, m1) =>
    match forLoopE m1.n_nodes (compute_weights_i ex fuel) m1 with
    | (.error e, m2) => (.error e, m2)
    | (.ok _, m2) => (.ok (), { m2 with weights_computed := true })

/-- The four running sums `(C_sum, Dg_sum, Dgg_sum, E_sum)` of `loss_i` after its loop
over `j`. -/
def loss_i_sums (m : Model R) (i : Nat) (coeffs : Nat → R) : R × R × R × R :=
  let n_decays := m.n_decays
  let n_baselines := m.n_baselines
  let mu_i := view coeffs (i * n_baselines)
  let start_alpha_i := m.n_nodes * n_baselines + i * m.n_nodes * n_decays
  let alpha_i := view coeffs start_alpha_i
  forLoop m.n_nodes (fun j acc =>
    forLoop n_decays (fun u acc =>
      let alpha_i_j_u := alpha_i (j * n_decays + u)
      let acc1 : R × R × R × R :=
        (acc.1 + alpha_i_j_u * m.C i (idx2 n_decays j u), acc.2.1, acc.2.2.1, acc.2.2.2)
      let acc2 := forLoop n_baselines (fun p (acc : R × R × R × R) =>
        (acc.1, acc.2.1 + alpha_i_j_u * mu_i p * m.Dg j (u * n_baselines + p),
          acc.2.2.1, acc.2.2.2)) acc1
      forLoop n_decays (fun u1 (acc : R × R × R × R) =>
        let alpha_i_j_u1 := alpha_i (j * n_decays + u1)
        let acc3 : R × R × R × R :=
          (acc.1, acc.2.1,
            acc.2.2.1 + alpha_i_j_u * alpha_i_j_u1 * m.Dgg j (idx2 n_decays u u1), acc.2.2.2)
        forLoop m.n_nodes (fun j1 (acc : R × R × R × R) =>
          let alpha_i_j1_u1 := alpha_i (j1 * n_decays + u1)
          (acc.1, acc.2.1, acc.2.2.1,
            acc.2.2.2 + alpha_i_j_u * alpha_i_j1_u1 *
              m.E j (idx2 (n_decays * n_decays) j1 (u * n_decays + u1)))) acc3) acc2) acc)
    (0, 0, 0, 0)

/-- Method `loss_i`. -/
def loss_i (m : Model R) (i : Nat) (coeffs : Nat → R) : Except Failure R :=
  if !m.weights_computed then
    .error (.tick_error "Please compute weights before calling loss_i")
  else
    let mu_i := view coeffs (i * m.n_baselines)
    let sums := loss_i_sums m i coeffs
    let C_sum := sums.1
    let Dg_sum := sums.2.1
    let Dgg_sum := sums.2.2.1
    let E_sum := sums.2.2.2
    let AB := forLoop m.n_baselines (fun p (AB : R × R) =>
      (AB.1 + mu_i p * mu_i p * m.L p, AB.2 + mu_i p * m.K i p)) (0, 0)
    let A_i := AB.1 + 2 * Dg_sum
    let A_i := A_i + Dgg_sum
    let A_i := A_i + 2 * E_sum
    let B_i := AB.2 + C_sum
    .ok (A_i - 2 * B_i)

/-- Modelled from the spec: `parallel_map` of the task-execution service (not among the
sources) computes one value per index of `0 .. n` and collects the values in index order;
it fails when a worker fails. -/
def parallel_map (n : Nat) (f : Nat → Except Failure R) : Except Failure (Nat → R) :=
  match n with
  | 0 => .ok (fun _ => 0)
  | n + 1 =>
    match parallel_map n f with
    | .ok values =>
      match f n with
      | .ok v => .ok (Function.update values n v)
      | .error e => .error e
    | .error e => .error e

/-- Method `loss`. -/
def loss (ex : R → R) (fuel : Nat) (m : Model R) (coeffs : Nat → R) :
    Except Failure R × Model R :=
  let r := if !m.weights_computed then compute_weights ex fuel m else (.ok (), m)
  match r with
  | (.error e, m1) => (.error e, m1)
  | (.ok _, m1) =>
    match parallel_map m1.n_nodes (fun i => loss_i m1 i coeffs) with
    | .error e => (.error e, m1)
    | .ok values => (.ok (arraySum m1.n_nodes values / (m1.n_total_jumps : R)), m1)

/-- The writes of `grad_i` once the weights are known to be computed. -/
def grad_i_body (m : Model R) (i : Nat) (coeffs : Nat → R) (out : Nat → R) : Nat → R :=
  let n_decays := m.n_decays
  let n_baselines := m.n_baselines
  let mu_i := view coeffs (i * n_baselines)
  let start_alpha_i := m.n_nodes * n_baselines + i * m.n_nodes * n_decays
  let end_alpha_i := m.n_nodes * n_baselines + (i + 1) * m.n_nodes * n_decays
  let alpha_i := view coeffs start_alpha_i
  let grad_mu := i * n_baselines
  let grad_alpha := start_alpha_i
  let out1 := init_to_zero out grad_alpha (end_alpha_i - start_alpha_i)
  let out2 := forLoop n_baselines (fun p out =>
    Function.update out (grad_mu + p) (2 * mu_i p * m.L p - 2 * m.K i p)) out1
  forLoop m.n_nodes (fun j out =>
    forLoop n_decays (fun u out =>
      let alpha_i_j_u := alpha_i (j * n_decays + u)
      let grad_alpha_i_j_u := grad_alpha + (j * n_decays + u)
      let out3 := subAt out grad_alpha_i_j_u (2 * m.C i (idx2 n_decays j u))
      let out4 := forLoop n_baselines (fun p out =>
        let out5 := addAt out (grad_mu + p) (2 * alpha_i_j_u * m.Dg j (u * n_baselines + p))
        addAt out5 grad_alpha_i_j_u (2 * mu_i p * m.Dg j (u * n_baselines + p))) out3
      forLoop n_decays (fun u1 out =>
        let alpha_i_j_u1 := alpha_i (j * n_decays + u1)
        let out6 := addAt out grad_alpha_i_j_u (2 * alpha_i_j_u1 * m.Dgg j (idx2 n_decays u u1))
        forLoop m.n_nodes (fun j1 out =>
          let alpha_i_j1_u1 := alpha_i (j1 * n_decays + u1)
          let grad_alpha_i_j1_u1 := grad_alpha + (j1 * n_decays + u1)
          let E_j_j1_u_u1 := m.E j (idx2 (n_decays * n_decays) j1 (u * n_decays + u1))
          let out7 := addAt out grad_alpha_i_j_u (2 * alpha_i_j1_u1 * E_j_j1_u_u1)
          addAt out7 grad_alpha_i_j1_u1 (2 * alpha_i_j_u * E_j_j1_u_u1)) out6) out4) out) out2

/-- Method `grad_i`. -/
def grad_i (m : Model R) (i : Nat) (coeffs : Nat → R) (out : Nat → R) :
    Except Failure Unit × (Nat → R) :=
  if !m.weights_computed then
    (.error (.tick_error "Please compute weights before calling hessian_i"), out)
  else (.ok (), grad_i_body m i coeffs out)

/-- Method `grad`. -/
def grad (ex : R → R) (fuel : Nat) (m : Model R) (coeffs : Nat → R) (out : Nat → R) :
    Except Failure Unit × Model R × (Nat → R) :=
  let r := if !m.weights_computed then compute_weights ex fuel m else (.ok (), m)
  match r with
  | (.error e, m1) => (.error e, m1, out)
  | (.ok _, m1) =>
    match forLoopE m1.n_nodes (fun i out => grad_i m1 i coeffs out) out with
    | (.error e, out1) => (.error e, m1, out1)
    | (.ok _, out1) => (.ok (), m1, fun x => out1 x / (m1.n_total_jumps : R))

/-- The writes of `hessian_i` once both of its checks have passed. -/
def hessian_i_body (m : Model R) (i : Nat) (out : Nat → R) : Nat → R :=
  let n_decays := m.n_decays
  let n_alpha_i := m.n_nodes * n_decays
  let start_mu_line := i * (n_alpha_i + 1)
  let out1 := Function.update out start_mu_line (2 * m.end_time)
  let out2 := forLoop m.n_nodes (fun j out =>
    forLoop n_decays (fun u out =>
      addAt out (start_mu_line + j * n_decays + u + 1) (2 * m.Dg j (idx2 m.n_baselines u 0))) out)
    out1
  let block_start := m.n_nodes * (n_alpha_i + 1) + i * (n_alpha_i + 1) * n_alpha_i
  forLoop m.n_nodes (fun l out =>
    forLoop n_decays (fun u out =>
      let start_alpha_line := block_start + (l * n_decays + u) * (n_alpha_i + 1)
      let out3 := addAt out start_alpha_line (2 * m.Dg l (idx2 m.n_baselines u 0))
      forLoop m.n_nodes (fun m1 out =>
        forLoop n_decays (fun u1 out =>
          let out4 := addAt out (start_alpha_line + m1 * n_decays + u1 + 1)
            (2 * (m.E l (idx2 (n_decays * n_decays) m1 (u * n_decays + u1)) +
              m.E m1 (idx2 (n_decays * n_decays) l (u1 * n_decays + u))))
          if l = m1 then
            addAt out4 (start_alpha_line + m1 * n_decays + u1 + 1)
              (m.Dgg l (u * n_decays + u1) + m.Dgg l (u1 * n_decays + u))
          else out4) out) out3) out) out2

/-- Method `hessian_i`. -/
def hessian_i (m : Model R) (i : Nat) (out : Nat → R) : Except Failure Unit × (Nat → R) :=
  if !m.weights_computed then
    (.error (.tick_error "Please compute weights before calling hessian_i"), out)
  else if m.n_baselines ≠ 1 then
    (.error (.tick_error "hessian is only implemented for one baseline"), out)
  else (.ok (), hessian_i_body m i out)

/-- Method `hessian`. -/
def hessian (ex : R → R) (fuel : Nat) (m : Model R) (out : Nat → R) :
    Except Failure Unit × Model R × (Nat → R) :=
  let r := if !m.weights_computed then compute_weights ex fuel m else (.ok (), m)
  match r with
  | (.error e, m1) => (.error e, m1, out)
  | (.ok _, m1) =>
    match forLoopE m1.n_nodes (fun i out => hessian_i m1 i out) out with
    | (.error e, out1) => (.error e, m1, out1)
    | (.ok _, out1) => (.ok (), m1, fun x => out1 x / (m1.n_total_jumps : R))

/-- Method `loss_and_grad`. -/
def loss_and_grad (ex : R → R) (fuel : Nat) (m : Model R) (coeffs : Nat → R)
    (out : Nat → R) : Except Failure R × Model R × (Nat → R) :=
  match grad ex fuel m coeffs out with
  | (.error e, m1, out1) => (.error e, m1, out1)
  | (.ok _, m1, out1) =>
    let r := loss ex fuel m1 coeffs
    (r.1, r.2, out1)

/-- Product `a * b` of two `ulong` values, `w` bits wide: unsigned arithmetic wraps around. -/
def ulong_mul (w a b : Nat) : Nat := (a * b) % 2 ^ w

/-- Sum `a + b` of two `ulong` values, `w` bits wide. -/
def ulong_add (w a b : Nat) : Nat := (a + b) % 2 ^ w

/-- Method `get_n_coeffs` in the arithmetic of its type: `ulong`, `w` bits wide.
`get_n_coeffs` above is the number it returns when nothing wraps around, as is the case
whenever an array of that length exists. -/
def get_n_coeffs_ulong (w : Nat) (m : Config R) : Nat :=
  ulong_add w (ulong_mul w m.n_nodes m.n_baselines)
    (ulong_mul w (ulong_mul w m.n_nodes m.n_nodes) m.n_decays)

/-!
Binary64 arithmetic.

An index and the exit of a loop are discrete outcomes that rounding can change, so the
statements that decide them are embedded a second time in the arithmetic of `double`.  A
finite `double` is the rational number it denotes; an arithmetic operation of the source is
the exact operation followed by `round_to_binary64`, each operation rounded on its own.
Overflow to an infinity is not modelled: the embedding applies while every intermediate
value stays below `2 ^ 1024` in magnitude.  The width of `ulong`, declared outside the
sources, is the parameter `w` (64 on the platforms the library is built for). -/

/-- The power `2 ^ e` for an integer exponent `e`. -/
def pow2 (e : Int) : ℚ :=
  if 0 ≤ e then ((2 ^ e.toNat : Nat) : ℚ) else 1 / ((2 ^ (-e).toNat : Nat) : ℚ)

/-- Number of binary digits of `n`, counted in at most `fuel` halvings (`fuel = n` is
enough). -/
def bit_length : Nat → Nat → Nat
  | 0, _ => 0
  | fuel + 1, n => if n = 0 then 0 else bit_length fuel (n / 2) + 1

/-- Rounding of a real result to `double`: the nearest multiple of `2 ^ e`, ties to the even
multiple, where `2 ^ e` is the unit in the last of 53 significant binary digits, and
`2 ^ (-1074)` for the subnormal values. -/
def round_to_binary64 (q : ℚ) : ℚ :=
  if q = 0 then 0
  else
    let a := |q|
    let e0 : Int :=
      (bit_length a.num.natAbs a.num.natAbs : Int) - (bit_length a.den a.den : Int)
    let e1 : Int := if pow2 e0 ≤ a then e0 else e0 - 1
    let e : Int := max (e1 - 52) (-1074)
    let s : ℚ := a / pow2 e
    let n : Int := ⌊s⌋
    let r : ℚ := s - (n : ℚ)
    let n1 : Int :=
      if r < 1 / 2 then n else if 1 / 2 < r then n + 1 else if n % 2 = 0 then n else n + 1
    (if q < 0 then -1 else 1) * (n1 : ℚ) * pow2 e

/-- Conversion `static_cast<ulong>(x)` of an integral `double`: undefined (`none`) unless
the value fits the type. -/
def to_ulong (w : Nat) (x : Int) : Option Nat :=
  if 0 ≤ x ∧ x < 2 ^ w then some x.toNat else none

/-- Method `get_baseline_interval` in binary64 arithmetic.  With `period_length = 0` the
quotients are infinite or NaN and the conversion that ends the method is undefined. -/
def get_baseline_interval_binary64 (w : Nat) (m : Config ℚ) (t : ℚ) : Option Nat :=
  if m.period_length = 0 then none
  else
    let first_period_t := round_to_binary64
      (t - round_to_binary64
        ((⌊round_to_binary64 (t / m.period_length)⌋ : ℚ) * m.period_length))
    if first_period_t = m.period_length then some ((m.n_baselines + 2 ^ w - 1) % 2 ^ w)
    else
      to_ulong w ⌊round_to_binary64 (round_to_binary64 (first_period_t / m.period_length) *
        round_to_binary64 (m.n_baselines : ℚ))⌋

/-- The statements `p_interval = get_baseline_interval(t_k_i); K_i[p_interval] += 1` that
open the body of the loop over the events `k` of `compute_weights_i`, run for the events
`0 .. n` of dimension `i` in binary64 arithmetic; no other statement of the method reads or
writes `K_i`.  The result is `none` when a conversion to `ulong` is undefined. -/
def event_counts_binary64 (w : Nat) (m : Config ℚ) (i : Nat) (n : Nat) (K_i : Nat → ℚ) :
    Option (Nat → ℚ) :=
  forLoop n (fun k r =>
    match r with
    | none => none
    | some K_i =>
      let t_k_i := (m.timestamps i).getD k 0
      match get_baseline_interval_binary64 w m t_k_i with
      | none => none
      | some p_interval =>
        some (Function.update K_i p_interval (round_to_binary64 (K_i p_interval + 1))))
    (some K_i)

/-- The value `lower` is given before the loop `while (lower < end_time)` of
`compute_weights_i`, in binary64 arithmetic. -/
def repetition_start_binary64 (w : Nat) (m : Config ℚ) (t_k_i : ℚ) (p : Nat) : Option ℚ :=
  if m.period_length = 0 then none
  else
    match to_ulong w ⌊round_to_binary64 (t_k_i / m.period_length)⌋ with
    | none => none
    | some n_passed_periods =>
      some (round_to_binary64
        (round_to_binary64 (round_to_binary64 (n_passed_periods : ℚ) * m.period_length) +
          round_to_binary64 (round_to_binary64 (round_to_binary64 (p : ℚ) * m.period_length) /
            round_to_binary64 (m.n_baselines : ℚ))))

/-- The loop `while (lower < end_time) { ...; lower += period_length; }` of
`compute_weights_i` in binary64 arithmetic, with the library exponential `ex` a parameter. -/
def dg_while_binary64 (ex : ℚ → ℚ) (m : Config ℚ) (t_k_i decay_u : ℚ) (pos : Nat) :
    Nat → ℚ → (Nat → ℚ) → Except Failure Unit × (Nat → ℚ)
  | 0, _, Dg_i => (.error .out_of_fuel, Dg_i)
  | fuel + 1, lower, Dg_i =>
    if lower < m.end_time then
      let shift_lower := max t_k_i lower
      let upper := min
        (round_to_binary64 (lower +
          round_to_binary64 (m.period_length / round_to_binary64 (m.n_baselines : ℚ))))
        m.end_time
      let Dg_i1 :=
        if shift_lower < upper then
          Function.update Dg_i pos (round_to_binary64 (Dg_i pos + round_to_binary64
            (ex (round_to_binary64 (-decay_u * round_to_binary64 (shift_lower - t_k_i))) -
              ex (round_to_binary64 (-decay_u * round_to_binary64 (upper - t_k_i))))))
        else Dg_i
      dg_while_binary64 ex m t_k_i decay_u pos fuel
        (round_to_binary64 (lower + m.period_length)) Dg_i1
    else (.ok (), Dg_i)

/-!
Definitions used to state the properties.

None of what follows is code of the model: these are the closed forms, layouts and example
models that the theorems below speak about. -/

/-- Local state of `compute_weights_i` at the entry of its loop over `k` when the tensors are
freshly allocated. -/
def wstate_zero : WState R :=
  { H := fun _ => 0, l := fun _ => 0, C_i := fun _ => 0, Dg_i := fun _ => 0,
    Dgg_i := fun _ => 0, E_i := fun _ => 0, K_i := fun _ => 0 }

/-- The loop over `k` of `compute_weights_i` run on freshly allocated tensors. -/
def weights_loop (ex : R → R) (fuel : Nat) (c : Config R) (i : Nat) :
    Except Failure Unit × WState R :=
  forLoopE (c.timestamps i).length (weights_step ex fuel c i) wstate_zero

/-- Fuel that lets every `while (lower < end_time)` loop of the weight computation
complete. -/
def enough_fuel (c : Config R) : Nat := ⌈c.end_time / c.period_length⌉₊ + 1

/-- The state left by the dimensions `0 .. k` of the weight computation started on freshly
allocated tensors: the arrays of the dimensions done are those of their loop over `k`,
the others are still zero, and `L` holds the interval lengths dispatched so far. -/
structure PartialWeights (ex : R → R) (fuel : Nat) (c : Config R) (wc : Bool) (k : Nat)
    (m : Model R) : Prop where
  config : m.toConfig = c
  flag : m.weights_computed = wc
  done : ∀ i, i < k → ∃ s, weights_loop ex fuel c i = (.ok (), s) ∧ m.C i = s.C_i ∧
    m.Dg i = s.Dg_i ∧ m.Dgg i = s.Dgg_i ∧ m.E i = s.E_i ∧ m.K i = s.K_i
  todo : ∀ i, k ≤ i → m.C i = (fun _ => 0) ∧ m.Dg i = (fun _ => 0) ∧
    m.Dgg i = (fun _ => 0) ∧ m.E i = (fun _ => 0) ∧ m.K i = (fun _ => 0)
  lengths : ∀ p, m.L p =
    if p < c.n_baselines ∧ p % c.n_nodes < k then get_baseline_interval_length c p else 0

/-- The state of the loop over the sources at event `k`, started from `s`. -/
def source_loop (ex : R → R) (c : Config R) (i k : Nat) (s : WState R) : WState R :=
  forLoop c.n_nodes (source_step ex c k ((c.timestamps i).getD k 0)
    (fun u u1 => ex (-(c.decay u1 + c.decay u) * (c.end_time - (c.timestamps i).getD k 0)))
    (fun u => ex (-c.decay u * ((c.timestamps i).getD k 0 - (c.timestamps i).getD (k - 1) 0))))
    { s with K_i := addAt s.K_i (get_baseline_interval c ((c.timestamps i).getD k 0)) 1 }

/-- The decayed sum, at time `t`, of the first `n` events of source `j` for decay `u`. -/
def decayed_sum (ex : R → R) (c : Config R) (j u : Nat) (t : R) (n : Nat) : R :=
  ∑ x in Finset.range n,
    c.decay u * ex (-c.decay u * (t - (c.timestamps j).getD x 0))

/-- The statement `H(j, u) *= exponential_diff[u]` for every `u`, run when `k > 0`. -/
def decay_row (c : Config R) (k : Nat) (exponential_diff : Nat → R) (j : Nat)
    (H : Nat → R) : Nat → R :=
  if k > 0 then
    forLoop c.n_decays (fun u H =>
      Function.update H (idx2 c.n_decays j u) (H (idx2 c.n_decays j u) * exponential_diff u)) H
  else H

/-- Row `j` of the running sums is the decayed sum at time `t` of the events of source `j`
below the cursor, all of which are before `t`. -/
structure RowReady (ex : R → R) (c : Config R) (t : R) (H : Nat → R) (l : Nat → Nat)
    (j : Nat) : Prop where
  le : l j ≤ (c.timestamps j).length
  before : ∀ x, x < l j → (c.timestamps j).getD x 0 < t
  sum : ∀ u, u < c.n_decays → H (idx2 c.n_decays j u) = decayed_sum ex c j u t (l j)

/-- The direct sum of the claim for one event time `t`: over the events `t'` of source `j`
with `t' < t`, of `decay_u * exp(-decay_u * (t - t'))`. -/
def naive_inner (ex : R → R) (c : Config R) (j u : Nat) (t : R) : R :=
  (((c.timestamps j).filter (fun t' => decide (t' < t))).map
    (fun t' => c.decay u * ex (-c.decay u * (t - t')))).sum

/-- The direct pairwise sum of the claim: over the events `t_k` of node `i`, of the sum
over the events `t'` of node `j` with `t' < t_k` of `decay_u * exp(-decay_u * (t_k - t'))`. -/
def naive_C (ex : R → R) (c : Config R) (i j u : Nat) : R :=
  ((c.timestamps i).map (fun t_k => naive_inner ex c j u t_k)).sum

/-- The term that the event of index `k` of dimension `i` adds to `Dgg_i(u, u1)`. -/
def dgg_term (ex : R → R) (c : Config R) (i u u1 k : Nat) : R :=
  c.decay u * c.decay u1 / (c.decay u + c.decay u1) *
    (1 - ex (-(c.decay u1 + c.decay u) * (c.end_time - (c.timestamps i).getD k 0)))

/-- The step `if (!weights_computed) compute_weights()` that opens `loss`, `grad` and
`hessian`. -/
def ensure_weights (ex : R → R) (fuel : Nat) (m : Model R) : Except Failure Unit × Model R :=
  if !m.weights_computed then compute_weights ex fuel m else (.ok (), m)

/-- The value `loss` returns once the weights are in place. -/
def loss_after (m1 : Model R) (coeffs : Nat → R) : Except Failure R × Model R :=
  match parallel_map m1.n_nodes (fun i => loss_i m1 i coeffs) with
  | .error e => (.error e, m1)
  | .ok values => (.ok (arraySum m1.n_nodes values / (m1.n_total_jumps : R)), m1)

/-- What `hessian_i` adds to the buffer, whatever the buffer holds: the entries after the
first of the `mu` line of dimension `i`, and the `alpha` lines of its block. -/
def hessian_delta (m : Model R) (i : Nat) : Nat → R :=
  (∑ j in Finset.range m.n_nodes, ∑ u in Finset.range m.n_decays,
    Pi.single (i * (m.n_nodes * m.n_decays + 1) + (j * m.n_decays + (u + 1)))
      (2 * m.Dg j (idx2 m.n_baselines u 0))) +
  ∑ l in Finset.range m.n_nodes, ∑ u in Finset.range m.n_decays,
    (Pi.single (m.n_nodes * (m.n_nodes * m.n_decays + 1) +
        (i * (m.n_nodes * m.n_decays + 1) * (m.n_nodes * m.n_decays) +
          (l * m.n_decays + u) * (m.n_nodes * m.n_decays + 1)))
      (2 * m.Dg l (idx2 m.n_baselines u 0)) +
    ∑ m1 in Finset.range m.n_nodes, ∑ u1 in Finset.range m.n_decays,
      (Pi.single (m.n_nodes * (m.n_nodes * m.n_decays + 1) +
          (i * (m.n_nodes * m.n_decays + 1) * (m.n_nodes * m.n_decays) +
            ((l * m.n_decays + u) * (m.n_nodes * m.n_decays + 1) +
              (m1 * m.n_decays + (u1 + 1)))))
        (2 * (m.E l (idx2 (m.n_decays * m.n_decays) m1 (u * m.n_decays + u1)) +
          m.E m1 (idx2 (m.n_decays * m.n_decays) l (u1 * m.n_decays + u)))) +
      if l = m1 then
        Pi.single (m.n_nodes * (m.n_nodes * m.n_decays + 1) +
            (i * (m.n_nodes * m.n_decays + 1) * (m.n_nodes * m.n_decays) +
              ((l * m.n_decays + u) * (m.n_nodes * m.n_decays + 1) +
                (m1 * m.n_decays + (u1 + 1)))))
          (m.Dgg l (u * m.n_decays + u1) + m.Dgg l (u1 * m.n_decays + u))
      else 0))

/-- The part of `hessian_delta` in the `mu` line of dimension `i`. -/
def hessian_mu_part (m : Model R) (i : Nat) : Nat → R :=
  ∑ j in Finset.range m.n_nodes, ∑ u in Finset.range m.n_decays,
    Pi.single (i * (m.n_nodes * m.n_decays + 1) + (j * m.n_decays + (u + 1)))
      (2 * m.Dg j (idx2 m.n_baselines u 0))

/-- The second-order entries of the line of `(l, u)` against `(m1, u1)`. -/
def hessian_entry (m : Model R) (l u m1 u1 : Nat) : R :=
  2 * (m.E l (idx2 (m.n_decays * m.n_decays) m1 (u * m.n_decays + u1)) +
    m.E m1 (idx2 (m.n_decays * m.n_decays) l (u1 * m.n_decays + u))) +
  if l = m1 then m.Dgg l (u * m.n_decays + u1) + m.Dgg l (u1 * m.n_decays + u) else 0

/-- The part of `hessian_delta` in the `alpha` line of `(l, u)` of dimension `i`. -/
def hessian_alpha_row (m : Model R) (i l u : Nat) : Nat → R :=
  Pi.single (m.n_nodes * (m.n_nodes * m.n_decays + 1) +
      (i * (m.n_nodes * m.n_decays + 1) * (m.n_nodes * m.n_decays) +
        (l * m.n_decays + u) * (m.n_nodes * m.n_decays + 1)))
    (2 * m.Dg l (idx2 m.n_baselines u 0)) +
  ∑ m1 in Finset.range m.n_nodes, ∑ u1 in Finset.range m.n_decays,
    (Pi.single (m.n_nodes * (m.n_nodes * m.n_decays + 1) +
        (i * (m.n_nodes * m.n_decays + 1) * (m.n_nodes * m.n_decays) +
          ((l * m.n_decays + u) * (m.n_nodes * m.n_decays + 1) +
            (m1 * m.n_decays + (u1 + 1)))))
      (2 * (m.E l (idx2 (m.n_decays * m.n_decays) m1 (u * m.n_decays + u1)) +
        m.E m1 (idx2 (m.n_decays * m.n_decays) l (u1 * m.n_decays + u)))) +
    if l = m1 then
      Pi.single (m.n_nodes * (m.n_nodes * m.n_decays + 1) +
          (i * (m.n_nodes * m.n_decays + 1) * (m.n_nodes * m.n_decays) +
            ((l * m.n_decays + u) * (m.n_nodes * m.n_decays + 1) +
              (m1 * m.n_decays + (u1 + 1)))))
        (m.Dgg l (u * m.n_decays + u1) + m.Dgg l (u1 * m.n_decays + u))
    else 0)

/-- The part of `hessian_delta` in the block of `alpha` lines of dimension `i`. -/
def hessian_alpha_part (m : Model R) (i : Nat) : Nat → R :=
  ∑ l in Finset.range m.n_nodes, ∑ u in Finset.range m.n_decays, hessian_alpha_row m i l u

/-- The storage layout of the claim: entry `(a, b)` of the matrix of dimension `i`, whose
row 0 is stored at offset `i * (n_alpha + 1)` and whose row `r ≥ 1` is stored at offset
`n_nodes * (n_alpha + 1) + i * (n_alpha + 1) * n_alpha + (r - 1) * (n_alpha + 1)`, with
`n_alpha = n_nodes * n_decays`. -/
def hessian_index (n_nodes n_decays i a b : Nat) : Nat :=
  if a = 0 then i * (n_nodes * n_decays + 1) + b
  else n_nodes * (n_nodes * n_decays + 1) +
    i * (n_nodes * n_decays + 1) * (n_nodes * n_decays) +
    (a - 1) * (n_nodes * n_decays + 1) + b

/-- The matrix of second-order coefficients that `hessian_i` adds, before the division by
`n_total_jumps`: row and column 0 stand for the baseline, row and column `1 + l * n_decays
+ u` for the excitation of source `l` at decay `u`. -/
def hessian_matrix (m : Model R) (a b : Nat) : R :=
  if a = 0 then
    if b = 0 then 2 * m.end_time
    else 2 * m.Dg ((b - 1) / m.n_decays) (idx2 m.n_baselines ((b - 1) % m.n_decays) 0)
  else if b = 0 then
    2 * m.Dg ((a - 1) / m.n_decays) (idx2 m.n_baselines ((a - 1) % m.n_decays) 0)
  else
    hessian_entry m ((a - 1) / m.n_decays) ((a - 1) % m.n_decays)
      ((b - 1) / m.n_decays) ((b - 1) % m.n_decays)

/-- What the loops of `grad_i` add to the buffer, whatever the buffer holds. -/
def grad_delta (m : Model R) (i : Nat) (coeffs : Nat → R) : Nat → R :=
  ∑ j in Finset.range m.n_nodes, ∑ u in Finset.range m.n_decays,
    (Pi.single (m.n_nodes * m.n_baselines + (i * m.n_nodes * m.n_decays + (j * m.n_decays + u)))
        (-(2 * m.C i (j * m.n_decays + u))) +
      (∑ p in Finset.range m.n_baselines,
          (Pi.single (i * m.n_baselines + p)
              (2 * coeffs (m.n_nodes * m.n_baselines +
                  (i * m.n_nodes * m.n_decays + (j * m.n_decays + u))) *
                m.Dg j (u * m.n_baselines + p)) +
            Pi.single (m.n_nodes * m.n_baselines +
                (i * m.n_nodes * m.n_decays + (j * m.n_decays + u)))
              (2 * coeffs (i * m.n_baselines + p) * m.Dg j (u * m.n_baselines + p))) +
        ∑ u1 in Finset.range m.n_decays,
          (Pi.single (m.n_nodes * m.n_baselines +
                (i * m.n_nodes * m.n_decays + (j * m.n_decays + u)))
              (2 * coeffs (m.n_nodes * m.n_baselines +
                  (i * m.n_nodes * m.n_decays + (j * m.n_decays + u1))) *
                m.Dgg j (u * m.n_decays + u1)) +
            ∑ j1 in Finset.range m.n_nodes,
              (Pi.single (m.n_nodes * m.n_baselines +
                    (i * m.n_nodes * m.n_decays + (j * m.n_decays + u)))
                  (2 * coeffs (m.n_nodes * m.n_baselines +
                      (i * m.n_nodes * m.n_decays + (j1 * m.n_decays + u1))) *
                    m.E j (j1 * (m.n_decays * m.n_decays) + (u * m.n_decays + u1))) +
                Pi.single (m.n_nodes * m.n_baselines +
                    (i * m.n_nodes * m.n_decays + (j1 * m.n_decays + u1)))
                  (2 * coeffs (m.n_nodes * m.n_baselines +
                      (i * m.n_nodes * m.n_decays + (j * m.n_decays + u))) *
                    m.E j (j1 * (m.n_decays * m.n_decays) + (u * m.n_decays + u1)))))))

/-- The buffer after the two initialisations of `grad_i`: the `alpha` slice of dimension
`i` zeroed, its `mu` slice assigned. -/
def grad_base (m : Model R) (i : Nat) (coeffs out : Nat → R) : Nat → R :=
  forLoop m.n_baselines
    (fun p out =>
      Function.update out (i * m.n_baselines + p)
        (2 * coeffs (i * m.n_baselines + p) * m.L p - 2 * m.K i p))
    (init_to_zero out (m.n_nodes * m.n_baselines + i * m.n_nodes * m.n_decays)
      (m.n_nodes * m.n_baselines + (i + 1) * m.n_nodes * m.n_decays -
        (m.n_nodes * m.n_baselines + i * m.n_nodes * m.n_decays)))

/-- Index `x` is in the `mu` slice of dimension `i`. -/
def in_mu_slice (c : Config R) (i x : Nat) : Prop :=
  i * c.n_baselines ≤ x ∧ x < i * c.n_baselines + c.n_baselines

/-- Index `x` is in the `alpha` slice of dimension `i`. -/
def in_alpha_slice (c : Config R) (i x : Nat) : Prop :=
  c.n_nodes * c.n_baselines + i * c.n_nodes * c.n_decays ≤ x ∧
    x < c.n_nodes * c.n_baselines + i * c.n_nodes * c.n_decays + c.n_nodes * c.n_decays

instance (c : Config R) (i x : Nat) : Decidable (in_mu_slice c i x) := by
  unfold in_mu_slice
  infer_instance

instance (c : Config R) (i x : Nat) : Decidable (in_alpha_slice c i x) := by
  unfold in_alpha_slice
  infer_instance

/-- The entry of the gradient that `grad_i` leaves at an index of the slices of dimension
`i`, before the division by `n_total_jumps`. -/
def grad_value (m : Model R) (i : Nat) (coeffs : Nat → R) (x : Nat) : R :=
  (if in_mu_slice m.toConfig i x then
    2 * coeffs x * m.L (x - i * m.n_baselines) - 2 * m.K i (x - i * m.n_baselines)
  else 0) + grad_delta m i coeffs x

/-- The coefficient `alpha_i[j * n_decays + u]` of `loss_i` and `grad_i`. -/
def alpha_coeff (c : Config R) (i : Nat) (coeffs : Nat → R) (j u : Nat) : R :=
  coeffs (c.n_nodes * c.n_baselines + (i * c.n_nodes * c.n_decays + (j * c.n_decays + u)))

/-- The coefficient `mu_i[p]` of `loss_i` and `grad_i`. -/
def mu_coeff (c : Config R) (i : Nat) (coeffs : Nat → R) (p : Nat) : R :=
  coeffs (i * c.n_baselines + p)

/-- The value `loss_i` returns, as sums over the coefficients of dimension `i`. -/
def loss_i_value (m : Model R) (i : Nat) (coeffs : Nat → R) : R :=
  (∑ p in Finset.range m.n_baselines,
      mu_coeff m.toConfig i coeffs p * mu_coeff m.toConfig i coeffs p * m.L p) +
    2 * (∑ j in Finset.range m.n_nodes, ∑ u in Finset.range m.n_decays,
      ∑ p in Finset.range m.n_baselines,
        alpha_coeff m.toConfig i coeffs j u * mu_coeff m.toConfig i coeffs p *
          m.Dg j (u * m.n_baselines + p)) +
    (∑ j in Finset.range m.n_nodes, ∑ u in Finset.range m.n_decays,
      ∑ u1 in Finset.range m.n_decays,
        alpha_coeff m.toConfig i coeffs j u * alpha_coeff m.toConfig i coeffs j u1 *
          m.Dgg j (u * m.n_decays + u1)) +
    2 * (∑ j in Finset.range m.n_nodes, ∑ u in Finset.range m.n_decays,
      ∑ u1 in Finset.range m.n_decays, ∑ j1 in Finset.range m.n_nodes,
        alpha_coeff m.toConfig i coeffs j u * alpha_coeff m.toConfig i coeffs j1 u1 *
          m.E j (j1 * (m.n_decays * m.n_decays) + (u * m.n_decays + u1))) -
    2 * ((∑ p in Finset.range m.n_baselines, mu_coeff m.toConfig i coeffs p * m.K i p) +
      ∑ j in Finset.range m.n_nodes, ∑ u in Finset.range m.n_decays,
        alpha_coeff m.toConfig i coeffs j u * m.C i (j * m.n_decays + u))

/-- A function of the step `s` that is a polynomial of degree at most two with constant
term `c` and linear coefficient `g`. -/
def QuadAt (f : R → R) (c g : R) : Prop := ∃ q, ∀ s, f s = c + s * g + s * s * q

/-- The coefficient vector with `s` added to its entry `a`. -/
def perturb (coeffs : Nat → R) (a : Nat) (s : R) : Nat → R :=
  Function.update coeffs a (coeffs a + s)

/-- The linear coefficient of `s ↦ loss_i_value (perturb coeffs a s)`, term by term. -/
def loss_i_slope (m : Model R) (i : Nat) (coeffs : Nat → R) (a : Nat) : R :=
  (∑ p in Finset.range m.n_baselines,
      ((if a = i * m.n_baselines + p then mu_coeff m.toConfig i coeffs p * m.L p else 0) +
        (if a = i * m.n_baselines + p then mu_coeff m.toConfig i coeffs p * m.L p else 0))) +
    2 * (∑ j in Finset.range m.n_nodes, ∑ u in Finset.range m.n_decays,
      ∑ p in Finset.range m.n_baselines,
        ((if a = m.n_nodes * m.n_baselines +
              (i * m.n_nodes * m.n_decays + (j * m.n_decays + u)) then
            mu_coeff m.toConfig i coeffs p * m.Dg j (u * m.n_baselines + p) else 0) +
          (if a = i * m.n_baselines + p then
            alpha_coeff m.toConfig i coeffs j u * m.Dg j (u * m.n_baselines + p) else 0))) +
    (∑ j in Finset.range m.n_nodes, ∑ u in Finset.range m.n_decays,
      ∑ u1 in Finset.range m.n_decays,
        ((if a = m.n_nodes * m.n_baselines +
              (i * m.n_nodes * m.n_decays + (j * m.n_decays + u)) then
            alpha_coeff m.toConfig i coeffs j u1 * m.Dgg j (u * m.n_decays + u1) else 0) +
          (if a = m.n_nodes * m.n_baselines +
              (i * m.n_nodes * m.n_decays + (j * m.n_decays + u1)) then
            alpha_coeff m.toConfig i coeffs j u * m.Dgg j (u * m.n_decays + u1) else 0))) +
    2 * (∑ j in Finset.range m.n_nodes, ∑ u in Finset.range m.n_decays,
      ∑ u1 in Finset.range m.n_decays, ∑ j1 in Finset.range m.n_nodes,
        ((if a = m.n_nodes * m.n_baselines +
              (i * m.n_nodes * m.n_decays + (j * m.n_decays + u)) then
            alpha_coeff m.toConfig i coeffs j1 u1 *
              m.E j (j1 * (m.n_decays * m.n_decays) + (u * m.n_decays + u1)) else 0) +
          (if a = m.n_nodes * m.n_baselines +
              (i * m.n_nodes * m.n_decays + (j1 * m.n_decays + u1)) then
            alpha_coeff m.toConfig i coeffs j u *
              m.E j (j1 * (m.n_decays * m.n_decays) + (u * m.n_decays + u1)) else 0))) -
    2 * ((∑ p in Finset.range m.n_baselines,
        if a = i * m.n_baselines + p then m.K i p else 0) +
      ∑ j in Finset.range m.n_nodes, ∑ u in Finset.range m.n_decays,
        if a = m.n_nodes * m.n_baselines +
            (i * m.n_nodes * m.n_decays + (j * m.n_decays + u)) then
          m.C i (j * m.n_decays + u) else 0)

/-- The tensors `Dgg` of the model are symmetric. -/
def DggSymmetric (m : Model R) : Prop :=
  ∀ j u u1, j < m.n_nodes → u < m.n_decays → u1 < m.n_decays →
    m.Dgg j (u * m.n_decays + u1) = m.Dgg j (u1 * m.n_decays + u)

/-- The value of `loss` on a model whose weights are computed, as a function of the
coefficients. -/
def loss_value (m : Model R) (coeffs : Nat → R) : R :=
  (∑ i in Finset.range m.n_nodes, loss_i_value m i coeffs) / (m.n_total_jumps : R)

/-- The layout of the coefficient vector seen from dimension `i`: slot 0 is its first
baseline entry, slot `b ≥ 1` its excitation entry `b - 1`. -/
def coeff_index (c : Config R) (i b : Nat) : Nat :=
  if b = 0 then i * c.n_baselines
  else c.n_nodes * c.n_baselines + (i * c.n_nodes * c.n_decays + (b - 1))

/-- The part of the gradient entry of slot `a` that does not depend on the coefficients. -/
def grad_const (m : Model R) (i a : Nat) : R :=
  if a = 0 then -2 * m.K i 0 else -2 * m.C i (a - 1)

/-- The scenario of the end-to-end test: one dimension with events at 1, 2 and 5 in the
window `[0, 6)`, one decay 1, one baseline of period 6, three jumps in total, weights not
yet computed. -/
def scenario (R : Type) [LinearOrderedField R] : Model R :=
  { n_nodes := 1, n_baselines := 1, period_length := 6, decays := [1],
    timestamps := fun _ => [1, 2, 5], end_time := 6, n_total_jumps := 3,
    weights_computed := false,
    L := fun _ => 0, C := fun _ _ => 0, Dg := fun _ _ => 0, Dgg := fun _ _ => 0,
    E := fun _ _ => 0, K := fun _ _ => 0 }

/-- The scenario over the rationals. -/
def example_model : Model ℚ := scenario ℚ

/-- A model with two baselines, for the unsupported configuration of `hessian`. -/
def example_model_two_baselines : Model ℚ :=
  { example_model with n_baselines := 2 }

/-- A degenerate window: one dimension with one event at 0, an empty window
(`end_time = 0`) and a negative period. -/
def degenerate_window : Model ℝ :=
  { n_nodes := 1, n_baselines := 1, period_length := -1, decays := [1],
    timestamps := fun _ => [0], end_time := 0, n_total_jumps := 1,
    weights_computed := false,
    L := fun _ => 0, C := fun _ _ => 0, Dg := fun _ _ => 0, Dgg := fun _ _ => 0,
    E := fun _ _ => 0, K := fun _ _ => 0 }

/-- The remainder `t mod p` of the floored division of `t` by `p`. -/
def fmod (t p : R) : R := t - p * (⌊t / p⌋ : R)

/-- The interval index in the words of the specification:
`⌊(t mod period_length) / period_length * n_baselines⌋`. -/
def interval_of (c : Config R) (t : R) : Int :=
  ⌊fmod t c.period_length / c.period_length * (c.n_baselines : R)⌋

/-- Two dimensions with one decay and one baseline, weights in place, every tensor zero
except `Dgg_1(0, 0) = g`. -/
def two_nodes (g : ℚ) : Model ℚ :=
  { n_nodes := 2, n_baselines := 1, period_length := 1, decays := [1],
    timestamps := fun _ => [], end_time := 1, n_total_jumps := 1,
    weights_computed := true,
    L := fun _ => 0, C := fun _ _ => 0, Dg := fun _ _ => 0,
    Dgg := fun j x => if j = 1 ∧ x = 0 then g else 0,
    E := fun _ _ => 0, K := fun _ _ => 0 }

/-- The two output arguments of `compute_penalization_constant`, each with its `size()`,
and for each the number of assignments made so far to every index: the counters are not
data of the program, they record its writes. -/
structure PenState (R : Type) where
  pen_mu : Nat → R
  pen_mu_size : Nat
  pen_L1_alpha : Nat → R
  pen_L1_alpha_size : Nat
  writes_mu : Nat → Nat
  writes_L1_alpha : Nat → Nat

/-- Assignment `pen_mu[i] = v`. -/
def PenState.set_mu (s : PenState R) (i : Nat) (v : R) : PenState R :=
  { s with pen_mu := Function.update s.pen_mu i v
           writes_mu := Function.update s.writes_mu i (s.writes_mu i + 1) }

/-- Assignment `pen_L1_alpha[index] = v`. -/
def PenState.set_L1_alpha (s : PenState R) (index : Nat) (v : R) : PenState R :=
  { s with pen_L1_alpha := Function.update s.pen_L1_alpha index v
           writes_L1_alpha :=
             Function.update s.writes_L1_alpha index (s.writes_L1_alpha index + 1) }

/-- Method `compute_penalization_constant`.  The library functions `exp`, `log`, `sqrt`
and the helpers `compute_bjk`, `compute_vjk` (not among the sources) are parameters. -/
def compute_penalization_constant (ex log sqrt : R → R) (compute_bjk : Nat → R → R)
    (compute_vjk : Nat → Nat → R → R) (c : Config R) (x : R)
    (pen_mu_const1 pen_mu_const2 pen_L1_const1 pen_L1_const2 normalization : R)
    (s : PenState R) : Except Failure Unit × PenState R :=
  if s.pen_mu_size ≠ c.n_nodes then
    (.error (.tick_error "Bad Size for array argument 'pen_mu'"), s)
  else if s.pen_L1_alpha_size ≠ c.n_nodes * c.n_nodes * c.n_decays then
    (.error (.tick_error "Bad Size for array argument 'pen_L1_alpha'"), s)
  else
    let s1 := forLoop c.n_nodes (fun i s =>
      let size_i : Nat := (c.timestamps i).length
      let m := (((6 * size_i : Nat) : R) + 56 * x) / (112 * x)
      let m := max m (ex 1)
      let l := 2 * log (log m)
      s.set_mu i
        (pen_mu_const1 *
            sqrt ((x + log (c.n_nodes : R) + l) * (size_i : R) / c.end_time / c.end_time) +
          pen_mu_const2 * (x + log (c.n_nodes : R) + l) / c.end_time)) s
    let s2 := forLoop c.n_decays (fun u s =>
      let beta_u := c.decay u
      forLoop c.n_nodes (fun j s =>
        forLoop c.n_nodes (fun k s =>
          let bjk := compute_bjk k beta_u
          let vjk := compute_vjk j k beta_u
          let temp := (6 * c.end_time * vjk + 56 * x * bjk * bjk) / (112 * x * bjk * bjk)
          let temp := max temp (ex 1)
          let ljk := 2 * log (log temp)
          let term1 := pen_L1_const1 *
            sqrt (((x + 2 * log (c.n_nodes : R) + ljk) * vjk) / c.end_time)
          let term2 := pen_L1_const2 * (x + 2 * log (c.n_nodes : R) + ljk) * bjk / c.end_time
          let term1 := term1 / sqrt normalization
          let term2 := term2 / normalization
          let index := j * c.n_nodes * c.n_decays + k * c.n_decays + u
          s.set_L1_alpha index (term1 + term2)) s) s) s1
    (.ok (), s2)

/-- The factor of the claim on `H_k(j, u)` in `E_i(j, u1 * n_decays + u)` at an event
time `t_k`: `decay_u1 / (decay_u1 + decay_u) * (1 - exp(-(decay_u + decay_u1) *
(end_time - t_k)))`. -/
def e_factor (ex : R → R) (c : Config R) (u u1 : Nat) (t_k : R) : R :=
  c.decay u1 / (c.decay u1 + c.decay u) *
    (1 - ex (-(c.decay u + c.decay u1) * (c.end_time - t_k)))

/-- The direct sum of the claim for `E_i(j, u1 * n_decays + u)`: over the events `t_k` of
node `i`, of the factor at `t_k` times the direct sum `H_k(j, u)` over the events of node
`j` before `t_k`. -/
def naive_E (ex : R → R) (c : Config R) (i j u u1 : Nat) : R :=
  ((c.timestamps i).map (fun t_k => e_factor ex c u u1 t_k * naive_inner ex c j u t_k)).sum

/-- Start of the `n`-th repetition of sub-interval `p`:
`n * period_length + p * period_length / n_baselines`. -/
def rep_start (c : Config R) (p n : Nat) : R :=
  (n : R) * c.period_length + ((p : R) * c.period_length) / (c.n_baselines : R)

/-- Lower end of the overlap of the repetition starting at `a` with `[t, end_time)`. -/
def overlap_lower (t a : R) : R := max t a

/-- Upper end of the overlap of the repetition starting at `a` with `[t, end_time)`. -/
def overlap_upper (c : Config R) (a : R) : R :=
  min (a + c.period_length / (c.n_baselines : R)) c.end_time

/-- What the repetition starting at `a` contributes to `Dg_i(u, p)` at the event `t`:
the difference of the exponentials at the ends of its overlap with `[t, end_time)`, and
nothing when there is no overlap. -/
def dg_term (ex : R → R) (c : Config R) (t decay_u a : R) : R :=
  if overlap_lower t a < overlap_upper c a then
    ex (-decay_u * (overlap_lower t a - t)) - ex (-decay_u * (overlap_upper c a - t))
  else 0

/-- One dimension with one event at 0 in the window `[0, 1)`, one decay 2 and one baseline
of period 1, weights not yet computed. -/
def one_event : Model ℝ :=
  { n_nodes := 1, n_baselines := 1, period_length := 1, decays := [2],
    timestamps := fun _ => [0], end_time := 1, n_total_jumps := 1,
    weights_computed := false,
    L := fun _ => 0, C := fun _ _ => 0, Dg := fun _ _ => 0, Dgg := fun _ _ => 0,
    E := fun _ _ => 0, K := fun _ _ => 0 }

/-- The direct sum of the claim for `Dgg_i(u, u1)`: over the events `t_k` of node `i`, of
`decay_u * decay_u1 / (decay_u + decay_u1) * (1 - exp(-(decay_u + decay_u1) * (end_time -
t_k)))`. -/
def naive_Dgg (ex : R → R) (c : Config R) (i u u1 : Nat) : R :=
  ((c.timestamps i).map (fun t_k =>
    c.decay u * c.decay u1 / (c.decay u + c.decay u1) *
      (1 - ex (-(c.decay u + c.decay u1) * (c.end_time - t_k))))).sum

/-- The point `x` brought back into the part `[t, end_time]` of the window that follows the
event `t`. -/
def window_clamp (c : Config R) (t x : R) : R := min (max x t) c.end_time

/-- A model with one dimension, four baseline intervals over the period `0.01` and one
event at `0.59`, both as the `double` nearest to the decimal. -/
def centi_period : Config ℚ :=
  { n_nodes := 1, n_baselines := 4, period_length := round_to_binary64 (1 / 100),
    decays := [1], timestamps := fun _ => [round_to_binary64 (59 / 100)], end_time := 1,
    n_total_jumps := 1 }

/-- A model with one dimension, one baseline interval over the period `0.1` and one event
at `1.7`, both as the `double` nearest to the decimal. -/
def deci_period : Config ℚ :=
  { n_nodes := 1, n_baselines := 1, period_length := round_to_binary64 (1 / 10),
    decays := [1], timestamps := fun _ => [round_to_binary64 (17 / 10)], end_time := 2,
    n_total_jumps := 1 }

/-- A model with one dimension, one baseline interval over the period `1` and one event
at `2 ^ 53`, two units before `end_time`. -/
def large_times : Config ℚ :=
  { n_nodes := 1, n_baselines := 1, period_length := 1, decays := [1],
    timestamps := fun _ => [9007199254740992], end_time := 9007199254740994,
    n_total_jumps := 1 }

/-- A model with two dimensions, one decay and no baseline interval. -/
def two_nodes_no_baseline : Model ℚ :=
  { n_nodes := 2, n_baselines := 0, period_length := 1, decays := [1],
    timestamps := fun _ => [], end_time := 1, n_total_jumps := 0,
    weights_computed := false, L := fun _ => 0, C := fun _ _ => 0, Dg := fun _ _ => 0,
    Dgg := fun _ _ => 0, E := fun _ _ => 0, K := fun _ _ => 0 }

/-- A model with one dimension, two baseline intervals over the period `-1`, one decay and
one event at `0 = end_time`, its weights not computed. -/
def backward_period : Model ℚ :=
  { n_nodes := 1, n_baselines := 2, period_length := -1, decays := [1],
    timestamps := fun _ => [0], end_time := 0, n_total_jumps := 1,
    weights_computed := false, L := fun _ => 0, C := fun _ _ => 0, Dg := fun _ _ => 0,
    Dgg := fun _ _ => 0, E := fun _ _ => 0, K := fun _ _ => 0 }

/-- The value that `compute_penalization_constant` assigns to `pen_mu[i]`. -/
def pen_mu_value (ex log sqrt : R → R) (c : Config R) (x pen_mu_const1 pen_mu_const2 : R)
    (i : Nat) : R :=
  let size_i : Nat := (c.timestamps i).length
  let m := (((6 * size_i : Nat) : R) + 56 * x) / (112 * x)
  let m := max m (ex 1)
  let l := 2 * log (log m)
  pen_mu_const1 *
      sqrt ((x + log (c.n_nodes : R) + l) * (size_i : R) / c.end_time / c.end_time) +
    pen_mu_const2 * (x + log (c.n_nodes : R) + l) / c.end_time

/-- The value that `compute_penalization_constant` assigns to
`pen_L1_alpha[j * n_nodes * n_decays + k * n_decays + u]`. -/
def pen_L1_alpha_value (ex log sqrt : R → R) (compute_bjk : Nat → R → R)
    (compute_vjk : Nat → Nat → R → R) (c : Config R)
    (x pen_L1_const1 pen_L1_const2 normalization : R) (j k u : Nat) : R :=
  let beta_u := c.decay u
  let bjk := compute_bjk k beta_u
  let vjk := compute_vjk j k beta_u
  let temp := (6 * c.end_time * vjk + 56 * x * bjk * bjk) / (112 * x * bjk * bjk)
  let temp := max temp (ex 1)
  let ljk := 2 * log (log temp)
  let term1 := pen_L1_const1 *
    sqrt (((x + 2 * log (c.n_nodes : R) + ljk) * vjk) / c.end_time)
  let term2 := pen_L1_const2 * (x + 2 * log (c.n_nodes : R) + ljk) * bjk / c.end_time
  let term1 := term1 / sqrt normalization
  let term2 := term2 / normalization
  term1 + term2

end Defs

section Loops

variable {σ : Type}

theorem forLoop_zero (body : Nat → σ → σ) (s : σ) : forLoop 0 body s = s := rfl

theorem forLoop_succ (n : Nat) (body : Nat → σ → σ) (s : σ) :
    forLoop (n + 1) body s = body n (forLoop n body s) := rfl

/-- Invariant rule for `forLoop`. -/
theorem forLoop_inv (Inv : Nat → σ → Prop) (n : Nat) (body : Nat → σ → σ) (s : σ)
    (h0 : Inv 0 s) (hstep : ∀ k, k < n → ∀ t, Inv k t → Inv (k + 1) (body k t)) :
    Inv n (forLoop n body s) := by
  induction n with
  | zero => exact h0
  | succ n ih =>
    rw [forLoop_succ]
    exact hstep n (Nat.lt_succ_self n) _
      (ih (fun k hk t ht => hstep k (Nat.lt_succ_of_lt hk) t ht))

/-- A loop whose body adds a state-independent increment adds the sum of the increments. -/
theorem forLoop_add {M : Type} [AddCommMonoid M] (n : Nat) (body : Nat → M → M)
    (d : Nat → M) (hbody : ∀ k, k < n → ∀ t, body k t = t + d k) (s : M) :
    forLoop n body s = s + ∑ k in Finset.range n, d k := by
  induction n with
  | zero => simp [forLoop]
  | succ n ih =>
    rw [forLoop_succ, hbody n (Nat.lt_succ_self n),
      ih (fun k hk t => hbody k (Nat.lt_succ_of_lt hk) t), Finset.sum_range_succ, add_assoc]

theorem forLoopE_zero (body : Nat → σ → Except Failure Unit × σ) (s : σ) :
    forLoopE 0 body s = (.ok (), s) := rfl

theorem forLoopE_succ_ok (n : Nat) (body : Nat → σ → Except Failure Unit × σ) (s t : σ)
    (h : forLoopE n body s = (.ok (), t)) : forLoopE (n + 1) body s = body n t := by
  simp only [forLoopE, h]

theorem forLoopE_succ_error (n : Nat) (body : Nat → σ → Except Failure Unit × σ) (s t : σ)
    (e : Failure) (h : forLoopE n body s = (.error e, t)) :
    forLoopE (n + 1) body s = (.error e, t) := by
  simp only [forLoopE, h]

/-- The two possible shapes of a status-and-state pair. -/
theorem status_cases (r : Except Failure Unit × σ) :
    (∃ t, r = (.ok (), t)) ∨ ∃ e t, r = (.error e, t) := by
  rcases r with ⟨st, t⟩
  cases st with
  | ok u => exact Or.inl ⟨t, rfl⟩
  | error e => exact Or.inr ⟨e, t, rfl⟩

/-- If the loop completed, so did the loop one iteration shorter. -/
theorem forLoopE_ok_prev (n : Nat) (body : Nat → σ → Except Failure Unit × σ) (s t : σ)
    (h : forLoopE (n + 1) body s = (.ok (), t)) :
    ∃ t0, forLoopE n body s = (.ok (), t0) ∧ body n t0 = (.ok (), t) := by
  rcases status_cases (forLoopE n body s) with ⟨t0, h0⟩ | ⟨e, t0, h0⟩
  · exact ⟨t0, h0, by rw [← forLoopE_succ_ok n body s t0 h0]; exact h⟩
  · rw [forLoopE_succ_error n body s t0 e h0] at h
    cases h

/-- Invariant rule for a completed `forLoopE`. -/
theorem forLoopE_ok_inv (Inv : Nat → σ → Prop) (n : Nat)
    (body : Nat → σ → Except Failure Unit × σ) (s t : σ)
    (h : forLoopE n body s = (.ok (), t)) (h0 : Inv 0 s)
    (hstep : ∀ k, k < n → ∀ a b, Inv k a → body k a = (.ok (), b) → Inv (k + 1) b) :
    Inv n t := by
  induction n generalizing t with
  | zero =>
    rw [forLoopE_zero] at h
    cases h
    exact h0
  | succ n ih =>
    obtain ⟨t0, h1, h2⟩ := forLoopE_ok_prev n body s t h
    exact hstep n (Nat.lt_succ_self n) t0 t
      (ih t0 h1 (fun k hk a b ha hb => hstep k (Nat.lt_succ_of_lt hk) a b ha hb)) h2

/-- Invariant rule for `forLoopE` whatever its status. -/
theorem forLoopE_inv_any (Inv : σ → Prop) (n : Nat)
    (body : Nat → σ → Except Failure Unit × σ) (s : σ) (h0 : Inv s)
    (hstep : ∀ k, k < n → ∀ a, Inv a → Inv (body k a).2) :
    Inv (forLoopE n body s).2 := by
  induction n with
  | zero => exact h0
  | succ n ih =>
    have ih1 := ih (fun k hk a ha => hstep k (Nat.lt_succ_of_lt hk) a ha)
    rcases status_cases (forLoopE n body s) with ⟨t0, h1⟩ | ⟨e, t0, h1⟩
    · rw [forLoopE_succ_ok n body s t0 h1]
      rw [h1] at ih1
      exact hstep n (Nat.lt_succ_self n) t0 ih1
    · rw [forLoopE_succ_error n body s t0 e h1]
      rw [h1] at ih1
      exact ih1

/-- Completion rule for `forLoopE`: if every iteration completes from every state satisfying
the invariant, the loop completes. -/
theorem forLoopE_complete (Inv : Nat → σ → Prop) (n : Nat)
    (body : Nat → σ → Except Failure Unit × σ) (s : σ) (h0 : Inv 0 s)
    (hstep : ∀ k, k < n → ∀ a, Inv k a → ∃ b, body k a = (.ok (), b) ∧ Inv (k + 1) b) :
    ∃ t, forLoopE n body s = (.ok (), t) ∧ Inv n t := by
  induction n with
  | zero => exact ⟨s, rfl, h0⟩
  | succ n ih =>
    obtain ⟨t0, h1, h2⟩ := ih (fun k hk a ha => hstep k (Nat.lt_succ_of_lt hk) a ha)
    obtain ⟨b, hb1, hb2⟩ := hstep n (Nat.lt_succ_self n) t0 h2
    exact ⟨b, by rw [forLoopE_succ_ok n body s t0 h1]; exact hb1, hb2⟩

/-- A loop never fails when none of its iterations throws a `TICK_ERROR`. -/
theorem forLoopE_no_tick_error (n : Nat) (body : Nat → σ → Except Failure Unit × σ) (s : σ)
    (hstep : ∀ k, k < n → ∀ a msg, (body k a).1 ≠ .error (.tick_error msg)) (msg : String) :
    (forLoopE n body s).1 ≠ .error (.tick_error msg) := by
  induction n with
  | zero => simp [forLoopE]
  | succ n ih =>
    rcases status_cases (forLoopE n body s) with ⟨t0, h1⟩ | ⟨e, t0, h1⟩
    · rw [forLoopE_succ_ok n body s t0 h1]
      exact hstep n (Nat.lt_succ_self n) t0 msg
    · rw [forLoopE_succ_error n body s t0 e h1]
      have := ih (fun k hk a msg => hstep k (Nat.lt_succ_of_lt hk) a msg)
      rw [h1] at this
      exact this

/-- A projection of the state that each iteration transforms on its own is transformed by
the loop of those transformations. -/
theorem forLoop_map {τ : Type} (f : σ → τ) (n : Nat) (body : Nat → σ → σ)
    (g : Nat → τ → τ) (h : ∀ k s, f (body k s) = g k (f s)) (s : σ) :
    f (forLoop n body s) = forLoop n g (f s) := by
  induction n with
  | zero => rfl
  | succ n ih => rw [forLoop_succ, forLoop_succ, h, ih]

/-- In a completed loop every iteration completed from some state. -/
theorem forLoopE_ok_all (n : Nat) (body : Nat → σ → Except Failure Unit × σ) (s t : σ)
    (h : forLoopE n body s = (.ok (), t)) (k : Nat) (hk : k < n) :
    ∃ a b, body k a = (.ok (), b) := by
  induction n generalizing t with
  | zero => omega
  | succ n ih =>
    obtain ⟨t0, h1, h2⟩ := forLoopE_ok_prev n body s t h
    rcases Nat.lt_succ_iff_lt_or_eq.mp hk with hlt | heq
    · exact ih t0 h1 hlt
    · subst heq
      exact ⟨t0, t, h2⟩

end Loops

section Arrays

variable {R : Type}

theorem init_to_zero_apply [Zero R] (a : Nat → R) (start size x : Nat) :
    init_to_zero a start size x = if start ≤ x ∧ x < start + size then 0 else a x := by
  unfold init_to_zero
  induction size with
  | zero =>
    have : ¬ (start ≤ x ∧ x < start + 0) := by omega
    rw [if_neg this]
    rfl
  | succ n ih =>
    rw [forLoop_succ]
    by_cases hx : x = start + n
    · subst hx
      have : start ≤ start + n ∧ start + n < start + (n + 1) := by omega
      simp [this]
    · rw [Function.update_noteq hx, ih]
      by_cases h1 : start ≤ x ∧ x < start + n
      · have : start ≤ x ∧ x < start + (n + 1) := by omega
        simp [h1, this]
      · have : ¬ (start ≤ x ∧ x < start + (n + 1)) := by omega
        simp [h1, this]

theorem init_to_zero_zero [Zero R] (start size : Nat) :
    init_to_zero (fun _ => (0 : R)) start size = fun _ => 0 := by
  funext x
  rw [init_to_zero_apply]
  split <;> rfl

theorem arraySum_eq [AddCommMonoid R] (n : Nat) (a : Nat → R) :
    arraySum n a = ∑ x in Finset.range n, a x := by
  unfold arraySum
  rw [forLoop_add n _ a (fun _ _ _ => rfl), zero_add]

end Arrays

section Baseline

variable {R : Type} [LinearOrderedField R] [FloorRing R]

/-- With a positive period and at least one baseline, the interval index is in range. -/
theorem get_baseline_interval_lt (c : Config R) (t : R) (hP : 0 < c.period_length)
    (hb : 1 ≤ c.n_baselines) : get_baseline_interval c t < c.n_baselines := by
  unfold get_baseline_interval
  have hfl : (⌊t / c.period_length⌋ : R) * c.period_length ≤ t := by
    have := Int.floor_le (t / c.period_length)
    calc (⌊t / c.period_length⌋ : R) * c.period_length
        ≤ t / c.period_length * c.period_length :=
          mul_le_mul_of_nonneg_right this hP.le
      _ = t := div_mul_cancel₀ t hP.ne'
  have hfu : t < ((⌊t / c.period_length⌋ : R) + 1) * c.period_length := by
    have := Int.lt_floor_add_one (t / c.period_length)
    calc t = t / c.period_length * c.period_length := (div_mul_cancel₀ t hP.ne').symm
      _ < ((⌊t / c.period_length⌋ : R) + 1) * c.period_length :=
          mul_lt_mul_of_pos_right this hP
  simp only
  split
  · omega
  · have hb0 : (0 : R) < (c.n_baselines : R) := by exact_mod_cast hb
    have h0 : 0 ≤ (t - (⌊t / c.period_length⌋ : R) * c.period_length) / c.period_length *
        (c.n_baselines : R) :=
      mul_nonneg (div_nonneg (by linarith) hP.le) hb0.le
    rw [Nat.floor_lt h0]
    have h1 : (t - (⌊t / c.period_length⌋ : R) * c.period_length) / c.period_length < 1 := by
      rw [div_lt_one hP]
      linarith
    calc (t - (⌊t / c.period_length⌋ : R) * c.period_length) / c.period_length *
          (c.n_baselines : R) < 1 * (c.n_baselines : R) := mul_lt_mul_of_pos_right h1 hb0
      _ = (c.n_baselines : R) := one_mul _

/-- Clamped remainders of consecutive sub-intervals of width `w` add up to the remainder,
capped at the total width. -/
theorem sum_clamp (w r : R) (hw : 0 ≤ w) (hr : 0 ≤ r) (n : Nat) :
    ∑ p in Finset.range n, min (max (r - (p : R) * w) 0) w = min r ((n : R) * w) := by
  induction n with
  | zero => simp [hr]
  | succ n ih =>
    rw [Finset.sum_range_succ, ih]
    push_cast
    rcases le_total r ((n : R) * w) with h | h
    · rw [min_eq_left h, max_eq_right (by linarith), min_eq_left hw,
        min_eq_left (by nlinarith)]
      ring
    · rw [min_eq_right h, max_eq_left (by linarith)]
      rcases le_total (r - (n : R) * w) w with h2 | h2
      · rw [min_eq_left h2, min_eq_left (by linarith)]
        ring
      · rw [min_eq_right h2, min_eq_right (by linarith)]
        ring

/-- The interval lengths add up to the window length. -/
theorem sum_baseline_interval_length (c : Config R) (hb : 1 ≤ c.n_baselines)
    (hP : 0 < c.period_length) (hT : 0 ≤ c.end_time) :
    ∑ p in Finset.range c.n_baselines, get_baseline_interval_length c p = c.end_time := by
  unfold get_baseline_interval_length
  have hb0 : (0 : R) < (c.n_baselines : R) := by exact_mod_cast hb
  have hx : 0 ≤ c.end_time / c.period_length := div_nonneg hT hP.le
  have hfl : ((⌊c.end_time / c.period_length⌋₊ : Nat) : R) * c.period_length ≤ c.end_time := by
    calc ((⌊c.end_time / c.period_length⌋₊ : Nat) : R) * c.period_length
        ≤ c.end_time / c.period_length * c.period_length :=
          mul_le_mul_of_nonneg_right (Nat.floor_le hx) hP.le
      _ = c.end_time := div_mul_cancel₀ _ hP.ne'
  have hfu : c.end_time <
      (((⌊c.end_time / c.period_length⌋₊ : Nat) : R) + 1) * c.period_length := by
    calc c.end_time = c.end_time / c.period_length * c.period_length :=
          (div_mul_cancel₀ _ hP.ne').symm
      _ < (((⌊c.end_time / c.period_length⌋₊ : Nat) : R) + 1) * c.period_length :=
          mul_lt_mul_of_pos_right (Nat.lt_floor_add_one _) hP
  have hw : (c.n_baselines : R) * (c.period_length / (c.n_baselines : R)) = c.period_length :=
    mul_div_cancel₀ _ hb0.ne'
  simp only
  rw [Finset.sum_add_distrib, Finset.sum_const, Finset.card_range, nsmul_eq_mul,
    sum_clamp _ _ (div_nonneg hP.le hb0.le) (by linarith), hw, min_eq_left (by linarith)]
  calc (c.n_baselines : R) * (((⌊c.end_time / c.period_length⌋₊ : Nat) : R) *
        (c.period_length / (c.n_baselines : R))) +
        (c.end_time - ((⌊c.end_time / c.period_length⌋₊ : Nat) : R) * c.period_length)
      = ((⌊c.end_time / c.period_length⌋₊ : Nat) : R) *
          ((c.n_baselines : R) * (c.period_length / (c.n_baselines : R))) +
        (c.end_time - ((⌊c.end_time / c.period_length⌋₊ : Nat) : R) * c.period_length) := by
        ring
    _ = c.end_time := by rw [hw]; ring

/-- With a single baseline the only interval lasts for the whole window. -/
theorem baseline_interval_length_single (c : Config R) (hb : c.n_baselines = 1)
    (hP : 0 < c.period_length) (hT : 0 ≤ c.end_time) :
    get_baseline_interval_length c 0 = c.end_time := by
  have h := sum_baseline_interval_length c (by omega) hP hT
  rw [hb, Finset.sum_range_one] at h
  exact h

/-- With a positive period the offset of `t` in its period lies in `[0, period_length)`. -/
theorem first_period_bounds (c : Config R) (t : R) (hP : 0 < c.period_length) :
    0 ≤ t - (⌊t / c.period_length⌋ : R) * c.period_length ∧
      t - (⌊t / c.period_length⌋ : R) * c.period_length < c.period_length := by
  have hfl : (⌊t / c.period_length⌋ : R) * c.period_length ≤ t := by
    have := Int.floor_le (t / c.period_length)
    calc (⌊t / c.period_length⌋ : R) * c.period_length
        ≤ t / c.period_length * c.period_length :=
          mul_le_mul_of_nonneg_right this hP.le
      _ = t := div_mul_cancel₀ t hP.ne'
  have hfu : t < ((⌊t / c.period_length⌋ : R) + 1) * c.period_length := by
    have := Int.lt_floor_add_one (t / c.period_length)
    calc t = t / c.period_length * c.period_length := (div_mul_cancel₀ t hP.ne').symm
      _ < ((⌊t / c.period_length⌋ : R) + 1) * c.period_length :=
          mul_lt_mul_of_pos_right this hP
  constructor <;> linarith

/-- With a positive period the boundary branch of `get_baseline_interval` is not taken. -/
theorem get_baseline_interval_eq (c : Config R) (t : R) (hP : 0 < c.period_length) :
    get_baseline_interval c t =
      ⌊(t - (⌊t / c.period_length⌋ : R) * c.period_length) / c.period_length *
        (c.n_baselines : R)⌋₊ := by
  unfold get_baseline_interval
  simp only
  rw [if_neg (first_period_bounds c t hP).2.ne]

/-- The value of `get_n_coeffs` in `ulong` arithmetic is the formula reduced modulo
`2 ^ w`. -/
theorem get_n_coeffs_ulong_eq (w : Nat) (m : Config R) :
    get_n_coeffs_ulong w m = get_n_coeffs m % 2 ^ w := by
  unfold get_n_coeffs_ulong get_n_coeffs ulong_add ulong_mul
  have h : (m.n_nodes * m.n_nodes % 2 ^ w * m.n_decays) % 2 ^ w =
      (m.n_nodes * m.n_nodes * m.n_decays) % 2 ^ w :=
    (Nat.mod_modEq (m.n_nodes * m.n_nodes) (2 ^ w)).mul_right m.n_decays
  rw [h, ← Nat.add_mod]

/-- Values of `round_to_binary64`: the `double`s nearest to `0.1` and `0.01`, a tie rounded
to the even neighbour on either side, the smallest subnormal, and a `double` left as it
is. -/
theorem round_to_binary64_values :
    round_to_binary64 (1 / 10) = 3602879701896397 / 36028797018963968 ∧
    round_to_binary64 (1 / 100) = 5764607523034235 / 576460752303423488 ∧
    round_to_binary64 (9007199254740992 + 1) = 9007199254740992 ∧
    round_to_binary64 (9007199254740992 + 3) = 9007199254740992 + 4 ∧
    round_to_binary64 (pow2 (-1075) * 3 / 2) = pow2 (-1074) ∧
    round_to_binary64 (round_to_binary64 (59 / 100)) = round_to_binary64 (59 / 100) := by
  decide!

end Baseline

section Weights

variable {R : Type} [LinearOrderedField R] [FloorRing R]

/-- The `while (lower < end_time)` loop completes when the fuel covers the window. -/
theorem dg_while_complete (ex : R → R) (c : Config R) (t_k_i decay_u : R) (pos : Nat)
    (fuel : Nat) :
    ∀ (lower : R) (Dg_i : Nat → R), c.end_time ≤ lower + (fuel : R) * c.period_length →
      ∃ Dg_i1, dg_while ex c t_k_i decay_u pos (fuel + 1) lower Dg_i = (.ok (), Dg_i1) := by
  induction fuel with
  | zero =>
    intro lower Dg_i h
    have : ¬ lower < c.end_time := by
      simp only [Nat.cast_zero, zero_mul, add_zero] at h
      exact not_lt.mpr h
    exact ⟨Dg_i, by simp [dg_while, this]⟩
  | succ n ih =>
    intro lower Dg_i h
    by_cases hl : lower < c.end_time
    · rw [dg_while, if_pos hl]
      apply ih
      push_cast at h
      linarith
    · exact ⟨Dg_i, by rw [dg_while, if_neg hl]⟩

/-- The `while (lower < end_time)` loop never throws a `TICK_ERROR`. -/
theorem dg_while_no_tick_error (ex : R → R) (c : Config R) (t_k_i decay_u : R) (pos : Nat)
    (fuel : Nat) (msg : String) :
    ∀ (lower : R) (Dg_i : Nat → R),
      (dg_while ex c t_k_i decay_u pos fuel lower Dg_i).1 ≠ .error (.tick_error msg) := by
  induction fuel with
  | zero =>
    intro lower Dg_i
    simp [dg_while]
  | succ n ih =>
    intro lower Dg_i
    rw [dg_while]
    split
    · exact ih _ _
    · simp

theorem decay_step_complete (ex : R → R) (c : Config R) (t_k_i : R)
    (exponentials : Nat → Nat → R) (u : Nat) (s : WState R) (hP : 0 < c.period_length) :
    ∃ s1, decay_step ex (enough_fuel c) c t_k_i exponentials u s = (.ok (), s1) := by
  unfold decay_step
  obtain ⟨Dg1, h1, -⟩ := forLoopE_complete (fun _ _ => True) c.n_baselines
    (fun p Dg_i =>
      let n_passed_periods : Nat := ⌊t_k_i / c.period_length⌋₊
      let lower := (n_passed_periods : R) * c.period_length +
        ((p : R) * c.period_length) / (c.n_baselines : R)
      dg_while ex c t_k_i (c.decay u) (idx2 c.n_baselines u p) (enough_fuel c) lower Dg_i)
    s.Dg_i trivial (by
      intro p _ a _
      obtain ⟨b, hb⟩ := dg_while_complete ex c t_k_i (c.decay u) (idx2 c.n_baselines u p)
        ⌈c.end_time / c.period_length⌉₊
        ((⌊t_k_i / c.period_length⌋₊ : R) * c.period_length +
          ((p : R) * c.period_length) / (c.n_baselines : R)) a (by
          have h1 : c.end_time ≤ (⌈c.end_time / c.period_length⌉₊ : R) * c.period_length := by
            calc c.end_time = c.end_time / c.period_length * c.period_length :=
                  (div_mul_cancel₀ _ hP.ne').symm
              _ ≤ (⌈c.end_time / c.period_length⌉₊ : R) * c.period_length :=
                  mul_le_mul_of_nonneg_right (Nat.le_ceil _) hP.le
          have h2 : 0 ≤ (⌊t_k_i / c.period_length⌋₊ : R) * c.period_length :=
            mul_nonneg (Nat.cast_nonneg _) hP.le
          have h3 : 0 ≤ ((p : R) * c.period_length) / (c.n_baselines : R) :=
            div_nonneg (mul_nonneg (Nat.cast_nonneg _) hP.le) (Nat.cast_nonneg _)
          linarith)
      exact ⟨b, hb, trivial⟩)
  simp only [h1]
  exact ⟨_, rfl⟩

theorem decay_step_no_tick_error (ex : R → R) (fuel : Nat) (c : Config R) (t_k_i : R)
    (exponentials : Nat → Nat → R) (u : Nat) (s : WState R) (msg : String) :
    (decay_step ex fuel c t_k_i exponentials u s).1 ≠ .error (.tick_error msg) := by
  unfold decay_step
  have h := forLoopE_no_tick_error c.n_baselines
    (fun p Dg_i =>
      let n_passed_periods : Nat := ⌊t_k_i / c.period_length⌋₊
      let lower := (n_passed_periods : R) * c.period_length +
        ((p : R) * c.period_length) / (c.n_baselines : R)
      dg_while ex c t_k_i (c.decay u) (idx2 c.n_baselines u p) fuel lower Dg_i)
    s.Dg_i (fun p _ a msg => dg_while_no_tick_error ex c t_k_i _ _ fuel msg _ a) msg
  rcases status_cases (forLoopE c.n_baselines
    (fun p Dg_i =>
      let n_passed_periods : Nat := ⌊t_k_i / c.period_length⌋₊
      let lower := (n_passed_periods : R) * c.period_length +
        ((p : R) * c.period_length) / (c.n_baselines : R)
      dg_while ex c t_k_i (c.decay u) (idx2 c.n_baselines u p) fuel lower Dg_i)
    s.Dg_i) with ⟨t, ht⟩ | ⟨e, t, ht⟩
  · simp only [ht]
    simp
  · simp only [ht] at h ⊢
    exact h

theorem weights_step_complete (ex : R → R) (c : Config R) (i k : Nat) (s : WState R)
    (hP : 0 < c.period_length) :
    ∃ s1, weights_step ex (enough_fuel c) c i k s = (.ok (), s1) := by
  unfold weights_step
  obtain ⟨t, ht, -⟩ := forLoopE_complete (fun _ _ => True) c.n_decays
    (decay_step ex (enough_fuel c) c ((c.timestamps i).getD k 0)
      (fun u u1 => ex (-(c.decay u1 + c.decay u) * (c.end_time - (c.timestamps i).getD k 0))))
    (forLoop c.n_nodes (source_step ex c k ((c.timestamps i).getD k 0)
      (fun u u1 => ex (-(c.decay u1 + c.decay u) * (c.end_time - (c.timestamps i).getD k 0)))
      (fun u => ex (-c.decay u *
        ((c.timestamps i).getD k 0 - (c.timestamps i).getD (k - 1) 0))))
      { s with K_i := addAt s.K_i (get_baseline_interval c ((c.timestamps i).getD k 0)) 1 })
    trivial (by
      intro u _ a _
      obtain ⟨b, hb⟩ := decay_step_complete ex c ((c.timestamps i).getD k 0)
        (fun u u1 => ex (-(c.decay u1 + c.decay u) *
          (c.end_time - (c.timestamps i).getD k 0))) u a hP
      exact ⟨b, hb, trivial⟩)
  exact ⟨t, ht⟩

theorem weights_step_no_tick_error (ex : R → R) (fuel : Nat) (c : Config R) (i k : Nat)
    (s : WState R) (msg : String) :
    (weights_step ex fuel c i k s).1 ≠ .error (.tick_error msg) := by
  unfold weights_step
  exact forLoopE_no_tick_error _ _ _
    (fun u _ a msg => decay_step_no_tick_error ex fuel c _ _ u a msg) msg

/-- With a positive period the loop over `k` completes. -/
theorem weights_loop_complete (ex : R → R) (c : Config R) (i : Nat)
    (hP : 0 < c.period_length) :
    ∃ s, weights_loop ex (enough_fuel c) c i = (.ok (), s) := by
  obtain ⟨t, ht, -⟩ := forLoopE_complete (fun _ _ => True) (c.timestamps i).length
    (weights_step ex (enough_fuel c) c i) wstate_zero trivial (by
      intro k _ a _
      obtain ⟨b, hb⟩ := weights_step_complete ex c i k a hP
      exact ⟨b, hb, trivial⟩)
  exact ⟨t, ht⟩

/-- The loop over `u` filling `Dg_i` and `Dgg_i` completes at an event whose
`while (lower < end_time)` loops are all covered by the fuel. -/
theorem decay_step_complete_of (ex : R → R) (fuel : Nat) (c : Config R) (t_k_i : R)
    (exponentials : Nat → Nat → R) (u : Nat) (s : WState R)
    (h : ∀ p, p < c.n_baselines →
      c.end_time ≤ (⌊t_k_i / c.period_length⌋₊ : R) * c.period_length +
        ((p : R) * c.period_length) / (c.n_baselines : R) + (fuel : R) * c.period_length) :
    ∃ s1, decay_step ex (fuel + 1) c t_k_i exponentials u s = (.ok (), s1) := by
  unfold decay_step
  obtain ⟨Dg1, h1, -⟩ := forLoopE_complete (fun _ _ => True) c.n_baselines
    (fun p Dg_i =>
      let n_passed_periods : Nat := ⌊t_k_i / c.period_length⌋₊
      let lower := (n_passed_periods : R) * c.period_length +
        ((p : R) * c.period_length) / (c.n_baselines : R)
      dg_while ex c t_k_i (c.decay u) (idx2 c.n_baselines u p) (fuel + 1) lower Dg_i)
    s.Dg_i trivial (by
      intro p hp a _
      obtain ⟨b, hb⟩ := dg_while_complete ex c t_k_i (c.decay u) (idx2 c.n_baselines u p)
        fuel ((⌊t_k_i / c.period_length⌋₊ : R) * c.period_length +
          ((p : R) * c.period_length) / (c.n_baselines : R)) a (h p hp)
      exact ⟨b, hb, trivial⟩)
  simp only [h1]
  exact ⟨_, rfl⟩

/-- The loop over `k` of dimension `i` completes when the fuel covers the
`while (lower < end_time)` loops of all its events. -/
theorem weights_loop_complete_of (ex : R → R) (fuel : Nat) (c : Config R) (i : Nat)
    (h : ∀ k, k < (c.timestamps i).length → ∀ p, p < c.n_baselines →
      c.end_time ≤ (⌊(c.timestamps i).getD k 0 / c.period_length⌋₊ : R) * c.period_length +
        ((p : R) * c.period_length) / (c.n_baselines : R) + (fuel : R) * c.period_length) :
    ∃ s, weights_loop ex (fuel + 1) c i = (.ok (), s) := by
  obtain ⟨t, ht, -⟩ := forLoopE_complete (fun _ _ => True) (c.timestamps i).length
    (weights_step ex (fuel + 1) c i) wstate_zero trivial (by
      intro k hk a _
      unfold weights_step
      obtain ⟨t, ht, -⟩ := forLoopE_complete (fun _ _ => True) c.n_decays
        (decay_step ex (fuel + 1) c ((c.timestamps i).getD k 0)
          (fun u u1 => ex (-(c.decay u1 + c.decay u) *
            (c.end_time - (c.timestamps i).getD k 0))))
        (forLoop c.n_nodes (source_step ex c k ((c.timestamps i).getD k 0)
          (fun u u1 => ex (-(c.decay u1 + c.decay u) *
            (c.end_time - (c.timestamps i).getD k 0)))
          (fun u => ex (-c.decay u *
            ((c.timestamps i).getD k 0 - (c.timestamps i).getD (k - 1) 0))))
          { a with K_i := addAt a.K_i (get_baseline_interval c ((c.timestamps i).getD k 0)) 1 })
        trivial (by
          intro u _ b _
          obtain ⟨b1, hb1⟩ := decay_step_complete_of ex fuel c ((c.timestamps i).getD k 0)
            (fun u u1 => ex (-(c.decay u1 + c.decay u) *
              (c.end_time - (c.timestamps i).getD k 0))) u b (h k hk)
          exact ⟨b1, hb1, trivial⟩)
      exact ⟨t, ht, trivial⟩)
  exact ⟨t, ht⟩

/-- The `L` written by the first loop of `compute_weights_i`. -/
theorem forLoop_update_if (n : Nat) (cond : Nat → Prop) [DecidablePred cond] (g : Nat → R)
    (L : Nat → R) (x : Nat) :
    forLoop n (fun p L => if cond p then Function.update L p (g p) else L) L x =
      if x < n ∧ cond x then g x else L x := by
  induction n with
  | zero => simp [forLoop]
  | succ n ih =>
    rw [forLoop_succ]
    by_cases hx : x = n
    · subst hx
      by_cases hc : cond x
      · simp [hc]
      · simp only [hc, if_false, and_false]
        rw [ih]
        simp [hc]
    · have h1 : (x < n + 1 ∧ cond x) ↔ (x < n ∧ cond x) := by
        constructor
        · rintro ⟨h, hc⟩
          exact ⟨by omega, hc⟩
        · rintro ⟨h, hc⟩
          exact ⟨by omega, hc⟩
      by_cases hc : cond n
      · simp only [hc, if_true]
        rw [Function.update_noteq hx, ih]
        simp only [h1]
      · simp only [hc, if_false]
        rw [ih]
        simp only [h1]

theorem allocate_weights_spec (ex : R → R) (fuel : Nat) (m : Model R) (h : m.n_nodes ≠ 0) :
    ∃ m1, allocate_weights m = (.ok (), m1) ∧
      PartialWeights ex fuel m.toConfig m.weights_computed 0 m1 := by
  unfold allocate_weights
  rw [if_neg h]
  refine ⟨_, rfl, ?_⟩
  have key := forLoop_inv (fun _ (m1 : Model R) =>
      m1.toConfig = m.toConfig ∧ m1.weights_computed = m.weights_computed ∧
      m1.L = (fun _ => 0) ∧ m1.C = (fun _ _ => 0) ∧ m1.Dg = (fun _ _ => 0) ∧
      m1.Dgg = (fun _ _ => 0) ∧ m1.E = (fun _ _ => 0) ∧ m1.K = (fun _ _ => 0))
    m.n_nodes
    (fun i (m1 : Model R) =>
      { m1 with
        C := Function.update m1.C i (init_to_zero (fun _ => 0) 0 (m.n_nodes * m.n_decays))
        Dg := Function.update m1.Dg i (init_to_zero (fun _ => 0) 0 (m.n_decays * m.n_baselines))
        Dgg := Function.update m1.Dgg i (init_to_zero (fun _ => 0) 0 (m.n_decays * m.n_decays))
        E := Function.update m1.E i
          (init_to_zero (fun _ => 0) 0 (m.n_nodes * (m.n_decays * m.n_decays)))
        K := Function.update m1.K i (init_to_zero (fun _ => 0) 0 m.n_baselines) })
    { m with
        L := init_to_zero (fun _ => 0) 0 m.n_baselines
        C := fun _ _ => 0
        Dgg := fun _ _ => 0
        E := fun _ _ => 0
        Dg := fun _ _ => 0
        K := fun _ _ => 0 }
    ⟨rfl, rfl, init_to_zero_zero _ _, rfl, rfl, rfl, rfl, rfl⟩
    (by
      rintro k - t ⟨h1, h2, h3, h4, h5, h6, h7, h8⟩
      refine ⟨h1, h2, h3, ?_, ?_, ?_, ?_, ?_⟩
      · show Function.update t.C k _ = _
        rw [init_to_zero_zero, h4]
        exact Function.update_eq_self k (fun _ _ => (0 : R))
      · show Function.update t.Dg k _ = _
        rw [init_to_zero_zero, h5]
        exact Function.update_eq_self k (fun _ _ => (0 : R))
      · show Function.update t.Dgg k _ = _
        rw [init_to_zero_zero, h6]
        exact Function.update_eq_self k (fun _ _ => (0 : R))
      · show Function.update t.E k _ = _
        rw [init_to_zero_zero, h7]
        exact Function.update_eq_self k (fun _ _ => (0 : R))
      · show Function.update t.K k _ = _
        rw [init_to_zero_zero, h8]
        exact Function.update_eq_self k (fun _ _ => (0 : R)))
  obtain ⟨h1, h2, h3, h4, h5, h6, h7, h8⟩ := key
  exact
    { config := h1
      flag := h2
      done := fun i hi => absurd hi (Nat.not_lt_zero i)
      todo := fun i _ => by rw [h4, h5, h6, h7, h8]; exact ⟨rfl, rfl, rfl, rfl, rfl⟩
      lengths := fun p => by
        rw [h3]
        have : ¬ (p < m.n_baselines ∧ p % m.n_nodes < 0) := by omega
        rw [if_neg this] }

/-- On a dimension whose arrays are still zero, `compute_weights_i` runs `weights_loop`. -/
theorem compute_weights_i_fresh (ex : R → R) (fuel : Nat) (i : Nat) (m : Model R)
    (hC : m.C i = fun _ => 0) (hDg : m.Dg i = fun _ => 0) (hDgg : m.Dgg i = fun _ => 0)
    (hE : m.E i = fun _ => 0) (hK : m.K i = fun _ => 0) :
    compute_weights_i ex fuel i m =
      ((weights_loop ex fuel m.toConfig i).1,
        { m with
          L := forLoop m.n_baselines (fun p L =>
            if p % m.n_nodes = i then
              Function.update L p (get_baseline_interval_length m.toConfig p)
            else L) m.L
          C := Function.update m.C i (weights_loop ex fuel m.toConfig i).2.C_i
          Dg := Function.update m.Dg i (weights_loop ex fuel m.toConfig i).2.Dg_i
          Dgg := Function.update m.Dgg i (weights_loop ex fuel m.toConfig i).2.Dgg_i
          E := Function.update m.E i (weights_loop ex fuel m.toConfig i).2.E_i
          K := Function.update m.K i (weights_loop ex fuel m.toConfig i).2.K_i }) := by
  unfold compute_weights_i weights_loop wstate_zero
  simp only [hC, hDg, hDgg, hE, hK, init_to_zero_zero]

theorem compute_weights_i_step (ex : R → R) (fuel : Nat) (c : Config R) (wc : Bool) (k : Nat)
    (a : Model R) (ha : PartialWeights ex fuel c wc k a) :
    (compute_weights_i ex fuel k a).1 = (weights_loop ex fuel c k).1 ∧
    ((compute_weights_i ex fuel k a).1 = .ok () →
      PartialWeights ex fuel c wc (k + 1) (compute_weights_i ex fuel k a).2) := by
  obtain ⟨hC, hDg, hDgg, hE, hK⟩ := ha.todo k (Nat.le_refl k)
  rw [compute_weights_i_fresh ex fuel k a hC hDg hDgg hE hK, ha.config]
  refine ⟨rfl, fun hok => ?_⟩
  have hloop : weights_loop ex fuel c k = (.ok (), (weights_loop ex fuel c k).2) :=
    Prod.ext hok rfl
  refine
    { config := rfl
      flag := ha.flag
      done := ?_
      todo := ?_
      lengths := ?_ }
  · intro i hi
    by_cases hik : i = k
    · subst hik
      refine ⟨(weights_loop ex fuel c i).2, hloop, ?_, ?_, ?_, ?_, ?_⟩ <;>
        simp only [Function.update_same]
    · obtain ⟨s, hs1, hs2, hs3, hs4, hs5, hs6⟩ := ha.done i (by omega)
      refine ⟨s, hs1, ?_, ?_, ?_, ?_, ?_⟩ <;>
        simp only [Function.update_noteq hik] <;> assumption
  · intro i hi
    have hik : i ≠ k := by omega
    obtain ⟨h1, h2, h3, h4, h5⟩ := ha.todo i (by omega)
    refine ⟨?_, ?_, ?_, ?_, ?_⟩ <;>
      simp only [Function.update_noteq hik] <;> assumption
  · intro p
    show forLoop c.n_baselines _ a.L p = _
    rw [forLoop_update_if, ha.lengths p]
    by_cases h1 : p < c.n_baselines ∧ p % c.n_nodes = k
    · have h2 : p < c.n_baselines ∧ p % c.n_nodes < k + 1 := ⟨h1.1, by omega⟩
      rw [if_pos h1, if_pos h2]
    · rw [if_neg h1]
      by_cases h3 : p < c.n_baselines ∧ p % c.n_nodes < k
      · have h2 : p < c.n_baselines ∧ p % c.n_nodes < k + 1 := ⟨h3.1, by omega⟩
        rw [if_pos h3, if_pos h2]
      · have h2 : ¬ (p < c.n_baselines ∧ p % c.n_nodes < k + 1) := by
          rintro ⟨h4, h5⟩
          rcases Nat.lt_succ_iff_lt_or_eq.mp h5 with h6 | h6
          · exact h3 ⟨h4, h6⟩
          · exact h1 ⟨h4, h6⟩
        rw [if_neg h3, if_neg h2]

theorem PartialWeights.set_flag {ex : R → R} {fuel : Nat} {c : Config R} {wc : Bool}
    {k : Nat} {m : Model R} (h : PartialWeights ex fuel c wc k m) (b : Bool) :
    PartialWeights ex fuel c b k { m with weights_computed := b } :=
  { config := h.config
    flag := rfl
    done := h.done
    todo := h.todo
    lengths := h.lengths }

/-- What a completed `compute_weights` leaves. -/
theorem compute_weights_ok (ex : R → R) (fuel : Nat) (m m' : Model R)
    (h : compute_weights ex fuel m = (.ok (), m')) :
    m.n_nodes ≠ 0 ∧ PartialWeights ex fuel m.toConfig true m.n_nodes m' := by
  by_cases hn : m.n_nodes = 0
  · simp [compute_weights, allocate_weights, hn] at h
  refine ⟨hn, ?_⟩
  obtain ⟨m1, h1, hp1⟩ := allocate_weights_spec ex fuel m hn
  have hn1 : m1.n_nodes = m.n_nodes := by rw [hp1.config]
  unfold compute_weights at h
  rw [h1] at h
  simp only at h
  rcases status_cases (forLoopE m1.n_nodes (compute_weights_i ex fuel) m1) with
    ⟨m2, h2⟩ | ⟨e, m2, h2⟩
  · rw [h2] at h
    simp only [Prod.mk.injEq, true_and] at h
    have hp2 := forLoopE_ok_inv (PartialWeights ex fuel m.toConfig m.weights_computed)
      m1.n_nodes (compute_weights_i ex fuel) m1 m2 h2 hp1 (by
        intro k _ a b ha hb
        have := (compute_weights_i_step ex fuel m.toConfig m.weights_computed k a ha).2
        rw [hb] at this
        exact this rfl)
    rw [hn1] at hp2
    rw [← h]
    exact hp2.set_flag true
  · rw [h2] at h
    simp at h

/-- The call `compute_weights` completes when the model has a dimension and the loop over `k`
of every dimension completes. -/
theorem compute_weights_complete (ex : R → R) (fuel : Nat) (m : Model R) (hn : m.n_nodes ≠ 0)
    (hl : ∀ i, i < m.n_nodes → ∃ s, weights_loop ex fuel m.toConfig i = (.ok (), s)) :
    ∃ m', compute_weights ex fuel m = (.ok (), m') := by
  obtain ⟨m1, h1, hp1⟩ := allocate_weights_spec ex fuel m hn
  have hn1 : m1.n_nodes = m.n_nodes := by rw [hp1.config]
  obtain ⟨m2, h2, -⟩ := forLoopE_complete
    (PartialWeights ex fuel m.toConfig m.weights_computed)
    m1.n_nodes (compute_weights_i ex fuel) m1 hp1 (by
      intro k hk a ha
      obtain ⟨h3, h4⟩ := compute_weights_i_step ex fuel m.toConfig m.weights_computed k a ha
      obtain ⟨s, hs⟩ := hl k (by omega)
      rw [hs] at h3
      exact ⟨(compute_weights_i ex fuel k a).2, Prod.ext h3 rfl, h4 h3⟩)
  refine ⟨{ m2 with weights_computed := true }, ?_⟩
  unfold compute_weights
  rw [h1]
  simp only [h2]

/-- With a positive period and at least one dimension, `compute_weights` completes. -/
theorem compute_weights_complete_of_pos (ex : R → R) (m : Model R) (hn : m.n_nodes ≠ 0)
    (hP : 0 < m.period_length) :
    ∃ m', compute_weights ex (enough_fuel m.toConfig) m = (.ok (), m') :=
  compute_weights_complete ex _ m hn (fun i _ => weights_loop_complete ex m.toConfig i hP)

/-- With at least one dimension, `compute_weights` throws no `TICK_ERROR`. -/
theorem compute_weights_no_tick_error (ex : R → R) (fuel : Nat) (m : Model R)
    (hn : m.n_nodes ≠ 0) (msg : String) :
    (compute_weights ex fuel m).1 ≠ .error (.tick_error msg) := by
  obtain ⟨m1, h1, hp1⟩ := allocate_weights_spec ex fuel m hn
  unfold compute_weights
  rw [h1]
  simp only
  have hloop := forLoopE_no_tick_error m1.n_nodes (compute_weights_i ex fuel) m1 (by
    intro k _ a msg
    unfold compute_weights_i
    exact forLoopE_no_tick_error _ _ _
      (fun k _ s msg => weights_step_no_tick_error ex fuel _ _ k s msg) msg) msg
  rcases status_cases (forLoopE m1.n_nodes (compute_weights_i ex fuel) m1) with
    ⟨m2, h2⟩ | ⟨e, m2, h2⟩
  · rw [h2]
    simp
  · rw [h2] at hloop ⊢
    exact hloop

/-- Without a dimension, `compute_weights` throws. -/
theorem compute_weights_no_nodes (ex : R → R) (fuel : Nat) (m : Model R) (hn : m.n_nodes = 0) :
    compute_weights ex fuel m =
      (.error (.tick_error "Please provide valid timestamps before allocating weights"), m) := by
  simp [compute_weights, allocate_weights, hn]

/-- The loop over the sources leaves `K_i`, `Dg_i` and `Dgg_i` alone. -/
theorem source_loop_frame (ex : R → R) (c : Config R) (k : Nat) (t_k_i : R)
    (exponentials : Nat → Nat → R) (exponential_diff : Nat → R) (n : Nat) (s : WState R) :
    (forLoop n (source_step ex c k t_k_i exponentials exponential_diff) s).K_i = s.K_i ∧
    (forLoop n (source_step ex c k t_k_i exponentials exponential_diff) s).Dg_i = s.Dg_i ∧
    (forLoop n (source_step ex c k t_k_i exponentials exponential_diff) s).Dgg_i = s.Dgg_i :=
  forLoop_inv (fun _ (t : WState R) => t.K_i = s.K_i ∧ t.Dg_i = s.Dg_i ∧ t.Dgg_i = s.Dgg_i)
    n _ s ⟨rfl, rfl, rfl⟩ (fun _ _ _ ht => ht)

/-- One iteration of the second loop over `u` leaves `H`, `l`, `C_i`, `E_i` and `K_i`
alone. -/
theorem decay_step_frame (ex : R → R) (fuel : Nat) (c : Config R) (t_k_i : R)
    (exponentials : Nat → Nat → R) (u : Nat) (s : WState R) :
    (decay_step ex fuel c t_k_i exponentials u s).2.H = s.H ∧
    (decay_step ex fuel c t_k_i exponentials u s).2.l = s.l ∧
    (decay_step ex fuel c t_k_i exponentials u s).2.C_i = s.C_i ∧
    (decay_step ex fuel c t_k_i exponentials u s).2.E_i = s.E_i ∧
    (decay_step ex fuel c t_k_i exponentials u s).2.K_i = s.K_i := by
  unfold decay_step
  simp only
  split <;> exact ⟨rfl, rfl, rfl, rfl, rfl⟩

theorem decay_loop_frame (ex : R → R) (fuel : Nat) (c : Config R) (t_k_i : R)
    (exponentials : Nat → Nat → R) (n : Nat) (s : WState R) :
    (forLoopE n (decay_step ex fuel c t_k_i exponentials) s).2.H = s.H ∧
    (forLoopE n (decay_step ex fuel c t_k_i exponentials) s).2.l = s.l ∧
    (forLoopE n (decay_step ex fuel c t_k_i exponentials) s).2.C_i = s.C_i ∧
    (forLoopE n (decay_step ex fuel c t_k_i exponentials) s).2.E_i = s.E_i ∧
    (forLoopE n (decay_step ex fuel c t_k_i exponentials) s).2.K_i = s.K_i :=
  forLoopE_inv_any
    (fun (t : WState R) =>
      t.H = s.H ∧ t.l = s.l ∧ t.C_i = s.C_i ∧ t.E_i = s.E_i ∧ t.K_i = s.K_i) n _ s
    ⟨rfl, rfl, rfl, rfl, rfl⟩ (by
      rintro u - a ⟨h1, h2, h3, h4, h5⟩
      obtain ⟨g1, g2, g3, g4, g5⟩ := decay_step_frame ex fuel c t_k_i exponentials u a
      exact ⟨g1.trans h1, g2.trans h2, g3.trans h3, g4.trans h4, g5.trans h5⟩)

/-- One iteration of the loop over `k` takes `H`, `l`, `C_i`, `E_i` from the loop over the
sources, and increments one entry of `K_i`. -/
theorem weights_step_proj (ex : R → R) (fuel : Nat) (c : Config R) (i k : Nat)
    (s : WState R) :
    (weights_step ex fuel c i k s).2.H = (source_loop ex c i k s).H ∧
    (weights_step ex fuel c i k s).2.l = (source_loop ex c i k s).l ∧
    (weights_step ex fuel c i k s).2.C_i = (source_loop ex c i k s).C_i ∧
    (weights_step ex fuel c i k s).2.E_i = (source_loop ex c i k s).E_i ∧
    (weights_step ex fuel c i k s).2.K_i =
      addAt s.K_i (get_baseline_interval c ((c.timestamps i).getD k 0)) 1 := by
  obtain ⟨h1, h2, h3, h4, h5⟩ := decay_loop_frame ex fuel c ((c.timestamps i).getD k 0)
    (fun u u1 => ex (-(c.decay u1 + c.decay u) * (c.end_time - (c.timestamps i).getD k 0)))
    c.n_decays (source_loop ex c i k s)
  refine ⟨h1, h2, h3, h4, h5.trans ?_⟩
  exact (source_loop_frame ex c k _ _ _ c.n_nodes _).1

/-- After `k` events with in-range interval indices, the counts add up to `k`. -/
theorem weights_loop_counts (ex : R → R) (fuel : Nat) (c : Config R) (i : Nat)
    (hP : 0 < c.period_length) (hb : 1 ≤ c.n_baselines) (s : WState R)
    (h : weights_loop ex fuel c i = (.ok (), s)) :
    ∑ p in Finset.range c.n_baselines, s.K_i p = ((c.timestamps i).length : R) := by
  refine forLoopE_ok_inv
    (fun k (t : WState R) => ∑ p in Finset.range c.n_baselines, t.K_i p = (k : R))
    (c.timestamps i).length (weights_step ex fuel c i) wstate_zero s h ?_ ?_
  · simp [wstate_zero]
  · intro k _ a b ha hb1
    have hK := (weights_step_proj ex fuel c i k a).2.2.2.2
    rw [hb1] at hK
    simp only at hK
    rw [hK]
    unfold addAt
    rw [Finset.sum_update_of_mem
      (Finset.mem_range.mpr (get_baseline_interval_lt c _ hP hb))]
    have hsplit := Finset.add_sum_erase (Finset.range c.n_baselines) a.K_i
      (Finset.mem_range.mpr (get_baseline_interval_lt c ((c.timestamps i).getD k 0) hP hb))
    rw [Finset.sdiff_singleton_eq_erase]
    push_cast
    linarith

/-- On a model with a dimension `allocate_weights` keeps the configuration and the flag and
replaces every tensor: its result does not depend on the tensors held before. -/
theorem allocate_weights_congr (m m1 : Model R) (hc : m1.toConfig = m.toConfig)
    (hw : m1.weights_computed = m.weights_computed) (hn : m.n_nodes ≠ 0) :
    allocate_weights m1 = allocate_weights m := by
  obtain ⟨c, w, L, C, Dg, Dgg, E, K⟩ := m
  obtain ⟨c1, w1, L1, C1, Dg1, Dgg1, E1, K1⟩ := m1
  simp only at hc hw hn
  subst hc hw
  unfold allocate_weights
  simp only [if_neg hn]

/-- The result of `compute_weights` on a model with a dimension depends on its
configuration and flag only. -/
theorem compute_weights_congr (ex : R → R) (fuel : Nat) (m m1 : Model R)
    (hc : m1.toConfig = m.toConfig) (hw : m1.weights_computed = m.weights_computed)
    (hn : m.n_nodes ≠ 0) :
    compute_weights ex fuel m1 = compute_weights ex fuel m := by
  unfold compute_weights
  rw [allocate_weights_congr m m1 hc hw hn]

/-- The cursor loop of source `j` only advances `l[j]`, never past `N_j` when it starts at
or below it, and leaves the other cursors alone. -/
theorem cursor_loop_bounds (ex : R → R) (c : Config R) (j : Nat) (t : R) (d : Nat) :
    ∀ (H : Nat → R) (l : Nat → Nat), (c.timestamps j).length - l j = d →
      l j ≤ (cursor_loop ex c j t H l).2 j ∧
      (cursor_loop ex c j t H l).2 j ≤ max (l j) (c.timestamps j).length ∧
      ∀ j1, j1 ≠ j → (cursor_loop ex c j t H l).2 j1 = l j1 := by
  induction d with
  | zero =>
    intro H l hd
    have hcond : ¬ (l j < (c.timestamps j).length ∧ (c.timestamps j).getD (l j) 0 < t) := by
      rintro ⟨h, -⟩
      omega
    rw [cursor_loop, dif_neg hcond]
    exact ⟨le_refl _, le_max_left _ _, fun _ _ => rfl⟩
  | succ d ih =>
    intro H l hd
    by_cases hcond : l j < (c.timestamps j).length ∧ (c.timestamps j).getD (l j) 0 < t
    · rw [cursor_loop, dif_pos hcond]
      simp only
      obtain ⟨g1, g2, g3⟩ := ih
        (forLoop c.n_decays (fun u H =>
          addAt H (idx2 c.n_decays j u)
            (c.decay u * ex (-c.decay u * (t - (c.timestamps j).getD (l j) 0)))) H)
        (Function.update l j (l j + 1))
        (by rw [Function.update_same]; omega)
      rw [Function.update_same] at g1 g2
      refine ⟨by omega, ?_, fun j1 hj1 => ?_⟩
      · have h1 : max (l j + 1) (c.timestamps j).length = (c.timestamps j).length :=
          max_eq_right (by omega)
        have h2 : max (l j) (c.timestamps j).length = (c.timestamps j).length :=
          max_eq_right (by omega)
        rw [h1] at g2
        rw [h2]
        exact g2
      · rw [g3 j1 hj1, Function.update_noteq hj1]
    · rw [cursor_loop, dif_neg hcond]
      exact ⟨le_refl _, le_max_left _ _, fun _ _ => rfl⟩

/-- One iteration of the loop over the sources only advances the cursor of its source,
never past the number of events of that source. -/
theorem source_step_cursor (ex : R → R) (c : Config R) (k : Nat) (t : R)
    (exponentials : Nat → Nat → R) (exponential_diff : Nat → R) (j : Nat) (s : WState R)
    (hs : ∀ j1, s.l j1 ≤ (c.timestamps j1).length) (j1 : Nat) :
    s.l j1 ≤ (source_step ex c k t exponentials exponential_diff j s).l j1 ∧
    (source_step ex c k t exponentials exponential_diff j s).l j1 ≤
      (c.timestamps j1).length := by
  have hl : (source_step ex c k t exponentials exponential_diff j s).l =
      (cursor_loop ex c j t (if k > 0 then
        forLoop c.n_decays (fun u H =>
          Function.update H (idx2 c.n_decays j u)
            (H (idx2 c.n_decays j u) * exponential_diff u)) s.H
        else s.H) s.l).2 := rfl
  obtain ⟨g1, g2, g3⟩ := cursor_loop_bounds ex c j t _ (if k > 0 then
        forLoop c.n_decays (fun u H =>
          Function.update H (idx2 c.n_decays j u)
            (H (idx2 c.n_decays j u) * exponential_diff u)) s.H
        else s.H) s.l rfl
  rw [hl]
  by_cases hj : j1 = j
  · subst hj
    rw [max_eq_right (hs j1)] at g2
    exact ⟨g1, g2⟩
  · rw [g3 j1 hj]
    exact ⟨le_refl _, hs j1⟩

/-- Over the events processed by `compute_weights_i` every cursor only advances and stays
at or below the number of events of its source. -/
theorem weights_loop_cursor (ex : R → R) (fuel : Nat) (c : Config R) (i : Nat)
    (s0 : WState R) (hs : ∀ j, s0.l j ≤ (c.timestamps j).length) (k : Nat) :
    ∀ j, s0.l j ≤ (forLoopE k (weights_step ex fuel c i) s0).2.l j ∧
      (forLoopE k (weights_step ex fuel c i) s0).2.l j ≤ (c.timestamps j).length := by
  refine forLoopE_inv_any
    (fun (t : WState R) => ∀ j, s0.l j ≤ t.l j ∧ t.l j ≤ (c.timestamps j).length)
    k (weights_step ex fuel c i) s0 (fun j => ⟨le_refl _, hs j⟩) ?_
  intro k1 _ a ha
  rw [(weights_step_proj ex fuel c i k1 a).2.1]
  unfold source_loop
  refine forLoop_inv
    (fun _ (t : WState R) => ∀ j, s0.l j ≤ t.l j ∧ t.l j ≤ (c.timestamps j).length)
    c.n_nodes _ _ ha ?_
  intro j _ t ht j1
  obtain ⟨g1, g2⟩ := source_step_cursor ex c k1 _ _ _ j t (fun j2 => (ht j2).2) j1
  exact ⟨(ht j1).1.trans g1, g2⟩

/-- The `while (lower < end_time)` loop runs out of fuel when every one of the first `fuel`
repetitions starts inside the window. -/
theorem dg_while_out_of_fuel (ex : R → R) (c : Config R) (t_k_i decay_u : R) (pos : Nat)
    (fuel : Nat) :
    ∀ (lower : R) (Dg_i : Nat → R),
      (∀ n : Nat, n < fuel → lower + (n : R) * c.period_length < c.end_time) →
      (dg_while ex c t_k_i decay_u pos fuel lower Dg_i).1 = .error .out_of_fuel := by
  induction fuel with
  | zero =>
    intro lower Dg_i _
    rfl
  | succ fuel ih =>
    intro lower Dg_i h
    have h0 : lower < c.end_time := by
      have := h 0 (Nat.succ_pos _)
      simpa using this
    rw [dg_while, if_pos h0]
    apply ih
    intro n hn
    have := h (n + 1) (Nat.succ_lt_succ hn)
    push_cast at this
    linarith

/-- With a positive period `compute_weights_i` completes from every model. -/
theorem compute_weights_i_complete (ex : R → R) (i : Nat) (m : Model R)
    (hP : 0 < m.period_length) :
    (compute_weights_i ex (enough_fuel m.toConfig) i m).1 = .ok () := by
  unfold compute_weights_i
  obtain ⟨t, ht, -⟩ := forLoopE_complete (fun _ _ => True) (m.timestamps i).length
    (weights_step ex (enough_fuel m.toConfig) m.toConfig i)
    { H := fun _ => 0
      l := fun _ => 0
      C_i := m.C i
      Dg_i := init_to_zero (m.Dg i) 0 (m.n_decays * m.n_baselines)
      Dgg_i := m.Dgg i
      E_i := m.E i
      K_i := m.K i } trivial (by
      intro k _ a _
      obtain ⟨b, hb⟩ := weights_step_complete ex m.toConfig i k a hP
      exact ⟨b, hb, trivial⟩)
  simp only [ht]

/-- With a period that is not positive the loop `while (lower < end_time)` entered with
`lower < end_time` never exits: it exhausts any fuel. -/
theorem dg_while_stalls (ex : R → R) (c : Config R) (t_k_i decay_u : R) (pos : Nat)
    (hP : c.period_length ≤ 0) (fuel : Nat) :
    ∀ (lower : R) (Dg_i : Nat → R), lower < c.end_time →
      (dg_while ex c t_k_i decay_u pos fuel lower Dg_i).1 = .error .out_of_fuel := by
  induction fuel with
  | zero =>
    intro lower Dg_i _
    rfl
  | succ n ih =>
    intro lower Dg_i h
    rw [dg_while, if_pos h]
    exact ih _ _ (by linarith)

/-- The loop over the events of a dimension does not complete when, for some event, decay
and baseline interval, the repetition loop is entered and the period is not positive. -/
theorem weights_loop_stalls (ex : R → R) (fuel : Nat) (c : Config R) (i k u p : Nat)
    (hP : c.period_length ≤ 0) (hk : k < (c.timestamps i).length) (hu : u < c.n_decays)
    (hp : p < c.n_baselines)
    (h : (⌊(c.timestamps i).getD k 0 / c.period_length⌋₊ : R) * c.period_length +
      ((p : R) * c.period_length) / (c.n_baselines : R) < c.end_time) (s : WState R) :
    weights_loop ex fuel c i ≠ (.ok (), s) := by
  intro hs
  obtain ⟨a, b, hab⟩ := forLoopE_ok_all _ _ _ _ hs k hk
  unfold weights_step at hab
  obtain ⟨a1, b1, hab1⟩ := forLoopE_ok_all _ _ _ _ hab u hu
  unfold decay_step at hab1
  simp only at hab1
  split at hab1
  · cases hab1
  · rename_i Dg_i1 hr
    obtain ⟨a2, b2, hab2⟩ := forLoopE_ok_all _ _ _ _ hr p hp
    have := dg_while_stalls ex c ((c.timestamps i).getD k 0) (c.decay u)
      (idx2 c.n_baselines u p) hP fuel _ a2 h
    rw [hab2] at this
    cases this

/-- On a model with a dimension, when the loop over the events of some dimension does not
complete the status of `compute_weights` is `out_of_fuel`. -/
theorem compute_weights_stalls (ex : R → R) (fuel : Nat) (m : Model R) (i : Nat)
    (hi : i < m.n_nodes) (h : ∀ s, weights_loop ex fuel m.toConfig i ≠ (.ok (), s)) :
    (compute_weights ex fuel m).1 = .error .out_of_fuel := by
  have hn : m.n_nodes ≠ 0 := by omega
  rcases status_cases (compute_weights ex fuel m) with ⟨m1, h1⟩ | ⟨e, m1, h1⟩
  · obtain ⟨-, hp⟩ := compute_weights_ok ex fuel m m1 h1
    obtain ⟨s, hs, -⟩ := hp.done i hi
    exact absurd hs (h s)
  · have hne := compute_weights_no_tick_error ex fuel m hn
    rw [h1] at hne ⊢
    cases e with
    | tick_error msg => exact absurd rfl (hne msg)
    | out_of_fuel => rfl

/-- The loop `while (lower < end_time)` never exits once adding `period_length` to `lower`
rounds back to `lower`, as it leaves `lower` and `Dg_i` as they were. -/
theorem dg_while_binary64_stalls (ex : ℚ → ℚ) (m : Config ℚ) (t_k_i decay_u : ℚ) (pos : Nat)
    (lower : ℚ) (h1 : lower < m.end_time)
    (h2 : round_to_binary64 (lower + m.period_length) = lower)
    (h3 : ¬ max t_k_i lower < min (round_to_binary64 (lower +
      round_to_binary64 (m.period_length / round_to_binary64 (m.n_baselines : ℚ)))) m.end_time)
    (fuel : Nat) (Dg_i : Nat → ℚ) :
    dg_while_binary64 ex m t_k_i decay_u pos fuel lower Dg_i = (.error .out_of_fuel, Dg_i) := by
  induction fuel with
  | zero => rfl
  | succ fuel ih =>
    rw [dg_while_binary64, if_pos h1]
    simp only [if_neg h3, h2]
    exact ih

end Weights

section Recursion

variable {R : Type} [LinearOrderedField R] [FloorRing R]

/-- A loop writing the entries `base .. base + n` of an array, each from its old value. -/
theorem forLoop_update_range (n base : Nat) (g : Nat → R → R) (A : Nat → R) (x : Nat) :
    forLoop n (fun u A => Function.update A (base + u) (g u (A (base + u)))) A x =
      if base ≤ x ∧ x < base + n then g (x - base) (A x) else A x := by
  induction n with
  | zero =>
    have : ¬ (base ≤ x ∧ x < base + 0) := by omega
    rw [if_neg this]
    rfl
  | succ n ih =>
    rw [forLoop_succ]
    by_cases hx : x = base + n
    · subst hx
      have h1 : base ≤ base + n ∧ base + n < base + (n + 1) := by omega
      have h2 : ¬ (base ≤ base + n ∧ base + n < base + n) := by omega
      rw [Function.update_same, if_pos h1, ih, if_neg h2, Nat.add_sub_cancel_left]
    · rw [Function.update_noteq hx, ih]
      by_cases h1 : base ≤ x ∧ x < base + n
      · have h2 : base ≤ x ∧ x < base + (n + 1) := by omega
        rw [if_pos h1, if_pos h2]
      · have h2 : ¬ (base ≤ x ∧ x < base + (n + 1)) := by omega
        rw [if_neg h1, if_neg h2]

/-- Entry `(j, u)` of a table with `n` columns lies in row `j`. -/
theorem idx2_row (n j u : Nat) (hu : u < n) :
    j * n ≤ idx2 n j u ∧ idx2 n j u < j * n + n ∧ idx2 n j u - j * n = u := by
  unfold idx2
  omega

/-- Entries of different rows are stored apart. -/
theorem idx2_other_row (n j j1 u : Nat) (hu : u < n) (hj : j1 ≠ j) :
    ¬ (j * n ≤ idx2 n j1 u ∧ idx2 n j1 u < j * n + n) := by
  unfold idx2
  rintro ⟨h1, h2⟩
  rcases Nat.lt_or_gt_of_ne hj with h | h
  · have : (j1 + 1) * n ≤ j * n := Nat.mul_le_mul_right n h
    rw [Nat.add_mul, Nat.one_mul] at this
    omega
  · have : (j + 1) * n ≤ j1 * n := Nat.mul_le_mul_right n h
    rw [Nat.add_mul, Nat.one_mul] at this
    omega

/-- What the cursor loop of source `j` does: it touches only row `j` of `H` and entry `j`
of `l`, moves the cursor forward over the events before `t`, and adds their kernel
values to the row. -/
theorem cursor_loop_spec (ex : R → R) (c : Config R) (j : Nat) (t : R) (d : Nat) :
    ∀ (H : Nat → R) (l : Nat → Nat), (c.timestamps j).length - l j = d →
      l j ≤ (c.timestamps j).length →
      (∀ x, x < l j → (c.timestamps j).getD x 0 < t) →
      (∀ u, u < c.n_decays → H (idx2 c.n_decays j u) = decayed_sum ex c j u t (l j)) →
      (∀ j1, j1 ≠ j → (cursor_loop ex c j t H l).2 j1 = l j1) ∧
      (∀ j1 u, j1 ≠ j → u < c.n_decays →
        (cursor_loop ex c j t H l).1 (idx2 c.n_decays j1 u) = H (idx2 c.n_decays j1 u)) ∧
      l j ≤ (cursor_loop ex c j t H l).2 j ∧
      (cursor_loop ex c j t H l).2 j ≤ (c.timestamps j).length ∧
      (∀ x, x < (cursor_loop ex c j t H l).2 j → (c.timestamps j).getD x 0 < t) ∧
      ((cursor_loop ex c j t H l).2 j < (c.timestamps j).length →
        ¬ (c.timestamps j).getD ((cursor_loop ex c j t H l).2 j) 0 < t) ∧
      (∀ u, u < c.n_decays → (cursor_loop ex c j t H l).1 (idx2 c.n_decays j u) =
        decayed_sum ex c j u t ((cursor_loop ex c j t H l).2 j)) := by
  induction d with
  | zero =>
    intro H l hd hl hlt hH
    have hcond : ¬ (l j < (c.timestamps j).length ∧ (c.timestamps j).getD (l j) 0 < t) := by
      rintro ⟨h, -⟩
      omega
    rw [cursor_loop, dif_neg hcond]
    exact ⟨fun _ _ => rfl, fun _ _ _ _ => rfl, le_refl _, hl, hlt,
      fun (h : l j < (c.timestamps j).length) => absurd h (by omega), hH⟩
  | succ d ih =>
    intro H l hd hl hlt hH
    by_cases hcond : l j < (c.timestamps j).length ∧ (c.timestamps j).getD (l j) 0 < t
    · rw [cursor_loop, dif_pos hcond]
      simp only
      have hrow : ∀ x, forLoop c.n_decays (fun u H =>
          addAt H (idx2 c.n_decays j u)
            (c.decay u * ex (-c.decay u * (t - (c.timestamps j).getD (l j) 0)))) H x =
          if j * c.n_decays ≤ x ∧ x < j * c.n_decays + c.n_decays then
            H x + c.decay (x - j * c.n_decays) *
              ex (-c.decay (x - j * c.n_decays) * (t - (c.timestamps j).getD (l j) 0))
          else H x :=
        fun x => forLoop_update_range c.n_decays (j * c.n_decays)
          (fun u h => h + c.decay u * ex (-c.decay u * (t - (c.timestamps j).getD (l j) 0)))
          H x
      obtain ⟨g1, g2, g3, g4, g5, g6, g7⟩ := ih
        (forLoop c.n_decays (fun u H =>
          addAt H (idx2 c.n_decays j u)
            (c.decay u * ex (-c.decay u * (t - (c.timestamps j).getD (l j) 0)))) H)
        (Function.update l j (l j + 1))
        (by rw [Function.update_same]; omega)
        (by rw [Function.update_same]; omega)
        (by
          intro x hx
          rw [Function.update_same] at hx
          rcases Nat.lt_succ_iff_lt_or_eq.mp hx with h | h
          · exact hlt x h
          · rw [h]
            exact hcond.2)
        (by
          intro u hu
          obtain ⟨r1, r2, r3⟩ := idx2_row c.n_decays j u hu
          rw [hrow, if_pos ⟨r1, r2⟩, r3, Function.update_same, hH u hu]
          unfold decayed_sum
          rw [Finset.sum_range_succ])
      refine ⟨?_, ?_, ?_, g4, g5, g6, g7⟩
      · intro j1 hj1
        rw [g1 j1 hj1, Function.update_noteq hj1]
      · intro j1 u hj1 hu
        rw [g2 j1 u hj1 hu, hrow, if_neg (idx2_other_row c.n_decays j j1 u hu hj1)]
      · rw [Function.update_same] at g3
        omega
    · rw [cursor_loop, dif_neg hcond]
      refine ⟨fun _ _ => rfl, fun _ _ _ _ => rfl, le_refl _, hl, hlt, ?_, hH⟩
      intro h1 h2
      exact hcond ⟨h1, h2⟩

/-- In a loop over a pair whose first component is updated from itself alone, the first
component is the loop of that update. -/
theorem forLoop_pair_fst {α β : Type} (n : Nat) (f : Nat → α → α) (g : Nat → α × β → β)
    (s : α × β) :
    (forLoop n (fun u (p : α × β) => (f u p.1, g u p)) s).1 = forLoop n f s.1 := by
  induction n with
  | zero => rfl
  | succ n ih =>
    rw [forLoop_succ, forLoop_succ]
    simp only
    rw [ih]

theorem decay_row_apply (c : Config R) (k : Nat) (exponential_diff : Nat → R) (j : Nat)
    (H : Nat → R) (x : Nat) :
    decay_row c k exponential_diff j H x =
      if k > 0 ∧ j * c.n_decays ≤ x ∧ x < j * c.n_decays + c.n_decays then
        H x * exponential_diff (x - j * c.n_decays)
      else H x := by
  unfold decay_row
  by_cases hk : k > 0
  · rw [if_pos hk]
    have := forLoop_update_range c.n_decays (j * c.n_decays)
      (fun u h => h * exponential_diff u) H x
    simp only [hk, true_and]
    exact this
  · rw [if_neg hk]
    simp [hk]

theorem source_step_H (ex : R → R) (c : Config R) (k : Nat) (t_k_i : R)
    (exponentials : Nat → Nat → R) (exponential_diff : Nat → R) (j : Nat) (s : WState R) :
    (source_step ex c k t_k_i exponentials exponential_diff j s).H =
      (cursor_loop ex c j t_k_i (decay_row c k exponential_diff j s.H) s.l).1 := rfl

theorem source_step_l (ex : R → R) (c : Config R) (k : Nat) (t_k_i : R)
    (exponentials : Nat → Nat → R) (exponential_diff : Nat → R) (j : Nat) (s : WState R) :
    (source_step ex c k t_k_i exponentials exponential_diff j s).l =
      (cursor_loop ex c j t_k_i (decay_row c k exponential_diff j s.H) s.l).2 := rfl

theorem source_step_C (ex : R → R) (c : Config R) (k : Nat) (t_k_i : R)
    (exponentials : Nat → Nat → R) (exponential_diff : Nat → R) (j : Nat) (s : WState R)
    (x : Nat) :
    (source_step ex c k t_k_i exponentials exponential_diff j s).C_i x =
      if j * c.n_decays ≤ x ∧ x < j * c.n_decays + c.n_decays then
        s.C_i x + (source_step ex c k t_k_i exponentials exponential_diff j s).H x
      else s.C_i x := by
  have h1 : (source_step ex c k t_k_i exponentials exponential_diff j s).C_i =
      forLoop c.n_decays (fun u C =>
        addAt C (idx2 c.n_decays j u)
          ((cursor_loop ex c j t_k_i (decay_row c k exponential_diff j s.H) s.l).1
            (idx2 c.n_decays j u))) s.C_i :=
    forLoop_pair_fst c.n_decays
      (fun u C =>
        addAt C (idx2 c.n_decays j u)
          ((cursor_loop ex c j t_k_i (decay_row c k exponential_diff j s.H) s.l).1
            (idx2 c.n_decays j u)))
      (fun u (CE : (Nat → R) × (Nat → R)) =>
        forLoop c.n_decays (fun u1 E =>
          addAt E (idx2 (c.n_decays * c.n_decays) j (u1 * c.n_decays + u))
            (c.decay u1 / (c.decay u1 + c.decay u) * (1 - exponentials u u1) *
              (cursor_loop ex c j t_k_i (decay_row c k exponential_diff j s.H) s.l).1
                (idx2 c.n_decays j u))) CE.2)
      (s.C_i, s.E_i)
  rw [h1, source_step_H]
  have h2 := forLoop_update_range c.n_decays (j * c.n_decays)
    (fun u h => h + (cursor_loop ex c j t_k_i (decay_row c k exponential_diff j s.H) s.l).1
      (j * c.n_decays + u)) s.C_i x
  refine Eq.trans h2 ?_
  by_cases hx : j * c.n_decays ≤ x ∧ x < j * c.n_decays + c.n_decays
  · rw [if_pos hx, if_pos hx]
    have : j * c.n_decays + (x - j * c.n_decays) = x := by omega
    simp only [this]
  · rw [if_neg hx, if_neg hx]

/-- The effect of one iteration of the loop over the sources. -/
theorem source_step_spec (ex : R → R) (c : Config R) (k : Nat) (t : R)
    (exponentials : Nat → Nat → R) (exponential_diff : Nat → R) (j : Nat) (s : WState R)
    (hready : RowReady ex c t (decay_row c k exponential_diff j s.H) s.l j) :
    RowReady ex c t (source_step ex c k t exponentials exponential_diff j s).H
      (source_step ex c k t exponentials exponential_diff j s).l j ∧
    ((source_step ex c k t exponentials exponential_diff j s).l j < (c.timestamps j).length →
      ¬ (c.timestamps j).getD
        ((source_step ex c k t exponentials exponential_diff j s).l j) 0 < t) ∧
    (∀ u, u < c.n_decays →
      (source_step ex c k t exponentials exponential_diff j s).C_i (idx2 c.n_decays j u) =
        s.C_i (idx2 c.n_decays j u) +
          (source_step ex c k t exponentials exponential_diff j s).H (idx2 c.n_decays j u)) ∧
    (∀ j1, j1 ≠ j →
      (source_step ex c k t exponentials exponential_diff j s).l j1 = s.l j1) ∧
    (∀ j1 u, j1 ≠ j → u < c.n_decays →
      (source_step ex c k t exponentials exponential_diff j s).H (idx2 c.n_decays j1 u) =
        s.H (idx2 c.n_decays j1 u)) ∧
    (∀ j1 u, j1 ≠ j → u < c.n_decays →
      (source_step ex c k t exponentials exponential_diff j s).C_i (idx2 c.n_decays j1 u) =
        s.C_i (idx2 c.n_decays j1 u)) := by
  obtain ⟨g1, g2, -, g4, g5, g6, g7⟩ := cursor_loop_spec ex c j t
    ((c.timestamps j).length - s.l j) (decay_row c k exponential_diff j s.H) s.l rfl
    hready.le hready.before hready.sum
  refine ⟨⟨?_, ?_, ?_⟩, ?_, ?_, ?_, ?_, ?_⟩
  · rw [source_step_l]
    exact g4
  · rw [source_step_l]
    exact g5
  · rw [source_step_l, source_step_H]
    exact g7
  · rw [source_step_l]
    exact g6
  · intro u hu
    obtain ⟨r1, r2, -⟩ := idx2_row c.n_decays j u hu
    rw [source_step_C, if_pos ⟨r1, r2⟩]
  · intro j1 hj1
    rw [source_step_l]
    exact g1 j1 hj1
  · intro j1 u hj1 hu
    rw [source_step_H, g2 j1 u hj1 hu, decay_row_apply]
    have := idx2_other_row c.n_decays j j1 u hu hj1
    rw [if_neg (fun h => this h.2)]
  · intro j1 u hj1 hu
    rw [source_step_C, if_neg (idx2_other_row c.n_decays j j1 u hu hj1)]

theorem list_sum_map_eq_range (g : R → R) (ts : List R) :
    (ts.map g).sum = ∑ k in Finset.range ts.length, g (ts.getD k 0) := by
  induction ts with
  | nil => simp
  | cons x xs ih =>
    rw [List.map_cons, List.sum_cons, List.length_cons, Finset.sum_range_succ', ih]
    simp only [List.getD_cons_succ, List.getD_cons_zero]
    exact add_comm _ _

theorem sorted_getD_succ (ts : List R) (hs : ts.Sorted (· ≤ ·)) :
    ∀ k, k + 1 < ts.length → ts.getD k 0 ≤ ts.getD (k + 1) 0 := by
  induction ts with
  | nil =>
    intro k hk
    simp at hk
  | cons x xs ih =>
    intro k hk
    rw [List.length_cons] at hk
    have hp := List.pairwise_cons.mp hs
    cases k with
    | zero =>
      rw [List.getD_cons_zero, List.getD_cons_succ]
      cases xs with
      | nil => simp at hk
      | cons y ys =>
        rw [List.getD_cons_zero]
        exact hp.1 y (List.mem_cons_self y ys)
    | succ k =>
      rw [List.getD_cons_succ, List.getD_cons_succ]
      exact ih hp.2 k (by omega)

/-- On a sorted list the events before `t` are the events below the cursor that stopped at
the first event not before `t`. -/
theorem filter_sum_eq_range (g : R → R) (t : R) (ts : List R) (hs : ts.Sorted (· ≤ ·)) :
    ∀ l, l ≤ ts.length → (∀ x, x < l → ts.getD x 0 < t) →
      (l < ts.length → ¬ ts.getD l 0 < t) →
      ((ts.filter (fun t' => decide (t' < t))).map g).sum =
        ∑ x in Finset.range l, g (ts.getD x 0) := by
  induction ts with
  | nil =>
    intro l hl _ _
    have : l = 0 := by simpa using hl
    subst this
    simp
  | cons y ys ih =>
    intro l hl hbefore hcut
    have hp := List.pairwise_cons.mp hs
    cases l with
    | zero =>
      have hy : ¬ y < t := by
        have := hcut (by simp)
        simpa using this
      have hnil : (y :: ys).filter (fun t' => decide (t' < t)) = [] := by
        rw [List.filter_eq_nil_iff]
        intro a ha
        rcases List.mem_cons.mp ha with h | h
        · subst h
          simpa using hy
        · have := hp.1 a h
          simp only [decide_eq_true_eq, not_lt]
          exact le_trans (not_lt.mp hy) this
      rw [hnil]
      simp
    | succ l =>
      have hy : y < t := by
        have := hbefore 0 (by omega)
        simpa using this
      have hfil : (y :: ys).filter (fun t' => decide (t' < t)) =
          y :: ys.filter (fun t' => decide (t' < t)) := by
        rw [List.filter_cons]
        simp [hy]
      rw [hfil, List.map_cons, List.sum_cons, Finset.sum_range_succ',
        ih hp.2 l (by simpa using hl)
          (fun x hx => by simpa using hbefore (x + 1) (by omega))
          (fun h => by simpa using hcut (by simpa using h))]
      simp only [List.getD_cons_succ, List.getD_cons_zero]
      exact add_comm _ _

theorem naive_C_eq_range (ex : R → R) (c : Config R) (i j u : Nat) :
    naive_C ex c i j u =
      ∑ k in Finset.range (c.timestamps i).length,
        naive_inner ex c j u ((c.timestamps i).getD k 0) :=
  list_sum_map_eq_range (fun t_k => naive_inner ex c j u t_k) (c.timestamps i)

/-- Decaying row `j` moves its decayed sum from the previous event time `t0` to the
current one `t`. -/
theorem rowReady_decay (ex : R → R) (hex : ∀ a b, ex (a + b) = ex a * ex b) (c : Config R)
    (k : Nat) (t0 t : R) (ht : k = 0 → t0 = t) (hle : t0 ≤ t) (j : Nat) (H : Nat → R)
    (l : Nat → Nat) (h : RowReady ex c t0 H l j) :
    RowReady ex c t (decay_row c k (fun u => ex (-c.decay u * (t - t0))) j H) l j := by
  refine ⟨h.le, fun x hx => lt_of_lt_of_le (h.before x hx) hle, ?_⟩
  intro u hu
  obtain ⟨r1, r2, r3⟩ := idx2_row c.n_decays j u hu
  rw [decay_row_apply, h.sum u hu]
  by_cases hk : k > 0
  · rw [if_pos ⟨hk, r1, r2⟩, r3]
    unfold decayed_sum
    rw [Finset.sum_mul]
    refine Finset.sum_congr rfl (fun x _ => ?_)
    rw [mul_assoc, ← hex]
    congr 2
    ring
  · rw [if_neg (fun h => hk h.1), ht (by omega)]

/-- What the loop over the sources leaves at event `k`: every row holds the decayed sum at
the event time over the events before it, and that sum was added to `C_i`. -/
theorem source_loop_spec (ex : R → R) (hex : ∀ a b, ex (a + b) = ex a * ex b)
    (c : Config R) (i k : Nat) (s : WState R)
    (hsorted : ∀ j, j < c.n_nodes → (c.timestamps j).Sorted (· ≤ ·))
    (hk : k < (c.timestamps i).length) (hi : i < c.n_nodes)
    (hrows : ∀ j, j < c.n_nodes →
      RowReady ex c ((c.timestamps i).getD (k - 1) 0) s.H s.l j) :
    ∀ j, j < c.n_nodes →
      RowReady ex c ((c.timestamps i).getD k 0) (source_loop ex c i k s).H
        (source_loop ex c i k s).l j ∧
      (∀ u, u < c.n_decays →
        (source_loop ex c i k s).H (idx2 c.n_decays j u) =
          naive_inner ex c j u ((c.timestamps i).getD k 0)) ∧
      (∀ u, u < c.n_decays →
        (source_loop ex c i k s).C_i (idx2 c.n_decays j u) =
          s.C_i (idx2 c.n_decays j u) +
            naive_inner ex c j u ((c.timestamps i).getD k 0)) := by
  have hle : (c.timestamps i).getD (k - 1) 0 ≤ (c.timestamps i).getD k 0 := by
    cases k with
    | zero => exact le_refl _
    | succ k => exact sorted_getD_succ _ (hsorted i hi) k hk
  have h0 : k = 0 → (c.timestamps i).getD (k - 1) 0 = (c.timestamps i).getD k 0 := by
    intro h
    subst h
    rfl
  have key := forLoop_inv
    (fun (n : Nat) (t : WState R) =>
      (∀ j, j < n →
        RowReady ex c ((c.timestamps i).getD k 0) t.H t.l j ∧
        (t.l j < (c.timestamps j).length →
          ¬ (c.timestamps j).getD (t.l j) 0 < (c.timestamps i).getD k 0) ∧
        (∀ u, u < c.n_decays →
          t.C_i (idx2 c.n_decays j u) = s.C_i (idx2 c.n_decays j u) +
            t.H (idx2 c.n_decays j u))) ∧
      (∀ j, n ≤ j → t.l j = s.l j ∧
        ∀ u, u < c.n_decays → t.H (idx2 c.n_decays j u) = s.H (idx2 c.n_decays j u) ∧
          t.C_i (idx2 c.n_decays j u) = s.C_i (idx2 c.n_decays j u)))
    c.n_nodes
    (source_step ex c k ((c.timestamps i).getD k 0)
      (fun u u1 => ex (-(c.decay u1 + c.decay u) * (c.end_time - (c.timestamps i).getD k 0)))
      (fun u => ex (-c.decay u *
        ((c.timestamps i).getD k 0 - (c.timestamps i).getD (k - 1) 0))))
    { s with K_i := addAt s.K_i (get_baseline_interval c ((c.timestamps i).getD k 0)) 1 }
    ⟨fun j hj => absurd hj (Nat.not_lt_zero j), fun j _ => ⟨rfl, fun u _ => ⟨rfl, rfl⟩⟩⟩
    (by
      rintro n hn t ⟨hdone, htodo⟩
      have hrow : RowReady ex c ((c.timestamps i).getD (k - 1) 0) t.H t.l n := by
        obtain ⟨e1, e2⟩ := htodo n (le_refl n)
        refine ⟨?_, ?_, ?_⟩
        · rw [e1]
          exact (hrows n hn).le
        · rw [e1]
          exact (hrows n hn).before
        · intro u hu
          rw [e1, (e2 u hu).1]
          exact (hrows n hn).sum u hu
      obtain ⟨p1, p2, p3, p4, p5, p6⟩ := source_step_spec ex c k ((c.timestamps i).getD k 0)
        (fun u u1 => ex (-(c.decay u1 + c.decay u) *
          (c.end_time - (c.timestamps i).getD k 0)))
        (fun u => ex (-c.decay u *
          ((c.timestamps i).getD k 0 - (c.timestamps i).getD (k - 1) 0))) n t
        (rowReady_decay ex hex c k _ _ h0 hle n t.H t.l hrow)
      refine ⟨?_, ?_⟩
      · intro j hj
        by_cases hjn : j = n
        · subst hjn
          refine ⟨p1, p2, fun u hu => ?_⟩
          rw [p3 u hu, ((htodo j (le_refl j)).2 u hu).2]
        · obtain ⟨q1, q2, q3⟩ := hdone j (by omega)
          refine ⟨⟨?_, ?_, ?_⟩, ?_, ?_⟩
          · rw [p4 j hjn]
            exact q1.le
          · rw [p4 j hjn]
            exact q1.before
          · intro u hu
            rw [p4 j hjn, p5 j u hjn hu]
            exact q1.sum u hu
          · rw [p4 j hjn]
            exact q2
          · intro u hu
            rw [p6 j u hjn hu, p5 j u hjn hu]
            exact q3 u hu
      · intro j hj
        have hjn : j ≠ n := by omega
        obtain ⟨e1, e2⟩ := htodo j (by omega)
        refine ⟨by rw [p4 j hjn, e1], fun u hu => ⟨?_, ?_⟩⟩
        · rw [p5 j u hjn hu]
          exact (e2 u hu).1
        · rw [p6 j u hjn hu]
          exact (e2 u hu).2)
  intro j hj
  obtain ⟨q1, q2, q3⟩ := key.1 j hj
  have hH : ∀ u, u < c.n_decays →
      (source_loop ex c i k s).H (idx2 c.n_decays j u) =
        naive_inner ex c j u ((c.timestamps i).getD k 0) := by
    intro u hu
    have h1 := q1.sum u hu
    unfold naive_inner
    rw [filter_sum_eq_range _ _ _ (hsorted j hj) _ q1.le q1.before q2]
    exact h1
  refine ⟨q1, hH, fun u hu => ?_⟩
  rw [← hH u hu]
  exact q3 u hu

/-- The invariant of the loop over `k`, after `k` events: `C_i` holds the direct sums of
the events done, and the rows of `H` are the decayed sums at the last event done. -/
theorem weights_prefix_spec (ex : R → R) (hex : ∀ a b, ex (a + b) = ex a * ex b)
    (fuel : Nat) (c : Config R) (i : Nat) (hi : i < c.n_nodes)
    (hsorted : ∀ j, j < c.n_nodes → (c.timestamps j).Sorted (· ≤ ·))
    (k : Nat) (hk : k ≤ (c.timestamps i).length) (s : WState R)
    (h : forLoopE k (weights_step ex fuel c i) wstate_zero = (.ok (), s)) :
    (∀ j, j < c.n_nodes → RowReady ex c ((c.timestamps i).getD (k - 1) 0) s.H s.l j) ∧
    (∀ j u, j < c.n_nodes → u < c.n_decays →
      s.C_i (idx2 c.n_decays j u) =
        ∑ k1 in Finset.range k, naive_inner ex c j u ((c.timestamps i).getD k1 0)) := by
  refine forLoopE_ok_inv
    (fun n (t : WState R) => n ≤ (c.timestamps i).length →
      (∀ j, j < c.n_nodes → RowReady ex c ((c.timestamps i).getD (n - 1) 0) t.H t.l j) ∧
      (∀ j u, j < c.n_nodes → u < c.n_decays →
        t.C_i (idx2 c.n_decays j u) =
          ∑ k1 in Finset.range n, naive_inner ex c j u ((c.timestamps i).getD k1 0)))
    k (weights_step ex fuel c i) wstate_zero s h ?_ ?_ hk
  · intro _
    refine ⟨fun j _ => ⟨Nat.zero_le _, fun x hx => absurd hx (Nat.not_lt_zero x), ?_⟩, ?_⟩
    · intro u _
      simp [wstate_zero, decayed_sum]
    · intro j u _ _
      simp [wstate_zero]
  · intro n _ a b ha hb hn1
    obtain ⟨ha1, ha2⟩ := ha (by omega)
    obtain ⟨w1, w2, w3, -, -⟩ := weights_step_proj ex fuel c i n a
    rw [hb] at w1 w2 w3
    simp only at w1 w2 w3
    have hspec := source_loop_spec ex hex c i n a hsorted (by omega) hi ha1
    refine ⟨?_, ?_⟩
    · intro j hj
      rw [w1, w2, Nat.add_sub_cancel]
      exact (hspec j hj).1
    · intro j u hj hu
      rw [w3, (hspec j hj).2.2 u hu, ha2 j u hj hu, Finset.sum_range_succ]

theorem dgg_term_symm (ex : R → R) (c : Config R) (i u u1 k : Nat) :
    dgg_term ex c i u u1 k = dgg_term ex c i u1 u k := by
  unfold dgg_term
  rw [mul_comm (c.decay u) (c.decay u1), add_comm (c.decay u) (c.decay u1)]

/-- A completed iteration `u` of the second loop over the decays adds its terms to row `u`
of `Dgg_i`. -/
theorem decay_step_Dgg (ex : R → R) (fuel : Nat) (c : Config R) (t_k_i : R)
    (exponentials : Nat → Nat → R) (u : Nat) (s b : WState R)
    (h : decay_step ex fuel c t_k_i exponentials u s = (.ok (), b)) (x : Nat) :
    b.Dgg_i x =
      if u * c.n_decays ≤ x ∧ x < u * c.n_decays + c.n_decays then
        s.Dgg_i x + c.decay u * c.decay (x - u * c.n_decays) /
          (c.decay u + c.decay (x - u * c.n_decays)) *
            (1 - exponentials u (x - u * c.n_decays))
      else s.Dgg_i x := by
  unfold decay_step at h
  simp only at h
  split at h
  · simp at h
  · simp only [Prod.mk.injEq, true_and] at h
    rw [← h]
    exact forLoop_update_range c.n_decays (u * c.n_decays)
      (fun u1 v => v + c.decay u * c.decay u1 / (c.decay u + c.decay u1) *
        (1 - exponentials u u1)) s.Dgg_i x

/-- A completed iteration `k` of the loop over the events adds `dgg_term` to every entry
of `Dgg_i`. -/
theorem weights_step_Dgg (ex : R → R) (fuel : Nat) (c : Config R) (i k : Nat)
    (s b : WState R) (h : weights_step ex fuel c i k s = (.ok (), b)) (u u1 : Nat)
    (hu : u < c.n_decays) (hu1 : u1 < c.n_decays) :
    b.Dgg_i (idx2 c.n_decays u u1) = s.Dgg_i (idx2 c.n_decays u u1) + dgg_term ex c i u u1 k := by
  have key := forLoopE_ok_inv
    (fun n (t : WState R) => ∀ u u1, u < c.n_decays → u1 < c.n_decays →
      t.Dgg_i (idx2 c.n_decays u u1) =
        s.Dgg_i (idx2 c.n_decays u u1) + if u < n then dgg_term ex c i u u1 k else 0)
    c.n_decays
    (decay_step ex fuel c ((c.timestamps i).getD k 0)
      (fun u u1 => ex (-(c.decay u1 + c.decay u) * (c.end_time - (c.timestamps i).getD k 0))))
    (source_loop ex c i k s) b h
    (by
      intro u u1 _ _
      rw [if_neg (Nat.not_lt_zero u), add_zero]
      exact congrFun (source_loop_frame ex c k _ _ _ c.n_nodes _).2.2 _)
    (by
      intro n _ a b1 ha hb u u1 hu hu1
      rw [decay_step_Dgg ex fuel c _ _ n a b1 hb]
      by_cases hun : u = n
      · subst hun
        obtain ⟨r1, r2, r3⟩ := idx2_row c.n_decays u u1 hu1
        rw [if_pos ⟨r1, r2⟩, r3, ha u u1 hu hu1, if_neg (Nat.lt_irrefl u),
          if_pos (Nat.lt_succ_self u), add_zero]
        rfl
      · rw [if_neg (idx2_other_row c.n_decays n u u1 hu1 hun), ha u u1 hu hu1]
        by_cases hlt : u < n
        · rw [if_pos hlt, if_pos (Nat.lt_succ_of_lt hlt)]
        · rw [if_neg hlt, if_neg (by omega)])
  rw [key u u1 hu hu1, if_pos hu]

/-- After the loop over the events, `Dgg_i(u, u1)` is the sum of the terms of the events. -/
theorem weights_loop_Dgg (ex : R → R) (fuel : Nat) (c : Config R) (i : Nat) (s : WState R)
    (h : weights_loop ex fuel c i = (.ok (), s)) (u u1 : Nat) (hu : u < c.n_decays)
    (hu1 : u1 < c.n_decays) :
    s.Dgg_i (idx2 c.n_decays u u1) =
      ∑ k in Finset.range (c.timestamps i).length, dgg_term ex c i u u1 k := by
  refine forLoopE_ok_inv
    (fun n (t : WState R) => t.Dgg_i (idx2 c.n_decays u u1) =
      ∑ k in Finset.range n, dgg_term ex c i u u1 k)
    (c.timestamps i).length (weights_step ex fuel c i) wstate_zero s h ?_ ?_
  · simp [wstate_zero]
  · intro n _ a b ha hb
    rw [weights_step_Dgg ex fuel c i n a b hb u u1 hu hu1, ha, Finset.sum_range_succ]

end Recursion

section Evaluators

variable {R : Type} [LinearOrderedField R] [FloorRing R]

theorem ensure_weights_ok (ex : R → R) (fuel : Nat) (m m1 : Model R)
    (h : ensure_weights ex fuel m = (.ok (), m1)) :
    m1.weights_computed = true ∧ m1.toConfig = m.toConfig := by
  unfold ensure_weights at h
  by_cases hw : m.weights_computed = true
  · simp only [hw, Bool.not_true, Bool.false_eq_true, if_false, Prod.mk.injEq, true_and] at h
    rw [← h]
    exact ⟨hw, rfl⟩
  · simp only [Bool.not_eq_true] at hw
    simp only [hw, Bool.not_false, if_true] at h
    obtain ⟨-, hp⟩ := compute_weights_ok ex fuel m m1 h
    exact ⟨hp.flag, hp.config⟩

/-- With at least one dimension, the opening step throws no `TICK_ERROR`. -/
theorem ensure_weights_no_tick_error (ex : R → R) (fuel : Nat) (m : Model R)
    (hn : m.n_nodes ≠ 0) (msg : String) :
    (ensure_weights ex fuel m).1 ≠ .error (.tick_error msg) := by
  unfold ensure_weights
  split
  · exact compute_weights_no_tick_error ex fuel m hn msg
  · simp

/-- The opening step completes on a model with a dimension whose weights are computed or
whose period is positive. -/
theorem ensure_weights_complete (ex : R → R) (m : Model R) (hn : m.n_nodes ≠ 0)
    (h : m.weights_computed = true ∨ 0 < m.period_length) :
    ∃ m1, ensure_weights ex (enough_fuel m.toConfig) m = (.ok (), m1) := by
  unfold ensure_weights
  by_cases hw : m.weights_computed = true
  · exact ⟨m, by simp [hw]⟩
  · simp only [Bool.not_eq_true] at hw
    rcases h with h | h
    · rw [h] at hw
      cases hw
    · simp only [hw, Bool.not_false, if_true]
      exact compute_weights_complete_of_pos ex m hn h

/-- Once the weights are computed the loop of `grad` over the dimensions completes. -/
theorem grad_loop_ok (m : Model R) (coeffs : Nat → R) (hw : m.weights_computed = true)
    (n : Nat) (out : Nat → R) :
    forLoopE n (fun i out => grad_i m i coeffs out) out =
      (.ok (), forLoop n (fun i out => grad_i_body m i coeffs out) out) := by
  induction n with
  | zero => rfl
  | succ n ih =>
    rw [forLoopE_succ_ok n _ out _ ih, forLoop_succ]
    simp [grad_i, hw]

/-- Once the weights are computed and there is one baseline the loop of `hessian` over the
dimensions completes. -/
theorem hessian_loop_ok (m : Model R) (hw : m.weights_computed = true)
    (hb : m.n_baselines = 1) (n : Nat) (out : Nat → R) :
    forLoopE n (fun i out => hessian_i m i out) out =
      (.ok (), forLoop n (fun i out => hessian_i_body m i out) out) := by
  induction n with
  | zero => rfl
  | succ n ih =>
    rw [forLoopE_succ_ok n _ out _ ih, forLoop_succ]
    simp [hessian_i, hw, hb]

/-- With another number of baselines the loop of `hessian` over the dimensions throws at
its first dimension and writes nothing. -/
theorem hessian_loop_unsupported (m : Model R) (hw : m.weights_computed = true)
    (hb : m.n_baselines ≠ 1) (n : Nat) (out : Nat → R) :
    forLoopE (n + 1) (fun i out => hessian_i m i out) out =
      (.error (.tick_error "hessian is only implemented for one baseline"), out) := by
  induction n with
  | zero => simp [forLoopE, hessian_i, hw, hb]
  | succ n ih => rw [forLoopE_succ_error (n + 1) _ out _ _ ih]

theorem loss_eq (ex : R → R) (fuel : Nat) (m : Model R) (coeffs : Nat → R) :
    loss ex fuel m coeffs =
      match ensure_weights ex fuel m with
      | (.error e, m1) => (.error e, m1)
      | (.ok _, m1) =>
        match parallel_map m1.n_nodes (fun i => loss_i m1 i coeffs) with
        | .error e => (.error e, m1)
        | .ok values => (.ok (arraySum m1.n_nodes values / (m1.n_total_jumps : R)), m1) := rfl

theorem grad_eq (ex : R → R) (fuel : Nat) (m : Model R) (coeffs out : Nat → R) :
    grad ex fuel m coeffs out =
      match ensure_weights ex fuel m with
      | (.error e, m1) => (.error e, m1, out)
      | (.ok _, m1) =>
        match forLoopE m1.n_nodes (fun i out => grad_i m1 i coeffs out) out with
        | (.error e, out1) => (.error e, m1, out1)
        | (.ok _, out1) => (.ok (), m1, fun x => out1 x / (m1.n_total_jumps : R)) := rfl

theorem hessian_eq (ex : R → R) (fuel : Nat) (m : Model R) (out : Nat → R) :
    hessian ex fuel m out =
      match ensure_weights ex fuel m with
      | (.error e, m1) => (.error e, m1, out)
      | (.ok _, m1) =>
        match forLoopE m1.n_nodes (fun i out => hessian_i m1 i out) out with
        | (.error e, out1) => (.error e, m1, out1)
        | (.ok _, out1) => (.ok (), m1, fun x => out1 x / (m1.n_total_jumps : R)) := rfl

/-- On a model whose weights are computed the opening step does nothing. -/
theorem ensure_weights_computed (ex : R → R) (fuel : Nat) (m : Model R)
    (hw : m.weights_computed = true) : ensure_weights ex fuel m = (.ok (), m) := by
  simp [ensure_weights, hw]

/-- What `grad` returns when its opening step completes. -/
theorem grad_of_ensure (ex : R → R) (fuel : Nat) (m m1 : Model R) (coeffs out : Nat → R)
    (h : ensure_weights ex fuel m = (.ok (), m1)) :
    grad ex fuel m coeffs out =
      (.ok (), m1, fun x =>
        forLoop m1.n_nodes (fun i out => grad_i_body m1 i coeffs out) out x /
          (m1.n_total_jumps : R)) := by
  rw [grad_eq, h]
  simp only
  rw [grad_loop_ok m1 coeffs (ensure_weights_ok ex fuel m m1 h).1]

/-- What `hessian` returns when its opening step completes and there is one baseline. -/
theorem hessian_of_ensure (ex : R → R) (fuel : Nat) (m m1 : Model R) (out : Nat → R)
    (hb : m.n_baselines = 1) (h : ensure_weights ex fuel m = (.ok (), m1)) :
    hessian ex fuel m out =
      (.ok (), m1, fun x =>
        forLoop m1.n_nodes (fun i out => hessian_i_body m1 i out) out x /
          (m1.n_total_jumps : R)) := by
  rw [hessian_eq, h]
  simp only
  have hb1 : m1.n_baselines = 1 := by
    rw [← hb]
    exact congrArg Config.n_baselines (ensure_weights_ok ex fuel m m1 h).2
  rw [hessian_loop_ok m1 (ensure_weights_ok ex fuel m m1 h).1 hb1]

theorem loss_of_ensure (ex : R → R) (fuel : Nat) (m m1 : Model R) (coeffs : Nat → R)
    (h : ensure_weights ex fuel m = (.ok (), m1)) :
    loss ex fuel m coeffs = loss_after m1 coeffs := by
  rw [loss_eq, h]
  rfl

theorem loss_after_snd (m1 : Model R) (coeffs : Nat → R) : (loss_after m1 coeffs).2 = m1 := by
  unfold loss_after
  split <;> rfl

/-- The result of `loss` on a model whose weights are not computed depends on its
configuration only. -/
theorem loss_congr (ex : R → R) (fuel : Nat) (m m1 : Model R) (coeffs : Nat → R)
    (hc : m1.toConfig = m.toConfig) (hw : m.weights_computed = false)
    (hw1 : m1.weights_computed = false) (hn : m.n_nodes ≠ 0) :
    loss ex fuel m1 coeffs = loss ex fuel m coeffs := by
  unfold loss
  rw [hw, hw1, compute_weights_congr ex fuel m m1 hc (hw1.trans hw.symm) hn]
  simp only [Bool.not_false, if_true]

end Evaluators

section Additive

variable {R : Type} [LinearOrderedField R] [FloorRing R]

theorem addAt_eq (b : Nat → R) (idx : Nat) (v : R) : addAt b idx v = b + Pi.single idx v := by
  funext x
  unfold addAt
  by_cases hx : x = idx
  · subst hx
    simp
  · simp [Function.update_noteq hx, Pi.single_apply, hx]

theorem subAt_eq (b : Nat → R) (idx : Nat) (v : R) :
    subAt b idx v = b + Pi.single idx (-v) := by
  funext x
  unfold subAt
  by_cases hx : x = idx
  · subst hx
    simp [sub_eq_add_neg]
  · simp [Function.update_noteq hx, Pi.single_apply, hx]

theorem ite_addAt (cond : Prop) [Decidable cond] (b : Nat → R) (idx : Nat) (v : R) :
    (if cond then addAt b idx v else b) = b + if cond then Pi.single idx v else 0 := by
  split
  · exact addAt_eq b idx v
  · rw [add_zero]

/-- A loop whose body adds an increment that does not depend on the state. -/
theorem forLoop_add_fun {M : Type} [AddCommMonoid M] (n : Nat) (d : Nat → M) (s : M) :
    forLoop n (fun k t => t + d k) s = s + ∑ k in Finset.range n, d k :=
  forLoop_add n _ d (fun _ _ _ => rfl) s

theorem ite_add_add {M : Type} [AddCommMonoid M] (cond : Prop) [Decidable cond] (b x y : M) :
    (if cond then b + (x + y) else b + x) = b + (x + if cond then y else 0) := by
  split
  · rfl
  · rw [add_zero]

/-- The writes of `hessian_i` are one assignment followed by additions that do not depend
on the buffer. -/
theorem hessian_i_body_eq (m : Model R) (i : Nat) (out : Nat → R) :
    hessian_i_body m i out =
      Function.update out (i * (m.n_nodes * m.n_decays + 1)) (2 * m.end_time) +
        hessian_delta m i := by
  unfold hessian_i_body hessian_delta
  simp only [addAt_eq, add_assoc, ite_add_add, forLoop_add_fun]

theorem mul_sep (a b k : Nat) (h : a < b) : a * k + k ≤ b * k := by
  have := Nat.mul_le_mul_right k (Nat.succ_le_of_lt h)
  rw [Nat.succ_mul] at this
  exact this

/-- Blocks of width `k` with different indices are disjoint. -/
theorem block_disjoint (base k r r0 x : Nat) (hr : r ≠ r0)
    (h0 : base + r0 * k ≤ x ∧ x < base + r0 * k + k) :
    ¬ (base + r * k ≤ x ∧ x < base + r * k + k) := by
  rintro ⟨h1, h2⟩
  rcases Nat.lt_or_gt_of_ne hr with h | h
  · have := mul_sep r r0 k h
    omega
  · have := mul_sep r0 r k h
    omega

/-- Flat indices `j * d + u` with `u < d` determine `j` and `u`. -/
theorem flat_inj (d j u j0 u0 : Nat) (hu : u < d) (hu0 : u0 < d)
    (h : j * d + u = j0 * d + u0) : j = j0 ∧ u = u0 := by
  by_cases hj : j = j0
  · subst hj
    exact ⟨rfl, by omega⟩
  · exfalso
    rcases Nat.lt_or_gt_of_ne hj with h1 | h1
    · have := mul_sep j j0 d h1
      omega
    · have := mul_sep j0 j d h1
      omega

theorem flat_lt (n d j u : Nat) (hj : j < n) (hu : u < d) : j * d + u < n * d := by
  have := mul_sep j n d hj
  omega

/-- A double sum of functions supported in disjoint blocks of width `k`, indexed by the flat
index `j * d + u`, evaluated inside the block of `(j0, u0)`. -/
theorem sum2_block {M : Type} [AddCommMonoid M] (n d k base : Nat) (g : Nat → Nat → Nat → M)
    (hsupp : ∀ j u x, j < n → u < d →
      ¬ (base + (j * d + u) * k ≤ x ∧ x < base + (j * d + u) * k + k) → g j u x = 0)
    (j0 u0 x : Nat) (hj0 : j0 < n) (hu0 : u0 < d)
    (hx : base + (j0 * d + u0) * k ≤ x ∧ x < base + (j0 * d + u0) * k + k) :
    ∑ j in Finset.range n, ∑ u in Finset.range d, g j u x = g j0 u0 x := by
  rw [Finset.sum_eq_single j0, Finset.sum_eq_single u0]
  · intro u hu hne
    refine hsupp j0 u x hj0 (Finset.mem_range.mp hu)
      (block_disjoint base k _ _ x ?_ hx)
    intro h
    exact hne (flat_inj d j0 u j0 u0 (Finset.mem_range.mp hu) hu0 h).2
  · intro h
    exact absurd (Finset.mem_range.mpr hu0) h
  · intro j hj hne
    refine Finset.sum_eq_zero (fun u hu => ?_)
    refine hsupp j u x (Finset.mem_range.mp hj) (Finset.mem_range.mp hu)
      (block_disjoint base k _ _ x ?_ hx)
    intro h
    exact hne (flat_inj d j u j0 u0 (Finset.mem_range.mp hu) hu0 h).1
  · intro h
    exact absurd (Finset.mem_range.mpr hj0) h

/-- Outside the blocks the double sum vanishes. -/
theorem sum2_block_miss {M : Type} [AddCommMonoid M] (n d : Nat) (g : Nat → Nat → Nat → M)
    (x : Nat) (hmiss : ∀ j u, j < n → u < d → g j u x = 0) :
    ∑ j in Finset.range n, ∑ u in Finset.range d, g j u x = 0 :=
  Finset.sum_eq_zero (fun j hj => Finset.sum_eq_zero (fun u hu =>
    hmiss j u (Finset.mem_range.mp hj) (Finset.mem_range.mp hu)))

/-- A sum of functions supported in disjoint blocks of width `k`, evaluated inside the block
of `r0`. -/
theorem sum_block {M : Type} [AddCommMonoid M] (n k base : Nat) (g : Nat → Nat → M)
    (hsupp : ∀ r x, r < n → ¬ (base + r * k ≤ x ∧ x < base + r * k + k) → g r x = 0)
    (r0 x : Nat) (hr0 : r0 < n) (hx : base + r0 * k ≤ x ∧ x < base + r0 * k + k) :
    ∑ r in Finset.range n, g r x = g r0 x := by
  rw [Finset.sum_eq_single r0]
  · intro r hr hne
    exact hsupp r x (Finset.mem_range.mp hr) (block_disjoint base k r r0 x hne hx)
  · intro h
    exact absurd (Finset.mem_range.mpr hr0) h

theorem hessian_delta_eq (m : Model R) (i : Nat) :
    hessian_delta m i = hessian_mu_part m i +
      ∑ l in Finset.range m.n_nodes, ∑ u in Finset.range m.n_decays,
        hessian_alpha_row m i l u := rfl

theorem hessian_mu_part_apply (m : Model R) (i x : Nat) :
    hessian_mu_part m i x =
      ∑ j in Finset.range m.n_nodes, ∑ u in Finset.range m.n_decays,
        if x = i * (m.n_nodes * m.n_decays + 1) + (j * m.n_decays + (u + 1)) then
          2 * m.Dg j (idx2 m.n_baselines u 0)
        else 0 := by
  unfold hessian_mu_part
  simp only [Finset.sum_apply, Pi.single_apply]

/-- The `mu` line part vanishes off the entries after the first of its line. -/
theorem hessian_mu_part_support (m : Model R) (i x : Nat)
    (hx : ¬ (i * (m.n_nodes * m.n_decays + 1) + 1 ≤ x ∧
      x < i * (m.n_nodes * m.n_decays + 1) + (m.n_nodes * m.n_decays + 1))) :
    hessian_mu_part m i x = 0 := by
  rw [hessian_mu_part_apply]
  refine sum2_block_miss m.n_nodes m.n_decays
    (fun j u x =>
      if x = i * (m.n_nodes * m.n_decays + 1) + (j * m.n_decays + (u + 1)) then
        2 * m.Dg j (idx2 m.n_baselines u 0)
      else 0) x (fun j u hj hu => ?_)
  have := flat_lt m.n_nodes m.n_decays j u hj hu
  simp only
  rw [if_neg]
  omega

theorem hessian_mu_part_hit (m : Model R) (i j0 u0 : Nat) (hj0 : j0 < m.n_nodes)
    (hu0 : u0 < m.n_decays) :
    hessian_mu_part m i (i * (m.n_nodes * m.n_decays + 1) + (j0 * m.n_decays + (u0 + 1))) =
      2 * m.Dg j0 (idx2 m.n_baselines u0 0) := by
  rw [hessian_mu_part_apply]
  have := sum2_block m.n_nodes m.n_decays 1 (i * (m.n_nodes * m.n_decays + 1) + 1)
    (fun j u x =>
      if x = i * (m.n_nodes * m.n_decays + 1) + (j * m.n_decays + (u + 1)) then
        2 * m.Dg j (idx2 m.n_baselines u 0)
      else 0)
    (fun j u x _ _ h => by
      simp only
      rw [if_neg]
      omega)
    j0 u0 (i * (m.n_nodes * m.n_decays + 1) + (j0 * m.n_decays + (u0 + 1))) hj0 hu0
    (by omega)
  simpa using this

theorem hessian_alpha_row_apply (m : Model R) (i l u x : Nat) :
    hessian_alpha_row m i l u x =
      (if x = m.n_nodes * (m.n_nodes * m.n_decays + 1) +
          (i * (m.n_nodes * m.n_decays + 1) * (m.n_nodes * m.n_decays) +
            (l * m.n_decays + u) * (m.n_nodes * m.n_decays + 1)) then
        2 * m.Dg l (idx2 m.n_baselines u 0) else 0) +
      ∑ m1 in Finset.range m.n_nodes, ∑ u1 in Finset.range m.n_decays,
        if x = m.n_nodes * (m.n_nodes * m.n_decays + 1) +
            (i * (m.n_nodes * m.n_decays + 1) * (m.n_nodes * m.n_decays) +
              ((l * m.n_decays + u) * (m.n_nodes * m.n_decays + 1) +
                (m1 * m.n_decays + (u1 + 1)))) then
          hessian_entry m l u m1 u1
        else 0 := by
  unfold hessian_alpha_row hessian_entry
  simp only [Finset.sum_apply, Pi.add_apply, Pi.single_apply, ite_apply, Pi.zero_apply]
  congr 1
  refine Finset.sum_congr rfl (fun m1 _ => Finset.sum_congr rfl (fun u1 _ => ?_))
  split_ifs <;> simp

/-- The part of the line of `(l, u)` vanishes off that line. -/
theorem hessian_alpha_row_support (m : Model R) (i l u x : Nat)
    (hx : ¬ (m.n_nodes * (m.n_nodes * m.n_decays + 1) +
        i * (m.n_nodes * m.n_decays + 1) * (m.n_nodes * m.n_decays) +
        (l * m.n_decays + u) * (m.n_nodes * m.n_decays + 1) ≤ x ∧
      x < m.n_nodes * (m.n_nodes * m.n_decays + 1) +
        i * (m.n_nodes * m.n_decays + 1) * (m.n_nodes * m.n_decays) +
        (l * m.n_decays + u) * (m.n_nodes * m.n_decays + 1) +
        (m.n_nodes * m.n_decays + 1))) :
    hessian_alpha_row m i l u x = 0 := by
  rw [hessian_alpha_row_apply, if_neg (by omega), zero_add]
  refine sum2_block_miss m.n_nodes m.n_decays
    (fun m1 u1 x =>
      if x = m.n_nodes * (m.n_nodes * m.n_decays + 1) +
          (i * (m.n_nodes * m.n_decays + 1) * (m.n_nodes * m.n_decays) +
            ((l * m.n_decays + u) * (m.n_nodes * m.n_decays + 1) +
              (m1 * m.n_decays + (u1 + 1)))) then
        hessian_entry m l u m1 u1
      else 0) x (fun m1 u1 hm1 hu1 => ?_)
  have := flat_lt m.n_nodes m.n_decays m1 u1 hm1 hu1
  simp only
  rw [if_neg]
  omega

theorem hessian_alpha_row_hit_first (m : Model R) (i l u : Nat) :
    hessian_alpha_row m i l u (m.n_nodes * (m.n_nodes * m.n_decays + 1) +
        (i * (m.n_nodes * m.n_decays + 1) * (m.n_nodes * m.n_decays) +
          (l * m.n_decays + u) * (m.n_nodes * m.n_decays + 1))) =
      2 * m.Dg l (idx2 m.n_baselines u 0) := by
  rw [hessian_alpha_row_apply, if_pos rfl]
  rw [sum2_block_miss m.n_nodes m.n_decays
    (fun m1 u1 x =>
      if x = m.n_nodes * (m.n_nodes * m.n_decays + 1) +
          (i * (m.n_nodes * m.n_decays + 1) * (m.n_nodes * m.n_decays) +
            ((l * m.n_decays + u) * (m.n_nodes * m.n_decays + 1) +
              (m1 * m.n_decays + (u1 + 1)))) then
        hessian_entry m l u m1 u1
      else 0) _ (fun m1 u1 _ _ => by simp only; rw [if_neg]; omega), add_zero]

theorem hessian_alpha_row_hit (m : Model R) (i l u m0 v0 : Nat) (hm0 : m0 < m.n_nodes)
    (hv0 : v0 < m.n_decays) :
    hessian_alpha_row m i l u (m.n_nodes * (m.n_nodes * m.n_decays + 1) +
        (i * (m.n_nodes * m.n_decays + 1) * (m.n_nodes * m.n_decays) +
          ((l * m.n_decays + u) * (m.n_nodes * m.n_decays + 1) +
            (m0 * m.n_decays + (v0 + 1))))) =
      hessian_entry m l u m0 v0 := by
  rw [hessian_alpha_row_apply, if_neg (by omega), zero_add]
  have := sum2_block m.n_nodes m.n_decays 1
    (m.n_nodes * (m.n_nodes * m.n_decays + 1) +
      (i * (m.n_nodes * m.n_decays + 1) * (m.n_nodes * m.n_decays) +
        ((l * m.n_decays + u) * (m.n_nodes * m.n_decays + 1) + 1)))
    (fun m1 u1 x =>
      if x = m.n_nodes * (m.n_nodes * m.n_decays + 1) +
          (i * (m.n_nodes * m.n_decays + 1) * (m.n_nodes * m.n_decays) +
            ((l * m.n_decays + u) * (m.n_nodes * m.n_decays + 1) +
              (m1 * m.n_decays + (u1 + 1)))) then
        hessian_entry m l u m1 u1
      else 0)
    (fun m1 u1 x _ _ h => by
      simp only
      rw [if_neg]
      omega)
    m0 v0
    (m.n_nodes * (m.n_nodes * m.n_decays + 1) +
      (i * (m.n_nodes * m.n_decays + 1) * (m.n_nodes * m.n_decays) +
        ((l * m.n_decays + u) * (m.n_nodes * m.n_decays + 1) +
          (m0 * m.n_decays + (v0 + 1)))))
    hm0 hv0 (by omega)
  simpa using this

theorem hessian_alpha_part_apply (m : Model R) (i x : Nat) :
    hessian_alpha_part m i x =
      ∑ l in Finset.range m.n_nodes, ∑ u in Finset.range m.n_decays,
        hessian_alpha_row m i l u x := by
  unfold hessian_alpha_part
  simp only [Finset.sum_apply]

theorem hessian_delta_apply (m : Model R) (i x : Nat) :
    hessian_delta m i x = hessian_mu_part m i x + hessian_alpha_part m i x := rfl

/-- The block part vanishes off the block of dimension `i`. -/
theorem hessian_alpha_part_support (m : Model R) (i x : Nat)
    (hx : ¬ (m.n_nodes * (m.n_nodes * m.n_decays + 1) +
        i * (m.n_nodes * m.n_decays + 1) * (m.n_nodes * m.n_decays) ≤ x ∧
      x < m.n_nodes * (m.n_nodes * m.n_decays + 1) +
        i * (m.n_nodes * m.n_decays + 1) * (m.n_nodes * m.n_decays) +
        (m.n_nodes * m.n_decays) * (m.n_nodes * m.n_decays + 1))) :
    hessian_alpha_part m i x = 0 := by
  rw [hessian_alpha_part_apply]
  refine sum2_block_miss m.n_nodes m.n_decays (fun l u x => hessian_alpha_row m i l u x) x
    (fun l u hl hu => ?_)
  have h1 := flat_lt m.n_nodes m.n_decays l u hl hu
  have h2 := mul_sep (l * m.n_decays + u) (m.n_nodes * m.n_decays)
    (m.n_nodes * m.n_decays + 1) h1
  exact hessian_alpha_row_support m i l u x (by omega)

/-- Inside the line of `(l0, u0)` the block part is the part of that line. -/
theorem hessian_alpha_part_hit (m : Model R) (i l0 u0 x : Nat) (hl0 : l0 < m.n_nodes)
    (hu0 : u0 < m.n_decays)
    (hx : m.n_nodes * (m.n_nodes * m.n_decays + 1) +
        i * (m.n_nodes * m.n_decays + 1) * (m.n_nodes * m.n_decays) +
        (l0 * m.n_decays + u0) * (m.n_nodes * m.n_decays + 1) ≤ x ∧
      x < m.n_nodes * (m.n_nodes * m.n_decays + 1) +
        i * (m.n_nodes * m.n_decays + 1) * (m.n_nodes * m.n_decays) +
        (l0 * m.n_decays + u0) * (m.n_nodes * m.n_decays + 1) +
        (m.n_nodes * m.n_decays + 1)) :
    hessian_alpha_part m i x = hessian_alpha_row m i l0 u0 x := by
  rw [hessian_alpha_part_apply]
  exact sum2_block m.n_nodes m.n_decays (m.n_nodes * m.n_decays + 1)
    (m.n_nodes * (m.n_nodes * m.n_decays + 1) +
      i * (m.n_nodes * m.n_decays + 1) * (m.n_nodes * m.n_decays))
    (fun l u x => hessian_alpha_row m i l u x)
    (fun l u x _ _ h => hessian_alpha_row_support m i l u x h) l0 u0 x hl0 hu0 hx

/-- In the `mu` line of dimension `i0` only the `mu` part of `i0` contributes. -/
theorem hessian_delta_sum_mu (m : Model R) (i0 x : Nat) (hi0 : i0 < m.n_nodes)
    (hx : i0 * (m.n_nodes * m.n_decays + 1) ≤ x ∧
      x < i0 * (m.n_nodes * m.n_decays + 1) + (m.n_nodes * m.n_decays + 1)) (n : Nat) :
    ∑ i in Finset.range n, hessian_delta m i x =
      if i0 < n then hessian_mu_part m i0 x else 0 := by
  have hsep := mul_sep i0 m.n_nodes (m.n_nodes * m.n_decays + 1) hi0
  have hcomm := Nat.mul_comm m.n_nodes (m.n_nodes * m.n_decays + 1)
  have halpha : ∀ i, hessian_alpha_part m i x = 0 := by
    intro i
    exact hessian_alpha_part_support m i x (by omega)
  simp only [hessian_delta_apply, halpha, add_zero]
  by_cases h : i0 < n
  · rw [if_pos h]
    exact sum_block n (m.n_nodes * m.n_decays + 1) 0 (fun i x => hessian_mu_part m i x)
      (fun i x _ hne => hessian_mu_part_support m i x (by omega)) i0 x h (by omega)
  · rw [if_neg h]
    refine Finset.sum_eq_zero (fun i hi => ?_)
    have hi1 : i < i0 := by
      have := Finset.mem_range.mp hi
      omega
    have := mul_sep i i0 (m.n_nodes * m.n_decays + 1) hi1
    exact hessian_mu_part_support m i x (by omega)

/-- In the block of dimension `i0` only the block part of `i0` contributes. -/
theorem hessian_delta_sum_alpha (m : Model R) (i0 x : Nat) (hi0 : i0 < m.n_nodes)
    (hx : m.n_nodes * (m.n_nodes * m.n_decays + 1) +
        i0 * (m.n_nodes * m.n_decays + 1) * (m.n_nodes * m.n_decays) ≤ x ∧
      x < m.n_nodes * (m.n_nodes * m.n_decays + 1) +
        i0 * (m.n_nodes * m.n_decays + 1) * (m.n_nodes * m.n_decays) +
        (m.n_nodes * m.n_decays) * (m.n_nodes * m.n_decays + 1)) :
    ∑ i in Finset.range m.n_nodes, hessian_delta m i x = hessian_alpha_part m i0 x := by
  have hcomm := Nat.mul_comm m.n_nodes (m.n_nodes * m.n_decays + 1)
  have hmu : ∀ i, i < m.n_nodes → hessian_mu_part m i x = 0 := by
    intro i hi
    have := mul_sep i m.n_nodes (m.n_nodes * m.n_decays + 1) hi
    exact hessian_mu_part_support m i x (by omega)
  have hassoc : ∀ i, i * (m.n_nodes * m.n_decays + 1) * (m.n_nodes * m.n_decays) =
      i * ((m.n_nodes * m.n_decays) * (m.n_nodes * m.n_decays + 1)) := by
    intro i
    rw [Nat.mul_assoc, Nat.mul_comm (m.n_nodes * m.n_decays + 1)]
  rw [Finset.sum_congr rfl (fun i hi => by
    rw [hessian_delta_apply, hmu i (Finset.mem_range.mp hi), zero_add])]
  exact sum_block m.n_nodes ((m.n_nodes * m.n_decays) * (m.n_nodes * m.n_decays + 1))
    (m.n_nodes * (m.n_nodes * m.n_decays + 1)) (fun i x => hessian_alpha_part m i x)
    (fun i x _ hne => hessian_alpha_part_support m i x (by
      rw [hassoc i]
      omega)) i0 x hi0 (by
      rw [hassoc i0] at hx
      omega)

/-- Nothing is added at the first entry of a `mu` line. -/
theorem hessian_delta_start (m : Model R) (i i0 : Nat) (hi0 : i0 < m.n_nodes) :
    hessian_delta m i (i0 * (m.n_nodes * m.n_decays + 1)) = 0 := by
  have hsep := mul_sep i0 m.n_nodes (m.n_nodes * m.n_decays + 1) hi0
  have hcomm := Nat.mul_comm m.n_nodes (m.n_nodes * m.n_decays + 1)
  rw [hessian_delta_apply, hessian_alpha_part_support m i _ (by omega), add_zero]
  refine hessian_mu_part_support m i _ ?_
  rintro ⟨h1, h2⟩
  rcases Nat.lt_trichotomy i i0 with h | h | h
  · have := mul_sep i i0 (m.n_nodes * m.n_decays + 1) h
    omega
  · subst h
    omega
  · have := mul_sep i0 i (m.n_nodes * m.n_decays + 1) h
    omega

/-- The buffer after the dimensions `0 .. n` of `hessian`: the first entry of the `mu`
line of each dimension done is `2 * end_time`, every other entry has had the additions of
the dimensions done. -/
theorem hessian_loop_apply (m : Model R) (out : Nat → R) (n : Nat) (hn : n ≤ m.n_nodes)
    (x : Nat) :
    forLoop n (fun i out => hessian_i_body m i out) out x =
      (if ∃ i, i < n ∧ x = i * (m.n_nodes * m.n_decays + 1) then 2 * m.end_time else out x) +
        ∑ i in Finset.range n, hessian_delta m i x := by
  induction n with
  | zero => simp [forLoop]
  | succ n ih =>
    rw [forLoop_succ, hessian_i_body_eq, Pi.add_apply, Finset.sum_range_succ]
    by_cases hx : x = n * (m.n_nodes * m.n_decays + 1)
    · have hex : ∃ i, i < n + 1 ∧ x = i * (m.n_nodes * m.n_decays + 1) :=
        ⟨n, Nat.lt_succ_self n, hx⟩
      rw [if_pos hex, hx, Function.update_same]
      rw [Finset.sum_eq_zero (fun i _ => hessian_delta_start m i n (by omega)), zero_add]
    · rw [Function.update_noteq hx, ih (by omega)]
      have hiff : (∃ i, i < n + 1 ∧ x = i * (m.n_nodes * m.n_decays + 1)) ↔
          ∃ i, i < n ∧ x = i * (m.n_nodes * m.n_decays + 1) := by
        constructor
        · rintro ⟨i, hi, hxi⟩
          refine ⟨i, ?_, hxi⟩
          rcases Nat.lt_succ_iff_lt_or_eq.mp hi with h | h
          · exact h
          · subst h
            exact absurd hxi hx
        · rintro ⟨i, hi, hxi⟩
          exact ⟨i, by omega, hxi⟩
      simp only [hiff]
      rw [add_assoc]

/-- Flat indices below `n * d` are of the form `l * d + u`. -/
theorem flat_decode (n d r : Nat) (hr : r < n * d) :
    r / d < n ∧ r % d < d ∧ r = (r / d) * d + r % d := by
  have hd : 0 < d := by
    rcases Nat.eq_zero_or_pos d with h | h
    · subst h
      simp at hr
    · exact h
  refine ⟨?_, Nat.mod_lt r hd, ?_⟩
  · exact Nat.div_lt_of_lt_mul (by rwa [Nat.mul_comm] at hr)
  · rw [Nat.mul_comm]
    exact (Nat.div_add_mod r d).symm

/-- Entry `(a, b)` of the matrix of dimension `i` after the loop of `hessian` over the
dimensions: the first entry is overwritten, every other entry is added to. -/
theorem hessian_loop_entry (m : Model R) (out : Nat → R) (i a b : Nat) (hi : i < m.n_nodes)
    (ha : a ≤ m.n_nodes * m.n_decays) (hb : b ≤ m.n_nodes * m.n_decays) :
    forLoop m.n_nodes (fun i out => hessian_i_body m i out) out
        (hessian_index m.n_nodes m.n_decays i a b) =
      (if a = 0 ∧ b = 0 then 0 else out (hessian_index m.n_nodes m.n_decays i a b)) +
        hessian_matrix m a b := by
  rw [hessian_loop_apply m out m.n_nodes (le_refl _)]
  have hsep := mul_sep i m.n_nodes (m.n_nodes * m.n_decays + 1) hi
  have hcomm := Nat.mul_comm m.n_nodes (m.n_nodes * m.n_decays + 1)
  by_cases ha0 : a = 0
  · subst ha0
    have hidx : hessian_index m.n_nodes m.n_decays i 0 b =
        i * (m.n_nodes * m.n_decays + 1) + b := by simp [hessian_index]
    rw [hidx, hessian_delta_sum_mu m i _ hi (by omega) m.n_nodes, if_pos hi]
    by_cases hb0 : b = 0
    · subst hb0
      have hex : ∃ i1, i1 < m.n_nodes ∧ i * (m.n_nodes * m.n_decays + 1) + 0 =
          i1 * (m.n_nodes * m.n_decays + 1) := ⟨i, hi, by omega⟩
      rw [if_pos hex, hessian_mu_part_support m i _ (by omega)]
      simp [hessian_matrix]
    · have hnex : ¬ ∃ i1, i1 < m.n_nodes ∧ i * (m.n_nodes * m.n_decays + 1) + b =
          i1 * (m.n_nodes * m.n_decays + 1) := by
        rintro ⟨i1, -, h⟩
        rcases Nat.lt_trichotomy i1 i with h1 | h1 | h1
        · have := mul_sep i1 i (m.n_nodes * m.n_decays + 1) h1
          omega
        · subst h1
          omega
        · have := mul_sep i i1 (m.n_nodes * m.n_decays + 1) h1
          omega
      obtain ⟨d1, d2, d3⟩ := flat_decode m.n_nodes m.n_decays (b - 1) (by omega)
      have hb1 : i * (m.n_nodes * m.n_decays + 1) + b =
          i * (m.n_nodes * m.n_decays + 1) +
            ((b - 1) / m.n_decays * m.n_decays + ((b - 1) % m.n_decays + 1)) := by omega
      rw [if_neg hnex, if_neg (fun h => hb0 h.2)]
      congr 1
      rw [hb1, hessian_mu_part_hit m i _ _ d1 d2]
      simp [hessian_matrix, hb0]
  · obtain ⟨r1, r2, r3⟩ := flat_decode m.n_nodes m.n_decays (a - 1) (by omega)
    have hrow := mul_sep (a - 1) (m.n_nodes * m.n_decays) (m.n_nodes * m.n_decays + 1)
      (by omega)
    have hidx : hessian_index m.n_nodes m.n_decays i a b =
        m.n_nodes * (m.n_nodes * m.n_decays + 1) +
          i * (m.n_nodes * m.n_decays + 1) * (m.n_nodes * m.n_decays) +
          (a - 1) * (m.n_nodes * m.n_decays + 1) + b := by simp [hessian_index, ha0]
    have hnex : ¬ ∃ i1, i1 < m.n_nodes ∧ hessian_index m.n_nodes m.n_decays i a b =
        i1 * (m.n_nodes * m.n_decays + 1) := by
      rintro ⟨i1, hi1, h⟩
      have := mul_sep i1 m.n_nodes (m.n_nodes * m.n_decays + 1) hi1
      omega
    rw [if_neg hnex, if_neg (fun h => ha0 h.1)]
    congr 1
    have hrow_eq : (a - 1) * (m.n_nodes * m.n_decays + 1) =
        ((a - 1) / m.n_decays * m.n_decays + (a - 1) % m.n_decays) *
          (m.n_nodes * m.n_decays + 1) := by rw [← r3]
    rw [hessian_delta_sum_alpha m i _ hi (by omega),
      hessian_alpha_part_hit m i ((a - 1) / m.n_decays) ((a - 1) % m.n_decays) _ r1 r2
        (by omega)]
    by_cases hb0 : b = 0
    · subst hb0
      have hpos : hessian_index m.n_nodes m.n_decays i a 0 =
          m.n_nodes * (m.n_nodes * m.n_decays + 1) +
            (i * (m.n_nodes * m.n_decays + 1) * (m.n_nodes * m.n_decays) +
              ((a - 1) / m.n_decays * m.n_decays + (a - 1) % m.n_decays) *
                (m.n_nodes * m.n_decays + 1)) := by omega
      rw [hpos, hessian_alpha_row_hit_first]
      simp [hessian_matrix, ha0]
    · obtain ⟨d1, d2, d3⟩ := flat_decode m.n_nodes m.n_decays (b - 1) (by omega)
      have hpos : hessian_index m.n_nodes m.n_decays i a b =
          m.n_nodes * (m.n_nodes * m.n_decays + 1) +
            (i * (m.n_nodes * m.n_decays + 1) * (m.n_nodes * m.n_decays) +
              (((a - 1) / m.n_decays * m.n_decays + (a - 1) % m.n_decays) *
                  (m.n_nodes * m.n_decays + 1) +
                ((b - 1) / m.n_decays * m.n_decays + ((b - 1) % m.n_decays + 1)))) := by
        omega
      rw [hpos, hessian_alpha_row_hit m i _ _ _ _ d1 d2]
      simp [hessian_matrix, ha0, hb0]

theorem hessian_entry_symm (m : Model R) (l u m1 u1 : Nat) :
    hessian_entry m l u m1 u1 = hessian_entry m m1 u1 l u := by
  unfold hessian_entry
  by_cases h : l = m1
  · subst h
    simp only [if_true]
    ring
  · have h' : ¬ m1 = l := fun e => h e.symm
    simp only [if_neg h, if_neg h']
    ring

/-- The matrix added by `hessian_i` is symmetric. -/
theorem hessian_matrix_symm (m : Model R) (a b : Nat) :
    hessian_matrix m a b = hessian_matrix m b a := by
  unfold hessian_matrix
  by_cases ha : a = 0
  · by_cases hb : b = 0
    · rw [ha, hb]
    · simp only [ha, hb, if_true, if_false]
  · by_cases hb : b = 0
    · simp only [ha, hb, if_true, if_false]
    · simp only [ha, hb, if_false]
      exact hessian_entry_symm m _ _ _ _

/-- What a completed `hessian` returns. -/
theorem hessian_ok (ex : R → R) (fuel : Nat) (m m1 : Model R) (out H : Nat → R)
    (hb : m.n_baselines = 1) (h : hessian ex fuel m out = (.ok (), m1, H)) :
    ensure_weights ex fuel m = (.ok (), m1) ∧
    H = fun x => forLoop m1.n_nodes (fun i out => hessian_i_body m1 i out) out x /
      (m1.n_total_jumps : R) := by
  rcases status_cases (ensure_weights ex fuel m) with ⟨m2, h2⟩ | ⟨e, m2, h2⟩
  · rw [hessian_of_ensure ex fuel m m2 out hb h2] at h
    simp only [Prod.mk.injEq, true_and] at h
    obtain ⟨h3, h4⟩ := h
    subst h3
    exact ⟨h2, h4.symm⟩
  · rw [hessian_eq, h2] at h
    simp at h

/-- Entry `(a, b)` of the matrix of dimension `i` left by a completed `hessian`. -/
theorem hessian_ok_entry (ex : R → R) (fuel : Nat) (m m1 : Model R) (out H : Nat → R)
    (hb : m.n_baselines = 1) (h : hessian ex fuel m out = (.ok (), m1, H))
    (i a b : Nat) (hi : i < m.n_nodes) (ha : a ≤ m.n_nodes * m.n_decays)
    (hb1 : b ≤ m.n_nodes * m.n_decays) :
    H (hessian_index m.n_nodes m.n_decays i a b) =
      ((if a = 0 ∧ b = 0 then 0 else out (hessian_index m.n_nodes m.n_decays i a b)) +
        hessian_matrix m1 a b) / (m.n_total_jumps : R) := by
  obtain ⟨h1, h2⟩ := hessian_ok ex fuel m m1 out H hb h
  have hc := (ensure_weights_ok ex fuel m m1 h1).2
  have hnn : m1.n_nodes = m.n_nodes := congrArg Config.n_nodes hc
  have hnd : m1.n_decays = m.n_decays := congrArg Config.n_decays hc
  have hnt : m1.n_total_jumps = m.n_total_jumps := congrArg Config.n_total_jumps hc
  rw [h2]
  simp only
  rw [← hnn, ← hnd, ← hnt]
  rw [hessian_loop_entry m1 out i a b (by omega) (by rw [hnn, hnd]; exact ha)
    (by rw [hnn, hnd]; exact hb1)]

theorem grad_i_body_eq (m : Model R) (i : Nat) (coeffs out : Nat → R) :
    grad_i_body m i coeffs out = grad_base m i coeffs out + grad_delta m i coeffs := by
  unfold grad_i_body grad_base grad_delta
  simp only [addAt_eq, subAt_eq, add_assoc, forLoop_add_fun, view, idx2]

theorem alpha_size (n d i : Nat) : (i + 1) * n * d = i * n * d + n * d := by
  rw [Nat.add_mul, Nat.one_mul, Nat.add_mul]

theorem grad_base_apply (m : Model R) (i : Nat) (coeffs out : Nat → R) (x : Nat) :
    grad_base m i coeffs out x =
      if in_mu_slice m.toConfig i x then
        2 * coeffs x * m.L (x - i * m.n_baselines) - 2 * m.K i (x - i * m.n_baselines)
      else if in_alpha_slice m.toConfig i x then 0
      else out x := by
  unfold grad_base in_mu_slice in_alpha_slice
  have h := forLoop_update_range m.n_baselines (i * m.n_baselines)
    (fun p _ => 2 * coeffs (i * m.n_baselines + p) * m.L p - 2 * m.K i p)
    (init_to_zero out (m.n_nodes * m.n_baselines + i * m.n_nodes * m.n_decays)
      (m.n_nodes * m.n_baselines + (i + 1) * m.n_nodes * m.n_decays -
        (m.n_nodes * m.n_baselines + i * m.n_nodes * m.n_decays))) x
  refine h.trans ?_
  have hsz := alpha_size m.n_nodes m.n_decays i
  by_cases hmu : i * m.n_baselines ≤ x ∧ x < i * m.n_baselines + m.n_baselines
  · rw [if_pos hmu, if_pos hmu]
    have : i * m.n_baselines + (x - i * m.n_baselines) = x := by omega
    simp only [this]
  · rw [if_neg hmu, if_neg hmu, init_to_zero_apply]
    have hiff : (m.n_nodes * m.n_baselines + i * m.n_nodes * m.n_decays ≤ x ∧
        x < m.n_nodes * m.n_baselines + i * m.n_nodes * m.n_decays +
          (m.n_nodes * m.n_baselines + (i + 1) * m.n_nodes * m.n_decays -
            (m.n_nodes * m.n_baselines + i * m.n_nodes * m.n_decays))) ↔
        (m.n_nodes * m.n_baselines + i * m.n_nodes * m.n_decays ≤ x ∧
          x < m.n_nodes * m.n_baselines + i * m.n_nodes * m.n_decays +
            m.n_nodes * m.n_decays) := by
      constructor <;> rintro ⟨h1, h2⟩ <;> exact ⟨h1, by omega⟩
    simp only [hiff]

/-- The additions of `grad_i` fall in the slices of dimension `i`. -/
theorem grad_delta_support (m : Model R) (i : Nat) (coeffs : Nat → R) (x : Nat)
    (hmu : ¬ in_mu_slice m.toConfig i x) (halpha : ¬ in_alpha_slice m.toConfig i x) :
    grad_delta m i coeffs x = 0 := by
  unfold in_mu_slice at hmu
  unfold in_alpha_slice at halpha
  have h1 : ∀ j u, j ∈ Finset.range m.n_nodes → u ∈ Finset.range m.n_decays →
      ¬ x = m.n_nodes * m.n_baselines + (i * m.n_nodes * m.n_decays + (j * m.n_decays + u)) := by
    intro j u hj hu
    have := flat_lt m.n_nodes m.n_decays j u (Finset.mem_range.mp hj) (Finset.mem_range.mp hu)
    omega
  have h2 : ∀ p, p ∈ Finset.range m.n_baselines → ¬ x = i * m.n_baselines + p := by
    intro p hp
    have := Finset.mem_range.mp hp
    omega
  unfold grad_delta
  simp only [Finset.sum_apply, Pi.add_apply, Pi.single_apply]
  refine Finset.sum_eq_zero (fun j hj => Finset.sum_eq_zero (fun u hu => ?_))
  rw [if_neg (h1 j u hj hu), zero_add,
    Finset.sum_eq_zero (fun p hp => by rw [if_neg (h2 p hp), if_neg (h1 j u hj hu), add_zero]),
    zero_add]
  refine Finset.sum_eq_zero (fun u1 hu1 => ?_)
  rw [if_neg (h1 j u hj hu), zero_add]
  refine Finset.sum_eq_zero (fun j1 hj1 => ?_)
  rw [if_neg (h1 j u hj hu), if_neg (h1 j1 u1 hj1 hu1), add_zero]

/-- The slices of different dimensions are disjoint. -/
theorem slices_disjoint (c : Config R) (i i0 x : Nat) (hi : i < c.n_nodes)
    (hi0 : i0 < c.n_nodes) (hne : i ≠ i0)
    (hx : in_mu_slice c i0 x ∨ in_alpha_slice c i0 x) :
    ¬ in_mu_slice c i x ∧ ¬ in_alpha_slice c i x := by
  unfold in_mu_slice in_alpha_slice at *
  have a1 := Nat.mul_assoc i c.n_nodes c.n_decays
  have a2 := Nat.mul_assoc i0 c.n_nodes c.n_decays
  have b1 := mul_sep i c.n_nodes c.n_baselines hi
  have b2 := mul_sep i0 c.n_nodes c.n_baselines hi0
  rcases Nat.lt_or_gt_of_ne hne with h | h
  · have s1 := mul_sep i i0 c.n_baselines h
    have s2 := mul_sep i i0 (c.n_nodes * c.n_decays) h
    rcases hx with hx | hx
    · exact ⟨by omega, by omega⟩
    · exact ⟨by omega, by omega⟩
  · have s1 := mul_sep i0 i c.n_baselines h
    have s2 := mul_sep i0 i (c.n_nodes * c.n_decays) h
    rcases hx with hx | hx
    · exact ⟨by omega, by omega⟩
    · exact ⟨by omega, by omega⟩

/-- After the dimensions `0 .. n` of `grad`, the slices of a dimension done hold its
gradient entries, whatever the buffer held. -/
theorem grad_loop_apply (m : Model R) (coeffs out : Nat → R) (i0 x : Nat)
    (hi0 : i0 < m.n_nodes)
    (hx : in_mu_slice m.toConfig i0 x ∨ in_alpha_slice m.toConfig i0 x) (n : Nat)
    (hn : n ≤ m.n_nodes) (hin : i0 < n) :
    forLoop n (fun i out => grad_i_body m i coeffs out) out x = grad_value m i0 coeffs x := by
  induction n with
  | zero => exact absurd hin (Nat.not_lt_zero _)
  | succ n ih =>
    rw [forLoop_succ, grad_i_body_eq, Pi.add_apply, grad_base_apply]
    by_cases hni : n = i0
    · subst hni
      unfold grad_value
      congr 1
      by_cases hmu : in_mu_slice m.toConfig n x
      · rw [if_pos hmu, if_pos hmu]
      · rw [if_neg hmu, if_neg hmu]
        rcases hx with hx | hx
        · exact absurd hx hmu
        · rw [if_pos hx]
    · obtain ⟨d1, d2⟩ := slices_disjoint m.toConfig n i0 x (by omega) hi0 hni hx
      rw [if_neg d1, if_neg d2, grad_delta_support m n coeffs x d1 d2, add_zero]
      exact ih (by omega) (by omega)

theorem tuple_add_1 (acc : R × R × R × R) (v : R) :
    (acc.1 + v, acc.2.1, acc.2.2.1, acc.2.2.2) = acc + (v, 0, 0, 0) := by
  ext <;> simp

theorem tuple_add_2 (acc : R × R × R × R) (v : R) :
    (acc.1, acc.2.1 + v, acc.2.2.1, acc.2.2.2) = acc + (0, v, 0, 0) := by
  ext <;> simp

theorem tuple_add_3 (acc : R × R × R × R) (v : R) :
    (acc.1, acc.2.1, acc.2.2.1 + v, acc.2.2.2) = acc + (0, 0, v, 0) := by
  ext <;> simp

theorem tuple_add_4 (acc : R × R × R × R) (v : R) :
    (acc.1, acc.2.1, acc.2.2.1, acc.2.2.2 + v) = acc + (0, 0, 0, v) := by
  ext <;> simp

theorem pair_add (acc : R × R) (v w : R) : (acc.1 + v, acc.2 + w) = acc + (v, w) := by
  ext <;> simp

/-- The four running sums of `loss_i` as sums. -/
theorem loss_i_sums_eq (m : Model R) (i : Nat) (coeffs : Nat → R) :
    loss_i_sums m i coeffs =
      (∑ j in Finset.range m.n_nodes, ∑ u in Finset.range m.n_decays,
          alpha_coeff m.toConfig i coeffs j u * m.C i (j * m.n_decays + u),
        ∑ j in Finset.range m.n_nodes, ∑ u in Finset.range m.n_decays,
          ∑ p in Finset.range m.n_baselines,
            alpha_coeff m.toConfig i coeffs j u * mu_coeff m.toConfig i coeffs p *
              m.Dg j (u * m.n_baselines + p),
        ∑ j in Finset.range m.n_nodes, ∑ u in Finset.range m.n_decays,
          ∑ u1 in Finset.range m.n_decays,
            alpha_coeff m.toConfig i coeffs j u * alpha_coeff m.toConfig i coeffs j u1 *
              m.Dgg j (u * m.n_decays + u1),
        ∑ j in Finset.range m.n_nodes, ∑ u in Finset.range m.n_decays,
          ∑ u1 in Finset.range m.n_decays, ∑ j1 in Finset.range m.n_nodes,
            alpha_coeff m.toConfig i coeffs j u * alpha_coeff m.toConfig i coeffs j1 u1 *
              m.E j (j1 * (m.n_decays * m.n_decays) + (u * m.n_decays + u1))) := by
  unfold loss_i_sums alpha_coeff mu_coeff
  simp only [view, idx2, tuple_add_1, tuple_add_2, tuple_add_3, tuple_add_4, add_assoc,
    forLoop_add_fun]
  ext <;>
    simp only [Prod.fst_add, Prod.snd_add, Prod.fst_sum, Prod.snd_sum, Prod.fst_zero,
      Prod.snd_zero, Finset.sum_const_zero, add_zero, zero_add]

theorem loss_i_eq (m : Model R) (i : Nat) (coeffs : Nat → R)
    (hw : m.weights_computed = true) : loss_i m i coeffs = .ok (loss_i_value m i coeffs) := by
  unfold loss_i
  simp only [hw, Bool.not_true, Bool.false_eq_true, if_false]
  rw [loss_i_sums_eq]
  have hAB : forLoop m.n_baselines (fun p (AB : R × R) =>
      (AB.1 + view coeffs (i * m.n_baselines) p * view coeffs (i * m.n_baselines) p * m.L p,
        AB.2 + view coeffs (i * m.n_baselines) p * m.K i p)) (0, 0) =
      (∑ p in Finset.range m.n_baselines,
          mu_coeff m.toConfig i coeffs p * mu_coeff m.toConfig i coeffs p * m.L p,
        ∑ p in Finset.range m.n_baselines, mu_coeff m.toConfig i coeffs p * m.K i p) := by
    simp only [pair_add, forLoop_add_fun, view, mu_coeff]
    ext <;> simp only [Prod.fst_add, Prod.snd_add, Prod.fst_sum, Prod.snd_sum, Prod.fst_zero,
      Prod.snd_zero, zero_add]
  rw [hAB]
  rfl

/-- The collection of per-dimension values by `parallel_map` when no worker fails. -/
theorem parallel_map_ok (n : Nat) (f : Nat → Except Failure R) (g : Nat → R)
    (h : ∀ i, i < n → f i = .ok (g i)) :
    ∃ values, parallel_map n f = .ok values ∧ ∀ i, i < n → values i = g i := by
  induction n with
  | zero => exact ⟨fun _ => 0, rfl, fun i hi => absurd hi (Nat.not_lt_zero i)⟩
  | succ n ih =>
    obtain ⟨values, h1, h2⟩ := ih (fun i hi => h i (Nat.lt_succ_of_lt hi))
    refine ⟨Function.update values n (g n), ?_, ?_⟩
    · simp only [parallel_map, h1, h n (Nat.lt_succ_self n)]
    · intro i hi
      by_cases hin : i = n
      · subst hin
        rw [Function.update_same]
      · rw [Function.update_noteq hin]
        exact h2 i (by omega)

/-- The value of `loss` on a model whose weights are computed. -/
theorem loss_computed (ex : R → R) (fuel : Nat) (m : Model R) (coeffs : Nat → R)
    (hw : m.weights_computed = true) :
    loss ex fuel m coeffs =
      (.ok ((∑ i in Finset.range m.n_nodes, loss_i_value m i coeffs) /
        (m.n_total_jumps : R)), m) := by
  rw [loss_of_ensure ex fuel m m coeffs (ensure_weights_computed ex fuel m hw)]
  obtain ⟨values, h1, h2⟩ := parallel_map_ok m.n_nodes (fun i => loss_i m i coeffs)
    (fun i => loss_i_value m i coeffs) (fun i _ => loss_i_eq m i coeffs hw)
  unfold loss_after
  rw [h1]
  simp only
  rw [arraySum_eq, Finset.sum_congr rfl (fun i hi => h2 i (Finset.mem_range.mp hi))]

theorem QuadAt.add {f1 f2 : R → R} {c1 c2 g1 g2 : R} (h1 : QuadAt f1 c1 g1)
    (h2 : QuadAt f2 c2 g2) : QuadAt (fun s => f1 s + f2 s) (c1 + c2) (g1 + g2) := by
  obtain ⟨q1, e1⟩ := h1
  obtain ⟨q2, e2⟩ := h2
  exact ⟨q1 + q2, fun s => by beta_reduce; rw [e1, e2]; ring⟩

theorem QuadAt.sub {f1 f2 : R → R} {c1 c2 g1 g2 : R} (h1 : QuadAt f1 c1 g1)
    (h2 : QuadAt f2 c2 g2) : QuadAt (fun s => f1 s - f2 s) (c1 - c2) (g1 - g2) := by
  obtain ⟨q1, e1⟩ := h1
  obtain ⟨q2, e2⟩ := h2
  exact ⟨q1 - q2, fun s => by beta_reduce; rw [e1, e2]; ring⟩

theorem QuadAt.const_mul {f : R → R} {c g : R} (k : R) (h : QuadAt f c g) :
    QuadAt (fun s => k * f s) (k * c) (k * g) := by
  obtain ⟨q, e⟩ := h
  exact ⟨k * q, fun s => by beta_reduce; rw [e]; ring⟩

theorem QuadAt.div_const {f : R → R} {c g : R} (k : R) (h : QuadAt f c g) :
    QuadAt (fun s => f s / k) (c / k) (g / k) := by
  obtain ⟨q, e⟩ := h
  exact ⟨q / k, fun s => by beta_reduce; rw [e]; ring⟩

theorem QuadAt.sum (n : Nat) {f : Nat → R → R} {c g : Nat → R}
    (h : ∀ k, k ∈ Finset.range n → QuadAt (f k) (c k) (g k)) :
    QuadAt (fun s => ∑ k in Finset.range n, f k s) (∑ k in Finset.range n, c k)
      (∑ k in Finset.range n, g k) := by
  induction n with
  | zero => exact ⟨0, fun s => by simp⟩
  | succ n ih =>
    have h1 := ih (fun k hk => h k (Finset.mem_range.mpr
      (Nat.lt_succ_of_lt (Finset.mem_range.mp hk))))
    have h2 := h n (Finset.mem_range.mpr (Nat.lt_succ_self n))
    have h3 := h1.add h2
    obtain ⟨q, e⟩ := h3
    exact ⟨q, fun s => by
      have := e s
      beta_reduce at this ⊢
      rw [Finset.sum_range_succ, Finset.sum_range_succ, Finset.sum_range_succ]
      exact this⟩

theorem QuadAt.congr {f : R → R} {c g c1 g1 : R} (h : QuadAt f c g) (hc : c = c1)
    (hg : g = g1) : QuadAt f c1 g1 := by
  subst hc
  subst hg
  exact h

theorem perturb_apply (coeffs : Nat → R) (a : Nat) (s : R) (x : Nat) :
    perturb coeffs a s x = coeffs x + if a = x then s else 0 := by
  unfold perturb
  by_cases h : a = x
  · subst h
    simp
  · have h' : x ≠ a := fun e => h e.symm
    rw [Function.update_noteq h', if_neg h, add_zero]

theorem quad_linear (coeffs : Nat → R) (a x : Nat) (k : R) :
    QuadAt (fun s => perturb coeffs a s x * k) (coeffs x * k) (if a = x then k else 0) := by
  refine ⟨0, fun s => ?_⟩
  beta_reduce
  rw [perturb_apply]
  split_ifs <;> ring

theorem quad_bilinear (coeffs : Nat → R) (a x y : Nat) (k : R) :
    QuadAt (fun s => perturb coeffs a s x * perturb coeffs a s y * k)
      (coeffs x * coeffs y * k)
      ((if a = x then coeffs y * k else 0) + (if a = y then coeffs x * k else 0)) := by
  refine ⟨(if a = x then 1 else 0) * (if a = y then 1 else 0) * k, fun s => ?_⟩
  beta_reduce
  rw [perturb_apply, perturb_apply]
  split_ifs <;> ring

/-- Along a coordinate direction the value of `loss_i` is a polynomial of degree at most
two in the step. -/
theorem loss_i_quad (m : Model R) (i : Nat) (coeffs : Nat → R) (a : Nat) :
    QuadAt (fun s => loss_i_value m i (perturb coeffs a s)) (loss_i_value m i coeffs)
      (loss_i_slope m i coeffs a) := by
  unfold loss_i_value loss_i_slope
  refine QuadAt.sub (QuadAt.add (QuadAt.add (QuadAt.add ?_ (QuadAt.const_mul 2 ?_)) ?_)
    (QuadAt.const_mul 2 ?_)) (QuadAt.const_mul 2 (QuadAt.add ?_ ?_))
  · exact QuadAt.sum _ (fun p _ => quad_bilinear coeffs a _ _ _)
  · exact QuadAt.sum _ (fun j _ => QuadAt.sum _ (fun u _ => QuadAt.sum _ (fun p _ =>
      quad_bilinear coeffs a _ _ _)))
  · exact QuadAt.sum _ (fun j _ => QuadAt.sum _ (fun u _ => QuadAt.sum _ (fun u1 _ =>
      quad_bilinear coeffs a _ _ _)))
  · exact QuadAt.sum _ (fun j _ => QuadAt.sum _ (fun u _ => QuadAt.sum _ (fun u1 _ =>
      QuadAt.sum _ (fun j1 _ => quad_bilinear coeffs a _ _ _))))
  · exact QuadAt.sum _ (fun p _ => quad_linear coeffs a _ _)
  · exact QuadAt.sum _ (fun j _ => QuadAt.sum _ (fun u _ => quad_linear coeffs a _ _))

theorem ite_two_mul (cond : Prop) [Decidable cond] (x y : R) :
    (if cond then 2 * x * y else 0) = 2 * (if cond then x * y else 0) := by
  split_ifs <;> ring

theorem ite_neg_two_mul (cond : Prop) [Decidable cond] (x : R) :
    (if cond then -(2 * x) else 0) = (-2) * (if cond then x else 0) := by
  split_ifs <;> ring

/-- A sum over a range that selects the index `a - base`. -/
theorem sum_ite_range (n base a : Nat) (f : Nat → R) :
    ∑ x in Finset.range n, (if a = base + x then f x else 0) =
      if base ≤ a ∧ a < base + n then f (a - base) else 0 := by
  by_cases h : base ≤ a ∧ a < base + n
  · rw [if_pos h, Finset.sum_eq_single (a - base)]
    · rw [if_pos (by omega)]
    · intro x _ hx
      rw [if_neg (by omega)]
    · intro hx
      exact absurd (Finset.mem_range.mpr (by omega)) hx
  · rw [if_neg h]
    refine Finset.sum_eq_zero (fun x hx => ?_)
    have := Finset.mem_range.mp hx
    rw [if_neg (by omega)]

/-- With symmetric `Dgg`, the linear coefficient of the value of `loss_i` along coordinate
`a` is the entry `grad_i` computes for index `a`. -/
theorem loss_i_slope_eq (m : Model R) (i : Nat) (coeffs : Nat → R) (a : Nat)
    (hsymm : DggSymmetric m) : loss_i_slope m i coeffs a = grad_value m i coeffs a := by
  have hDgg : (∑ j in Finset.range m.n_nodes, ∑ u in Finset.range m.n_decays,
      ∑ u1 in Finset.range m.n_decays,
        if a = m.n_nodes * m.n_baselines +
            (i * m.n_nodes * m.n_decays + (j * m.n_decays + u1)) then
          coeffs (m.n_nodes * m.n_baselines +
            (i * m.n_nodes * m.n_decays + (j * m.n_decays + u))) *
            m.Dgg j (u * m.n_decays + u1)
        else 0) =
      ∑ j in Finset.range m.n_nodes, ∑ u in Finset.range m.n_decays,
        ∑ u1 in Finset.range m.n_decays,
          if a = m.n_nodes * m.n_baselines +
              (i * m.n_nodes * m.n_decays + (j * m.n_decays + u)) then
            coeffs (m.n_nodes * m.n_baselines +
              (i * m.n_nodes * m.n_decays + (j * m.n_decays + u1))) *
              m.Dgg j (u * m.n_decays + u1)
          else 0 := by
    refine Finset.sum_congr rfl (fun j hj => ?_)
    rw [Finset.sum_comm]
    refine Finset.sum_congr rfl (fun u hu => Finset.sum_congr rfl (fun u1 hu1 => ?_))
    rw [hsymm j u1 u (Finset.mem_range.mp hj) (Finset.mem_range.mp hu1)
      (Finset.mem_range.mp hu)]
  unfold loss_i_slope grad_value grad_delta mu_coeff alpha_coeff in_mu_slice
  simp only [Finset.sum_apply, Pi.add_apply, Pi.single_apply, ite_two_mul, ite_neg_two_mul,
    Finset.sum_add_distrib, ← Finset.mul_sum]
  rw [hDgg, sum_ite_range, sum_ite_range]
  by_cases hmu : i * m.n_baselines ≤ a ∧ a < i * m.n_baselines + m.n_baselines
  · have ha : i * m.n_baselines + (a - i * m.n_baselines) = a := by omega
    rw [if_pos hmu, if_pos hmu, if_pos hmu, ha]
    ring
  · rw [if_neg hmu, if_neg hmu, if_neg hmu]
    ring

/-- Every index below `get_n_coeffs` lies in a slice of some dimension. -/
theorem coeff_index_slice (c : Config R) (a : Nat) (ha : a < get_n_coeffs c) :
    ∃ i0, i0 < c.n_nodes ∧ (in_mu_slice c i0 a ∨ in_alpha_slice c i0 a) := by
  unfold get_n_coeffs at ha
  unfold in_mu_slice in_alpha_slice
  by_cases h : a < c.n_nodes * c.n_baselines
  · obtain ⟨d1, d2, d3⟩ := flat_decode c.n_nodes c.n_baselines a h
    exact ⟨a / c.n_baselines, d1, Or.inl (by omega)⟩
  · have h1 : a - c.n_nodes * c.n_baselines < c.n_nodes * (c.n_nodes * c.n_decays) := by
      rw [← Nat.mul_assoc]
      omega
    obtain ⟨d1, d2, d3⟩ := flat_decode c.n_nodes (c.n_nodes * c.n_decays)
      (a - c.n_nodes * c.n_baselines) h1
    refine ⟨(a - c.n_nodes * c.n_baselines) / (c.n_nodes * c.n_decays), d1, Or.inr ?_⟩
    have h2 := Nat.mul_assoc ((a - c.n_nodes * c.n_baselines) / (c.n_nodes * c.n_decays))
      c.n_nodes c.n_decays
    omega

/-- The tensors left by a completed `compute_weights` have symmetric `Dgg`. -/
theorem compute_weights_DggSymmetric (ex : R → R) (fuel : Nat) (m m1 : Model R)
    (h : compute_weights ex fuel m = (.ok (), m1)) : DggSymmetric m1 := by
  obtain ⟨-, hp⟩ := compute_weights_ok ex fuel m m1 h
  have hc := hp.config
  intro j u u1 hj hu hu1
  have hnn : m1.n_nodes = m.n_nodes := congrArg Config.n_nodes hc
  have hnd : m1.n_decays = m.n_decays := congrArg Config.n_decays hc
  obtain ⟨s, hs, -, -, hDgg, -⟩ := hp.done j (by omega)
  have e1 := weights_loop_Dgg ex fuel m.toConfig j s hs u u1 (by omega) (by omega)
  have e2 := weights_loop_Dgg ex fuel m.toConfig j s hs u1 u (by omega) (by omega)
  rw [hDgg, hnd]
  unfold idx2 at e1 e2
  rw [e1, e2]
  exact Finset.sum_congr rfl (fun k _ => dgg_term_symm ex m.toConfig j u u1 k)

/-- The entry that a completed `grad` leaves at an index of the slices of dimension `i0`. -/
theorem grad_computed_entry (ex : R → R) (fuel : Nat) (m : Model R) (coeffs out : Nat → R)
    (hw : m.weights_computed = true) (i0 a : Nat) (hi0 : i0 < m.n_nodes)
    (ha : in_mu_slice m.toConfig i0 a ∨ in_alpha_slice m.toConfig i0 a) :
    (grad ex fuel m coeffs out).1 = .ok () ∧
    (grad ex fuel m coeffs out).2.2 a =
      grad_value m i0 coeffs a / (m.n_total_jumps : R) := by
  rw [grad_of_ensure ex fuel m m coeffs out (ensure_weights_computed ex fuel m hw)]
  refine ⟨rfl, ?_⟩
  simp only
  rw [grad_loop_apply m coeffs out i0 a hi0 ha m.n_nodes (le_refl _) hi0]

/-- Along coordinate `a` of the slices of dimension `i0`, the value of `loss` is a
polynomial of degree at most two in the step, with the entry of `grad` as linear
coefficient. -/
theorem loss_value_quad (m : Model R) (coeffs : Nat → R) (hsymm : DggSymmetric m)
    (i0 a : Nat) (hi0 : i0 < m.n_nodes)
    (ha : in_mu_slice m.toConfig i0 a ∨ in_alpha_slice m.toConfig i0 a) :
    QuadAt (fun s => loss_value m (perturb coeffs a s)) (loss_value m coeffs)
      (grad_value m i0 coeffs a / (m.n_total_jumps : R)) := by
  unfold loss_value
  refine QuadAt.congr (QuadAt.div_const _ (QuadAt.sum m.n_nodes
    (fun i _ => loss_i_quad m i coeffs a))) rfl ?_
  congr 1
  rw [Finset.sum_eq_single i0]
  · exact loss_i_slope_eq m i0 coeffs a hsymm
  · intro i hi hne
    rw [loss_i_slope_eq m i coeffs a hsymm]
    obtain ⟨d1, d2⟩ := slices_disjoint m.toConfig i i0 a (Finset.mem_range.mp hi) hi0 hne ha
    unfold grad_value
    rw [if_neg d1, grad_delta_support m i coeffs a d1 d2, add_zero]
  · intro h
    exact absurd (Finset.mem_range.mpr hi0) h

theorem sum_ite_const {M : Type} [AddCommMonoid M] (cond : Prop) [Decidable cond] (n : Nat)
    (f : Nat → M) :
    ∑ p in Finset.range n, (if cond then f p else 0) =
      if cond then ∑ p in Finset.range n, f p else 0 := by
  split_ifs <;> simp

/-- A double sum that selects the pair `(l, u0)` through the flat index. -/
theorem sum2_ite_hit {M : Type} [AddCommMonoid M] (n d b1 b2 l u0 : Nat) (hl : l < n)
    (hu0 : u0 < d) (g : Nat → Nat → M) :
    ∑ j in Finset.range n, ∑ u in Finset.range d,
      (if b1 + (b2 + (l * d + u0)) = b1 + (b2 + (j * d + u)) then g j u else 0) = g l u0 := by
  have := sum2_block n d 1 (b1 + b2)
    (fun j u x => if x = b1 + (b2 + (j * d + u)) then g j u else 0)
    (fun j u x _ _ h => by
      simp only
      rw [if_neg]
      omega)
    l u0 (b1 + (b2 + (l * d + u0))) hl hu0 (by omega)
  simpa using this

/-- The same selection when the sums are taken in the other order. -/
theorem sum2_ite_hit_swapped {M : Type} [AddCommMonoid M] (n d b1 b2 l u0 : Nat) (hl : l < n)
    (hu0 : u0 < d) (g : Nat → Nat → M) :
    ∑ u in Finset.range d, ∑ j in Finset.range n,
      (if b1 + (b2 + (l * d + u0)) = b1 + (b2 + (j * d + u)) then g u j else 0) = g u0 l := by
  rw [Finset.sum_comm]
  exact sum2_ite_hit n d b1 b2 l u0 hl hu0 (fun j u => g u j)

/-- A sum over flat indices is the double sum over rows and columns. -/
theorem sum_flatten {M : Type} [AddCommMonoid M] (n d : Nat) (f : Nat → M) :
    ∑ x in Finset.range (n * d), f x =
      ∑ j in Finset.range n, ∑ u in Finset.range d, f (j * d + u) := by
  induction n with
  | zero => simp
  | succ n ih =>
    rw [Nat.succ_mul, Finset.sum_range_add, ih, Finset.sum_range_succ]

theorem flat_div (d j u : Nat) (hu : u < d) : (j * d + u) / d = j := by
  have hd : 0 < d := by omega
  rw [Nat.add_comm, Nat.add_mul_div_right u j hd, Nat.div_eq_of_lt hu, Nat.zero_add]

theorem flat_mod (d j u : Nat) (hu : u < d) : (j * d + u) % d = u := by
  rw [Nat.add_comm, Nat.add_mul_mod_self_right, Nat.mod_eq_of_lt hu]

/-- The entry of the gradient at the excitation coefficient of source `l` and decay `u0`
of dimension `i`, in closed form. -/
theorem grad_value_alpha (m : Model R) (i : Nat) (coeffs : Nat → R) (l u0 : Nat)
    (hi : i < m.n_nodes) (hl : l < m.n_nodes) (hu0 : u0 < m.n_decays) :
    grad_value m i coeffs
        (m.n_nodes * m.n_baselines + (i * m.n_nodes * m.n_decays + (l * m.n_decays + u0))) =
      -2 * m.C i (l * m.n_decays + u0) +
        2 * (∑ p in Finset.range m.n_baselines,
          coeffs (i * m.n_baselines + p) * m.Dg l (u0 * m.n_baselines + p)) +
        2 * (∑ u1 in Finset.range m.n_decays,
          alpha_coeff m.toConfig i coeffs l u1 * m.Dgg l (u0 * m.n_decays + u1)) +
        2 * (∑ u1 in Finset.range m.n_decays, ∑ j1 in Finset.range m.n_nodes,
          alpha_coeff m.toConfig i coeffs j1 u1 *
            m.E l (j1 * (m.n_decays * m.n_decays) + (u0 * m.n_decays + u1))) +
        2 * (∑ j in Finset.range m.n_nodes, ∑ u in Finset.range m.n_decays,
          alpha_coeff m.toConfig i coeffs j u *
            m.E j (l * (m.n_decays * m.n_decays) + (u * m.n_decays + u0))) := by
  have hsep := mul_sep i m.n_nodes m.n_baselines hi
  have hnotmu : ¬ (i * m.n_baselines ≤
      m.n_nodes * m.n_baselines + (i * m.n_nodes * m.n_decays + (l * m.n_decays + u0)) ∧
      m.n_nodes * m.n_baselines + (i * m.n_nodes * m.n_decays + (l * m.n_decays + u0)) <
        i * m.n_baselines + m.n_baselines) := by omega
  have hE2 : ∀ j u,
      (∑ u1 in Finset.range m.n_decays, ∑ j1 in Finset.range m.n_nodes,
        if m.n_nodes * m.n_baselines + (i * m.n_nodes * m.n_decays + (l * m.n_decays + u0)) =
            m.n_nodes * m.n_baselines + (i * m.n_nodes * m.n_decays + (j1 * m.n_decays + u1))
        then
          coeffs (m.n_nodes * m.n_baselines +
            (i * m.n_nodes * m.n_decays + (j * m.n_decays + u))) *
            m.E j (j1 * (m.n_decays * m.n_decays) + (u * m.n_decays + u1))
        else 0) =
      coeffs (m.n_nodes * m.n_baselines +
        (i * m.n_nodes * m.n_decays + (j * m.n_decays + u))) *
        m.E j (l * (m.n_decays * m.n_decays) + (u * m.n_decays + u0)) := by
    intro j u
    exact sum2_ite_hit_swapped m.n_nodes m.n_decays _ _ l u0 hl hu0
      (fun u1 j1 => coeffs (m.n_nodes * m.n_baselines +
        (i * m.n_nodes * m.n_decays + (j * m.n_decays + u))) *
        m.E j (j1 * (m.n_decays * m.n_decays) + (u * m.n_decays + u1)))
  unfold grad_value grad_delta in_mu_slice alpha_coeff
  simp only [Finset.sum_apply, Pi.add_apply, Pi.single_apply, ite_two_mul, ite_neg_two_mul,
    Finset.sum_add_distrib, ← Finset.mul_sum, hE2, sum_ite_range, if_neg hnotmu,
    sum_ite_const, sum2_ite_hit m.n_nodes m.n_decays _ _ l u0 hl hu0,
    Finset.sum_const_zero, mul_zero, zero_add, add_zero]
  ring

/-- The entry of the gradient at the baseline coefficient `p0` of dimension `i`, in closed
form. -/
theorem grad_value_mu (m : Model R) (i : Nat) (coeffs : Nat → R) (p0 : Nat)
    (hi : i < m.n_nodes) (hp0 : p0 < m.n_baselines) :
    grad_value m i coeffs (i * m.n_baselines + p0) =
      2 * coeffs (i * m.n_baselines + p0) * m.L p0 - 2 * m.K i p0 +
        2 * (∑ j in Finset.range m.n_nodes, ∑ u in Finset.range m.n_decays,
          alpha_coeff m.toConfig i coeffs j u * m.Dg j (u * m.n_baselines + p0)) := by
  have hsep := mul_sep i m.n_nodes m.n_baselines hi
  have hmu : i * m.n_baselines ≤ i * m.n_baselines + p0 ∧
      i * m.n_baselines + p0 < i * m.n_baselines + m.n_baselines := by omega
  have hnot : ∀ j u, ¬ (i * m.n_baselines + p0 =
      m.n_nodes * m.n_baselines + (i * m.n_nodes * m.n_decays + (j * m.n_decays + u))) := by
    intro j u
    omega
  unfold grad_value grad_delta in_mu_slice alpha_coeff
  simp only [Finset.sum_apply, Pi.add_apply, Pi.single_apply, ite_two_mul, ite_neg_two_mul,
    Finset.sum_add_distrib, ← Finset.mul_sum, sum_ite_range, if_pos hmu, if_neg (hnot _ _),
    Finset.sum_const_zero, mul_zero, zero_add, add_zero, Nat.add_sub_cancel_left]

/-- A row of the matrix of `hessian` applied to the coefficients of dimension `i`. -/
theorem hessian_row_apply (m : Model R) (i a : Nat) (coeffs : Nat → R) :
    ∑ b in Finset.range (m.n_nodes * m.n_decays + 1),
        hessian_matrix m a b * coeffs (coeff_index m.toConfig i b) =
      hessian_matrix m a 0 * coeffs (i * m.n_baselines) +
        ∑ j in Finset.range m.n_nodes, ∑ u in Finset.range m.n_decays,
          hessian_matrix m a (j * m.n_decays + u + 1) * alpha_coeff m.toConfig i coeffs j u := by
  rw [Finset.sum_range_succ', sum_flatten, add_comm]
  congr 1

theorem hessian_matrix_zero_succ (m : Model R) (j u : Nat) (hu : u < m.n_decays) :
    hessian_matrix m 0 (j * m.n_decays + u + 1) = 2 * m.Dg j (idx2 m.n_baselines u 0) := by
  unfold hessian_matrix
  rw [if_pos rfl, if_neg (Nat.succ_ne_zero _), Nat.add_sub_cancel, flat_div _ _ _ hu,
    flat_mod _ _ _ hu]

theorem hessian_matrix_succ_zero (m : Model R) (l u0 : Nat) (hu0 : u0 < m.n_decays) :
    hessian_matrix m (l * m.n_decays + u0 + 1) 0 = 2 * m.Dg l (idx2 m.n_baselines u0 0) := by
  unfold hessian_matrix
  rw [if_neg (Nat.succ_ne_zero _), if_pos rfl, Nat.add_sub_cancel, flat_div _ _ _ hu0,
    flat_mod _ _ _ hu0]

theorem hessian_matrix_succ_succ (m : Model R) (l u0 j u : Nat) (hu0 : u0 < m.n_decays)
    (hu : u < m.n_decays) :
    hessian_matrix m (l * m.n_decays + u0 + 1) (j * m.n_decays + u + 1) =
      hessian_entry m l u0 j u := by
  unfold hessian_matrix
  rw [if_neg (Nat.succ_ne_zero _), if_neg (Nat.succ_ne_zero _), Nat.add_sub_cancel,
    Nat.add_sub_cancel, flat_div _ _ _ hu0, flat_mod _ _ _ hu0, flat_div _ _ _ hu,
    flat_mod _ _ _ hu]

/-- With one baseline, `L[0] = end_time` and symmetric `Dgg`, each gradient entry of
dimension `i` is a constant plus the corresponding row of the matrix of `hessian` applied
to the coefficients of dimension `i`. -/
theorem grad_value_affine (m : Model R) (hb : m.n_baselines = 1) (hL : m.L 0 = m.end_time)
    (hsymm : DggSymmetric m) (i a : Nat) (hi : i < m.n_nodes)
    (ha : a ≤ m.n_nodes * m.n_decays) (coeffs : Nat → R) :
    grad_value m i coeffs (coeff_index m.toConfig i a) =
      grad_const m i a +
        ∑ b in Finset.range (m.n_nodes * m.n_decays + 1),
          hessian_matrix m a b * coeffs (coeff_index m.toConfig i b) := by
  rw [hessian_row_apply]
  by_cases ha0 : a = 0
  · subst ha0
    have hidx : coeff_index m.toConfig i 0 = i * m.n_baselines + 0 := by
      simp [coeff_index]
    have hrow : ∑ j in Finset.range m.n_nodes, ∑ u in Finset.range m.n_decays,
        hessian_matrix m 0 (j * m.n_decays + u + 1) * alpha_coeff m.toConfig i coeffs j u =
        2 * ∑ j in Finset.range m.n_nodes, ∑ u in Finset.range m.n_decays,
          alpha_coeff m.toConfig i coeffs j u * m.Dg j (u * m.n_baselines + 0) := by
      rw [Finset.mul_sum]
      refine Finset.sum_congr rfl (fun j _ => ?_)
      rw [Finset.mul_sum]
      refine Finset.sum_congr rfl (fun u hu => ?_)
      rw [hessian_matrix_zero_succ m j u (Finset.mem_range.mp hu)]
      unfold idx2
      ring
    have h00 : hessian_matrix m 0 0 = 2 * m.end_time := by simp [hessian_matrix]
    have hconst : grad_const m i 0 = -2 * m.K i 0 := by simp [grad_const]
    rw [hidx, grad_value_mu m i coeffs 0 hi (by omega), hL, hrow, h00, hconst]
    simp only [Nat.add_zero]
    ring
  · obtain ⟨d1, d2, d3⟩ := flat_decode m.n_nodes m.n_decays (a - 1) (by omega)
    have ha1 : a = (a - 1) / m.n_decays * m.n_decays + (a - 1) % m.n_decays + 1 := by omega
    generalize (a - 1) / m.n_decays = l at d1 d3 ha1
    generalize (a - 1) % m.n_decays = u0 at d2 d3 ha1
    subst ha1
    have hidx : coeff_index m.toConfig i (l * m.n_decays + u0 + 1) =
        m.n_nodes * m.n_baselines + (i * m.n_nodes * m.n_decays + (l * m.n_decays + u0)) := by
      simp [coeff_index]
    have hrow : ∑ j in Finset.range m.n_nodes, ∑ u in Finset.range m.n_decays,
        hessian_matrix m (l * m.n_decays + u0 + 1) (j * m.n_decays + u + 1) *
          alpha_coeff m.toConfig i coeffs j u =
        ∑ j in Finset.range m.n_nodes, ∑ u in Finset.range m.n_decays,
          hessian_entry m l u0 j u * alpha_coeff m.toConfig i coeffs j u :=
      Finset.sum_congr rfl (fun j _ => Finset.sum_congr rfl (fun u hu => by
        rw [hessian_matrix_succ_succ m l u0 j u d2 (Finset.mem_range.mp hu)]))
    rw [hidx, grad_value_alpha m i coeffs l u0 hi d1 d2, hessian_matrix_succ_zero m l u0 d2,
      hrow]
    have hconst : grad_const m i (l * m.n_decays + u0 + 1) = -2 * m.C i (l * m.n_decays + u0) := by
      simp [grad_const]
    have hDggsum : ∑ j in Finset.range m.n_nodes, ∑ u in Finset.range m.n_decays,
        (if l = j then m.Dgg l (u0 * m.n_decays + u) + m.Dgg l (u * m.n_decays + u0) else 0) *
          alpha_coeff m.toConfig i coeffs j u =
        2 * ∑ u1 in Finset.range m.n_decays,
          alpha_coeff m.toConfig i coeffs l u1 * m.Dgg l (u0 * m.n_decays + u1) := by
      have h1 : ∀ j, ∑ u in Finset.range m.n_decays,
          (if l = j then m.Dgg l (u0 * m.n_decays + u) + m.Dgg l (u * m.n_decays + u0) else 0) *
            alpha_coeff m.toConfig i coeffs j u =
          if l = j then ∑ u in Finset.range m.n_decays,
            (m.Dgg l (u0 * m.n_decays + u) + m.Dgg l (u * m.n_decays + u0)) *
              alpha_coeff m.toConfig i coeffs j u else 0 := by
        intro j
        split_ifs <;> simp
      simp only [h1]
      rw [Finset.sum_ite_eq, if_pos (Finset.mem_range.mpr d1), Finset.mul_sum]
      refine Finset.sum_congr rfl (fun u hu => ?_)
      rw [← hsymm l u0 u d1 d2 (Finset.mem_range.mp hu)]
      ring
    have hsplit : ∑ j in Finset.range m.n_nodes, ∑ u in Finset.range m.n_decays,
        hessian_entry m l u0 j u * alpha_coeff m.toConfig i coeffs j u =
        2 * (∑ u1 in Finset.range m.n_decays, ∑ j1 in Finset.range m.n_nodes,
          alpha_coeff m.toConfig i coeffs j1 u1 *
            m.E l (j1 * (m.n_decays * m.n_decays) + (u0 * m.n_decays + u1))) +
        2 * (∑ j in Finset.range m.n_nodes, ∑ u in Finset.range m.n_decays,
          alpha_coeff m.toConfig i coeffs j u *
            m.E j (l * (m.n_decays * m.n_decays) + (u * m.n_decays + u0))) +
        2 * ∑ u1 in Finset.range m.n_decays,
          alpha_coeff m.toConfig i coeffs l u1 * m.Dgg l (u0 * m.n_decays + u1) := by
      rw [← hDggsum, Finset.sum_comm (s := Finset.range m.n_decays), Finset.mul_sum,
        Finset.mul_sum, ← Finset.sum_add_distrib, ← Finset.sum_add_distrib]
      refine Finset.sum_congr rfl (fun j _ => ?_)
      rw [Finset.mul_sum, Finset.mul_sum, ← Finset.sum_add_distrib, ← Finset.sum_add_distrib]
      refine Finset.sum_congr rfl (fun u _ => ?_)
      unfold hessian_entry idx2
      ring
    rw [hsplit, hconst, hb, Finset.sum_range_one]
    simp only [idx2, Nat.add_zero, mul_one]
    ring

/-- Sums over a range agree when their terms agree below the bound. -/
theorem sum_range_congr {M : Type} [AddCommMonoid M] (n : Nat) (f g : Nat → M)
    (h : ∀ k, k < n → f k = g k) :
    ∑ k in Finset.range n, f k = ∑ k in Finset.range n, g k :=
  Finset.sum_congr rfl (fun k hk => h k (Finset.mem_range.mp hk))

/-- The value of `loss_i` reads the coefficients of the slices of dimension `i` only. -/
theorem loss_i_value_congr (m : Model R) (i : Nat) (coeffs coeffs1 : Nat → R)
    (h : ∀ x, in_mu_slice m.toConfig i x ∨ in_alpha_slice m.toConfig i x →
      coeffs1 x = coeffs x) :
    loss_i_value m i coeffs1 = loss_i_value m i coeffs := by
  have e1 : ∀ p, p < m.n_baselines →
      mu_coeff m.toConfig i coeffs1 p = mu_coeff m.toConfig i coeffs p := by
    intro p hp
    unfold mu_coeff
    refine h _ (Or.inl ?_)
    unfold in_mu_slice
    omega
  have e2 : ∀ j u, j < m.n_nodes → u < m.n_decays →
      alpha_coeff m.toConfig i coeffs1 j u = alpha_coeff m.toConfig i coeffs j u := by
    intro j u hj hu
    unfold alpha_coeff
    refine h _ (Or.inr ?_)
    have := flat_lt m.n_nodes m.n_decays j u hj hu
    unfold in_alpha_slice
    omega
  unfold loss_i_value
  have hA := sum_range_congr m.n_baselines
    (fun p => mu_coeff m.toConfig i coeffs1 p * mu_coeff m.toConfig i coeffs1 p * m.L p)
    (fun p => mu_coeff m.toConfig i coeffs p * mu_coeff m.toConfig i coeffs p * m.L p)
    (fun p hp => by simp only [e1 p hp])
  have hB := sum_range_congr m.n_nodes
    (fun j => ∑ u in Finset.range m.n_decays, ∑ p in Finset.range m.n_baselines,
      alpha_coeff m.toConfig i coeffs1 j u * mu_coeff m.toConfig i coeffs1 p *
        m.Dg j (u * m.n_baselines + p))
    (fun j => ∑ u in Finset.range m.n_decays, ∑ p in Finset.range m.n_baselines,
      alpha_coeff m.toConfig i coeffs j u * mu_coeff m.toConfig i coeffs p *
        m.Dg j (u * m.n_baselines + p))
    (fun j hj => sum_range_congr _ _ _ (fun u hu => sum_range_congr _ _ _ (fun p hp => by
      simp only [e1 p hp, e2 j u hj hu])))
  have hC := sum_range_congr m.n_nodes
    (fun j => ∑ u in Finset.range m.n_decays, ∑ u1 in Finset.range m.n_decays,
      alpha_coeff m.toConfig i coeffs1 j u * alpha_coeff m.toConfig i coeffs1 j u1 *
        m.Dgg j (u * m.n_decays + u1))
    (fun j => ∑ u in Finset.range m.n_decays, ∑ u1 in Finset.range m.n_decays,
      alpha_coeff m.toConfig i coeffs j u * alpha_coeff m.toConfig i coeffs j u1 *
        m.Dgg j (u * m.n_decays + u1))
    (fun j hj => sum_range_congr _ _ _ (fun u hu => sum_range_congr _ _ _ (fun u1 hu1 => by
      simp only [e2 j u hj hu, e2 j u1 hj hu1])))
  have hD := sum_range_congr m.n_nodes
    (fun j => ∑ u in Finset.range m.n_decays, ∑ u1 in Finset.range m.n_decays,
      ∑ j1 in Finset.range m.n_nodes,
        alpha_coeff m.toConfig i coeffs1 j u * alpha_coeff m.toConfig i coeffs1 j1 u1 *
          m.E j (j1 * (m.n_decays * m.n_decays) + (u * m.n_decays + u1)))
    (fun j => ∑ u in Finset.range m.n_decays, ∑ u1 in Finset.range m.n_decays,
      ∑ j1 in Finset.range m.n_nodes,
        alpha_coeff m.toConfig i coeffs j u * alpha_coeff m.toConfig i coeffs j1 u1 *
          m.E j (j1 * (m.n_decays * m.n_decays) + (u * m.n_decays + u1)))
    (fun j hj => sum_range_congr _ _ _ (fun u hu => sum_range_congr _ _ _ (fun u1 hu1 =>
      sum_range_congr _ _ _ (fun j1 hj1 => by
        simp only [e2 j u hj hu, e2 j1 u1 hj1 hu1]))))
  have hF := sum_range_congr m.n_baselines
    (fun p => mu_coeff m.toConfig i coeffs1 p * m.K i p)
    (fun p => mu_coeff m.toConfig i coeffs p * m.K i p)
    (fun p hp => by simp only [e1 p hp])
  have hG := sum_range_congr m.n_nodes
    (fun j => ∑ u in Finset.range m.n_decays,
      alpha_coeff m.toConfig i coeffs1 j u * m.C i (j * m.n_decays + u))
    (fun j => ∑ u in Finset.range m.n_decays,
      alpha_coeff m.toConfig i coeffs j u * m.C i (j * m.n_decays + u))
    (fun j hj => sum_range_congr _ _ _ (fun u hu => by simp only [e2 j u hj hu]))
  simp only at hA hB hC hD hF hG
  rw [hA, hB, hC, hD, hF, hG]

/-- Outside the slices of dimension `i` the writes of `grad_i` leave the buffer alone. -/
theorem grad_i_body_frame (m : Model R) (i : Nat) (coeffs out : Nat → R) (x : Nat)
    (hmu : ¬ in_mu_slice m.toConfig i x) (halpha : ¬ in_alpha_slice m.toConfig i x) :
    grad_i_body m i coeffs out x = out x := by
  rw [grad_i_body_eq, Pi.add_apply, grad_base_apply, if_neg hmu, if_neg halpha,
    grad_delta_support m i coeffs x hmu halpha, add_zero]

/-- In the slices of dimension `i` the writes of `grad_i` leave the gradient entries,
whatever the buffer held. -/
theorem grad_i_body_slice (m : Model R) (i : Nat) (coeffs out : Nat → R) (x : Nat)
    (hx : in_mu_slice m.toConfig i x ∨ in_alpha_slice m.toConfig i x) :
    grad_i_body m i coeffs out x = grad_value m i coeffs x := by
  rw [grad_i_body_eq, Pi.add_apply, grad_base_apply]
  unfold grad_value
  by_cases hmu : in_mu_slice m.toConfig i x
  · rw [if_pos hmu, if_pos hmu]
  · rw [if_neg hmu, if_neg hmu, if_pos (hx.resolve_left hmu)]

/-- The slices of the dimensions below `n_nodes` lie below `get_n_coeffs()`. -/
theorem slice_lt_n_coeffs (c : Config R) (i x : Nat) (hi : i < c.n_nodes)
    (hx : in_mu_slice c i x ∨ in_alpha_slice c i x) : x < get_n_coeffs c := by
  have h1 := mul_sep i c.n_nodes c.n_baselines hi
  have h2 := mul_sep i c.n_nodes (c.n_nodes * c.n_decays) hi
  have h3 : i * (c.n_nodes * c.n_decays) = i * c.n_nodes * c.n_decays :=
    (Nat.mul_assoc _ _ _).symm
  have h4 : c.n_nodes * (c.n_nodes * c.n_decays) = c.n_nodes * c.n_nodes * c.n_decays :=
    (Nat.mul_assoc _ _ _).symm
  unfold get_n_coeffs
  unfold in_mu_slice in_alpha_slice at hx
  have h5 : c.n_nodes * c.n_baselines = c.n_nodes * c.n_baselines := rfl
  rcases hx with hx | hx <;> omega

/-- Counting one write at each index below `n`. -/
theorem sum_single_range (n x : Nat) :
    (∑ i in Finset.range n, (Pi.single i 1 : Nat → Nat)) x = if x < n then 1 else 0 := by
  rw [Finset.sum_apply]
  simp only [Pi.single_apply]
  rw [Finset.sum_ite_eq]
  simp only [Finset.mem_range]

/-- The loops of `compute_penalization_constant` over `u`, `j`, `k` reach every index
`j * n * d + k * d + u` below `n * n * d` exactly once. -/
theorem sum_single_flat (n d x : Nat) :
    (∑ u in Finset.range d, ∑ j in Finset.range n, ∑ k in Finset.range n,
      (Pi.single (j * n * d + k * d + u) 1 : Nat → Nat)) x =
      if x < n * n * d then 1 else 0 := by
  rw [← sum_single_range (n * n * d) x, sum_flatten (n * n) d, sum_flatten n n,
    Finset.sum_comm]
  refine congrFun (Finset.sum_congr rfl (fun j _ => ?_)) x
  rw [Finset.sum_comm]
  refine Finset.sum_congr rfl (fun k _ => Finset.sum_congr rfl (fun u _ => ?_))
  rw [Nat.add_mul]

theorem forLoop_pair_snd {α β : Type} (n : Nat) (f : Nat → α × β → α) (g : Nat → β → β)
    (s : α × β) :
    (forLoop n (fun u (p : α × β) => (f u p, g u p.2)) s).2 = forLoop n g s.2 := by
  induction n with
  | zero => rfl
  | succ n ih => rw [forLoop_succ, forLoop_succ, ih]

/-- Entry `(a1, a)` of a block filled by a double loop of single additions. -/
theorem sum2_single_hit {M : Type} [AddCommMonoid M] (d B : Nat) (v : Nat → Nat → M)
    (a a1 : Nat) (ha : a < d) (ha1 : a1 < d) :
    (∑ u in Finset.range d, ∑ u1 in Finset.range d,
      (Pi.single (B + (u1 * d + u)) (v u u1) : Nat → M)) (B + (a1 * d + a)) = v a a1 := by
  simp only [Finset.sum_apply]
  rw [Finset.sum_eq_single a, Finset.sum_eq_single a1, Pi.single_eq_same]
  · intro u1 hu1 hne
    refine Pi.single_eq_of_ne (fun h => hne ?_) _
    exact ((flat_inj d u1 a a1 a ha ha (by omega)).1)
  · intro h
    exact absurd (Finset.mem_range.mpr ha1) h
  · intro u hu hne
    refine Finset.sum_eq_zero (fun u1 hu1 => Pi.single_eq_of_ne (fun h => hne ?_) _)
    exact ((flat_inj d u1 u a1 a (Finset.mem_range.mp hu) ha (by omega)).2)
  · intro h
    exact absurd (Finset.mem_range.mpr ha) h

/-- Outside its block a double loop of single additions adds nothing. -/
theorem sum2_single_miss {M : Type} [AddCommMonoid M] (d B : Nat) (v : Nat → Nat → M)
    (x : Nat) (hx : ∀ u u1, u < d → u1 < d → x ≠ B + (u1 * d + u)) :
    (∑ u in Finset.range d, ∑ u1 in Finset.range d,
      (Pi.single (B + (u1 * d + u)) (v u u1) : Nat → M)) x = 0 := by
  simp only [Finset.sum_apply]
  exact Finset.sum_eq_zero (fun u hu => Finset.sum_eq_zero (fun u1 hu1 =>
    Pi.single_eq_of_ne (hx u u1 (Finset.mem_range.mp hu) (Finset.mem_range.mp hu1)) _))

/-- The array `E_i` after one iteration of the loop over the sources. -/
theorem source_step_E (ex : R → R) (c : Config R) (k : Nat) (t_k_i : R)
    (exponentials : Nat → Nat → R) (exponential_diff : Nat → R) (j : Nat) (s : WState R) :
    (source_step ex c k t_k_i exponentials exponential_diff j s).E_i =
      s.E_i + ∑ u in Finset.range c.n_decays, ∑ u1 in Finset.range c.n_decays,
        Pi.single (j * (c.n_decays * c.n_decays) + (u1 * c.n_decays + u))
          (c.decay u1 / (c.decay u1 + c.decay u) * (1 - exponentials u u1) *
            (source_step ex c k t_k_i exponentials exponential_diff j s).H
              (idx2 c.n_decays j u)) := by
  have h1 : (source_step ex c k t_k_i exponentials exponential_diff j s).E_i =
      forLoop c.n_decays (fun u E =>
        forLoop c.n_decays (fun u1 E =>
          addAt E (idx2 (c.n_decays * c.n_decays) j (u1 * c.n_decays + u))
            (c.decay u1 / (c.decay u1 + c.decay u) * (1 - exponentials u u1) *
              (cursor_loop ex c j t_k_i (decay_row c k exponential_diff j s.H) s.l).1
                (idx2 c.n_decays j u))) E) s.E_i :=
    forLoop_pair_snd c.n_decays
      (fun u (CE : (Nat → R) × (Nat → R)) =>
        addAt CE.1 (idx2 c.n_decays j u)
          ((cursor_loop ex c j t_k_i (decay_row c k exponential_diff j s.H) s.l).1
            (idx2 c.n_decays j u)))
      (fun u E =>
        forLoop c.n_decays (fun u1 E =>
          addAt E (idx2 (c.n_decays * c.n_decays) j (u1 * c.n_decays + u))
            (c.decay u1 / (c.decay u1 + c.decay u) * (1 - exponentials u u1) *
              (cursor_loop ex c j t_k_i (decay_row c k exponential_diff j s.H) s.l).1
                (idx2 c.n_decays j u))) E)
      (s.C_i, s.E_i)
  rw [h1, source_step_H]
  simp only [addAt_eq, forLoop_add_fun, idx2]

/-- The entries of `E_i` after one iteration of the loop over the sources. -/
theorem source_step_E_apply (ex : R → R) (c : Config R) (k : Nat) (t_k_i : R)
    (exponentials : Nat → Nat → R) (exponential_diff : Nat → R) (j : Nat) (s : WState R)
    (j1 u u1 : Nat) (hu : u < c.n_decays) (hu1 : u1 < c.n_decays) :
    (source_step ex c k t_k_i exponentials exponential_diff j s).E_i
        (idx2 (c.n_decays * c.n_decays) j1 (u1 * c.n_decays + u)) =
      s.E_i (idx2 (c.n_decays * c.n_decays) j1 (u1 * c.n_decays + u)) +
        if j1 = j then
          c.decay u1 / (c.decay u1 + c.decay u) * (1 - exponentials u u1) *
            (source_step ex c k t_k_i exponentials exponential_diff j s).H
              (idx2 c.n_decays j u)
        else 0 := by
  rw [source_step_E, Pi.add_apply]
  congr 1
  unfold idx2
  by_cases hj : j1 = j
  · subst hj
    rw [if_pos rfl]
    exact sum2_single_hit c.n_decays _ _ u u1 hu hu1
  · rw [if_neg hj]
    refine sum2_single_miss c.n_decays _ _ _ (fun a a1 ha ha1 h => hj ?_)
    exact (flat_inj (c.n_decays * c.n_decays) j1 (u1 * c.n_decays + u) j
      (a1 * c.n_decays + a) (flat_lt _ _ _ _ hu1 hu) (flat_lt _ _ _ _ ha1 ha) h).1

/-- After the loop over the sources at event `k`, each entry of `E_i` has grown by its
factor times the growth of the matching entry of `C_i`. -/
theorem source_loop_E (ex : R → R) (c : Config R) (i k : Nat) (s : WState R)
    (j u u1 : Nat) (hj : j < c.n_nodes) (hu : u < c.n_decays) (hu1 : u1 < c.n_decays) :
    (source_loop ex c i k s).E_i (idx2 (c.n_decays * c.n_decays) j (u1 * c.n_decays + u)) =
      s.E_i (idx2 (c.n_decays * c.n_decays) j (u1 * c.n_decays + u)) +
        c.decay u1 / (c.decay u1 + c.decay u) *
          (1 - ex (-(c.decay u1 + c.decay u) * (c.end_time - (c.timestamps i).getD k 0))) *
          ((source_loop ex c i k s).C_i (idx2 c.n_decays j u) -
            s.C_i (idx2 c.n_decays j u)) := by
  have key := forLoop_inv
    (fun (n : Nat) (t : WState R) =>
      ∀ j u u1, u < c.n_decays → u1 < c.n_decays →
        (j < n →
          t.E_i (idx2 (c.n_decays * c.n_decays) j (u1 * c.n_decays + u)) =
            s.E_i (idx2 (c.n_decays * c.n_decays) j (u1 * c.n_decays + u)) +
              c.decay u1 / (c.decay u1 + c.decay u) *
                (1 - ex (-(c.decay u1 + c.decay u) *
                  (c.end_time - (c.timestamps i).getD k 0))) *
                (t.C_i (idx2 c.n_decays j u) - s.C_i (idx2 c.n_decays j u))) ∧
        (n ≤ j →
          t.E_i (idx2 (c.n_decays * c.n_decays) j (u1 * c.n_decays + u)) =
            s.E_i (idx2 (c.n_decays * c.n_decays) j (u1 * c.n_decays + u)) ∧
          t.C_i (idx2 c.n_decays j u) = s.C_i (idx2 c.n_decays j u)))
    c.n_nodes
    (source_step ex c k ((c.timestamps i).getD k 0)
      (fun u u1 => ex (-(c.decay u1 + c.decay u) * (c.end_time - (c.timestamps i).getD k 0)))
      (fun u => ex (-c.decay u *
        ((c.timestamps i).getD k 0 - (c.timestamps i).getD (k - 1) 0))))
    { s with K_i := addAt s.K_i (get_baseline_interval c ((c.timestamps i).getD k 0)) 1 }
    (fun j u u1 _ _ => ⟨fun h => absurd h (Nat.not_lt_zero j), fun _ => ⟨rfl, rfl⟩⟩)
    (by
      intro n _ t ht j u u1 hu hu1
      obtain ⟨r1, r2, -⟩ := idx2_row c.n_decays j u hu
      rw [source_step_E_apply _ _ _ _ _ _ _ _ j u u1 hu hu1, source_step_C]
      by_cases hjn : j = n
      · subst hjn
        obtain ⟨e1, e2⟩ := (ht j u u1 hu hu1).2 (le_refl j)
        refine ⟨fun _ => ?_, fun h => absurd h (by omega)⟩
        rw [if_pos rfl, if_pos ⟨r1, r2⟩, e1, e2]
        ring
      · have hrow := idx2_other_row c.n_decays n j u hu hjn
        rw [if_neg hjn, if_neg hrow, add_zero]
        refine ⟨fun h => (ht j u u1 hu hu1).1 (by omega),
          fun h => (ht j u u1 hu hu1).2 (by omega)⟩)
  exact (key j u u1 hu hu1).1 hj

/-- The invariant of the loop over `k` for `E_i`: after `k` events every entry holds the
direct sum over the events done. -/
theorem weights_prefix_E (ex : R → R) (hex : ∀ a b, ex (a + b) = ex a * ex b)
    (fuel : Nat) (c : Config R) (i : Nat) (hi : i < c.n_nodes)
    (hsorted : ∀ j, j < c.n_nodes → (c.timestamps j).Sorted (· ≤ ·)) :
    ∀ (k : Nat), k ≤ (c.timestamps i).length → ∀ (s : WState R),
      forLoopE k (weights_step ex fuel c i) wstate_zero = (.ok (), s) →
      ∀ j u u1, j < c.n_nodes → u < c.n_decays → u1 < c.n_decays →
        s.E_i (idx2 (c.n_decays * c.n_decays) j (u1 * c.n_decays + u)) =
          ∑ k1 in Finset.range k,
            e_factor ex c u u1 ((c.timestamps i).getD k1 0) *
              naive_inner ex c j u ((c.timestamps i).getD k1 0) := by
  intro k
  induction k with
  | zero =>
    intro _ s h j u u1 _ _ _
    rw [forLoopE_zero] at h
    simp only [Prod.mk.injEq, true_and] at h
    rw [← h]
    simp [wstate_zero]
  | succ k ih =>
    intro hk s h j u u1 hj hu hu1
    obtain ⟨t0, h0, hstep⟩ := forLoopE_ok_prev k _ _ _ h
    have hrows := (weights_prefix_spec ex hex fuel c i hi hsorted k (by omega) t0 h0).1
    have hspec := source_loop_spec ex hex c i k t0 hsorted (by omega) hi hrows
    obtain ⟨-, -, w3, w4, -⟩ := weights_step_proj ex fuel c i k t0
    rw [hstep] at w3 w4
    simp only at w3 w4
    rw [w4, source_loop_E ex c i k t0 j u u1 hj hu hu1, (hspec j hj).2.2 u hu,
      ih (by omega) t0 h0 j u u1 hj hu hu1, Finset.sum_range_succ, add_sub_cancel_left]
    unfold e_factor
    rw [add_comm (c.decay u) (c.decay u1)]

/-- A completed `while (lower < end_time)` loop has added to `Dg_i_u[p]` the terms of the
repetitions from `lower` on, and touched nothing else. -/
theorem dg_while_spec (ex : R → R) (c : Config R) (t_k_i decay_u : R) (pos : Nat)
    (hP : 0 ≤ c.period_length) (fuel : Nat) :
    ∀ (lower : R) (Dg_i Dg_i1 : Nat → R),
      dg_while ex c t_k_i decay_u pos fuel lower Dg_i = (.ok (), Dg_i1) →
      ∀ M : Nat, c.end_time ≤ lower + (M : R) * c.period_length → ∀ x,
        Dg_i1 x = Dg_i x + if x = pos then
          ∑ n in Finset.range M, dg_term ex c t_k_i decay_u (lower + (n : R) * c.period_length)
        else 0 := by
  induction fuel with
  | zero =>
    intro lower Dg_i Dg_i1 h
    simp [dg_while] at h
  | succ fuel ih =>
    intro lower Dg_i Dg_i1 h M hM x
    rw [dg_while] at h
    by_cases hl : lower < c.end_time
    · rw [if_pos hl] at h
      cases M with
      | zero =>
        simp only [Nat.cast_zero, zero_mul, add_zero] at hM
        exact absurd hl (not_lt.mpr hM)
      | succ M =>
        have hM1 : c.end_time ≤ lower + c.period_length + (M : R) * c.period_length := by
          push_cast at hM
          linarith
        rw [ih _ _ _ h M hM1 x, Finset.sum_range_succ']
        have harg : ∀ n : Nat, lower + c.period_length + (n : R) * c.period_length =
            lower + ((n + 1 : Nat) : R) * c.period_length := by
          intro n
          push_cast
          ring
        simp only [harg, Nat.cast_zero, zero_mul, add_zero]
        by_cases hx : x = pos
        · subst hx
          simp only [if_true]
          unfold dg_term overlap_lower overlap_upper
          split
          · simp only [addAt, Function.update_same]
            ring
          · ring
        · simp only [if_neg hx, add_zero]
          split
          · simp only [addAt, Function.update_noteq hx]
          · rfl
    · rw [if_neg hl] at h
      simp only [Prod.mk.injEq, true_and] at h
      rw [← h]
      have hz : ∀ n : Nat,
          dg_term ex c t_k_i decay_u (lower + (n : R) * c.period_length) = 0 := by
        intro n
        unfold dg_term overlap_lower overlap_upper
        rw [if_neg]
        have h1 : c.end_time ≤ lower + (n : R) * c.period_length := by
          have := mul_nonneg (Nat.cast_nonneg n : (0 : R) ≤ (n : R)) hP
          linarith [not_lt.mp hl]
        exact not_lt.mpr ((min_le_right _ _).trans (h1.trans (le_max_right _ _)))
      simp only [hz, Finset.sum_const_zero, ite_self, add_zero]

/-- A completed iteration `u` of the second loop over the decays has added to each
`Dg_i(u, p)` the terms of the repetitions of `p` from the period of the event on. -/
theorem decay_step_Dg (ex : R → R) (fuel : Nat) (c : Config R) (t_k_i : R)
    (exponentials : Nat → Nat → R) (u : Nat) (s b : WState R)
    (hP : 0 ≤ c.period_length)
    (h : decay_step ex fuel c t_k_i exponentials u s = (.ok (), b)) (M : Nat)
    (hM : c.end_time ≤ (⌊t_k_i / c.period_length⌋₊ : R) * c.period_length +
      (M : R) * c.period_length) (x : Nat) :
    b.Dg_i x = s.Dg_i x + ∑ p in Finset.range c.n_baselines,
      if x = idx2 c.n_baselines u p then
        ∑ n in Finset.range M, dg_term ex c t_k_i (c.decay u)
          ((⌊t_k_i / c.period_length⌋₊ : R) * c.period_length +
            ((p : R) * c.period_length) / (c.n_baselines : R) + (n : R) * c.period_length)
      else 0 := by
  unfold decay_step at h
  rcases status_cases (forLoopE c.n_baselines
    (fun p Dg_i =>
      let n_passed_periods : Nat := ⌊t_k_i / c.period_length⌋₊
      let lower := (n_passed_periods : R) * c.period_length +
        ((p : R) * c.period_length) / (c.n_baselines : R)
      dg_while ex c t_k_i (c.decay u) (idx2 c.n_baselines u p) fuel lower Dg_i)
    s.Dg_i) with ⟨t, ht⟩ | ⟨e, t, ht⟩
  · simp only [ht, Prod.mk.injEq, true_and] at h
    rw [← h]
    simp only
    exact forLoopE_ok_inv
      (fun q (Dg : Nat → R) => ∀ x, Dg x = s.Dg_i x + ∑ p in Finset.range q,
        if x = idx2 c.n_baselines u p then
          ∑ n in Finset.range M, dg_term ex c t_k_i (c.decay u)
            ((⌊t_k_i / c.period_length⌋₊ : R) * c.period_length +
              ((p : R) * c.period_length) / (c.n_baselines : R) + (n : R) * c.period_length)
        else 0)
      c.n_baselines _ s.Dg_i t ht
      (fun x => by simp)
      (by
        intro q _ a b1 ha hb x
        have hq : c.end_time ≤ (⌊t_k_i / c.period_length⌋₊ : R) * c.period_length +
            ((q : R) * c.period_length) / (c.n_baselines : R) +
              (M : R) * c.period_length := by
          have : 0 ≤ ((q : R) * c.period_length) / (c.n_baselines : R) :=
            div_nonneg (mul_nonneg (Nat.cast_nonneg _) hP) (Nat.cast_nonneg _)
          linarith
        rw [dg_while_spec ex c t_k_i (c.decay u) _ hP fuel _ a b1 hb M hq x, ha x,
          Finset.sum_range_succ, add_assoc]) x
  · simp only [ht] at h
    simp at h

/-- Entry `(j0, u0)` of a table filled by a double loop of single additions. -/
theorem sum2_ite_flat {M : Type} [AddCommMonoid M] (n d : Nat) (v : Nat → Nat → M)
    (j0 u0 : Nat) (hj0 : j0 < n) (hu0 : u0 < d) :
    ∑ j in Finset.range n, ∑ u in Finset.range d,
      (if idx2 d j0 u0 = idx2 d j u then v j u else 0) = v j0 u0 := by
  unfold idx2
  rw [Finset.sum_eq_single j0, Finset.sum_eq_single u0, if_pos rfl]
  · intro u hu hne
    rw [if_neg (fun h => hne (flat_inj d j0 u0 j0 u hu0 (Finset.mem_range.mp hu) h).2.symm)]
  · intro h
    exact absurd (Finset.mem_range.mpr hu0) h
  · intro j _ hne
    refine Finset.sum_eq_zero (fun u hu => ?_)
    rw [if_neg (fun h => hne (flat_inj d j0 u0 j u hu0 (Finset.mem_range.mp hu) h).1.symm)]
  · intro h
    exact absurd (Finset.mem_range.mpr hj0) h

/-- A completed iteration `k` of the loop over the events has added to each `Dg_i(u, p)`
the terms of the repetitions of `p` from the period of the event on. -/
theorem weights_step_Dg (ex : R → R) (fuel : Nat) (c : Config R) (i k : Nat)
    (s b : WState R) (hP : 0 ≤ c.period_length)
    (h : weights_step ex fuel c i k s = (.ok (), b)) (M : Nat)
    (hM : c.end_time ≤ (⌊(c.timestamps i).getD k 0 / c.period_length⌋₊ : R) *
      c.period_length + (M : R) * c.period_length)
    (u p : Nat) (hu : u < c.n_decays) (hp : p < c.n_baselines) :
    b.Dg_i (idx2 c.n_baselines u p) = s.Dg_i (idx2 c.n_baselines u p) +
      ∑ n in Finset.range M, dg_term ex c ((c.timestamps i).getD k 0) (c.decay u)
        ((⌊(c.timestamps i).getD k 0 / c.period_length⌋₊ : R) * c.period_length +
          ((p : R) * c.period_length) / (c.n_baselines : R) + (n : R) * c.period_length) := by
  have key := forLoopE_ok_inv
    (fun n (t : WState R) => ∀ x, t.Dg_i x = s.Dg_i x +
      ∑ u in Finset.range n, ∑ p in Finset.range c.n_baselines,
        if x = idx2 c.n_baselines u p then
          ∑ n in Finset.range M, dg_term ex c ((c.timestamps i).getD k 0) (c.decay u)
            ((⌊(c.timestamps i).getD k 0 / c.period_length⌋₊ : R) * c.period_length +
              ((p : R) * c.period_length) / (c.n_baselines : R) + (n : R) * c.period_length)
        else 0)
    c.n_decays
    (decay_step ex fuel c ((c.timestamps i).getD k 0)
      (fun u u1 => ex (-(c.decay u1 + c.decay u) * (c.end_time - (c.timestamps i).getD k 0))))
    (source_loop ex c i k s) b h
    (by
      intro x
      rw [Finset.sum_range_zero, add_zero]
      exact congrFun (source_loop_frame ex c k _ _ _ c.n_nodes _).2.1 _)
    (by
      intro n _ a b1 ha hb x
      rw [decay_step_Dg ex fuel c _ _ n a b1 hP hb M hM x, ha x, Finset.sum_range_succ,
        add_assoc])
  rw [key (idx2 c.n_baselines u p), sum2_ite_flat c.n_decays c.n_baselines _ u p hu hp]

/-- The terms of the repetitions that end before the period of the event vanish, so the
repetitions may be counted from the first period. -/
theorem dg_term_sum_shift (ex : R → R) (c : Config R) (t decay_u : R) (p : Nat)
    (hP : 0 < c.period_length) (hp : p < c.n_baselines) (ht : 0 ≤ t) (M : Nat) :
    ∑ n in Finset.range M, dg_term ex c t decay_u
        ((⌊t / c.period_length⌋₊ : R) * c.period_length +
          ((p : R) * c.period_length) / (c.n_baselines : R) + (n : R) * c.period_length) =
      ∑ n in Finset.range (⌊t / c.period_length⌋₊ + M),
        dg_term ex c t decay_u (rep_start c p n) := by
  rw [Finset.sum_range_add]
  have hb0 : (0 : R) < (c.n_baselines : R) := by
    exact_mod_cast Nat.lt_of_le_of_lt (Nat.zero_le p) hp
  have hzero : ∀ n, n < ⌊t / c.period_length⌋₊ → dg_term ex c t decay_u (rep_start c p n) = 0 := by
    intro n hn
    unfold dg_term overlap_lower overlap_upper rep_start
    rw [if_neg]
    have h1 : ((p : R) * c.period_length) / (c.n_baselines : R) +
        c.period_length / (c.n_baselines : R) ≤ c.period_length := by
      rw [← add_div, div_le_iff₀ hb0, ← add_one_mul]
      have : ((p : R) + 1) ≤ (c.n_baselines : R) := by exact_mod_cast hp
      calc ((p : R) + 1) * c.period_length ≤ (c.n_baselines : R) * c.period_length :=
            mul_le_mul_of_nonneg_right this hP.le
        _ = c.period_length * (c.n_baselines : R) := mul_comm _ _
    have h2 : ((n : R) + 1) * c.period_length ≤ t := by
      have h3 : ((n : R) + 1) ≤ (⌊t / c.period_length⌋₊ : R) := by exact_mod_cast hn
      have h4 : (⌊t / c.period_length⌋₊ : R) ≤ t / c.period_length :=
        Nat.floor_le (div_nonneg ht hP.le)
      calc ((n : R) + 1) * c.period_length ≤ t / c.period_length * c.period_length :=
            mul_le_mul_of_nonneg_right (h3.trans h4) hP.le
        _ = t := div_mul_cancel₀ t hP.ne'
    refine not_lt.mpr ((min_le_left _ _).trans (le_trans ?_ (le_max_left _ _)))
    linarith
  rw [Finset.sum_eq_zero (fun n hn => hzero n (Finset.mem_range.mp hn)), zero_add]
  refine Finset.sum_congr rfl (fun n _ => ?_)
  unfold rep_start
  push_cast
  ring_nf

/-- After the loop over the events, `Dg_i(u, p)` is the sum over the events and over the
repetitions of `p` up to any period past the window of the terms of the repetitions. -/
theorem weights_prefix_Dg (ex : R → R) (fuel : Nat) (c : Config R) (i : Nat)
    (hP : 0 < c.period_length)
    (hts : ∀ t, t ∈ c.timestamps i → 0 ≤ t ∧ t ≤ c.end_time) (N : Nat)
    (hN : c.end_time ≤ (N : R) * c.period_length) :
    ∀ (k : Nat), k ≤ (c.timestamps i).length → ∀ (s : WState R),
      forLoopE k (weights_step ex fuel c i) wstate_zero = (.ok (), s) →
      ∀ u p, u < c.n_decays → p < c.n_baselines →
        s.Dg_i (idx2 c.n_baselines u p) =
          ∑ k1 in Finset.range k, ∑ n in Finset.range N,
            dg_term ex c ((c.timestamps i).getD k1 0) (c.decay u) (rep_start c p n) := by
  intro k
  induction k with
  | zero =>
    intro _ s h u p _ _
    rw [forLoopE_zero] at h
    simp only [Prod.mk.injEq, true_and] at h
    rw [← h]
    simp [wstate_zero]
  | succ k ih =>
    intro hk s h u p hu hp
    obtain ⟨t0, h0, hstep⟩ := forLoopE_ok_prev k _ _ _ h
    have hmem : (c.timestamps i).getD k 0 ∈ c.timestamps i := by
      rw [List.getD_eq_getElem _ _ (by omega)]
      exact List.getElem_mem _
    obtain ⟨ht0, htT⟩ := hts _ hmem
    have hn0 : ⌊(c.timestamps i).getD k 0 / c.period_length⌋₊ ≤ N := by
      apply Nat.floor_le_of_le
      rw [div_le_iff₀ hP]
      exact htT.trans hN
    have hM : c.end_time ≤ (⌊(c.timestamps i).getD k 0 / c.period_length⌋₊ : R) *
        c.period_length +
          ((N - ⌊(c.timestamps i).getD k 0 / c.period_length⌋₊ : Nat) : R) *
            c.period_length := by
      rw [← add_mul, ← Nat.cast_add, Nat.add_sub_cancel' hn0]
      exact hN
    rw [weights_step_Dg ex fuel c i k t0 s hP.le hstep _ hM u p hu hp,
      ih (by omega) t0 h0 u p hu hp, Finset.sum_range_succ,
      dg_term_sum_shift ex c _ _ p hP hp ht0, Nat.add_sub_cancel' hn0]

/-- The term of a repetition is the difference of the exponentials at its two ends brought
back into the window after the event. -/
theorem dg_term_telescope (ex : R → R) (c : Config R) (t decay_u a : R)
    (hw : 0 ≤ c.period_length / (c.n_baselines : R)) :
    dg_term ex c t decay_u a =
      ex (-decay_u * (window_clamp c t a - t)) -
        ex (-decay_u * (window_clamp c t (a + c.period_length / (c.n_baselines : R)) - t)) := by
  unfold dg_term overlap_lower overlap_upper window_clamp
  by_cases h : max t a < min (a + c.period_length / (c.n_baselines : R)) c.end_time
  · rw [if_pos h]
    have e1 : min (max a t) c.end_time = max t a := by
      rw [max_comm a t]
      exact min_eq_left (h.le.trans (min_le_right _ _))
    have e2 : min (max (a + c.period_length / (c.n_baselines : R)) t) c.end_time =
        min (a + c.period_length / (c.n_baselines : R)) c.end_time := by
      have : t ≤ a + c.period_length / (c.n_baselines : R) :=
        ((le_max_left t a).trans h.le).trans (min_le_left _ _)
      rw [max_eq_left this]
    rw [e1, e2]
  · rw [if_neg h]
    have e : min (max a t) c.end_time =
        min (max (a + c.period_length / (c.n_baselines : R)) t) c.end_time := by
      rw [not_lt] at h
      rcases le_total (a + c.period_length / (c.n_baselines : R)) c.end_time with h1 | h1
      · rw [min_eq_left h1] at h
        rcases le_total t a with h2 | h2
        · rw [max_eq_right h2] at h
          have : a + c.period_length / (c.n_baselines : R) = a := le_antisymm h (by linarith)
          rw [this]
        · rw [max_eq_left h2] at h
          rw [max_eq_right h2, max_eq_right h]
      · rw [min_eq_right h1] at h
        have h3 : c.end_time ≤ max a t := by rwa [max_comm]
        have h4 : c.end_time ≤ max (a + c.period_length / (c.n_baselines : R)) t :=
          h1.trans (le_max_left _ _)
        rw [min_eq_right h3, min_eq_right h4]
    rw [e, sub_self]

/-- Sub-interval `p` of period `n` starts at `(n * n_baselines + p)` sub-interval
lengths. -/
theorem rep_start_flat (c : Config R) (p n : Nat) (hb : c.n_baselines ≠ 0) :
    rep_start c p n =
      ((n * c.n_baselines + p : Nat) : R) * (c.period_length / (c.n_baselines : R)) := by
  have hb0 : (c.n_baselines : R) ≠ 0 := Nat.cast_ne_zero.mpr hb
  unfold rep_start
  push_cast
  field_simp
  ring

/-- After an event in the window, the terms of all the sub-intervals of the periods up to
one past the window telescope to `exp(0) - exp(-decay_u * (end_time - t))`. -/
theorem dg_term_sum_tiles (ex : R → R) (c : Config R) (t decay_u : R)
    (hP : 0 < c.period_length) (hb : 1 ≤ c.n_baselines) (ht0 : 0 ≤ t)
    (ht : t ≤ c.end_time) (N : Nat) (hN : c.end_time ≤ (N : R) * c.period_length) :
    ∑ n in Finset.range N, ∑ p in Finset.range c.n_baselines,
        dg_term ex c t decay_u (rep_start c p n) =
      ex 0 - ex (-decay_u * (c.end_time - t)) := by
  have hb0 : (0 : R) < (c.n_baselines : R) := by exact_mod_cast hb
  have hw : 0 ≤ c.period_length / (c.n_baselines : R) := div_nonneg hP.le hb0.le
  have hterm : ∀ n p, dg_term ex c t decay_u (rep_start c p n) =
      ex (-decay_u * (window_clamp c t
          (((n * c.n_baselines + p : Nat) : R) * (c.period_length / (c.n_baselines : R))) - t)) -
        ex (-decay_u * (window_clamp c t
          (((n * c.n_baselines + p + 1 : Nat) : R) *
            (c.period_length / (c.n_baselines : R))) - t)) := by
    intro n p
    rw [dg_term_telescope ex c t decay_u _ hw, rep_start_flat c p n (by omega)]
    congr 4
    push_cast
    ring_nf
  simp only [hterm]
  rw [← sum_flatten N c.n_baselines (fun q =>
    ex (-decay_u * (window_clamp c t
        ((q : R) * (c.period_length / (c.n_baselines : R))) - t)) -
      ex (-decay_u * (window_clamp c t
        (((q + 1 : Nat) : R) * (c.period_length / (c.n_baselines : R))) - t))),
    Finset.sum_range_sub' (fun q => ex (-decay_u * (window_clamp c t
        ((q : R) * (c.period_length / (c.n_baselines : R))) - t)))]
  have e0 : window_clamp c t (((0 : Nat) : R) * (c.period_length / (c.n_baselines : R))) =
      t := by
    unfold window_clamp
    rw [Nat.cast_zero, zero_mul, max_eq_right ht0, min_eq_left ht]
  have e1 : window_clamp c t
      (((N * c.n_baselines : Nat) : R) * (c.period_length / (c.n_baselines : R))) =
      c.end_time := by
    unfold window_clamp
    have : ((N * c.n_baselines : Nat) : R) * (c.period_length / (c.n_baselines : R)) =
        (N : R) * c.period_length := by
      push_cast
      field_simp
      ring
    rw [this]
    exact min_eq_right (hN.trans (le_max_left _ _))
  rw [e0, e1, sub_self, mul_zero]

/-- After the loop over the events the entries of row `u` of `Dg_i` add up to the sum over
the events of `exp(0) - exp(-decay_u * (end_time - t_k))`. -/
theorem weights_loop_Dg_row (ex : R → R) (fuel : Nat) (c : Config R) (i : Nat)
    (hP : 0 < c.period_length) (hb : 1 ≤ c.n_baselines)
    (hts : ∀ t, t ∈ c.timestamps i → 0 ≤ t ∧ t ≤ c.end_time) (s : WState R)
    (h : weights_loop ex fuel c i = (.ok (), s)) (u : Nat) (hu : u < c.n_decays) :
    ∑ p in Finset.range c.n_baselines, s.Dg_i (idx2 c.n_baselines u p) =
      ∑ k in Finset.range (c.timestamps i).length,
        (ex 0 - ex (-c.decay u * (c.end_time - (c.timestamps i).getD k 0))) := by
  have hN : c.end_time ≤ (⌈c.end_time / c.period_length⌉₊ : R) * c.period_length := by
    have := mul_le_mul_of_nonneg_right (Nat.le_ceil (c.end_time / c.period_length)) hP.le
    rwa [div_mul_cancel₀ _ hP.ne'] at this
  rw [sum_range_congr c.n_baselines _ _ (fun p hp =>
    weights_prefix_Dg ex fuel c i hP hts _ hN _ (le_refl _) s h u p hu hp), Finset.sum_comm]
  refine sum_range_congr _ _ _ (fun k hk => ?_)
  have hmem : (c.timestamps i).getD k 0 ∈ c.timestamps i := by
    rw [List.getD_eq_getElem _ _ hk]
    exact List.getElem_mem _
  rw [Finset.sum_comm]
  exact dg_term_sum_tiles ex c _ _ hP hb (hts _ hmem).1 (hts _ hmem).2 _ hN

/-- The flat index `j * n * d + k * d + u` determines `j`, `k` and `u`. -/
theorem flat3_inj (n d j k u j0 k0 u0 : Nat) (hk : k < n) (hk0 : k0 < n) (hu : u < d)
    (hu0 : u0 < d) (h : j * n * d + k * d + u = j0 * n * d + k0 * d + u0) :
    j = j0 ∧ k = k0 ∧ u = u0 := by
  have h1 : (j * n + k) * d + u = (j0 * n + k0) * d + u0 := by
    rw [Nat.add_mul, Nat.add_mul]
    exact h
  obtain ⟨h2, h3⟩ := flat_inj d _ u _ u0 hu hu0 h1
  obtain ⟨h4, h5⟩ := flat_inj n j k j0 k0 hk hk0 h2
  exact ⟨h4, h5, h3⟩

/-- The loop of `compute_penalization_constant` over `pen_mu` leaves the value of its
iteration `i` at every index `i` below `n`, and nothing else changed. -/
theorem pen_mu_loop (n : Nat) (g : Nat → R) (t : PenState R) :
    (∀ x, (forLoop n (fun i (s : PenState R) => s.set_mu i (g i)) t).pen_mu x =
      if x < n then g x else t.pen_mu x) ∧
    (forLoop n (fun i (s : PenState R) => s.set_mu i (g i)) t).pen_L1_alpha =
      t.pen_L1_alpha ∧
    (forLoop n (fun i (s : PenState R) => s.set_mu i (g i)) t).pen_mu_size = t.pen_mu_size ∧
    (forLoop n (fun i (s : PenState R) => s.set_mu i (g i)) t).pen_L1_alpha_size =
      t.pen_L1_alpha_size := by
  induction n with
  | zero => exact ⟨fun x => by simp [forLoop], rfl, rfl, rfl⟩
  | succ n ih =>
    obtain ⟨h1, h2, h3, h4⟩ := ih
    rw [forLoop_succ]
    refine ⟨fun x => ?_, h2, h3, h4⟩
    show Function.update
      (forLoop n (fun i (s : PenState R) => s.set_mu i (g i)) t).pen_mu n (g n) x = _
    by_cases hx : x = n
    · subst hx
      simp
    · rw [Function.update_noteq hx, h1 x]
      by_cases hlt : x < n
      · rw [if_pos hlt, if_pos (by omega)]
      · rw [if_neg hlt, if_neg (by omega)]

/-- The loops of `compute_penalization_constant` over `u`, `j`, `k` leave at every index
`j * n * d + k * d + u` the value of the iteration `(u, j, k)`, and nothing else changed. -/
theorem pen_L1_alpha_loop (n d : Nat) (G : Nat → Nat → Nat → R) (t : PenState R) :
    (∀ j k u, j < n → k < n → u < d →
      (forLoop d (fun u (s : PenState R) =>
        forLoop n (fun j (s : PenState R) =>
          forLoop n (fun k (s : PenState R) =>
            s.set_L1_alpha (j * n * d + k * d + u) (G u j k)) s) s) t).pen_L1_alpha
          (j * n * d + k * d + u) = G u j k) ∧
    (∀ y, n * n * d ≤ y →
      (forLoop d (fun u (s : PenState R) =>
        forLoop n (fun j (s : PenState R) =>
          forLoop n (fun k (s : PenState R) =>
            s.set_L1_alpha (j * n * d + k * d + u) (G u j k)) s) s) t).pen_L1_alpha y =
        t.pen_L1_alpha y) ∧
    (forLoop d (fun u (s : PenState R) =>
        forLoop n (fun j (s : PenState R) =>
          forLoop n (fun k (s : PenState R) =>
            s.set_L1_alpha (j * n * d + k * d + u) (G u j k)) s) s) t).pen_mu = t.pen_mu ∧
    (forLoop d (fun u (s : PenState R) =>
        forLoop n (fun j (s : PenState R) =>
          forLoop n (fun k (s : PenState R) =>
            s.set_L1_alpha (j * n * d + k * d + u) (G u j k)) s) s) t).pen_mu_size =
      t.pen_mu_size ∧
    (forLoop d (fun u (s : PenState R) =>
        forLoop n (fun j (s : PenState R) =>
          forLoop n (fun k (s : PenState R) =>
            s.set_L1_alpha (j * n * d + k * d + u) (G u j k)) s) s) t).pen_L1_alpha_size =
      t.pen_L1_alpha_size := by
  have hflat : ∀ j k u, j < n → k < n → u < d → j * n * d + k * d + u < n * n * d := by
    intro j k u hj hk hu
    have := flat_lt (n * n) d (j * n + k) u (flat_lt n n j k hj hk) hu
    rwa [Nat.add_mul] at this
  let P : Nat → Nat → Nat → PenState R → Prop := fun U J K s =>
    (∀ j k u, j < n → k < n → u < d → (u < U ∨ (u = U ∧ (j < J ∨ (j = J ∧ k < K)))) →
      s.pen_L1_alpha (j * n * d + k * d + u) = G u j k) ∧
    (∀ y, n * n * d ≤ y → s.pen_L1_alpha y = t.pen_L1_alpha y) ∧
    s.pen_mu = t.pen_mu ∧ s.pen_mu_size = t.pen_mu_size ∧
    s.pen_L1_alpha_size = t.pen_L1_alpha_size
  have hk : ∀ u j, u < d → j < n → ∀ s, P u j 0 s →
      P u (j + 1) 0 (forLoop n (fun k (s : PenState R) =>
        s.set_L1_alpha (j * n * d + k * d + u) (G u j k)) s) := by
    intro u j hu hj s hs
    have hend := forLoop_inv (fun K s => P u j K s) n
      (fun k (s : PenState R) => s.set_L1_alpha (j * n * d + k * d + u) (G u j k)) s hs (by
        intro k hk a ⟨ha1, ha2, ha3, ha4, ha5⟩
        refine ⟨fun j1 k1 u1 hj1 hk1 hu1 hlex => ?_, fun y hy => ?_, ha3, ha4, ha5⟩
        · show Function.update a.pen_L1_alpha _ _ _ = _
          by_cases he : j1 * n * d + k1 * d + u1 = j * n * d + k * d + u
          · obtain ⟨e1, e2, e3⟩ := flat3_inj n d j1 k1 u1 j k u hk1 hk hu1 hu he
            subst e1 e2 e3
            simp
          · rw [Function.update_noteq he]
            apply ha1 j1 k1 u1 hj1 hk1 hu1
            rcases hlex with h | ⟨h1, h | ⟨h2, h3⟩⟩
            · exact Or.inl h
            · exact Or.inr ⟨h1, Or.inl h⟩
            · refine Or.inr ⟨h1, Or.inr ⟨h2, ?_⟩⟩
              rcases Nat.lt_succ_iff_lt_or_eq.mp h3 with h4 | h4
              · exact h4
              · subst h1 h2 h4
                exact absurd rfl he
        · show Function.update a.pen_L1_alpha _ _ _ = _
          have hne : y ≠ j * n * d + k * d + u := by
            have := hflat j k u hj hk hu
            omega
          rw [Function.update_noteq hne]
          exact ha2 y hy)
    obtain ⟨h1, h2, h3, h4, h5⟩ := hend
    refine ⟨fun j1 k1 u1 hj1 hk1 hu1 hlex => ?_, h2, h3, h4, h5⟩
    apply h1 j1 k1 u1 hj1 hk1 hu1
    rcases hlex with h | ⟨h6, h | ⟨h7, h8⟩⟩
    · exact Or.inl h
    · rcases Nat.lt_succ_iff_lt_or_eq.mp h with h9 | h9
      · exact Or.inr ⟨h6, Or.inl h9⟩
      · exact Or.inr ⟨h6, Or.inr ⟨h9, hk1⟩⟩
    · omega
  have hj : ∀ u, u < d → ∀ s, P u 0 0 s →
      P (u + 1) 0 0 (forLoop n (fun j (s : PenState R) =>
        forLoop n (fun k (s : PenState R) =>
          s.set_L1_alpha (j * n * d + k * d + u) (G u j k)) s) s) := by
    intro u hu s hs
    have hend := forLoop_inv (fun J s => P u J 0 s) n
      (fun j (s : PenState R) => forLoop n (fun k (s : PenState R) =>
        s.set_L1_alpha (j * n * d + k * d + u) (G u j k)) s) s hs
      (fun j hj a ha => hk u j hu hj a ha)
    obtain ⟨h1, h2, h3, h4, h5⟩ := hend
    refine ⟨fun j1 k1 u1 hj1 hk1 hu1 hlex => ?_, h2, h3, h4, h5⟩
    apply h1 j1 k1 u1 hj1 hk1 hu1
    rcases hlex with h | ⟨h6, h | ⟨h7, h8⟩⟩
    · rcases Nat.lt_succ_iff_lt_or_eq.mp h with h9 | h9
      · exact Or.inl h9
      · exact Or.inr ⟨h9, Or.inl hj1⟩
    · omega
    · omega
  have hend := forLoop_inv (fun U s => P U 0 0 s) d
    (fun u (s : PenState R) => forLoop n (fun j (s : PenState R) =>
      forLoop n (fun k (s : PenState R) =>
        s.set_L1_alpha (j * n * d + k * d + u) (G u j k)) s) s) t
    ⟨fun j k u _ _ _ hlex => by omega, fun _ _ => rfl, rfl, rfl, rfl⟩
    (fun u hu a ha => hj u hu a ha)
  obtain ⟨h1, h2, h3, h4, h5⟩ := hend
  exact ⟨fun j k u hj hk hu => h1 j k u hj hk hu (Or.inl hu), h2, h3, h4, h5⟩

end Additive

section Calculus

/-- A polynomial of degree at most two in the step has its linear coefficient as
derivative at step 0. -/
theorem QuadAt.hasDerivAt {f : ℝ → ℝ} {c g : ℝ} (h : QuadAt f c g) : HasDerivAt f g 0 := by
  obtain ⟨q, e⟩ := h
  have hf : f = fun s => c + s * g + s * s * q := funext e
  rw [hf]
  have h1 := ((hasDerivAt_const (0 : ℝ) c).add ((hasDerivAt_id (0 : ℝ)).mul_const g)).add
    (((hasDerivAt_id (0 : ℝ)).mul (hasDerivAt_id (0 : ℝ))).mul_const q)
  convert h1 using 1
  simp

/-- The integral of the kernel `decay * exp(-decay * (x - t))` over `[a, b]`. -/
theorem integral_kernel (d t a b : ℝ) :
    ∫ x in a..b, d * Real.exp (-d * (x - t)) =
      Real.exp (-d * (a - t)) - Real.exp (-d * (b - t)) := by
  have hderiv : ∀ x ∈ Set.uIcc a b,
      HasDerivAt (fun x => -Real.exp (-d * (x - t))) (d * Real.exp (-d * (x - t))) x := by
    intro x _
    have h1 : HasDerivAt (fun x => -d * (x - t)) (-d * 1) x :=
      ((hasDerivAt_id x).sub_const t).const_mul (-d)
    have h2 := h1.exp.neg
    convert h2 using 1
    ring
  have hint : IntervalIntegrable (fun x => d * Real.exp (-d * (x - t)))
      MeasureTheory.volume a b :=
    Continuous.intervalIntegrable (by continuity) a b
  rw [intervalIntegral.integral_eq_sub_of_hasDerivAt hderiv hint]
  ring

/-- The integral of `exp(-decay * (x - t))` over `[a, b]` for a non-zero decay. -/
theorem integral_exp_decay (d t a b : ℝ) (hd : d ≠ 0) :
    ∫ x in a..b, Real.exp (-d * (x - t)) =
      (Real.exp (-d * (a - t)) - Real.exp (-d * (b - t))) / d := by
  rw [eq_div_iff hd, ← integral_kernel d t a b, mul_comm,
    ← intervalIntegral.integral_const_mul]

/-- The term of a repetition is the integral of the kernel over its overlap with
`[t, end_time)`. -/
theorem dg_term_eq_integral (c : Config ℝ) (t d a : ℝ) :
    dg_term Real.exp c t d a =
      if overlap_lower t a < overlap_upper c a then
        ∫ x in (overlap_lower t a)..(overlap_upper c a), d * Real.exp (-d * (x - t))
      else 0 := by
  unfold dg_term
  rw [integral_kernel]

end Calculus

section Claims

variable {R : Type} [LinearOrderedField R] [FloorRing R]

/-- C1: on a model with at least one dimension whose timestamp sequences are sorted in
non-decreasing order, whenever `compute_weights` (which starts from freshly allocated zero
tensors) completes, every entry `C_i(j, u)` is the direct pairwise sum over the events
`t_k` of node `i` and the events `t' < t_k` of node `j` of
`decay_u * exp(-decay_u * (t_k - t'))`; at each step `k` of the loop of
`compute_weights_i` the running value `H(j, u)` left by the loop over the sources is the
direct sum for `t_k`; and `compute_weights` does complete, given enough fuel, when
`period_length > 0`. -/
theorem recursive_weights_eq_naive (m : Model ℝ) (hn : 1 ≤ m.n_nodes)
    (hsorted : ∀ i, i < m.n_nodes → (m.timestamps i).Sorted (· ≤ ·)) :
    (∀ fuel m1, compute_weights Real.exp fuel m = (.ok (), m1) →
      ∀ i j u, i < m.n_nodes → j < m.n_nodes → u < m.n_decays →
        m1.C i (idx2 m.n_decays j u) = naive_C Real.exp m.toConfig i j u) ∧
    (∀ fuel i k s, i < m.n_nodes → k < (m.timestamps i).length →
      forLoopE k (weights_step Real.exp fuel m.toConfig i) wstate_zero = (.ok (), s) →
      ∀ j u, j < m.n_nodes → u < m.n_decays →
        (source_loop Real.exp m.toConfig i k s).H (idx2 m.n_decays j u) =
          naive_inner Real.exp m.toConfig j u ((m.timestamps i).getD k 0)) ∧
    (0 < m.period_length → ∃ fuel m1, compute_weights Real.exp fuel m = (.ok (), m1)) := by
  refine ⟨?_, ?_, fun hP => ⟨_, compute_weights_complete_of_pos Real.exp m (by omega) hP⟩⟩
  · intro fuel m1 h i j u hi hj hu
    obtain ⟨-, hp⟩ := compute_weights_ok Real.exp fuel m m1 h
    obtain ⟨s, hs, hC, -⟩ := hp.done i hi
    rw [hC, naive_C_eq_range]
    exact (weights_prefix_spec Real.exp Real.exp_add fuel m.toConfig i hi hsorted _
      (le_refl _) s hs).2 j u hj hu
  · intro fuel i k s hi hk hs j u hj hu
    have h1 := weights_prefix_spec Real.exp Real.exp_add fuel m.toConfig i hi hsorted k
      (by omega) s hs
    exact ((source_loop_spec Real.exp Real.exp_add m.toConfig i k s hsorted hk hi h1.1)
      j hj).2.1 u hu

theorem recursive_weights_eq_naive_witness :
    (1 ≤ (scenario ℝ).n_nodes ∧
      ∀ i, i < (scenario ℝ).n_nodes → ((scenario ℝ).timestamps i).Sorted (· ≤ ·)) ∧
    ((∀ fuel m1, compute_weights Real.exp fuel (scenario ℝ) = (.ok (), m1) →
      ∀ i j u, i < (scenario ℝ).n_nodes → j < (scenario ℝ).n_nodes →
        u < (scenario ℝ).n_decays →
        m1.C i (idx2 (scenario ℝ).n_decays j u) =
          naive_C Real.exp (scenario ℝ).toConfig i j u) ∧
    (∀ fuel i k s, i < (scenario ℝ).n_nodes → k < ((scenario ℝ).timestamps i).length →
      forLoopE k (weights_step Real.exp fuel (scenario ℝ).toConfig i) wstate_zero =
        (.ok (), s) →
      ∀ j u, j < (scenario ℝ).n_nodes → u < (scenario ℝ).n_decays →
        (source_loop Real.exp (scenario ℝ).toConfig i k s).H
            (idx2 (scenario ℝ).n_decays j u) =
          naive_inner Real.exp (scenario ℝ).toConfig j u
            (((scenario ℝ).timestamps i).getD k 0)) ∧
    (0 < (scenario ℝ).period_length →
      ∃ fuel m1, compute_weights Real.exp fuel (scenario ℝ) = (.ok (), m1))) :=
  ⟨⟨by decide, fun i _ => by norm_num [scenario, List.Sorted]⟩,
    recursive_weights_eq_naive (scenario ℝ) (by decide)
      (fun i _ => by norm_num [scenario, List.Sorted])⟩

/-- C4: for `n_baselines ≥ 1`, `period_length > 0` and `end_time ≥ 0` the interval lengths
computed by `get_baseline_interval_length` add up to `end_time`; whenever `compute_weights`
completes, every `L[p]` holds `get_baseline_interval_length(p)` (so the stored lengths add up
to `end_time` too); and it does complete, given enough fuel, when the model has a
dimension. -/
theorem interval_lengths_sum_to_end_time (ex : R → R) (m : Model R)
    (hb : 1 ≤ m.n_baselines) (hP : 0 < m.period_length) (hT : 0 ≤ m.end_time) :
    (∑ p in Finset.range m.n_baselines, get_baseline_interval_length m.toConfig p
        = m.end_time) ∧
    (∀ fuel m1, compute_weights ex fuel m = (.ok (), m1) →
      (∀ p, p < m.n_baselines → m1.L p = get_baseline_interval_length m.toConfig p) ∧
      ∑ p in Finset.range m.n_baselines, m1.L p = m.end_time) ∧
    (m.n_nodes ≠ 0 → ∃ fuel m1, compute_weights ex fuel m = (.ok (), m1)) := by
  have hsum := sum_baseline_interval_length m.toConfig hb hP hT
  refine ⟨hsum, ?_, fun hn => ⟨_, compute_weights_complete_of_pos ex m hn hP⟩⟩
  intro fuel m1 h
  obtain ⟨hn, hp⟩ := compute_weights_ok ex fuel m m1 h
  have hL : ∀ p, p < m.n_baselines → m1.L p = get_baseline_interval_length m.toConfig p := by
    intro p hp1
    rw [hp.lengths p, if_pos ⟨hp1, Nat.mod_lt _ (Nat.pos_of_ne_zero hn)⟩]
  refine ⟨hL, ?_⟩
  rw [← hsum]
  exact Finset.sum_congr rfl (fun p hp1 => hL p (Finset.mem_range.mp hp1))

theorem interval_lengths_sum_to_end_time_witness :
    (1 ≤ example_model.n_baselines ∧ 0 < example_model.period_length ∧
      0 ≤ example_model.end_time) ∧
    ((∑ p in Finset.range example_model.n_baselines,
        get_baseline_interval_length example_model.toConfig p = example_model.end_time) ∧
    (∀ fuel m1, compute_weights (fun _ => (1 : ℚ)) fuel example_model = (.ok (), m1) →
      (∀ p, p < example_model.n_baselines →
        m1.L p = get_baseline_interval_length example_model.toConfig p) ∧
      ∑ p in Finset.range example_model.n_baselines, m1.L p = example_model.end_time) ∧
    (example_model.n_nodes ≠ 0 →
      ∃ fuel m1, compute_weights (fun _ => (1 : ℚ)) fuel example_model = (.ok (), m1))) :=
  ⟨⟨by decide, by norm_num [example_model, scenario], by norm_num [example_model, scenario]⟩,
    interval_lengths_sum_to_end_time (fun _ => (1 : ℚ)) example_model (by decide)
      (by norm_num [example_model, scenario]) (by norm_num [example_model, scenario])⟩

/-- In exact arithmetic the event counts add up: for `n_baselines ≥ 1` and
`period_length > 0`, whenever `compute_weights` completes the counts `K_i[p]` of every
dimension `i` add up to the number of events of that dimension; and it does complete, given
enough fuel, when the model has a dimension. -/
theorem event_counts_sum_to_size (ex : R → R) (m : Model R)
    (hb : 1 ≤ m.n_baselines) (hP : 0 < m.period_length) :
    (∀ fuel m1, compute_weights ex fuel m = (.ok (), m1) →
      ∀ i, i < m.n_nodes →
        ∑ p in Finset.range m.n_baselines, m1.K i p = ((m.timestamps i).length : R)) ∧
    (m.n_nodes ≠ 0 → ∃ fuel m1, compute_weights ex fuel m = (.ok (), m1)) := by
  refine ⟨?_, fun hn => ⟨_, compute_weights_complete_of_pos ex m hn hP⟩⟩
  intro fuel m1 h i hi
  obtain ⟨-, hp⟩ := compute_weights_ok ex fuel m m1 h
  obtain ⟨s, hs, -, -, -, -, hK⟩ := hp.done i hi
  rw [hK]
  exact weights_loop_counts ex fuel m.toConfig i hP hb s hs

theorem event_counts_sum_to_size_witness :
    (1 ≤ example_model.n_baselines ∧ 0 < example_model.period_length) ∧
    ((∀ fuel m1, compute_weights (fun _ => (1 : ℚ)) fuel example_model = (.ok (), m1) →
      ∀ i, i < example_model.n_nodes →
        ∑ p in Finset.range example_model.n_baselines, m1.K i p =
          (((example_model.timestamps i).length : Nat) : ℚ)) ∧
    (example_model.n_nodes ≠ 0 →
      ∃ fuel m1, compute_weights (fun _ => (1 : ℚ)) fuel example_model = (.ok (), m1))) :=
  ⟨⟨by decide, by norm_num [example_model, scenario]⟩,
    event_counts_sum_to_size (fun _ => (1 : ℚ)) example_model (by decide)
      (by norm_num [example_model, scenario])⟩

/-- C5: the counts `K_i[p]` do not add up to the number of events on an input allowed by
the claim.  With `period_length = 0.01`, `n_baselines = 4` and the single event `0.59` (as
`double`s), `compute_weights_i` increments `K_0` at the index `4`, past its four entries
`0 .. 3`, which all stay `0`: they sum to `0`, and the dimension has one event. -/
theorem event_counts_miss_event :
    (1 ≤ centi_period.n_baselines ∧ 0 < centi_period.period_length ∧
      (centi_period.timestamps 0).length = 1) ∧
    ∃ K_0, event_counts_binary64 64 centi_period 0 (centi_period.timestamps 0).length
        (fun _ => 0) = some K_0 ∧
      K_0 centi_period.n_baselines = 1 ∧
      (∀ p, p < centi_period.n_baselines → K_0 p = 0) ∧
      ∑ p in Finset.range centi_period.n_baselines, K_0 p = 0 := by
  have h : get_baseline_interval_binary64 64 centi_period
      ((centi_period.timestamps 0).getD 0 0) = some 4 := by decide!
  have h1 : round_to_binary64 ((0 : ℚ) + 1) = 1 := by decide!
  refine ⟨by decide!, Function.update (fun _ => 0) 4 1, ?_, ?_, ?_, ?_⟩
  · show event_counts_binary64 64 centi_period 0 1 (fun _ => 0) = _
    simp only [event_counts_binary64, forLoop, h, h1]
  · show Function.update (fun _ => (0 : ℚ)) 4 1 4 = 1
    simp
  · intro p hp
    have hp4 : p ≠ 4 := by
      have : p < 4 := hp
      omega
    simp [Function.update_noteq hp4]
  · show ∑ p in Finset.range 4, Function.update (fun _ => (0 : ℚ)) 4 1 p = 0
    simp [Finset.sum_range_succ]

/-- C6: for every model state, coefficient vector and buffer, `loss_and_grad(coeffs, out)`
returns the status and scalar that `loss(coeffs)` returns, and leaves the model and the
buffer `out` as `grad(coeffs, out)` leaves them. -/
theorem loss_and_grad_consistent (ex : R → R) (fuel : Nat) (m : Model R)
    (coeffs out : Nat → R) :
    (loss_and_grad ex fuel m coeffs out).1 = (loss ex fuel m coeffs).1 ∧
    (loss_and_grad ex fuel m coeffs out).2.2 = (grad ex fuel m coeffs out).2.2 ∧
    (loss_and_grad ex fuel m coeffs out).2.1 = (grad ex fuel m coeffs out).2.1 := by
  unfold loss_and_grad
  rcases status_cases (ensure_weights ex fuel m) with ⟨m1, h1⟩ | ⟨e, m1, h1⟩
  · have hw := (ensure_weights_ok ex fuel m m1 h1).1
    rw [grad_of_ensure ex fuel m m1 coeffs out h1]
    simp only
    rw [loss_of_ensure ex fuel m1 m1 coeffs (ensure_weights_computed ex fuel m1 hw),
      loss_of_ensure ex fuel m m1 coeffs h1]
    exact ⟨rfl, trivial, loss_after_snd m1 coeffs⟩
  · rw [grad_eq, loss_eq, h1]
    exact ⟨rfl, rfl, rfl⟩

/-- C7 as stated fails: on a model with one dimension, `n_baselines = 2`,
`period_length = -1` and one event at `0 = end_time`, whose weights are not computed,
`hessian(out)` raises no error: it first runs `compute_weights`, whose repetition loop for
the interval `p = 1` starts at `lower = -1/2 < end_time` and moves away from `end_time`, so
that the call exhausts any fuel. -/
theorem hessian_stalls_on_backward_period :
    1 ≤ backward_period.n_nodes ∧ backward_period.n_baselines ≠ 1 ∧
    backward_period.weights_computed = false ∧
    ∀ (ex : ℚ → ℚ) fuel out,
      (hessian ex fuel backward_period out).1 = .error .out_of_fuel ∧
      ∀ msg, (hessian ex fuel backward_period out).1 ≠ .error (.tick_error msg) := by
  refine ⟨by decide, by decide, rfl, fun ex fuel out => ?_⟩
  have h : (hessian ex fuel backward_period out).1 = .error .out_of_fuel := by
    have hc : (compute_weights ex fuel backward_period).1 = .error .out_of_fuel := by
      refine compute_weights_stalls ex fuel backward_period 0 (by decide) (fun s => ?_)
      refine weights_loop_stalls ex fuel backward_period.toConfig 0 0 0 1 ?_ (by decide)
        (by decide) (by decide) ?_ s
      · norm_num [backward_period]
      · norm_num [backward_period]
    rw [hessian_eq]
    have he : ensure_weights ex fuel backward_period = compute_weights ex fuel backward_period := by
      simp [ensure_weights, backward_period]
    rw [he]
    rcases status_cases (compute_weights ex fuel backward_period) with ⟨m1, h1⟩ | ⟨e, m1, h1⟩
    · rw [h1] at hc
      cases hc
    · rw [h1] at hc ⊢
      exact hc
  refine ⟨h, fun msg => ?_⟩
  rw [h]
  simp

/-- C7 amended: on a model with at least one dimension and `n_baselines ≠ 1`, `hessian(out)`
fails with the error "hessian is only implemented for one baseline" and leaves the model
and every entry of `out` unchanged when the weights are already computed.  When they are
not and `n_baselines ≥ 2`, it runs `compute_weights` first and leaves every entry of `out`
unchanged: it fails with that error when `compute_weights` returns, and when
`compute_weights` does not return (it runs out of fuel) neither does `hessian`.  With
`n_baselines = 1` it throws no error: it completes when the weights are already computed,
and when the `compute_weights` it runs first returns. -/
theorem hessian_unsupported_configuration (ex : R → R) (m : Model R) (hn : 1 ≤ m.n_nodes) :
    (m.n_baselines ≠ 1 → m.weights_computed = true → ∀ fuel out,
      hessian ex fuel m out =
        (.error (.tick_error "hessian is only implemented for one baseline"), m, out)) ∧
    (2 ≤ m.n_baselines → m.weights_computed = false → ∀ fuel out,
      (hessian ex fuel m out).2.2 = out ∧
      (∀ m1, compute_weights ex fuel m = (.ok (), m1) →
        hessian ex fuel m out =
          (.error (.tick_error "hessian is only implemented for one baseline"), m1, out)) ∧
      (∀ e m1, compute_weights ex fuel m = (.error e, m1) →
        e = .out_of_fuel ∧ hessian ex fuel m out = (.error .out_of_fuel, m1, out))) ∧
    (m.n_baselines = 1 → ∀ fuel out msg,
      (hessian ex fuel m out).1 ≠ .error (.tick_error msg)) ∧
    (m.n_baselines = 1 → m.weights_computed = true → ∀ fuel out,
      (hessian ex fuel m out).1 = .ok ()) ∧
    (m.n_baselines = 1 → m.weights_computed = false → ∀ fuel out m1,
      compute_weights ex fuel m = (.ok (), m1) → (hessian ex fuel m out).1 = .ok ()) := by
  have hn0 : m.n_nodes ≠ 0 := by omega
  have hunsupported : ∀ fuel m1 out, m.n_baselines ≠ 1 →
      ensure_weights ex fuel m = (.ok (), m1) →
      hessian ex fuel m out =
        (.error (.tick_error "hessian is only implemented for one baseline"), m1, out) := by
    intro fuel m1 out hb h1
    obtain ⟨hw, hc⟩ := ensure_weights_ok ex fuel m m1 h1
    have hb1 : m1.n_baselines ≠ 1 := by
      rw [congrArg Config.n_baselines hc]
      exact hb
    have hn1 : m1.n_nodes = (m1.n_nodes - 1) + 1 := by
      have : m1.n_nodes = m.n_nodes := congrArg Config.n_nodes hc
      omega
    rw [hessian_eq, h1]
    simp only
    rw [hn1, hessian_loop_unsupported m1 hw hb1]
  have hunflagged : ∀ fuel, m.weights_computed = false →
      ensure_weights ex fuel m = compute_weights ex fuel m := by
    intro fuel hw
    simp [ensure_weights, hw]
  refine ⟨?_, ?_, ?_, ?_, ?_⟩
  · intro hb hw fuel out
    exact hunsupported fuel m out hb (ensure_weights_computed ex fuel m hw)
  · intro hb hw fuel out
    refine ⟨?_, ?_, ?_⟩
    · rcases status_cases (ensure_weights ex fuel m) with ⟨m1, h1⟩ | ⟨e, m1, h1⟩
      · rw [hunsupported fuel m1 out (by omega) h1]
      · rw [hessian_eq, h1]
    · intro m1 h1
      exact hunsupported fuel m1 out (by omega) (by rw [hunflagged fuel hw, h1])
    · intro e m1 h1
      have hne := compute_weights_no_tick_error ex fuel m hn0
      rw [h1] at hne
      have he : e = .out_of_fuel := by
        cases e with
        | tick_error msg => exact absurd rfl (hne msg)
        | out_of_fuel => rfl
      subst he
      refine ⟨rfl, ?_⟩
      rw [hessian_eq, hunflagged fuel hw, h1]
  · intro hb fuel out msg
    rcases status_cases (ensure_weights ex fuel m) with ⟨m1, h1⟩ | ⟨e, m1, h1⟩
    · rw [hessian_of_ensure ex fuel m m1 out hb h1]
      simp
    · have hne := ensure_weights_no_tick_error ex fuel m hn0 msg
      rw [hessian_eq, h1]
      rw [h1] at hne
      exact hne
  · intro hb hw fuel out
    rw [hessian_of_ensure ex fuel m m out hb (ensure_weights_computed ex fuel m hw)]
  · intro hb hw fuel out m1 h1
    rw [hessian_of_ensure ex fuel m m1 out hb (by rw [hunflagged fuel hw, h1])]

theorem hessian_unsupported_configuration_witness :
    (1 ≤ example_model_two_baselines.n_nodes ∧ 2 ≤ example_model_two_baselines.n_baselines ∧
      example_model_two_baselines.weights_computed = false) ∧
    ∀ out, ∃ fuel m1,
      compute_weights (fun _ => (1 : ℚ)) fuel example_model_two_baselines = (.ok (), m1) ∧
      hessian (fun _ => (1 : ℚ)) fuel example_model_two_baselines out =
        (.error (.tick_error "hessian is only implemented for one baseline"), m1, out) ∧
      hessian (fun _ => (1 : ℚ)) fuel m1 out =
        (.error (.tick_error "hessian is only implemented for one baseline"), m1, out) := by
  refine ⟨⟨by decide, by decide, rfl⟩, fun out => ?_⟩
  obtain ⟨m1, h1⟩ := compute_weights_complete_of_pos (fun _ => (1 : ℚ))
    example_model_two_baselines (by decide)
    (by norm_num [example_model_two_baselines, example_model, scenario])
  obtain ⟨-, hp⟩ := compute_weights_ok _ _ _ m1 h1
  have hc := hp.config
  refine ⟨_, m1, h1, ?_, ?_⟩
  · exact ((hessian_unsupported_configuration (fun _ => (1 : ℚ)) example_model_two_baselines
      (by decide)).2.1 (by decide) rfl _ out).2.1 m1 h1
  · refine (hessian_unsupported_configuration (fun _ => (1 : ℚ)) m1 ?_).1 ?_ hp.flag _ out
    · rw [congrArg Config.n_nodes hc]
      decide
    · rw [congrArg Config.n_baselines hc]
      decide

/-- C10: in the end-to-end scenario (one dimension, one decay 1, timestamps 1, 2, 5,
`end_time = 6`, one baseline, `period_length = 6`, `n_total_jumps = 3`) `compute_weights`
completes, and whenever it does `L[0] = 6`, `K_0[0] = 3`,
`C_0(0,0) = exp(-1) + exp(-3) + exp(-4)`, and `grad` at the coefficients `[0, 0]` completes
and writes `[-2, -(2/3) * (exp(-1) + exp(-3) + exp(-4))]`, which is
`[-2 * K_0[0] / n_total_jumps, -2 * C_0(0,0) / n_total_jumps]`. -/
theorem end_to_end_scenario :
    (∃ fuel m1, compute_weights Real.exp fuel (scenario ℝ) = (.ok (), m1)) ∧
    ∀ fuel m1, compute_weights Real.exp fuel (scenario ℝ) = (.ok (), m1) →
      m1.L 0 = 6 ∧ m1.K 0 0 = 3 ∧
      m1.C 0 0 = Real.exp (-1) + Real.exp (-3) + Real.exp (-4) ∧
      ∀ out, (grad Real.exp fuel (scenario ℝ) (fun _ => 0) out).1 = .ok () ∧
        (grad Real.exp fuel (scenario ℝ) (fun _ => 0) out).2.2 0 = -2 ∧
        (grad Real.exp fuel (scenario ℝ) (fun _ => 0) out).2.2 1 =
          -(2 / 3) * (Real.exp (-1) + Real.exp (-3) + Real.exp (-4)) ∧
        (grad Real.exp fuel (scenario ℝ) (fun _ => 0) out).2.2 0 =
          -2 * m1.K 0 0 / (m1.n_total_jumps : ℝ) ∧
        (grad Real.exp fuel (scenario ℝ) (fun _ => 0) out).2.2 1 =
          -2 * m1.C 0 0 / (m1.n_total_jumps : ℝ) := by
  refine ⟨⟨_, compute_weights_complete_of_pos Real.exp (scenario ℝ) (by decide)
    (by norm_num [scenario])⟩, ?_⟩
  intro fuel m1 h
  obtain ⟨-, hp⟩ := compute_weights_ok Real.exp fuel (scenario ℝ) m1 h
  obtain ⟨s, hs, hC, -, -, -, hK⟩ := hp.done 0 (by decide)
  have hL : m1.L 0 = 6 := by
    rw [hp.lengths 0, if_pos (by decide)]
    exact baseline_interval_length_single (scenario ℝ).toConfig rfl
      (by norm_num [scenario]) (by norm_num [scenario])
  have hK3 : m1.K 0 0 = 3 := by
    have := weights_loop_counts Real.exp fuel (scenario ℝ).toConfig 0
      (by norm_num [scenario]) (by decide) s hs
    rw [hK]
    simpa [scenario] using this
  have hC3 : m1.C 0 0 = Real.exp (-1) + Real.exp (-3) + Real.exp (-4) := by
    have := (weights_prefix_spec Real.exp Real.exp_add fuel (scenario ℝ).toConfig 0
      (by decide) (fun i _ => by norm_num [scenario, List.Sorted]) _ (le_refl _) s hs).2 0 0
      (by decide) (by decide)
    rw [hC]
    refine this.trans ?_
    norm_num [scenario, naive_inner, Config.decay, Finset.sum_range_succ, List.filter]
    ring
  refine ⟨hL, hK3, hC3, fun out => ?_⟩
  have hens : ensure_weights Real.exp fuel (scenario ℝ) = (.ok (), m1) := h
  have hcfg := hp.config
  have hnn : m1.n_nodes = 1 := congrArg Config.n_nodes hcfg
  have hnb : m1.n_baselines = 1 := congrArg Config.n_baselines hcfg
  have hnd : m1.n_decays = 1 := congrArg Config.n_decays hcfg
  have hnt : m1.n_total_jumps = 3 := congrArg Config.n_total_jumps hcfg
  rw [grad_of_ensure Real.exp fuel (scenario ℝ) m1 _ out hens]
  simp only [hnn, hnt]
  have e0 : forLoop 1 (fun i out => grad_i_body m1 i (fun _ => (0 : ℝ)) out) out 0 =
      -2 * m1.K 0 0 := by
    simp [forLoop, grad_i_body, hnn, hnb, hnd, view, init_to_zero, addAt, subAt, idx2,
      Function.update]
  have e1 : forLoop 1 (fun i out => grad_i_body m1 i (fun _ => (0 : ℝ)) out) out 1 =
      -2 * m1.C 0 0 := by
    simp [forLoop, grad_i_body, hnn, hnb, hnd, view, init_to_zero, addAt, subAt, idx2,
      Function.update]
  rw [e0, e1, hK3, hC3]
  refine ⟨trivial, ?_, ?_, ?_, ?_⟩
  · norm_num
  · ring
  · norm_num
  · norm_num

/-- C8: on a model with `n_baselines = 1` and a buffer that is initially all zeros,
whenever `hessian` completes the matrix it leaves for each dimension `i` (stored as
`hessian_index` says) is symmetric: entry `(a, b)` equals entry `(b, a)` for all `a`, `b`
in `0 .. n_alpha`; and `hessian` does complete, given enough fuel, when the model has a
dimension and its weights are computed or `period_length > 0`. -/
theorem hessian_symmetric (ex : R → R) (m : Model R) (hb : m.n_baselines = 1) :
    (∀ fuel m1 H, hessian ex fuel m (fun _ => 0) = (.ok (), m1, H) →
      ∀ i a b, i < m.n_nodes → a ≤ m.n_nodes * m.n_decays → b ≤ m.n_nodes * m.n_decays →
        H (hessian_index m.n_nodes m.n_decays i a b) =
          H (hessian_index m.n_nodes m.n_decays i b a)) ∧
    (1 ≤ m.n_nodes → (m.weights_computed = true ∨ 0 < m.period_length) →
      ∃ fuel m1 H, hessian ex fuel m (fun _ => 0) = (.ok (), m1, H)) := by
  refine ⟨?_, ?_⟩
  · intro fuel m1 H h i a b hi ha hb1
    rw [hessian_ok_entry ex fuel m m1 _ H hb h i a b hi ha hb1,
      hessian_ok_entry ex fuel m m1 _ H hb h i b a hi hb1 ha, hessian_matrix_symm m1 a b]
    simp
  · intro hn hc
    obtain ⟨m1, h1⟩ := ensure_weights_complete ex m (by omega) hc
    exact ⟨_, m1, _, hessian_of_ensure ex _ m m1 _ hb h1⟩

theorem hessian_symmetric_witness :
    example_model.n_baselines = 1 ∧
    ((∀ fuel m1 H, hessian (fun _ => (1 : ℚ)) fuel example_model (fun _ => 0) =
        (.ok (), m1, H) →
      ∀ i a b, i < example_model.n_nodes →
        a ≤ example_model.n_nodes * example_model.n_decays →
        b ≤ example_model.n_nodes * example_model.n_decays →
        H (hessian_index example_model.n_nodes example_model.n_decays i a b) =
          H (hessian_index example_model.n_nodes example_model.n_decays i b a)) ∧
    (1 ≤ example_model.n_nodes →
      (example_model.weights_computed = true ∨ 0 < example_model.period_length) →
      ∃ fuel m1 H, hessian (fun _ => (1 : ℚ)) fuel example_model (fun _ => 0) =
        (.ok (), m1, H))) :=
  ⟨by decide, hessian_symmetric (fun _ => (1 : ℚ)) example_model (by decide)⟩

/-- C9 as stated fails: in the scenario, `hessian` run on a buffer of zeros and on a buffer
of ones completes with different contents at index 1, and it is not true that a second
call on the buffer left by a first call leaves that buffer unchanged for every initial
buffer. -/
theorem hessian_depends_on_buffer :
    (∃ fuel m1 H H1, hessian Real.exp fuel (scenario ℝ) (fun _ => 0) = (.ok (), m1, H) ∧
      hessian Real.exp fuel (scenario ℝ) (fun _ => 1) = (.ok (), m1, H1) ∧ H 1 ≠ H1 1) ∧
    ¬ (∀ out fuel m1 H m2 H2, hessian Real.exp fuel (scenario ℝ) out = (.ok (), m1, H) →
      hessian Real.exp fuel m1 H = (.ok (), m2, H2) → H2 = H) := by
  obtain ⟨m1, h1⟩ := ensure_weights_complete Real.exp (scenario ℝ) (by decide)
    (Or.inr (by norm_num [scenario]))
  have hw := (ensure_weights_ok Real.exp _ (scenario ℝ) m1 h1).1
  have hc := (ensure_weights_ok Real.exp _ (scenario ℝ) m1 h1).2
  have hb1 : m1.n_baselines = 1 := congrArg Config.n_baselines hc
  have hnn : m1.n_nodes = 1 := congrArg Config.n_nodes hc
  have hnd : m1.n_decays = 1 := congrArg Config.n_decays hc
  have hnt : m1.n_total_jumps = 3 := congrArg Config.n_total_jumps hc
  have hidx : hessian_index 1 1 0 0 1 = 1 := by decide
  have first : ∀ out, ∃ H, hessian Real.exp (enough_fuel (scenario ℝ).toConfig)
      (scenario ℝ) out = (.ok (), m1, H) ∧ H 1 = (out 1 + hessian_matrix m1 0 1) / 3 := by
    intro out
    refine ⟨_, hessian_of_ensure Real.exp _ (scenario ℝ) m1 out rfl h1, ?_⟩
    have := hessian_ok_entry Real.exp _ (scenario ℝ) m1 out _ rfl
      (hessian_of_ensure Real.exp _ (scenario ℝ) m1 out rfl h1) 0 0 1 (by decide)
      (by decide) (by decide)
    simpa [scenario, Config.n_decays, hidx] using this
  have second : ∀ H, ∃ H2, hessian Real.exp (enough_fuel (scenario ℝ).toConfig) m1 H =
      (.ok (), m1, H2) ∧ H2 1 = (H 1 + hessian_matrix m1 0 1) / 3 := by
    intro H
    have hens := ensure_weights_computed Real.exp (enough_fuel (scenario ℝ).toConfig) m1 hw
    refine ⟨_, hessian_of_ensure Real.exp _ m1 m1 H hb1 hens, ?_⟩
    have := hessian_ok_entry Real.exp _ m1 m1 H _ hb1
      (hessian_of_ensure Real.exp _ m1 m1 H hb1 hens) 0 0 1 (by omega)
      (by simp [hnn, hnd]) (by simp [hnn, hnd])
    simpa [hnn, hnd, hnt, hidx] using this
  refine ⟨?_, ?_⟩
  · obtain ⟨H, hH, hH1⟩ := first (fun _ => 0)
    obtain ⟨H', hH', hH'1⟩ := first (fun _ => 1)
    refine ⟨_, m1, H, H', hH, hH', ?_⟩
    rw [hH1, hH'1]
    intro h
    field_simp at h
  · intro hall
    obtain ⟨H, hH, hH1⟩ := first (fun _ => 0)
    obtain ⟨H', hH', hH'1⟩ := first (fun _ => 1)
    obtain ⟨G, hG, hG1⟩ := second H
    obtain ⟨G', hG', hG'1⟩ := second H'
    have e1 := congrFun (hall _ _ m1 H m1 G hH hG) 1
    have e2 := congrFun (hall _ _ m1 H' m1 G' hH' hG') 1
    rw [hG1, hH1] at e1
    rw [hG'1, hH'1] at e2
    linarith

/-- C9 amended: for `n_baselines = 1`, `hessian` overwrites the first entry of the matrix of
each dimension and adds to every other entry: whenever it completes, entry `(a, b)` of
dimension `i` holds `hessian_matrix a b / n_total_jumps` for `(a, b) = (0, 0)` and
`(out[(a, b)] + hessian_matrix a b) / n_total_jumps` otherwise, where `hessian_matrix`
depends on the model alone; so two initial buffers that agree on the entries other than the
first ones end with the same matrix; and `hessian` does complete, given enough fuel, when
the model has a dimension and its weights are computed or `period_length > 0`. -/
theorem hessian_accumulates (ex : R → R) (m : Model R) (hb : m.n_baselines = 1) :
    (∀ fuel m1 H out, hessian ex fuel m out = (.ok (), m1, H) →
      (∀ i a b, i < m.n_nodes → a ≤ m.n_nodes * m.n_decays → b ≤ m.n_nodes * m.n_decays →
        H (hessian_index m.n_nodes m.n_decays i a b) =
          ((if a = 0 ∧ b = 0 then 0 else out (hessian_index m.n_nodes m.n_decays i a b)) +
            hessian_matrix m1 a b) / (m.n_total_jumps : R)) ∧
      ∀ out1 m2 H1, hessian ex fuel m out1 = (.ok (), m2, H1) → m2 = m1 ∧
        ((∀ i a b, i < m.n_nodes → a ≤ m.n_nodes * m.n_decays →
            b ≤ m.n_nodes * m.n_decays → ¬ (a = 0 ∧ b = 0) →
            out1 (hessian_index m.n_nodes m.n_decays i a b) =
              out (hessian_index m.n_nodes m.n_decays i a b)) →
          ∀ i a b, i < m.n_nodes → a ≤ m.n_nodes * m.n_decays →
            b ≤ m.n_nodes * m.n_decays →
            H1 (hessian_index m.n_nodes m.n_decays i a b) =
              H (hessian_index m.n_nodes m.n_decays i a b))) ∧
    (1 ≤ m.n_nodes → (m.weights_computed = true ∨ 0 < m.period_length) →
      ∀ out, ∃ fuel m1 H, hessian ex fuel m out = (.ok (), m1, H)) := by
  refine ⟨?_, fun hn hc out => ?_⟩
  swap
  · obtain ⟨m1, h1⟩ := ensure_weights_complete ex m (by omega) hc
    exact ⟨_, m1, _, hessian_of_ensure ex _ m m1 out hb h1⟩
  intro fuel m1 H out h
  refine ⟨fun i a b hi ha hb1 => hessian_ok_entry ex fuel m m1 out H hb h i a b hi ha hb1, ?_⟩
  intro out1 m2 H1 h1
  have e1 := (hessian_ok ex fuel m m1 out H hb h).1
  have e2 := (hessian_ok ex fuel m m2 out1 H1 hb h1).1
  have hm : m2 = m1 := by
    rw [e1] at e2
    simp only [Prod.mk.injEq, true_and] at e2
    exact e2.symm
  refine ⟨hm, fun hagree i a b hi ha hb1 => ?_⟩
  subst hm
  rw [hessian_ok_entry ex fuel m m2 out H hb h i a b hi ha hb1,
    hessian_ok_entry ex fuel m m2 out1 H1 hb h1 i a b hi ha hb1]
  by_cases hab : a = 0 ∧ b = 0
  · rw [if_pos hab, if_pos hab]
  · rw [if_neg hab, if_neg hab, hagree i a b hi ha hb1 hab]

theorem hessian_accumulates_witness :
    example_model.n_baselines = 1 ∧
    (∀ fuel m1 H out, hessian (fun _ => (1 : ℚ)) fuel example_model out = (.ok (), m1, H) →
      (∀ i a b, i < example_model.n_nodes →
        a ≤ example_model.n_nodes * example_model.n_decays →
        b ≤ example_model.n_nodes * example_model.n_decays →
        H (hessian_index example_model.n_nodes example_model.n_decays i a b) =
          ((if a = 0 ∧ b = 0 then 0
            else out (hessian_index example_model.n_nodes example_model.n_decays i a b)) +
            hessian_matrix m1 a b) / (example_model.n_total_jumps : ℚ)) ∧
      ∀ out1 m2 H1, hessian (fun _ => (1 : ℚ)) fuel example_model out1 = (.ok (), m2, H1) →
        m2 = m1 ∧
        ((∀ i a b, i < example_model.n_nodes →
            a ≤ example_model.n_nodes * example_model.n_decays →
            b ≤ example_model.n_nodes * example_model.n_decays → ¬ (a = 0 ∧ b = 0) →
            out1 (hessian_index example_model.n_nodes example_model.n_decays i a b) =
              out (hessian_index example_model.n_nodes example_model.n_decays i a b)) →
          ∀ i a b, i < example_model.n_nodes →
            a ≤ example_model.n_nodes * example_model.n_decays →
            b ≤ example_model.n_nodes * example_model.n_decays →
            H1 (hessian_index example_model.n_nodes example_model.n_decays i a b) =
              H (hessian_index example_model.n_nodes example_model.n_decays i a b))) ∧
    (1 ≤ example_model.n_nodes →
      (example_model.weights_computed = true ∨ 0 < example_model.period_length) →
      ∀ out, ∃ fuel m1 H,
        hessian (fun _ => (1 : ℚ)) fuel example_model out = (.ok (), m1, H)) :=
  ⟨by decide, hessian_accumulates (fun _ => (1 : ℚ)) example_model (by decide)⟩

/-- C2: on a model whose tensors were produced by a completed `compute_weights`, `loss`
returns a value `F(theta)` for every coefficient vector, `grad(theta, out)` completes, and
for every index `a` below `get_n_coeffs()` the entry `a` that `grad` writes is the
derivative at `s = 0` of `s ↦ F(theta + s * e_a)`, whatever `out` held; `compute_weights`
does complete, given enough fuel, on a model with a dimension and `period_length > 0`. -/
theorem grad_is_gradient_of_loss (m : Model ℝ) :
    (∀ fuel m1, compute_weights Real.exp fuel m = (.ok (), m1) →
      ∃ F : (Nat → ℝ) → ℝ,
        (∀ fuel1 theta, loss Real.exp fuel1 m1 theta = (.ok (F theta), m1)) ∧
        ∀ fuel1 theta out a, a < get_n_coeffs m.toConfig →
          (grad Real.exp fuel1 m1 theta out).1 = .ok () ∧
          HasDerivAt (fun s => F (Function.update theta a (theta a + s)))
            ((grad Real.exp fuel1 m1 theta out).2.2 a) 0) ∧
    (1 ≤ m.n_nodes → 0 < m.period_length →
      ∃ fuel m1, compute_weights Real.exp fuel m = (.ok (), m1)) := by
  refine ⟨?_, fun hn hP => ⟨_, compute_weights_complete_of_pos Real.exp m (by omega) hP⟩⟩
  intro fuel m1 h
  obtain ⟨-, hp⟩ := compute_weights_ok Real.exp fuel m m1 h
  have hw : m1.weights_computed = true := hp.flag
  have hsymm := compute_weights_DggSymmetric Real.exp fuel m m1 h
  refine ⟨loss_value m1, fun fuel1 theta => loss_computed Real.exp fuel1 m1 theta hw, ?_⟩
  intro fuel1 theta out a ha
  rw [← hp.config] at ha
  obtain ⟨i0, hi0, hslice⟩ := coeff_index_slice m1.toConfig a ha
  obtain ⟨g1, g2⟩ := grad_computed_entry Real.exp fuel1 m1 theta out hw i0 a hi0 hslice
  refine ⟨g1, ?_⟩
  rw [g2]
  exact (loss_value_quad m1 theta hsymm i0 a hi0 hslice).hasDerivAt

/-- The position `coeff_index i a` lies in the slices of dimension `i`. -/
theorem coeff_index_slice_of (c : Config R) (hb : c.n_baselines = 1) (i a : Nat)
    (ha : a ≤ c.n_nodes * c.n_decays) :
    in_mu_slice c i (coeff_index c i a) ∨ in_alpha_slice c i (coeff_index c i a) := by
  unfold in_mu_slice in_alpha_slice coeff_index
  by_cases ha0 : a = 0
  · left
    rw [if_pos ha0]
    omega
  · right
    rw [if_neg ha0]
    omega

/-- C3 as stated fails: on the degenerate window (`period_length = -1`, `end_time = 0`, one
event at 0) `compute_weights` and `hessian` on a buffer of zeros complete, the baseline
entry of the gradient differs by `-2` between the coefficients `[1, 0]` and `[0, 0]`, and
row 0 of the matrix that `hessian` wrote, applied to the difference of the coefficients,
is `0`. -/
theorem hessian_not_jacobian_on_degenerate_window :
    ∃ fuel m1 H, compute_weights Real.exp fuel degenerate_window = (.ok (), m1) ∧
      hessian Real.exp fuel m1 (fun _ => 0) = (.ok (), m1, H) ∧
      (grad Real.exp fuel m1 (fun x => if x = 0 then 1 else 0) (fun _ => 0)).2.2
          (coeff_index degenerate_window.toConfig 0 0) -
        (grad Real.exp fuel m1 (fun _ => 0) (fun _ => 0)).2.2
          (coeff_index degenerate_window.toConfig 0 0) = -2 ∧
      ∑ b in Finset.range (degenerate_window.n_nodes * degenerate_window.n_decays + 1),
        H (hessian_index degenerate_window.n_nodes degenerate_window.n_decays 0 0 b) *
          ((if coeff_index degenerate_window.toConfig 0 b = 0 then 1 else 0) - 0) = 0 := by
  have hl : ∀ i, i < degenerate_window.n_nodes →
      ∃ s, weights_loop Real.exp (0 + 1) degenerate_window.toConfig i = (.ok (), s) := by
    intro i _
    apply weights_loop_complete_of
    intro k hk p hp
    have hk0 : k = 0 := by
      simp [degenerate_window] at hk
      exact hk
    have hp0 : p = 0 := by
      simp [degenerate_window] at hp
      exact hp
    subst hk0 hp0
    simp [degenerate_window]
  obtain ⟨m1, h1⟩ := compute_weights_complete Real.exp 1 degenerate_window (by decide) hl
  obtain ⟨-, hp⟩ := compute_weights_ok Real.exp 1 degenerate_window m1 h1
  have hw : m1.weights_computed = true := hp.flag
  have hc := hp.config
  have hnn : m1.n_nodes = 1 := congrArg Config.n_nodes hc
  have hnb : m1.n_baselines = 1 := congrArg Config.n_baselines hc
  have hnd : m1.n_decays = 1 := congrArg Config.n_decays hc
  have hnt : m1.n_total_jumps = 1 := congrArg Config.n_total_jumps hc
  have hT : m1.end_time = 0 := congrArg Config.end_time hc
  have hL : m1.L 0 = -1 := by
    rw [hp.lengths 0, if_pos (by decide)]
    simp [get_baseline_interval_length, degenerate_window]
  have hH := hessian_of_ensure Real.exp 1 m1 m1 (fun _ => 0) hnb
    (ensure_weights_computed Real.exp 1 m1 hw)
  refine ⟨1, m1, _, h1, hH, ?_, ?_⟩
  · have hs : in_mu_slice m1.toConfig 0 0 ∨ in_alpha_slice m1.toConfig 0 0 := by
      left
      unfold in_mu_slice
      omega
    have hidx : coeff_index degenerate_window.toConfig 0 0 = 0 := by decide
    rw [hidx, (grad_computed_entry Real.exp 1 m1 _ _ hw 0 0 (by omega) hs).2,
      (grad_computed_entry Real.exp 1 m1 _ _ hw 0 0 (by omega) hs).2]
    have e := grad_value_mu m1 0 (fun x => if x = 0 then (1 : ℝ) else 0) 0 (by omega) (by omega)
    have e0 := grad_value_mu m1 0 (fun _ => (0 : ℝ)) 0 (by omega) (by omega)
    simp only [hnb, Nat.zero_mul, Nat.add_zero] at e e0
    rw [e, e0, hnt, hL]
    simp [alpha_coeff, hnn, hnd, hnb]
  · have h00 := hessian_ok_entry Real.exp 1 m1 m1 _ _ hnb hH 0 0 0 (by omega) (by omega)
      (by omega)
    have hidx0 : hessian_index degenerate_window.n_nodes degenerate_window.n_decays 0 0 0 =
        hessian_index m1.n_nodes m1.n_decays 0 0 0 := by rw [hnn, hnd]; rfl
    have hc1 : coeff_index degenerate_window.toConfig 0 1 = 1 := by decide
    have hc0 : coeff_index degenerate_window.toConfig 0 0 = 0 := by decide
    have hn2 : degenerate_window.n_nodes * degenerate_window.n_decays + 1 = 2 := by decide
    rw [hn2, Finset.sum_range_succ, Finset.sum_range_one, hc0, hc1, hidx0, h00]
    simp [hessian_matrix, hT]

/-- C3 amended: with `n_baselines = 1`, `period_length > 0` and `end_time ≥ 0`, on a model
whose tensors were produced by a completed `compute_weights`, let `H` be the buffer left by
a completed `hessian` on a buffer of zeros.  Then for every dimension `i`, every slot `a` of
its gradient slice and every two coefficient vectors, the difference of the entries that
`grad` writes for the two vectors is row `a` of the matrix of dimension `i` stored in `H`
applied to the difference of the coefficients of dimension `i`; `compute_weights` and
`hessian` do complete, given enough fuel, on a model with a dimension. -/
theorem hessian_is_jacobian_of_grad (m : Model ℝ) (hb : m.n_baselines = 1)
    (hP : 0 < m.period_length) (hT : 0 ≤ m.end_time) :
    (∀ fuel m1, compute_weights Real.exp fuel m = (.ok (), m1) →
      ∀ fuel1 m2 H, hessian Real.exp fuel1 m1 (fun _ => 0) = (.ok (), m2, H) →
        ∀ fuel2 theta theta1 out out1 i a, i < m.n_nodes → a ≤ m.n_nodes * m.n_decays →
          (grad Real.exp fuel2 m1 theta out).2.2 (coeff_index m.toConfig i a) -
              (grad Real.exp fuel2 m1 theta1 out1).2.2 (coeff_index m.toConfig i a) =
            ∑ b in Finset.range (m.n_nodes * m.n_decays + 1),
              H (hessian_index m.n_nodes m.n_decays i a b) *
                (theta (coeff_index m.toConfig i b) - theta1 (coeff_index m.toConfig i b))) ∧
    (1 ≤ m.n_nodes → ∃ fuel m1, compute_weights Real.exp fuel m = (.ok (), m1) ∧
      ∃ H, hessian Real.exp fuel m1 (fun _ => 0) = (.ok (), m1, H)) := by
  refine ⟨?_, ?_⟩
  · intro fuel m1 h fuel1 m2 H hH fuel2 theta theta1 out out1 i a hi ha
    obtain ⟨hn, hp⟩ := compute_weights_ok Real.exp fuel m m1 h
    have hw : m1.weights_computed = true := hp.flag
    have hc := hp.config
    have hnn : m1.n_nodes = m.n_nodes := congrArg Config.n_nodes hc
    have hnd : m1.n_decays = m.n_decays := congrArg Config.n_decays hc
    have hb1 : m1.n_baselines = 1 := by
      rw [← hb]
      exact congrArg Config.n_baselines hc
    have hsymm := compute_weights_DggSymmetric Real.exp fuel m m1 h
    have hL : m1.L 0 = m1.end_time := by
      rw [hp.lengths 0, if_pos ⟨by omega, Nat.mod_lt _ (Nat.pos_of_ne_zero hn)⟩,
        baseline_interval_length_single m.toConfig hb hP hT]
      exact (congrArg Config.end_time hc).symm
    have hm2 : m2 = m1 := by
      have := (hessian_ok Real.exp fuel1 m1 m2 _ H hb1 hH).1
      rw [ensure_weights_computed Real.exp fuel1 m1 hw] at this
      simp only [Prod.mk.injEq, true_and] at this
      exact this.symm
    subst hm2
    have hentry : ∀ b, b ≤ m.n_nodes * m.n_decays →
        H (hessian_index m.n_nodes m.n_decays i a b) =
          hessian_matrix m2 a b / (m2.n_total_jumps : ℝ) := by
      intro b hb2
      have := hessian_ok_entry Real.exp fuel1 m2 m2 _ H hb1 hH i a b (by omega)
        (by rw [hnn, hnd]; exact ha) (by rw [hnn, hnd]; exact hb2)
      rw [hnn, hnd] at this
      rw [this]
      simp
    have hslice := coeff_index_slice_of m2.toConfig hb1 i a (by rw [hnn, hnd]; exact ha)
    have g1 := (grad_computed_entry Real.exp fuel2 m2 theta out hw i _ (by omega) hslice).2
    have g2 := (grad_computed_entry Real.exp fuel2 m2 theta1 out1 hw i _ (by omega) hslice).2
    have hrhs : ∑ b in Finset.range (m.n_nodes * m.n_decays + 1),
        H (hessian_index m.n_nodes m.n_decays i a b) *
          (theta (coeff_index m.toConfig i b) - theta1 (coeff_index m.toConfig i b)) =
        ∑ b in Finset.range (m.n_nodes * m.n_decays + 1),
          hessian_matrix m2 a b / (m2.n_total_jumps : ℝ) *
            (theta (coeff_index m.toConfig i b) - theta1 (coeff_index m.toConfig i b)) :=
      Finset.sum_congr rfl (fun b hb2 => by
        rw [hentry b (by
          have := Finset.mem_range.mp hb2
          omega)])
    rw [hrhs, ← hc, g1, g2,
      grad_value_affine m2 hb1 hL hsymm i a (by omega) (by rw [hnn, hnd]; exact ha) theta,
      grad_value_affine m2 hb1 hL hsymm i a (by omega) (by rw [hnn, hnd]; exact ha) theta1,
      hnn, hnd, ← sub_div, add_sub_add_left_eq_sub, ← Finset.sum_sub_distrib, Finset.sum_div]
    refine Finset.sum_congr rfl (fun b _ => ?_)
    ring
  · intro hn
    obtain ⟨m1, h1⟩ := compute_weights_complete_of_pos Real.exp m (by omega) hP
    obtain ⟨-, hp⟩ := compute_weights_ok Real.exp _ m m1 h1
    have hb1 : m1.n_baselines = 1 := by
      rw [← hb]
      exact congrArg Config.n_baselines hp.config
    exact ⟨_, m1, h1, _, hessian_of_ensure Real.exp _ m1 m1 _ hb1
      (ensure_weights_computed Real.exp _ m1 hp.flag)⟩

theorem hessian_is_jacobian_of_grad_witness :
    ((scenario ℝ).n_baselines = 1 ∧ 0 < (scenario ℝ).period_length ∧
      0 ≤ (scenario ℝ).end_time) ∧
    ((∀ fuel m1, compute_weights Real.exp fuel (scenario ℝ) = (.ok (), m1) →
      ∀ fuel1 m2 H, hessian Real.exp fuel1 m1 (fun _ => 0) = (.ok (), m2, H) →
        ∀ fuel2 theta theta1 out out1 i a, i < (scenario ℝ).n_nodes →
          a ≤ (scenario ℝ).n_nodes * (scenario ℝ).n_decays →
          (grad Real.exp fuel2 m1 theta out).2.2 (coeff_index (scenario ℝ).toConfig i a) -
              (grad Real.exp fuel2 m1 theta1 out1).2.2
                (coeff_index (scenario ℝ).toConfig i a) =
            ∑ b in Finset.range ((scenario ℝ).n_nodes * (scenario ℝ).n_decays + 1),
              H (hessian_index (scenario ℝ).n_nodes (scenario ℝ).n_decays i a b) *
                (theta (coeff_index (scenario ℝ).toConfig i b) -
                  theta1 (coeff_index (scenario ℝ).toConfig i b))) ∧
    (1 ≤ (scenario ℝ).n_nodes →
      ∃ fuel m1, compute_weights Real.exp fuel (scenario ℝ) = (.ok (), m1) ∧
        ∃ H, hessian Real.exp fuel m1 (fun _ => 0) = (.ok (), m1, H))) :=
  ⟨⟨by decide, by norm_num [scenario], by norm_num [scenario]⟩,
    hessian_is_jacobian_of_grad (scenario ℝ) (by decide) (by norm_num [scenario])
      (by norm_num [scenario])⟩

/-- In exact arithmetic the index is in range: for `period_length > 0` and
`n_baselines ≥ 1`, `get_baseline_interval(t)` is
`⌊(t mod period_length) / period_length * n_baselines⌋` for every `t`, and it is strictly
below `n_baselines`; in particular the index at which `compute_weights_i` increments `K_i`
for the event `k` of dimension `i` is in range. -/
theorem baseline_interval_in_range (c : Config R) (hP : 0 < c.period_length)
    (hb : 1 ≤ c.n_baselines) :
    (∀ t, (get_baseline_interval c t : Int) = interval_of c t ∧
      get_baseline_interval c t < c.n_baselines) ∧
    ∀ i k, get_baseline_interval c ((c.timestamps i).getD k 0) < c.n_baselines := by
  refine ⟨fun t => ⟨?_, get_baseline_interval_lt c t hP hb⟩,
    fun i k => get_baseline_interval_lt c _ hP hb⟩
  have h0 := (first_period_bounds c t hP).1
  rw [get_baseline_interval_eq c t hP, interval_of, fmod, mul_comm c.period_length]
  exact Int.natCast_floor_eq_floor
    (mul_nonneg (div_nonneg h0 hP.le) (Nat.cast_nonneg _))

theorem baseline_interval_in_range_witness :
    (0 < example_model_two_baselines.period_length ∧
      1 ≤ example_model_two_baselines.n_baselines) ∧
    ((∀ t, (get_baseline_interval example_model_two_baselines.toConfig t : Int) =
        interval_of example_model_two_baselines.toConfig t ∧
      get_baseline_interval example_model_two_baselines.toConfig t <
        example_model_two_baselines.n_baselines) ∧
    ∀ i k, get_baseline_interval example_model_two_baselines.toConfig
      ((example_model_two_baselines.timestamps i).getD k 0) <
        example_model_two_baselines.n_baselines) :=
  ⟨⟨by norm_num [example_model_two_baselines, example_model, scenario], by decide⟩,
    baseline_interval_in_range example_model_two_baselines.toConfig
      (by norm_num [example_model_two_baselines, example_model, scenario]) (by decide)⟩

/-- C11: `get_baseline_interval` returns an index out of range on inputs allowed by the
claim.  With `period_length = 0.01`, `n_baselines = 4` and `t = 0.59` (as `double`s) the
offset `first_period_t` is rounded to a value above `period_length`, the guard
`first_period_t == period_length` does not fire, and the method returns `4 = n_baselines`,
where exact arithmetic gives `3`; with `period_length = 0.1`, `n_baselines = 1` and
`t = 1.7` the offset is rounded below zero, its floor is `-1` and the conversion to `ulong`
is undefined. -/
theorem baseline_interval_out_of_range :
    (0 < centi_period.period_length ∧ 1 ≤ centi_period.n_baselines ∧
      get_baseline_interval_binary64 64 centi_period (round_to_binary64 (59 / 100)) =
        some centi_period.n_baselines ∧
      get_baseline_interval centi_period (round_to_binary64 (59 / 100)) = 3) ∧
    (0 < deci_period.period_length ∧ 1 ≤ deci_period.n_baselines ∧
      get_baseline_interval_binary64 64 deci_period (round_to_binary64 (17 / 10)) = none ∧
      get_baseline_interval deci_period (round_to_binary64 (17 / 10)) = 0) := by
  decide!

/-- C12 as stated fails: with `period_length = 6` and `n_baselines = 2` the timestamp
`1 * 6` on the period boundary maps to interval `0`, not to `n_baselines - 1 = 1`. -/
theorem boundary_maps_to_first_interval :
    get_baseline_interval example_model_two_baselines.toConfig
        (((1 : Nat) : ℚ) * example_model_two_baselines.period_length) = 0 ∧
      example_model_two_baselines.n_baselines - 1 = 1 ∧
      get_baseline_interval example_model_two_baselines.toConfig
        (((1 : Nat) : ℚ) * example_model_two_baselines.period_length) ≠
          example_model_two_baselines.n_baselines - 1 := by
  have h : get_baseline_interval example_model_two_baselines.toConfig
      (((1 : Nat) : ℚ) * example_model_two_baselines.period_length) = 0 := by
    norm_num [get_baseline_interval, example_model_two_baselines, example_model, scenario]
  refine ⟨h, by decide, ?_⟩
  rw [h]
  decide

/-- C12 amended: for `period_length > 0` a timestamp on a period boundary,
`m * period_length`, maps to the first sub-interval, index `0` (which is
`n_baselines - 1` exactly when `n_baselines ≤ 1`), and for no timestamp is the branch
`first_period_t == period_length` of `get_baseline_interval` taken. -/
theorem boundary_interval (c : Config R) (hP : 0 < c.period_length) :
    (∀ m : Nat, get_baseline_interval c ((m : R) * c.period_length) = 0) ∧
    (∀ m : Nat, get_baseline_interval c ((m : R) * c.period_length) = c.n_baselines - 1 ↔
      c.n_baselines ≤ 1) ∧
    ∀ t, t - (⌊t / c.period_length⌋ : R) * c.period_length ≠ c.period_length := by
  have h0 : ∀ m : Nat, get_baseline_interval c ((m : R) * c.period_length) = 0 := by
    intro m
    rw [get_baseline_interval_eq c _ hP, mul_div_assoc, div_self hP.ne', mul_one]
    simp
  refine ⟨h0, fun m => ?_, fun t => (first_period_bounds c t hP).2.ne⟩
  rw [h0 m]
  omega

theorem boundary_interval_witness :
    0 < example_model_two_baselines.period_length ∧
    ((∀ m : Nat, get_baseline_interval example_model_two_baselines.toConfig
        ((m : ℚ) * example_model_two_baselines.period_length) = 0) ∧
    (∀ m : Nat, get_baseline_interval example_model_two_baselines.toConfig
        ((m : ℚ) * example_model_two_baselines.period_length) =
          example_model_two_baselines.n_baselines - 1 ↔
      example_model_two_baselines.n_baselines ≤ 1) ∧
    ∀ t, t - (⌊t / example_model_two_baselines.period_length⌋ : ℚ) *
      example_model_two_baselines.period_length ≠ example_model_two_baselines.period_length) :=
  ⟨by norm_num [example_model_two_baselines, example_model, scenario],
    boundary_interval example_model_two_baselines.toConfig
      (by norm_num [example_model_two_baselines, example_model, scenario])⟩

/-- C13 as stated fails: on a model with two dimensions, one decay and `n_baselines = 0`,
`set_n_baselines(2 ^ 63)` changes `n_baselines` and leaves the value of `get_n_coeffs()`
at `4`, as `2 * 2 ^ 63` wraps around to `0` in 64-bit `ulong` arithmetic. -/
theorem n_coeffs_unchanged_by_wrap :
    1 ≤ two_nodes_no_baseline.n_nodes ∧ 2 ^ 63 ≠ two_nodes_no_baseline.n_baselines ∧
    2 ^ 63 < 2 ^ 64 ∧
    get_n_coeffs_ulong 64 two_nodes_no_baseline.toConfig = 4 ∧
    get_n_coeffs_ulong 64 (set_n_baselines two_nodes_no_baseline (2 ^ 63)).toConfig = 4 := by
  decide!

/-- C13 amended: `get_n_coeffs()` is `n_nodes * n_baselines + n_nodes * n_nodes * n_decays`
computed in `ulong`, that is modulo `2 ^ w`, and is that number itself when it is below
`2 ^ w`; `set_n_baselines(b)` leaves the value unchanged exactly when `n_nodes * b` and
`n_nodes * n_baselines` agree modulo `2 ^ w`, so on a model with at least one dimension it
changes the value whenever `b` differs from the current `n_baselines` and neither product
wraps around; `set_period_length` never changes it. -/
theorem n_coeffs_after_setters (w : Nat) (m : Model R) :
    get_n_coeffs_ulong w m.toConfig =
      (m.n_nodes * m.n_baselines + m.n_nodes * m.n_nodes * m.n_decays) % 2 ^ w ∧
    (m.n_nodes * m.n_baselines + m.n_nodes * m.n_nodes * m.n_decays < 2 ^ w →
      get_n_coeffs_ulong w m.toConfig =
        m.n_nodes * m.n_baselines + m.n_nodes * m.n_nodes * m.n_decays) ∧
    (∀ b, get_n_coeffs_ulong w (set_n_baselines m b).toConfig =
        get_n_coeffs_ulong w m.toConfig ↔
      (m.n_nodes * b) % 2 ^ w = (m.n_nodes * m.n_baselines) % 2 ^ w) ∧
    (∀ b, 1 ≤ m.n_nodes → b ≠ m.n_baselines → m.n_nodes * b < 2 ^ w →
      m.n_nodes * m.n_baselines < 2 ^ w →
      get_n_coeffs_ulong w (set_n_baselines m b).toConfig ≠
        get_n_coeffs_ulong w m.toConfig) ∧
    ∀ p, get_n_coeffs_ulong w (set_period_length m p).toConfig =
      get_n_coeffs_ulong w m.toConfig := by
  have hiff : ∀ b, get_n_coeffs_ulong w (set_n_baselines m b).toConfig =
        get_n_coeffs_ulong w m.toConfig ↔
      (m.n_nodes * b) % 2 ^ w = (m.n_nodes * m.n_baselines) % 2 ^ w := by
    intro b
    rw [get_n_coeffs_ulong_eq, get_n_coeffs_ulong_eq]
    show (m.n_nodes * b + m.n_nodes * m.n_nodes * m.n_decays) % 2 ^ w =
        (m.n_nodes * m.n_baselines + m.n_nodes * m.n_nodes * m.n_decays) % 2 ^ w ↔ _
    exact ⟨fun h => Nat.ModEq.add_right_cancel' _ h, fun h => Nat.ModEq.add_right _ h⟩
  refine ⟨get_n_coeffs_ulong_eq w m.toConfig, fun h => ?_, hiff, fun b hn hb h1 h2 h => ?_,
    fun p => rfl⟩
  · rw [get_n_coeffs_ulong_eq]
    exact Nat.mod_eq_of_lt h
  · have h3 := (hiff b).mp h
    rw [Nat.mod_eq_of_lt h1, Nat.mod_eq_of_lt h2] at h3
    exact hb (Nat.eq_of_mul_eq_mul_left (by omega) h3)

/-- C14: `set_n_baselines` and `set_period_length` leave `weights_computed` false whatever
it was, a completed `compute_weights` leaves it true, and on a model with a dimension
`compute_weights` returns the same model whatever tensors were held before; so `loss`
called after a setter returns the value and leaves the tensors that it returns and leaves
on any model with the new configuration whose weights are not computed (a freshly built
one in particular), and it does return a value, given enough fuel, when the period is
positive. -/
theorem lazy_recomputation (ex : R → R) (m : Model R) :
    (∀ b, (set_n_baselines m b).weights_computed = false) ∧
    (∀ p, (set_period_length m p).weights_computed = false) ∧
    (∀ fuel m1, compute_weights ex fuel m = (.ok (), m1) → m1.weights_computed = true) ∧
    (1 ≤ m.n_nodes → ∀ fuel (m1 : Model R), m1.toConfig = m.toConfig →
      m1.weights_computed = m.weights_computed →
      compute_weights ex fuel m1 = compute_weights ex fuel m) ∧
    (1 ≤ m.n_nodes → ∀ fuel (m1 : Model R) theta, m1.weights_computed = false →
      (∀ b, m1.toConfig = { m.toConfig with n_baselines := b } →
        loss ex fuel (set_n_baselines m b) theta = loss ex fuel m1 theta) ∧
      (∀ p, m1.toConfig = { m.toConfig with period_length := p } →
        loss ex fuel (set_period_length m p) theta = loss ex fuel m1 theta)) ∧
    (1 ≤ m.n_nodes → ∀ theta,
      (∀ b, 0 < m.period_length → ∃ fuel v m1,
        loss ex fuel (set_n_baselines m b) theta = (.ok v, m1) ∧
          m1.weights_computed = true) ∧
      (∀ p, 0 < p → ∃ fuel v m1,
        loss ex fuel (set_period_length m p) theta = (.ok v, m1) ∧
          m1.weights_computed = true)) := by
  have hcomplete : ∀ (m0 : Model R) theta, m0.n_nodes ≠ 0 → 0 < m0.period_length →
      ∃ fuel v m1, loss ex fuel m0 theta = (.ok v, m1) ∧ m1.weights_computed = true := by
    intro m0 theta hn hP
    obtain ⟨m1, h1⟩ := ensure_weights_complete ex m0 hn (Or.inr hP)
    have hw := (ensure_weights_ok ex _ m0 m1 h1).1
    refine ⟨enough_fuel m0.toConfig,
      (∑ i in Finset.range m1.n_nodes, loss_i_value m1 i theta) / (m1.n_total_jumps : R),
      m1, ?_, hw⟩
    rw [loss_of_ensure ex _ m0 m1 theta h1,
      ← loss_of_ensure ex 0 m1 m1 theta (ensure_weights_computed ex 0 m1 hw)]
    exact loss_computed ex 0 m1 theta hw
  refine ⟨fun _ => rfl, fun _ => rfl, ?_, ?_, ?_, ?_⟩
  · intro fuel m1 h
    exact (compute_weights_ok ex fuel m m1 h).2.flag
  · intro hn fuel m1 hc hw
    exact compute_weights_congr ex fuel m m1 hc hw (by omega)
  · intro hn fuel m1 theta hw1
    refine ⟨fun b hc => ?_, fun p hc => ?_⟩
    · exact (loss_congr ex fuel (set_n_baselines m b) m1 theta hc rfl hw1
        (Nat.pos_iff_ne_zero.mp hn)).symm
    · exact (loss_congr ex fuel (set_period_length m p) m1 theta hc rfl hw1
        (Nat.pos_iff_ne_zero.mp hn)).symm
  · intro hn theta
    exact ⟨fun b hP => hcomplete (set_n_baselines m b) theta (Nat.pos_iff_ne_zero.mp hn) hP,
      fun p hp => hcomplete (set_period_length m p) theta (Nat.pos_iff_ne_zero.mp hn) hp⟩

/-- C15 as stated fails: on two dimensions, replacing `Dgg_1` alone changes the value that
`loss_i` returns for dimension 0 at the coefficients `[1, 1, ...]`. -/
theorem loss_i_reads_other_dimensions :
    loss_i (two_nodes 0) 0 (fun _ => 1) = .ok 0 ∧
    loss_i (two_nodes 1) 0 (fun _ => 1) = .ok 1 ∧
    (two_nodes 1).toConfig = (two_nodes 0).toConfig ∧
    (two_nodes 1).L = (two_nodes 0).L ∧ (two_nodes 1).C = (two_nodes 0).C ∧
    (two_nodes 1).K = (two_nodes 0).K ∧ (two_nodes 1).Dg = (two_nodes 0).Dg ∧
    (two_nodes 1).E = (two_nodes 0).E ∧ (two_nodes 1).Dgg 0 = (two_nodes 0).Dgg 0 ∧
    loss_i (two_nodes 1) 0 (fun _ => 1) ≠ loss_i (two_nodes 0) 0 (fun _ => 1) := by
  have h0 : loss_i (two_nodes 0) 0 (fun _ => 1) = .ok 0 := by
    simp [loss_i, loss_i_sums, forLoop, two_nodes, view, idx2, Config.n_decays]
  have h1 : loss_i (two_nodes 1) 0 (fun _ => 1) = .ok 1 := by
    simp [loss_i, loss_i_sums, forLoop, two_nodes, view, idx2, Config.n_decays]
  refine ⟨h0, h1, rfl, rfl, rfl, rfl, rfl, rfl, ?_, ?_⟩
  · funext x
    simp [two_nodes]
  · rw [h0, h1]
    simp

/-- C15 amended: `loss_i(i, coeffs)` is unchanged when the tensors `C_j` and `K_j` of every
other dimension `j ≠ i` are replaced by arbitrary values, and when the coefficients outside
the slices of dimension `i` are replaced by arbitrary values: it reads `L`, `K_i`, `C_i`,
the tensors `Dg_j`, `Dgg_j`, `E_j` of every dimension `j`, and the coefficients of
dimension `i`. -/
theorem loss_i_frame (m : Model R) (i : Nat) (coeffs : Nat → R) :
    (∀ C1 K1 : Nat → Nat → R, C1 i = m.C i → K1 i = m.K i →
      loss_i { m with C := C1, K := K1 } i coeffs = loss_i m i coeffs) ∧
    ∀ coeffs1 : Nat → R,
      (∀ x, in_mu_slice m.toConfig i x ∨ in_alpha_slice m.toConfig i x →
        coeffs1 x = coeffs x) →
      loss_i m i coeffs1 = loss_i m i coeffs := by
  refine ⟨fun C1 K1 hC hK => ?_, fun coeffs1 h => ?_⟩
  · simp only [loss_i, loss_i_sums, hC, hK]
  · by_cases hw : m.weights_computed = true
    · rw [loss_i_eq m i coeffs1 hw, loss_i_eq m i coeffs hw,
        loss_i_value_congr m i coeffs coeffs1 h]
    · simp [loss_i, hw]

/-- C16: `grad_i(i, coeffs, out)` changes `out` only at the indices of the `mu` slice
`[i * n_baselines, (i + 1) * n_baselines)` and of the `alpha` slice
`[n_nodes * n_baselines + i * n_nodes * n_decays,
n_nodes * n_baselines + (i + 1) * n_nodes * n_decays)` of dimension `i`; the
slices of two different dimensions are disjoint; an index is below `get_n_coeffs()` exactly
when it lies in a slice of a dimension below `n_nodes`; once the weights are computed
`grad_i` leaves at every index of its slices a value that does not depend on `out`; and
the entries below `get_n_coeffs()` that a completed `grad` leaves do not depend on what
`out` held. -/
theorem grad_writes_disjoint (ex : R → R) (m : Model R) (coeffs : Nat → R) :
    (∀ i x, (in_mu_slice m.toConfig i x ↔
        i * m.n_baselines ≤ x ∧ x < (i + 1) * m.n_baselines) ∧
      (in_alpha_slice m.toConfig i x ↔
        m.n_nodes * m.n_baselines + i * m.n_nodes * m.n_decays ≤ x ∧
          x < m.n_nodes * m.n_baselines + (i + 1) * m.n_nodes * m.n_decays)) ∧
    (∀ i out x, ¬ in_mu_slice m.toConfig i x → ¬ in_alpha_slice m.toConfig i x →
      (grad_i m i coeffs out).2 x = out x) ∧
    (∀ i i0 x, i < m.n_nodes → i0 < m.n_nodes → i ≠ i0 →
      in_mu_slice m.toConfig i0 x ∨ in_alpha_slice m.toConfig i0 x →
      ¬ in_mu_slice m.toConfig i x ∧ ¬ in_alpha_slice m.toConfig i x) ∧
    (∀ x, x < get_n_coeffs m.toConfig ↔
      ∃ i, i < m.n_nodes ∧ (in_mu_slice m.toConfig i x ∨ in_alpha_slice m.toConfig i x)) ∧
    (m.weights_computed = true → ∀ i out out1 x, i < m.n_nodes →
      in_mu_slice m.toConfig i x ∨ in_alpha_slice m.toConfig i x →
      (grad_i m i coeffs out).1 = .ok () ∧
        (grad_i m i coeffs out1).2 x = (grad_i m i coeffs out).2 x) ∧
    (∀ fuel m1 g out, grad ex fuel m coeffs out = (.ok (), m1, g) →
      ∀ out1, ∃ g1, grad ex fuel m coeffs out1 = (.ok (), m1, g1) ∧
        ∀ x, x < get_n_coeffs m.toConfig → g1 x = g x) := by
  refine ⟨?_, ?_, ?_, ?_, ?_, ?_⟩
  · intro i x
    unfold in_mu_slice in_alpha_slice
    rw [alpha_size, Nat.succ_mul]
    exact ⟨Iff.rfl, by omega⟩
  · intro i out x hmu halpha
    by_cases hw : m.weights_computed = true
    · simp only [grad_i, hw, Bool.not_true, Bool.false_eq_true, if_false]
      exact grad_i_body_frame m i coeffs out x hmu halpha
    · simp [grad_i, hw]
  · intro i i0 x hi hi0 hne hx
    exact slices_disjoint m.toConfig i i0 x hi hi0 hne hx
  · intro x
    exact ⟨coeff_index_slice m.toConfig x,
      fun ⟨i, hi, hx⟩ => slice_lt_n_coeffs m.toConfig i x hi hx⟩
  · intro hw i out out1 x hi hx
    simp only [grad_i, hw, Bool.not_true, Bool.false_eq_true, if_false]
    rw [grad_i_body_slice m i coeffs out x hx, grad_i_body_slice m i coeffs out1 x hx]
    exact ⟨trivial, rfl⟩
  · intro fuel m1 g out h out1
    rcases status_cases (ensure_weights ex fuel m) with ⟨m2, h2⟩ | ⟨e, m2, h2⟩
    · have hc := (ensure_weights_ok ex fuel m m2 h2).2
      rw [grad_of_ensure ex fuel m m2 coeffs out h2] at h
      simp only [Prod.mk.injEq, true_and] at h
      obtain ⟨hm, hg⟩ := h
      subst hm
      refine ⟨_, grad_of_ensure ex fuel m m2 coeffs out1 h2, fun x hx => ?_⟩
      rw [← hg]
      simp only
      rw [← hc] at hx
      obtain ⟨i0, hi0, hs⟩ := coeff_index_slice m2.toConfig x hx
      rw [grad_loop_apply m2 coeffs out1 i0 x hi0 hs m2.n_nodes (le_refl _) hi0,
        grad_loop_apply m2 coeffs out i0 x hi0 hs m2.n_nodes (le_refl _) hi0]
    · rw [grad_eq, h2] at h
      simp at h

/-- C18: when `weights_computed` is false, `loss_i`, `grad_i` and `hessian_i` each throw
and write nothing; on a model with a dimension `loss` and `grad` never throw, whatever the
flag was, they leave `weights_computed` true when they complete, and they do complete,
given enough fuel, when the weights are computed or `period_length > 0`; on a model
without a dimension whose weights are not computed they throw. -/
theorem uninitialized_state (ex : R → R) (m : Model R) (coeffs : Nat → R) :
    (m.weights_computed = false → ∀ i out,
      loss_i m i coeffs = .error (.tick_error "Please compute weights before calling loss_i") ∧
      grad_i m i coeffs out =
        (.error (.tick_error "Please compute weights before calling hessian_i"), out) ∧
      hessian_i m i out =
        (.error (.tick_error "Please compute weights before calling hessian_i"), out)) ∧
    (1 ≤ m.n_nodes → ∀ fuel out,
      (∀ msg, (loss ex fuel m coeffs).1 ≠ .error (.tick_error msg)) ∧
      (∀ msg, (grad ex fuel m coeffs out).1 ≠ .error (.tick_error msg)) ∧
      (∀ v m1, loss ex fuel m coeffs = (.ok v, m1) → m1.weights_computed = true) ∧
      (∀ m1 g, grad ex fuel m coeffs out = (.ok (), m1, g) → m1.weights_computed = true)) ∧
    (1 ≤ m.n_nodes → (m.weights_computed = true ∨ 0 < m.period_length) → ∀ out,
      ∃ fuel, (∃ v m1, loss ex fuel m coeffs = (.ok v, m1)) ∧
        ∃ m1 g, grad ex fuel m coeffs out = (.ok (), m1, g)) ∧
    (m.n_nodes = 0 → m.weights_computed = false → ∀ fuel out,
      loss ex fuel m coeffs =
        (.error (.tick_error "Please provide valid timestamps before allocating weights"),
          m) ∧
      grad ex fuel m coeffs out =
        (.error (.tick_error "Please provide valid timestamps before allocating weights"),
          m, out)) := by
  have hloss : ∀ fuel m1, ensure_weights ex fuel m = (.ok (), m1) →
      loss ex fuel m coeffs =
        (.ok ((∑ i in Finset.range m1.n_nodes, loss_i_value m1 i coeffs) /
          (m1.n_total_jumps : R)), m1) := by
    intro fuel m1 h1
    have hw := (ensure_weights_ok ex fuel m m1 h1).1
    rw [loss_of_ensure ex fuel m m1 coeffs h1,
      ← loss_of_ensure ex 0 m1 m1 coeffs (ensure_weights_computed ex 0 m1 hw)]
    exact loss_computed ex 0 m1 coeffs hw
  refine ⟨?_, ?_, ?_, ?_⟩
  · intro hw i out
    simp [loss_i, grad_i, hessian_i, hw]
  · intro hn fuel out
    have hn0 : m.n_nodes ≠ 0 := by omega
    rcases status_cases (ensure_weights ex fuel m) with ⟨m2, h2⟩ | ⟨e, m2, h2⟩
    · have hw := (ensure_weights_ok ex fuel m m2 h2).1
      rw [hloss fuel m2 h2, grad_of_ensure ex fuel m m2 coeffs out h2]
      refine ⟨fun msg => by simp, fun msg => by simp, ?_, ?_⟩
      · intro v m1 h
        simp only [Prod.mk.injEq] at h
        rw [← h.2]
        exact hw
      · intro m1 g h
        simp only [Prod.mk.injEq, true_and] at h
        rw [← h.1]
        exact hw
    · have hne := ensure_weights_no_tick_error ex fuel m hn0
      rw [h2] at hne
      rw [loss_eq, grad_eq, h2]
      simp only at hne ⊢
      have he : ∀ msg, e ≠ .tick_error msg := fun msg h => hne msg (by rw [h])
      exact ⟨fun msg h => he msg (Except.error.inj h), fun msg => hne msg,
        fun v m1 h => by simp at h, fun m1 g h => by simp at h⟩
  · intro hn hc out
    obtain ⟨m1, h1⟩ := ensure_weights_complete ex m (by omega) hc
    exact ⟨_, ⟨_, m1, hloss _ m1 h1⟩, m1, _, grad_of_ensure ex _ m m1 coeffs out h1⟩
  · intro hn hw fuel out
    rw [loss_eq, grad_eq]
    simp [ensure_weights, hw, compute_weights_no_nodes ex fuel m hn]

/-- C17: `compute_penalization_constant` throws exactly when `pen_mu.size() != n_nodes` or
`pen_L1_alpha.size() != n_nodes * n_nodes * n_decays`, and then leaves both arrays as they
were; otherwise it completes having assigned once to every index of `pen_mu` (the indices
below `n_nodes`) and once to every index `j * n_nodes * n_decays + k * n_decays + u` of
`pen_L1_alpha` (the indices below `n_nodes * n_nodes * n_decays`), and to no other index:
`pen_mu[i]` holds the value of the source's expression for `i`, `pen_mu_value`, the entry
`j * n_nodes * n_decays + k * n_decays + u` of `pen_L1_alpha` holds the value of the
source's expression for `(j, k, u)`, `pen_L1_alpha_value`, every entry past the size of an
array is as it was, and the sizes are unchanged. -/
theorem penalization_constant_sizes (ex log sqrt : R → R) (compute_bjk : Nat → R → R)
    (compute_vjk : Nat → Nat → R → R) (c : Config R) (x : R)
    (c1 c2 c3 c4 normalization : R) (s : PenState R) :
    ((∃ msg, (compute_penalization_constant ex log sqrt compute_bjk compute_vjk c x
        c1 c2 c3 c4 normalization s).1 = .error (.tick_error msg)) ↔
      (s.pen_mu_size ≠ c.n_nodes ∨
        s.pen_L1_alpha_size ≠ c.n_nodes * c.n_nodes * c.n_decays)) ∧
    ((s.pen_mu_size ≠ c.n_nodes ∨
        s.pen_L1_alpha_size ≠ c.n_nodes * c.n_nodes * c.n_decays) →
      (compute_penalization_constant ex log sqrt compute_bjk compute_vjk c x
        c1 c2 c3 c4 normalization s).2 = s) ∧
    (s.pen_mu_size = c.n_nodes →
      s.pen_L1_alpha_size = c.n_nodes * c.n_nodes * c.n_decays →
      (compute_penalization_constant ex log sqrt compute_bjk compute_vjk c x
        c1 c2 c3 c4 normalization s).1 = .ok () ∧
      (∀ i, (compute_penalization_constant ex log sqrt compute_bjk compute_vjk c x
          c1 c2 c3 c4 normalization s).2.writes_mu i =
        s.writes_mu i + if i < s.pen_mu_size then 1 else 0) ∧
      (∀ y, (compute_penalization_constant ex log sqrt compute_bjk compute_vjk c x
          c1 c2 c3 c4 normalization s).2.writes_L1_alpha y =
        s.writes_L1_alpha y + if y < s.pen_L1_alpha_size then 1 else 0) ∧
      (∀ j k u, j < c.n_nodes → k < c.n_nodes → u < c.n_decays →
        j * c.n_nodes * c.n_decays + k * c.n_decays + u < s.pen_L1_alpha_size ∧
        (compute_penalization_constant ex log sqrt compute_bjk compute_vjk c x
          c1 c2 c3 c4 normalization s).2.writes_L1_alpha
            (j * c.n_nodes * c.n_decays + k * c.n_decays + u) =
          s.writes_L1_alpha (j * c.n_nodes * c.n_decays + k * c.n_decays + u) + 1 ∧
        (compute_penalization_constant ex log sqrt compute_bjk compute_vjk c x
          c1 c2 c3 c4 normalization s).2.pen_L1_alpha
            (j * c.n_nodes * c.n_decays + k * c.n_decays + u) =
          pen_L1_alpha_value ex log sqrt compute_bjk compute_vjk c x c3 c4 normalization
            j k u) ∧
      (∀ i, i < c.n_nodes →
        (compute_penalization_constant ex log sqrt compute_bjk compute_vjk c x
          c1 c2 c3 c4 normalization s).2.pen_mu i =
          pen_mu_value ex log sqrt c x c1 c2 i) ∧
      (∀ i, s.pen_mu_size ≤ i →
        (compute_penalization_constant ex log sqrt compute_bjk compute_vjk c x
          c1 c2 c3 c4 normalization s).2.pen_mu i = s.pen_mu i) ∧
      (∀ y, s.pen_L1_alpha_size ≤ y →
        (compute_penalization_constant ex log sqrt compute_bjk compute_vjk c x
          c1 c2 c3 c4 normalization s).2.pen_L1_alpha y = s.pen_L1_alpha y) ∧
      (compute_penalization_constant ex log sqrt compute_bjk compute_vjk c x
        c1 c2 c3 c4 normalization s).2.pen_mu_size = s.pen_mu_size ∧
      (compute_penalization_constant ex log sqrt compute_bjk compute_vjk c x
        c1 c2 c3 c4 normalization s).2.pen_L1_alpha_size = s.pen_L1_alpha_size) := by
  have hbump : ∀ (cnt : Nat → Nat) (i : Nat),
      Function.update cnt i (cnt i + 1) = cnt + Pi.single i 1 := by
    intro cnt i
    funext y
    by_cases hy : y = i
    · subst hy
      simp
    · simp [Function.update_noteq hy, Pi.single_eq_of_ne hy]
  refine ⟨?_, ?_, ?_⟩
  · unfold compute_penalization_constant
    by_cases h1 : s.pen_mu_size = c.n_nodes
    · by_cases h2 : s.pen_L1_alpha_size = c.n_nodes * c.n_nodes * c.n_decays
      · simp [h1, h2]
      · simp [h1, h2]
    · simp [h1]
  · intro h
    unfold compute_penalization_constant
    by_cases h1 : s.pen_mu_size = c.n_nodes
    · have h2 : s.pen_L1_alpha_size ≠ c.n_nodes * c.n_nodes * c.n_decays :=
        h.resolve_left (fun h0 => h0 h1)
      simp [h1, h2]
    · simp [h1]
  · intro h1 h2
    have hflat : ∀ j k u, j < c.n_nodes → k < c.n_nodes → u < c.n_decays →
        j * c.n_nodes * c.n_decays + k * c.n_decays + u <
          c.n_nodes * c.n_nodes * c.n_decays := by
      intro j k u hj hk hu
      have := flat_lt (c.n_nodes * c.n_nodes) c.n_decays (j * c.n_nodes + k) u
        (flat_lt c.n_nodes c.n_nodes j k hj hk) hu
      rwa [Nat.add_mul] at this
    unfold compute_penalization_constant
    simp only [h1, h2, ne_eq, not_true_eq_false, if_false, true_and]
    have hmu : ∀ (n : Nat) (g : Nat → R) (t : PenState R),
        (forLoop n (fun i (s : PenState R) => s.set_mu i (g i)) t).writes_mu =
          t.writes_mu + ∑ i in Finset.range n, Pi.single i 1 ∧
        (forLoop n (fun i (s : PenState R) => s.set_mu i (g i)) t).writes_L1_alpha =
          t.writes_L1_alpha := by
      intro n g t
      constructor
      · rw [forLoop_map (fun (s : PenState R) => s.writes_mu) n _
          (fun i cnt => cnt + Pi.single i 1) (fun k s => hbump s.writes_mu k) t]
        exact forLoop_add_fun n _ _
      · exact forLoop_inv (fun _ (s : PenState R) => s.writes_L1_alpha = t.writes_L1_alpha)
          _ _ t rfl (fun k _ s hs => hs)
    have halpha : ∀ (g : Nat → Nat → Nat → R) (t : PenState R),
        (forLoop c.n_decays (fun u (s : PenState R) =>
          forLoop c.n_nodes (fun j (s : PenState R) =>
            forLoop c.n_nodes (fun k (s : PenState R) =>
              s.set_L1_alpha (j * c.n_nodes * c.n_decays + k * c.n_decays + u) (g u j k))
              s) s) t).writes_L1_alpha =
          t.writes_L1_alpha + ∑ u in Finset.range c.n_decays,
            ∑ j in Finset.range c.n_nodes, ∑ k in Finset.range c.n_nodes,
              Pi.single (j * c.n_nodes * c.n_decays + k * c.n_decays + u) 1 ∧
        (forLoop c.n_decays (fun u (s : PenState R) =>
          forLoop c.n_nodes (fun j (s : PenState R) =>
            forLoop c.n_nodes (fun k (s : PenState R) =>
              s.set_L1_alpha (j * c.n_nodes * c.n_decays + k * c.n_decays + u) (g u j k))
              s) s) t).writes_mu = t.writes_mu := by
      intro g t
      constructor
      · rw [forLoop_map (fun (s : PenState R) => s.writes_L1_alpha) c.n_decays _
          (fun u cnt => cnt + ∑ j in Finset.range c.n_nodes, ∑ k in Finset.range c.n_nodes,
            Pi.single (j * c.n_nodes * c.n_decays + k * c.n_decays + u) 1)
          (fun u s => by
            beta_reduce
            rw [forLoop_map (fun (s : PenState R) => s.writes_L1_alpha) c.n_nodes _
              (fun j cnt => cnt + ∑ k in Finset.range c.n_nodes,
                Pi.single (j * c.n_nodes * c.n_decays + k * c.n_decays + u) 1)
              (fun j s => by
                beta_reduce
                rw [forLoop_map (fun (s : PenState R) => s.writes_L1_alpha) c.n_nodes _
                  (fun k cnt =>
                    cnt + Pi.single (j * c.n_nodes * c.n_decays + k * c.n_decays + u) 1)
                  (fun k s => hbump s.writes_L1_alpha _) s]
                exact forLoop_add_fun _ _ _) s]
            exact forLoop_add_fun _ _ _) t]
        exact forLoop_add_fun _ _ _
      · refine forLoop_inv (fun _ (s : PenState R) => s.writes_mu = t.writes_mu) _ _ t rfl
          (fun u _ s hs => ?_)
        refine forLoop_inv (fun _ (s : PenState R) => s.writes_mu = t.writes_mu) _ _ s hs
          (fun j _ s hs => ?_)
        exact forLoop_inv (fun _ (s : PenState R) => s.writes_mu = t.writes_mu) _ _ s hs
          (fun k _ s hs => hs)
    refine ⟨?_, ?_, ?_, ?_, ?_, ?_, ?_, ?_⟩
    · intro i
      rw [(halpha _ _).2, (hmu _ _ s).1, Pi.add_apply, sum_single_range]
    · intro y
      rw [(halpha _ _).1, (hmu _ _ s).2, Pi.add_apply, sum_single_flat]
    · intro j k u hj hk hu
      refine ⟨hflat j k u hj hk hu, ?_, ?_⟩
      · rw [(halpha _ _).1, (hmu _ _ s).2, Pi.add_apply, sum_single_flat,
          if_pos (hflat j k u hj hk hu)]
      · exact (pen_L1_alpha_loop c.n_nodes c.n_decays
          (fun u j k => pen_L1_alpha_value ex log sqrt compute_bjk compute_vjk c x c3 c4
            normalization j k u) _).1 j k u hj hk hu
    · intro i hi
      exact (congrFun (pen_L1_alpha_loop c.n_nodes c.n_decays
        (fun u j k => pen_L1_alpha_value ex log sqrt compute_bjk compute_vjk c x c3 c4
          normalization j k u) _).2.2.1 i).trans
        (((pen_mu_loop c.n_nodes (pen_mu_value ex log sqrt c x c1 c2) s).1 i).trans
          (if_pos hi))
    · intro i hi
      exact (congrFun (pen_L1_alpha_loop c.n_nodes c.n_decays
        (fun u j k => pen_L1_alpha_value ex log sqrt compute_bjk compute_vjk c x c3 c4
          normalization j k u) _).2.2.1 i).trans
        (((pen_mu_loop c.n_nodes (pen_mu_value ex log sqrt c x c1 c2) s).1 i).trans
          (if_neg (by omega)))
    · intro y hy
      exact ((pen_L1_alpha_loop c.n_nodes c.n_decays
        (fun u j k => pen_L1_alpha_value ex log sqrt compute_bjk compute_vjk c x c3 c4
          normalization j k u) _).2.1 y (by omega)).trans
        (congrFun (pen_mu_loop c.n_nodes (pen_mu_value ex log sqrt c x c1 c2) s).2.1 y)
    · exact ((pen_L1_alpha_loop c.n_nodes c.n_decays
        (fun u j k => pen_L1_alpha_value ex log sqrt compute_bjk compute_vjk c x c3 c4
          normalization j k u) _).2.2.2.1).trans
        ((pen_mu_loop c.n_nodes (pen_mu_value ex log sqrt c x c1 c2) s).2.2.1.trans h1)
    · exact ((pen_L1_alpha_loop c.n_nodes c.n_decays
        (fun u j k => pen_L1_alpha_value ex log sqrt compute_bjk compute_vjk c x c3 c4
          normalization j k u) _).2.2.2.2).trans
        ((pen_mu_loop c.n_nodes (pen_mu_value ex log sqrt c x c1 c2) s).2.2.2.trans h2)

/-- C19: on a model whose timestamp sequences are sorted, whenever `compute_weights`
completes every entry `E_i(j, u1 * n_decays + u)` is the sum over the events `t_k` of node
`i` of `decay_u1 / (decay_u1 + decay_u) * (1 - exp(-(decay_u + decay_u1) * (end_time -
t_k))) * H_k(j, u)`, where `H_k(j, u)` is the direct sum over the events `t'` of node `j`
with `t' < t_k` of `decay_u * exp(-decay_u * (t_k - t'))`; and `compute_weights` does
complete, given enough fuel, on a model with a dimension and `period_length > 0`. -/
theorem cross_weights_eq_naive (m : Model ℝ)
    (hsorted : ∀ i, i < m.n_nodes → (m.timestamps i).Sorted (· ≤ ·)) :
    (∀ fuel m1, compute_weights Real.exp fuel m = (.ok (), m1) →
      ∀ i j u u1, i < m.n_nodes → j < m.n_nodes → u < m.n_decays → u1 < m.n_decays →
        m1.E i (idx2 (m.n_decays * m.n_decays) j (u1 * m.n_decays + u)) =
          naive_E Real.exp m.toConfig i j u u1) ∧
    (1 ≤ m.n_nodes → 0 < m.period_length →
      ∃ fuel m1, compute_weights Real.exp fuel m = (.ok (), m1)) := by
  refine ⟨?_, fun hn hP => ⟨_, compute_weights_complete_of_pos Real.exp m (by omega) hP⟩⟩
  intro fuel m1 h i j u u1 hi hj hu hu1
  obtain ⟨-, hp⟩ := compute_weights_ok Real.exp fuel m m1 h
  obtain ⟨s, hs, -, -, -, hE, -⟩ := hp.done i hi
  rw [hE, naive_E, list_sum_map_eq_range]
  exact weights_prefix_E Real.exp Real.exp_add fuel m.toConfig i hi hsorted _ (le_refl _) s hs
    j u u1 hj hu hu1

theorem cross_weights_eq_naive_witness :
    (∀ i, i < (scenario ℝ).n_nodes → ((scenario ℝ).timestamps i).Sorted (· ≤ ·)) ∧
    ((∀ fuel m1, compute_weights Real.exp fuel (scenario ℝ) = (.ok (), m1) →
      ∀ i j u u1, i < (scenario ℝ).n_nodes → j < (scenario ℝ).n_nodes →
        u < (scenario ℝ).n_decays → u1 < (scenario ℝ).n_decays →
        m1.E i (idx2 ((scenario ℝ).n_decays * (scenario ℝ).n_decays) j
            (u1 * (scenario ℝ).n_decays + u)) =
          naive_E Real.exp (scenario ℝ).toConfig i j u u1) ∧
    (1 ≤ (scenario ℝ).n_nodes → 0 < (scenario ℝ).period_length →
      ∃ fuel m1, compute_weights Real.exp fuel (scenario ℝ) = (.ok (), m1))) :=
  ⟨fun i _ => by norm_num [scenario, List.Sorted],
    cross_weights_eq_naive (scenario ℝ) (fun i _ => by norm_num [scenario, List.Sorted])⟩

/-- C20 as stated fails: on one event at 0 in the window `[0, 1)` with decay 2 and one
baseline of period 1, `compute_weights` leaves `Dg_0(0, 0) = 1 - exp(-2)`, while the
integral of `exp(-decay_u * (x - t_k))` over the only overlap `[0, 1]` is
`(1 - exp(-2)) / 2`. -/
theorem dg_is_not_integral_of_exp :
    (0 < one_event.period_length ∧ 1 ≤ one_event.n_baselines ∧ 0 < one_event.decay 0 ∧
      one_event.end_time ≤ ((1 : Nat) : ℝ) * one_event.period_length ∧
      ∀ t, t ∈ one_event.timestamps 0 → 0 ≤ t ∧ t ≤ one_event.end_time) ∧
    ∃ fuel m1, compute_weights Real.exp fuel one_event = (.ok (), m1) ∧
      m1.Dg 0 (idx2 one_event.n_baselines 0 0) = 1 - Real.exp (-2) ∧
      ((one_event.timestamps 0).map (fun t_k => ∑ n in Finset.range 1,
        if overlap_lower t_k (rep_start one_event.toConfig 0 n) <
            overlap_upper one_event.toConfig (rep_start one_event.toConfig 0 n) then
          ∫ x in (overlap_lower t_k (rep_start one_event.toConfig 0 n))..(overlap_upper
              one_event.toConfig (rep_start one_event.toConfig 0 n)),
            Real.exp (-one_event.decay 0 * (x - t_k))
        else 0)).sum = (1 - Real.exp (-2)) / 2 ∧
      m1.Dg 0 (idx2 one_event.n_baselines 0 0) ≠ (1 - Real.exp (-2)) / 2 := by
  have hdec : one_event.decay 0 = 2 := rfl
  refine ⟨⟨by norm_num [one_event], by decide, by rw [hdec]; norm_num,
    by norm_num [one_event], fun t ht => ?_⟩, ?_⟩
  · have : t = 0 := by simpa [one_event] using ht
    subst this
    norm_num [one_event]
  obtain ⟨m1, h1⟩ := compute_weights_complete_of_pos Real.exp one_event (by decide)
    (by norm_num [one_event])
  obtain ⟨-, hp⟩ := compute_weights_ok Real.exp _ one_event m1 h1
  obtain ⟨s, hs, -, hDg, -, -, -⟩ := hp.done 0 (by decide)
  have hval : m1.Dg 0 (idx2 one_event.n_baselines 0 0) = 1 - Real.exp (-2) := by
    rw [hDg, weights_prefix_Dg Real.exp _ one_event.toConfig 0 (by norm_num [one_event])
      (fun t ht => by
        have : t = 0 := by simpa [one_event] using ht
        subst this
        norm_num [one_event]) 1 (by norm_num [one_event]) _ (le_refl _) s hs 0 0
      (by decide) (by decide)]
    simp [dg_term, overlap_lower, overlap_upper, rep_start, one_event, Config.decay]
  have hexp : (0 : ℝ) < 1 - Real.exp (-2) := by
    have : Real.exp (-2) < Real.exp 0 := Real.exp_lt_exp.mpr (by norm_num)
    rw [Real.exp_zero] at this
    linarith
  refine ⟨_, m1, h1, hval, ?_, ?_⟩
  · simp only [one_event, rep_start, overlap_lower, overlap_upper, Config.decay,
      List.map_cons, List.map_nil, List.sum_cons, List.sum_nil, Finset.sum_range_one,
      List.getD_cons_zero]
    have hI := integral_exp_decay 2 0 0 1 (by norm_num)
    norm_num at hI ⊢
    exact hI
  · rw [hval]
    intro h
    linarith

/-- C20 amended: for `period_length > 0` and timestamps in `[0, end_time]`, whenever
`compute_weights` completes each `Dg_i(u, p)` is the sum, over the events `t_k` of node `i`
and over the repetitions `[a, a + period_length / n_baselines)` of sub-interval `p` that
overlap `[t_k, end_time)`, of the integral of the kernel
`decay_u * exp(-decay_u * (x - t_k))` over the overlap, that is of
`exp(-decay_u * (a' - t_k)) - exp(-decay_u * (b' - t_k))`; the repetitions are those of the
periods `0 .. N` for any `N` with `end_time ≤ N * period_length`; and `compute_weights`
does complete, given enough fuel, on a model with a dimension. -/
theorem dg_weights_eq_integrals (m : Model ℝ) (hP : 0 < m.period_length)
    (hts : ∀ i, i < m.n_nodes → ∀ t, t ∈ m.timestamps i → 0 ≤ t ∧ t ≤ m.end_time) :
    (∀ fuel m1, compute_weights Real.exp fuel m = (.ok (), m1) →
      ∀ i u p (N : Nat), i < m.n_nodes → u < m.n_decays → p < m.n_baselines →
        m.end_time ≤ (N : ℝ) * m.period_length →
        m1.Dg i (idx2 m.n_baselines u p) =
          ((m.timestamps i).map (fun t_k => ∑ n in Finset.range N,
            if overlap_lower t_k (rep_start m.toConfig p n) <
                overlap_upper m.toConfig (rep_start m.toConfig p n) then
              ∫ x in (overlap_lower t_k (rep_start m.toConfig p n))..(overlap_upper
                  m.toConfig (rep_start m.toConfig p n)),
                m.decay u * Real.exp (-m.decay u * (x - t_k))
            else 0)).sum ∧
        m1.Dg i (idx2 m.n_baselines u p) =
          ((m.timestamps i).map (fun t_k => ∑ n in Finset.range N,
            dg_term Real.exp m.toConfig t_k (m.decay u) (rep_start m.toConfig p n))).sum) ∧
    (1 ≤ m.n_nodes → ∃ fuel m1, compute_weights Real.exp fuel m = (.ok (), m1)) := by
  refine ⟨?_, fun hn => ⟨_, compute_weights_complete_of_pos Real.exp m (by omega) hP⟩⟩
  intro fuel m1 h i u p N hi hu hp hN
  obtain ⟨-, hq⟩ := compute_weights_ok Real.exp fuel m m1 h
  obtain ⟨s, hs, -, hDg, -, -, -⟩ := hq.done i hi
  have key : m1.Dg i (idx2 m.n_baselines u p) =
      ((m.timestamps i).map (fun t_k => ∑ n in Finset.range N,
        dg_term Real.exp m.toConfig t_k (m.decay u) (rep_start m.toConfig p n))).sum := by
    rw [hDg, list_sum_map_eq_range]
    exact weights_prefix_Dg Real.exp fuel m.toConfig i hP (hts i hi) N hN _ (le_refl _) s hs
      u p hu hp
  refine ⟨?_, key⟩
  rw [key]
  simp only [dg_term_eq_integral]

theorem dg_weights_eq_integrals_witness :
    (0 < (scenario ℝ).period_length ∧
      ∀ i, i < (scenario ℝ).n_nodes → ∀ t, t ∈ (scenario ℝ).timestamps i →
        0 ≤ t ∧ t ≤ (scenario ℝ).end_time) ∧
    ((∀ fuel m1, compute_weights Real.exp fuel (scenario ℝ) = (.ok (), m1) →
      ∀ i u p (N : Nat), i < (scenario ℝ).n_nodes → u < (scenario ℝ).n_decays →
        p < (scenario ℝ).n_baselines →
        (scenario ℝ).end_time ≤ (N : ℝ) * (scenario ℝ).period_length →
        m1.Dg i (idx2 (scenario ℝ).n_baselines u p) =
          (((scenario ℝ).timestamps i).map (fun t_k => ∑ n in Finset.range N,
            if overlap_lower t_k (rep_start (scenario ℝ).toConfig p n) <
                overlap_upper (scenario ℝ).toConfig (rep_start (scenario ℝ).toConfig p n) then
              ∫ x in (overlap_lower t_k (rep_start (scenario ℝ).toConfig p n))..(overlap_upper
                  (scenario ℝ).toConfig (rep_start (scenario ℝ).toConfig p n)),
                (scenario ℝ).decay u * Real.exp (-(scenario ℝ).decay u * (x - t_k))
            else 0)).sum ∧
        m1.Dg i (idx2 (scenario ℝ).n_baselines u p) =
          (((scenario ℝ).timestamps i).map (fun t_k => ∑ n in Finset.range N,
            dg_term Real.exp (scenario ℝ).toConfig t_k ((scenario ℝ).decay u)
              (rep_start (scenario ℝ).toConfig p n))).sum) ∧
    (1 ≤ (scenario ℝ).n_nodes →
      ∃ fuel m1, compute_weights Real.exp fuel (scenario ℝ) = (.ok (), m1))) :=
  ⟨⟨by norm_num [scenario], fun i _ t ht => by
      simp only [scenario, List.mem_cons, List.mem_singleton, List.not_mem_nil, or_false] at ht
      rcases ht with rfl | rfl | rfl <;> norm_num [scenario]⟩,
    dg_weights_eq_integrals (scenario ℝ) (by norm_num [scenario]) (fun i _ t ht => by
      simp only [scenario, List.mem_cons, List.mem_singleton, List.not_mem_nil, or_false] at ht
      rcases ht with rfl | rfl | rfl <;> norm_num [scenario])⟩

/-- C22: whenever `compute_weights` completes, every `Dgg_i(u, u1)` is the sum over the
events `t_k` of node `i` of `decay_u * decay_u1 / (decay_u + decay_u1) * (1 -
exp(-(decay_u + decay_u1) * (end_time - t_k)))`, hence `Dgg_i(u, u1) = Dgg_i(u1, u)`; and
`compute_weights` does complete, given enough fuel, on a model with a dimension and
`period_length > 0`. -/
theorem dgg_weights_symmetric (ex : R → R) (m : Model R) :
    (∀ fuel m1, compute_weights ex fuel m = (.ok (), m1) →
      ∀ i u u1, i < m.n_nodes → u < m.n_decays → u1 < m.n_decays →
        m1.Dgg i (idx2 m.n_decays u u1) = naive_Dgg ex m.toConfig i u u1 ∧
        m1.Dgg i (idx2 m.n_decays u u1) = m1.Dgg i (idx2 m.n_decays u1 u)) ∧
    (1 ≤ m.n_nodes → 0 < m.period_length →
      ∃ fuel m1, compute_weights ex fuel m = (.ok (), m1)) := by
  refine ⟨?_, fun hn hP => ⟨_, compute_weights_complete_of_pos ex m (by omega) hP⟩⟩
  intro fuel m1 h
  obtain ⟨-, hp⟩ := compute_weights_ok ex fuel m m1 h
  have key : ∀ i u u1, i < m.n_nodes → u < m.n_decays → u1 < m.n_decays →
      m1.Dgg i (idx2 m.n_decays u u1) = naive_Dgg ex m.toConfig i u u1 := by
    intro i u u1 hi hu hu1
    obtain ⟨s, hs, -, -, hDgg, -, -⟩ := hp.done i hi
    rw [hDgg, weights_loop_Dgg ex fuel m.toConfig i s hs u u1 hu hu1, naive_Dgg,
      list_sum_map_eq_range]
    refine Finset.sum_congr rfl (fun k _ => ?_)
    unfold dgg_term
    rw [add_comm (m.decay u1) (m.decay u)]
  intro i u u1 hi hu hu1
  refine ⟨key i u u1 hi hu hu1, ?_⟩
  rw [key i u u1 hi hu hu1, key i u1 u hi hu1 hu]
  unfold naive_Dgg
  simp only [mul_comm (m.decay u) (m.decay u1), add_comm (m.decay u) (m.decay u1)]

/-- In exact arithmetic the weight computation of a dimension terminates: with
`period_length > 0`, `compute_weights_i` completes for every dimension and every model,
given the fuel `enough_fuel`; the cursor loop of a source `j` only advances
`l[j]`, never past `N_j`, and over the events every cursor only advances and stays at or
below `N_j`; and the repetition loop started at `lower` runs its body exactly
`⌈(end_time - lower) / period_length⌉` times (a call with fuel `f + 1` completes exactly
when the body runs at most `f` times), and not at all when `lower ≥ end_time`. -/
theorem weights_i_terminates (ex : R → R) (m : Model R) (hP : 0 < m.period_length) :
    (∀ i, (compute_weights_i ex (enough_fuel m.toConfig) i m).1 = .ok ()) ∧
    (∀ j t H l, l j ≤ (cursor_loop ex m.toConfig j t H l).2 j ∧
      (cursor_loop ex m.toConfig j t H l).2 j ≤ max (l j) (m.timestamps j).length ∧
      ∀ j1, j1 ≠ j → (cursor_loop ex m.toConfig j t H l).2 j1 = l j1) ∧
    (∀ fuel i k (s0 : WState R), (∀ j, s0.l j ≤ (m.timestamps j).length) → ∀ j,
      s0.l j ≤ (forLoopE k (weights_step ex fuel m.toConfig i) s0).2.l j ∧
      (forLoopE k (weights_step ex fuel m.toConfig i) s0).2.l j ≤ (m.timestamps j).length) ∧
    (∀ t decay_u pos lower Dg_i,
      (∃ Dg_i1, dg_while ex m.toConfig t decay_u pos
        (⌈(m.end_time - lower) / m.period_length⌉₊ + 1) lower Dg_i = (.ok (), Dg_i1)) ∧
      (dg_while ex m.toConfig t decay_u pos
        ⌈(m.end_time - lower) / m.period_length⌉₊ lower Dg_i).1 = .error .out_of_fuel ∧
      (m.end_time ≤ lower →
        dg_while ex m.toConfig t decay_u pos 1 lower Dg_i = (.ok (), Dg_i))) := by
  refine ⟨fun i => compute_weights_i_complete ex i m hP,
    fun j t H l => cursor_loop_bounds ex m.toConfig j t _ H l rfl,
    fun fuel i k s0 hs => weights_loop_cursor ex fuel m.toConfig i s0 hs k,
    fun t decay_u pos lower Dg_i => ⟨?_, ?_, ?_⟩⟩
  · apply dg_while_complete
    have h1 := Nat.le_ceil ((m.end_time - lower) / m.period_length)
    have h2 := mul_le_mul_of_nonneg_right h1 hP.le
    rw [div_mul_cancel₀ _ hP.ne'] at h2
    linarith
  · apply dg_while_out_of_fuel
    intro n hn
    have h1 := (Nat.lt_ceil.mp hn)
    rw [lt_div_iff₀ hP] at h1
    linarith
  · intro h
    rw [dg_while, if_neg (not_lt.mpr h)]

theorem weights_i_terminates_witness :
    0 < example_model.period_length ∧
    ((∀ i, (compute_weights_i (fun _ => (1 : ℚ)) (enough_fuel example_model.toConfig) i
        example_model).1 = .ok ()) ∧
    (∀ j t H l, l j ≤ (cursor_loop (fun _ => (1 : ℚ)) example_model.toConfig j t H l).2 j ∧
      (cursor_loop (fun _ => (1 : ℚ)) example_model.toConfig j t H l).2 j ≤
        max (l j) (example_model.timestamps j).length ∧
      ∀ j1, j1 ≠ j → (cursor_loop (fun _ => (1 : ℚ)) example_model.toConfig j t H l).2 j1 =
        l j1) ∧
    (∀ fuel i k (s0 : WState ℚ), (∀ j, s0.l j ≤ (example_model.timestamps j).length) → ∀ j,
      s0.l j ≤ (forLoopE k (weights_step (fun _ => (1 : ℚ)) fuel example_model.toConfig i)
        s0).2.l j ∧
      (forLoopE k (weights_step (fun _ => (1 : ℚ)) fuel example_model.toConfig i) s0).2.l j ≤
        (example_model.timestamps j).length) ∧
    (∀ t decay_u pos lower Dg_i,
      (∃ Dg_i1, dg_while (fun _ => (1 : ℚ)) example_model.toConfig t decay_u pos
        (⌈(example_model.end_time - lower) / example_model.period_length⌉₊ + 1) lower Dg_i =
          (.ok (), Dg_i1)) ∧
      (dg_while (fun _ => (1 : ℚ)) example_model.toConfig t decay_u pos
        ⌈(example_model.end_time - lower) / example_model.period_length⌉₊ lower Dg_i).1 =
          .error .out_of_fuel ∧
      (example_model.end_time ≤ lower →
        dg_while (fun _ => (1 : ℚ)) example_model.toConfig t decay_u pos 1 lower Dg_i =
          (.ok (), Dg_i)))) :=
  ⟨by norm_num [example_model, scenario],
    weights_i_terminates (fun _ => (1 : ℚ)) example_model
      (by norm_num [example_model, scenario])⟩

/-- C24: the repetition loop of `compute_weights_i` does not terminate on a finite input
with `period_length > 0` and `n_baselines ≥ 1`.  With `period_length = 1`, one event at
`2 ^ 53` and `end_time = 2 ^ 53 + 2`, the loop starts at `lower = 2 ^ 53 < end_time` and
`lower += period_length` rounds back to `2 ^ 53`: the loop runs out of any fuel, whatever
the exponential and the array `Dg_i`, where in exact arithmetic its body runs twice. -/
theorem repetition_loop_stalls :
    (0 < large_times.period_length ∧ 1 ≤ large_times.n_baselines) ∧
    repetition_start_binary64 64 large_times ((large_times.timestamps 0).getD 0 0) 0 =
      some 9007199254740992 ∧
    (∀ ex fuel Dg_i, dg_while_binary64 ex large_times ((large_times.timestamps 0).getD 0 0)
      (large_times.decay 0) 0 fuel 9007199254740992 Dg_i = (.error .out_of_fuel, Dg_i)) ∧
    (∀ (ex : ℚ → ℚ) Dg_i, (dg_while ex large_times ((large_times.timestamps 0).getD 0 0)
      (large_times.decay 0) 0 3 9007199254740992 Dg_i).1 = .ok ()) ∧
    ⌈(large_times.end_time - 9007199254740992) / large_times.period_length⌉₊ = 2 := by
  refine ⟨by decide!, by decide!, fun ex fuel Dg_i => ?_, fun ex Dg_i => ?_, by decide!⟩
  · exact dg_while_binary64_stalls ex large_times _ _ 0 9007199254740992 (by decide!)
      (by decide!) (by decide!) fuel Dg_i
  · simp only [dg_while]
    norm_num [large_times]

/-- C23: for `period_length > 0`, `n_baselines ≥ 1` and events in `[0, end_time]`, whenever
`compute_weights` completes the entries of every row `u` of `Dg_i` add up to the sum over
the events `t_k` of node `i` of `1 - exp(-decay_u * (end_time - t_k))`; with
`n_baselines = 1` the entry `Dg_i(u, 0)` is that sum; and `compute_weights` does complete,
given enough fuel, on a model with a dimension. -/
theorem dg_rows_tile_window (m : Model ℝ) (hP : 0 < m.period_length)
    (hb : 1 ≤ m.n_baselines)
    (hts : ∀ i, i < m.n_nodes → ∀ t, t ∈ m.timestamps i → 0 ≤ t ∧ t ≤ m.end_time) :
    (∀ fuel m1, compute_weights Real.exp fuel m = (.ok (), m1) →
      ∀ i u, i < m.n_nodes → u < m.n_decays →
        ∑ p in Finset.range m.n_baselines, m1.Dg i (idx2 m.n_baselines u p) =
          ((m.timestamps i).map (fun t_k =>
            1 - Real.exp (-m.decay u * (m.end_time - t_k)))).sum ∧
        (m.n_baselines = 1 →
          m1.Dg i (idx2 m.n_baselines u 0) =
            ((m.timestamps i).map (fun t_k =>
              1 - Real.exp (-m.decay u * (m.end_time - t_k)))).sum)) ∧
    (1 ≤ m.n_nodes → ∃ fuel m1, compute_weights Real.exp fuel m = (.ok (), m1)) := by
  refine ⟨?_, fun hn => ⟨_, compute_weights_complete_of_pos Real.exp m (by omega) hP⟩⟩
  intro fuel m1 h i u hi hu
  obtain ⟨-, hq⟩ := compute_weights_ok Real.exp fuel m m1 h
  obtain ⟨s, hs, -, hDg, -, -, -⟩ := hq.done i hi
  have key : ∑ p in Finset.range m.n_baselines, m1.Dg i (idx2 m.n_baselines u p) =
      ((m.timestamps i).map (fun t_k =>
        1 - Real.exp (-m.decay u * (m.end_time - t_k)))).sum := by
    rw [hDg, list_sum_map_eq_range,
      weights_loop_Dg_row Real.exp fuel m.toConfig i hP hb (hts i hi) s hs u hu]
    simp only [Real.exp_zero]
  refine ⟨key, fun h1 => ?_⟩
  rw [← key, h1, Finset.sum_range_one]

theorem dg_rows_tile_window_witness :
    (0 < (scenario ℝ).period_length ∧ 1 ≤ (scenario ℝ).n_baselines ∧
      ∀ i, i < (scenario ℝ).n_nodes → ∀ t, t ∈ (scenario ℝ).timestamps i →
        0 ≤ t ∧ t ≤ (scenario ℝ).end_time) ∧
    ((∀ fuel m1, compute_weights Real.exp fuel (scenario ℝ) = (.ok (), m1) →
      ∀ i u, i < (scenario ℝ).n_nodes → u < (scenario ℝ).n_decays →
        ∑ p in Finset.range (scenario ℝ).n_baselines,
            m1.Dg i (idx2 (scenario ℝ).n_baselines u p) =
          (((scenario ℝ).timestamps i).map (fun t_k =>
            1 - Real.exp (-(scenario ℝ).decay u * ((scenario ℝ).end_time - t_k)))).sum ∧
        ((scenario ℝ).n_baselines = 1 →
          m1.Dg i (idx2 (scenario ℝ).n_baselines u 0) =
            (((scenario ℝ).timestamps i).map (fun t_k =>
              1 - Real.exp (-(scenario ℝ).decay u * ((scenario ℝ).end_time - t_k)))).sum)) ∧
    (1 ≤ (scenario ℝ).n_nodes →
      ∃ fuel m1, compute_weights Real.exp fuel (scenario ℝ) = (.ok (), m1))) :=
  ⟨⟨by norm_num [scenario], by decide, fun i _ t ht => by
      simp only [scenario, List.mem_cons, List.mem_singleton, List.not_mem_nil, or_false] at ht
      rcases ht with rfl | rfl | rfl <;> norm_num [scenario]⟩,
    dg_rows_tile_window (scenario ℝ) (by norm_num [scenario]) (by decide) (fun i _ t ht => by
      simp only [scenario, List.mem_cons, List.mem_singleton, List.not_mem_nil, or_false] at ht
      rcases ht with rfl | rfl | rfl <;> norm_num [scenario])⟩

end Claims

end Tick
